import Mathlib

/-!
Order book matching engine

A shallow embedding of `orderbook.go`: the engine (`OrderBook`) with its limit, market and
cancel operations, the rollback closures they return, and the depth snapshot.

Go pointers are modelled by references: a `*list.Element` is a natural number `e` whose
current `Value` is `ob.values e`; a `*OrderQueue` is the `ref` of a price level; the two halves
of the book (`ob.asks`, `ob.bids`) are named by `SideRef`.  Closures are modelled by the data
they capture (`RollbackPartial`, `Rollback`) together with a function that runs them.

An operation returns `none` when the Go code would not return normally within the modelled
bounds: a nil dereference, a division by zero, or a loop that is cut off by its fuel.
-/

namespace Orderbook

/-- Modelled from the spec: the decimal library is an external collaborator that provides
signed, arbitrary-precision decimals with add/sub/mul/div/compare/sign; sums, differences
and products are exact. -/
abbrev Decimal := ℚ

/-- Modelled from the spec: the decimal library's `DivRound`, the quotient rounded to an
integer multiple of `10^(-places)`, a digit 5 being rounded away from zero. -/
def Decimal.DivRound (d d2 : Decimal) (places : Int) : Decimal :=
  let s : ℚ := (10 : ℚ) ^ places
  let x : ℚ := d / d2 * s
  if 0 ≤ x then ((⌊x + 1 / 2⌋ : ℤ) : ℚ) / s else -((⌊-x + 1 / 2⌋ : ℤ) : ℚ) / s

/-- The decimal library's `Div` (`github.com/shopspring/decimal`): the quotient rounded as by
`DivRound` at the library's `DivisionPrecision`, 16 decimal places.  `ProcessLimitOrder`
computes the price of the summary order with it. -/
def Decimal.Div (d d2 : Decimal) : Decimal := Decimal.DivRound d d2 16

/-- Side of an order: `Sell` or `Buy`. -/
inductive Side where
  | Sell
  | Buy
deriving DecidableEq, Repr

/-- The error values of the package. -/
inductive Error where
  | ErrInvalidQuantity
  | ErrInvalidPrice
  | ErrOrderExists
  | ErrInsufficientQuantity
deriving DecidableEq, Repr

/-- Modelled from the spec: an `Order` is an immutable record (id, side, quantity, price, time). -/
structure Order where
  id : String
  side : Side
  quantity : Decimal
  price : Decimal
  time : Nat
deriving DecidableEq, Repr

instance : Inhabited Order := ⟨⟨"", Side.Sell, 0, 0, 0⟩⟩

/-- Modelled from the spec: `NewOrder(orderID, side, quantity, price, timestamp)`. -/
def NewOrder (orderID : String) (side : Side) (quantity price : Decimal) (timestamp : Nat) : Order :=
  { id := orderID, side := side, quantity := quantity, price := price, time := timestamp }

/-- Modelled from the spec: a price level, a FIFO sequence of list elements (head is the oldest
arrival) with the aggregate volume, maintained on every append, remove and update.  `ref` is the
identity of the level object. -/
structure OrderQueue where
  ref : Nat
  volume : Decimal
  price : Decimal
  orders : List Nat
deriving DecidableEq, Repr

/-- Modelled from the spec: a new, empty level at `price`. -/
def NewOrderQueue (ref : Nat) (price : Decimal) : OrderQueue :=
  { ref := ref, volume := 0, price := price, orders := [] }

/-- Modelled from the spec: `length()` of a level. -/
def OrderQueue.Len (oq : OrderQueue) : Nat := oq.orders.length

/-- Modelled from the spec: `head()`, the handle of the oldest order, nil if empty. -/
def OrderQueue.Head (oq : OrderQueue) : Option Nat := oq.orders.head?

/-- Modelled from the spec: `append(order)` places the order at the tail in the new element `e`
and updates `volume += order.quantity`. -/
def OrderQueue.Append (oq : OrderQueue) (e : Nat) (o : Order) : OrderQueue :=
  { oq with volume := oq.volume + o.quantity, orders := oq.orders ++ [e] }

/-- Modelled from the spec: `remove(handle)` removes the node `e`, whose value is `v`, and
updates the volume. -/
def OrderQueue.Remove (oq : OrderQueue) (e : Nat) (v : Order) : OrderQueue :=
  { oq with volume := oq.volume - v.quantity, orders := oq.orders.erase e }

/-- Modelled from the spec: `replace(handle, newOrder)` updates the volume by the signed quantity
delta between the order `old` at the handle and `o`; the element keeps its place (its value is
stored by the caller). -/
def OrderQueue.Update (oq : OrderQueue) (old o : Order) : OrderQueue :=
  { oq with volume := oq.volume - old.quantity + o.quantity }

/-- Modelled from the spec: one half of the book, its price levels in ascending price order,
each price at most once. -/
structure OrderSide where
  priceTree : List OrderQueue
deriving DecidableEq, Repr

/-- Modelled from the spec: an empty side. -/
def NewOrderSide : OrderSide := { priceTree := [] }

/-- Modelled from the spec: `numOrders`, the sum of the level sizes. -/
def OrderSide.Len (os : OrderSide) : Nat := (os.priceTree.map OrderQueue.Len).sum

/-- Modelled from the spec: the level with the minimum price, nil if the side is empty. -/
def OrderSide.MinPriceQueue (os : OrderSide) : Option OrderQueue := os.priceTree.head?

/-- Modelled from the spec: the level with the maximum price, nil if the side is empty. -/
def OrderSide.MaxPriceQueue (os : OrderSide) : Option OrderQueue := os.priceTree.getLast?

/-- Modelled from the spec: the level with the smallest price strictly greater than `price`. -/
def OrderSide.GreaterThan (os : OrderSide) (price : Decimal) : Option OrderQueue :=
  os.priceTree.find? (fun q => decide (price < q.price))

/-- Modelled from the spec: the level with the greatest price strictly less than `price`. -/
def OrderSide.LessThan (os : OrderSide) (price : Decimal) : Option OrderQueue :=
  os.priceTree.reverse.find? (fun q => decide (q.price < price))

/-- Locate-or-create the level of `o.price` in an ascending list of levels and append `o`
(in element `e`) to it; a created level gets the identity `qref`. -/
def appendLevel (qref e : Nat) (o : Order) : List OrderQueue → List OrderQueue
  | [] => [(NewOrderQueue qref o.price).Append e o]
  | q :: qs =>
    if q.price = o.price then q.Append e o :: qs
    else if o.price < q.price then (NewOrderQueue qref o.price).Append e o :: q :: qs
    else q :: appendLevel qref e o qs

/-- Remove the node `e` (value `v`) from the level at `v.price`; drop the level if it
becomes empty. -/
def removeLevel (e : Nat) (v : Order) : List OrderQueue → List OrderQueue
  | [] => []
  | q :: qs =>
    if q.price = v.price then
      (if (q.Remove e v).Len = 0 then qs else q.Remove e v :: qs)
    else q :: removeLevel e v qs

/-- Modelled from the spec: `append(order)` locates or creates the level for `order.price` and
appends the order to it. -/
def OrderSide.Append (os : OrderSide) (qref e : Nat) (o : Order) : OrderSide :=
  { priceTree := appendLevel qref e o os.priceTree }

/-- Modelled from the spec: `remove(handle)` removes the node from its level; if the level
becomes empty, the level is dropped from the ordered structure. -/
def OrderSide.Remove (os : OrderSide) (e : Nat) (v : Order) : OrderSide :=
  { priceTree := removeLevel e v os.priceTree }

/-- Apply `f` to the level with identity `qref`, if the side holds it. -/
def OrderSide.modify (os : OrderSide) (qref : Nat) (f : OrderQueue → OrderQueue) : OrderSide :=
  { priceTree := os.priceTree.map (fun q => if q.ref = qref then f q else q) }

/-- The two halves of the book, as the targets of `sideToProcess` and `sideToAdd`. -/
inductive SideRef where
  | asks
  | bids
deriving DecidableEq, Repr

/-- OrderBook implements standard matching algorithm.  `orders` maps an order id to its list
element; `values` is the store of the elements' `Value` fields; `next` is the next fresh
reference. -/
structure OrderBook where
  orders : String → Option Nat
  asks : OrderSide
  bids : OrderSide
  values : Nat → Order
  next : Nat

/-- NewOrderBook creates Orderbook object. -/
def NewOrderBook : OrderBook :=
  { orders := fun _ => none, bids := NewOrderSide, asks := NewOrderSide,
    values := fun _ => default, next := 0 }

/-- Dereference `ob.asks` or `ob.bids`. -/
def OrderBook.side (ob : OrderBook) : SideRef → OrderSide
  | SideRef.asks => ob.asks
  | SideRef.bids => ob.bids

/-- The book after `ob.orders[o.ID()] = side.Append(o)`: a fresh element holding `o` is appended
to the side and recorded in the index. -/
def OrderBook.Append (ob : OrderBook) (s : SideRef) (o : Order) : OrderBook :=
  match s with
  | SideRef.asks =>
    { ob with orders := Function.update ob.orders o.id (some ob.next),
              asks := ob.asks.Append ob.next ob.next o,
              values := Function.update ob.values ob.next o, next := ob.next + 1 }
  | SideRef.bids =>
    { ob with orders := Function.update ob.orders o.id (some ob.next),
              bids := ob.bids.Append ob.next ob.next o,
              values := Function.update ob.values ob.next o, next := ob.next + 1 }

/-- The level object behind the pointer `qref`, if one of the sides still holds it.  A level
that no side holds was dropped when it became empty and nothing is appended to it afterwards. -/
def OrderBook.queue (ob : OrderBook) (qref : Nat) : Option OrderQueue :=
  (ob.asks.priceTree ++ ob.bids.priceTree).find? (fun q => decide (q.ref = qref))

/-- The book after `orderQueue.Update(e, o)`: the level's volume moves by the quantity delta and
the element's value becomes `o`. -/
def OrderBook.Update (ob : OrderBook) (orderQueue e : Nat) (o : Order) : OrderBook :=
  { ob with asks := ob.asks.modify orderQueue (fun q => q.Update (ob.values e) o),
            bids := ob.bids.modify orderQueue (fun q => q.Update (ob.values e) o),
            values := Function.update ob.values e o }

/-- The unexported `cancelOrder`: removes the order from the index and from its side. -/
def OrderBook.cancelOrder (ob : OrderBook) (orderID : String) : Option Order × OrderBook :=
  match ob.orders orderID with
  | none => (none, ob)
  | some e =>
    if (ob.values e).side = Side.Buy then
      (some (ob.values e),
        { ob with orders := Function.update ob.orders orderID none,
                  bids := ob.bids.Remove e (ob.values e) })
    else
      (some (ob.values e),
        { ob with orders := Function.update ob.orders orderID none,
                  asks := ob.asks.Remove e (ob.values e) })

/-- The closure `func() { orderQueue.Update(headOrderEl, headOrder) }` of `processQueue`. -/
structure RollbackPartial where
  orderQueue : Nat
  headOrderEl : Nat
  headOrder : Order
deriving DecidableEq, Repr

/-- Run the closure of `processQueue`. -/
def RollbackPartial.run (r : RollbackPartial) (ob : OrderBook) : OrderBook :=
  ob.Update r.orderQueue r.headOrderEl r.headOrder

/-- The results of `processQueue`. -/
structure QueueResult where
  done : List Order
  partialOrd : Option Order
  partialQuantityProcessed : Decimal
  quantityLeft : Decimal
  rollbackPartial : Option RollbackPartial
deriving DecidableEq, Repr

/-- The loop of `processQueue`, cut off after `fuel` tests of its condition.  `none` also when
`cancelOrder` finds no order for the head's id (the Go code would append a nil order). -/
def processQueueLoop (orderQueue : Nat) : Nat → OrderBook → QueueResult → Option (QueueResult × OrderBook)
  | 0, _, _ => none
  | fuel + 1, ob, r =>
    match ob.queue orderQueue with
    | none => some (r, ob)
    | some q =>
      if 0 < q.Len ∧ 0 < r.quantityLeft then
        match q.Head with
        | none => none
        | some headOrderEl =>
          let headOrder := ob.values headOrderEl
          if r.quantityLeft < headOrder.quantity then
            let p := NewOrder headOrder.id headOrder.side (headOrder.quantity - r.quantityLeft)
              headOrder.price headOrder.time
            processQueueLoop orderQueue fuel (ob.Update orderQueue headOrderEl p)
              { r with partialOrd := some p, partialQuantityProcessed := r.quantityLeft,
                       quantityLeft := 0,
                       rollbackPartial := some ⟨orderQueue, headOrderEl, headOrder⟩ }
          else
            match ob.cancelOrder headOrder.id with
            | (none, _) => none
            | (some o, ob1) =>
              processQueueLoop orderQueue fuel ob1
                { r with quantityLeft := r.quantityLeft - headOrder.quantity,
                         done := r.done ++ [o] }
      else some (r, ob)

/-- The unexported `processQueue`: match `quantityToTrade` against the level `orderQueue`. -/
def OrderBook.processQueue (ob : OrderBook) (orderQueue : OrderQueue) (quantityToTrade : Decimal) :
    Option (QueueResult × OrderBook) :=
  processQueueLoop orderQueue.ref (orderQueue.Len + 1) ob
    { done := [], partialOrd := none, partialQuantityProcessed := 0,
      quantityLeft := quantityToTrade, rollbackPartial := none }

/-- The rollback closures returned by the public operations, as the variables they capture. -/
inductive Rollback where
  | market (rollbackPartial : Option RollbackPartial) (rollbackDone : List Order)
      (sideToProcess : SideRef)
  | limit (rollbackCancel : String) (rollbackPartial : Option RollbackPartial)
      (rollbackDone : List Order) (sideToProcess : SideRef)
  | cancel (order : Order)
deriving DecidableEq, Repr

/-- The loop `for _, o := range rollbackDone { ob.orders[o.ID()] = sideToProcess.Append(o) }`. -/
def OrderBook.appendAll (ob : OrderBook) (s : SideRef) : List Order → OrderBook
  | [] => ob
  | o :: os => (ob.Append s o).appendAll s os

/-- Run `rollbackPartial` when it is not nil. -/
def runPartial (rp : Option RollbackPartial) (ob : OrderBook) : OrderBook :=
  match rp with
  | none => ob
  | some r => r.run ob

/-- Run a rollback closure. -/
def Rollback.run : Rollback → OrderBook → OrderBook
  | Rollback.market rp rollbackDone s, ob => (runPartial rp ob).appendAll s rollbackDone
  | Rollback.limit rollbackCancel rp rollbackDone s, ob =>
    let ob1 := if 0 < rollbackCancel.length then (ob.cancelOrder rollbackCancel).2 else ob
    (runPartial rp ob1).appendAll s rollbackDone
  | Rollback.cancel order, ob =>
    if order.side = Side.Buy then ob.Append SideRef.bids order else ob.Append SideRef.asks order

/-- CancelOrder removes order with given ID from the order book. -/
def OrderBook.CancelOrder (ob : OrderBook) (orderID : String) :
    (Option Order × Option Rollback) × OrderBook :=
  match ob.cancelOrder orderID with
  | (none, ob1) => ((none, none), ob1)
  | (some order, ob1) => ((some order, some (Rollback.cancel order)), ob1)

/-- Depth snapshot: price levels and volume at price level. -/
structure Depth where
  Bids : List (Decimal × Decimal)
  Asks : List (Decimal × Decimal)
deriving DecidableEq, Repr

/-- One loop of `Depth`, walking from `level` with `iter` (`GreaterThan` or `LessThan`), cut off
after `fuel` tests of its condition. -/
def depthLoop (iter : Decimal → Option OrderQueue) (max : Int) :
    Nat → Option OrderQueue → List (Decimal × Decimal) → Option (List (Decimal × Decimal))
  | 0, _, _ => none
  | _ + 1, none, acc => some acc
  | fuel + 1, some level, acc =>
    if 0 < max ∧ max ≤ ((acc ++ [(level.price, level.volume)]).length : Int) then
      some (acc ++ [(level.price, level.volume)])
    else depthLoop iter max fuel (iter level.price) (acc ++ [(level.price, level.volume)])

/-- Depth returns price levels and volume at price level. -/
def OrderBook.Depth (ob : OrderBook) (max : Int) : Option Depth :=
  match depthLoop ob.asks.GreaterThan max (ob.asks.priceTree.length + 1) ob.asks.MinPriceQueue [],
        depthLoop ob.bids.LessThan max (ob.bids.priceTree.length + 1) ob.bids.MaxPriceQueue [] with
  | some a, some b => some { Bids := b, Asks := a }
  | _, _ => none

/-- The results of the two market operations (`left` is `quantityLeft` or `priceLeft`). -/
structure MarketResult where
  done : List Order
  partialOrd : Option Order
  partialQuantityProcessed : Decimal
  left : Decimal
  rollback : Option Rollback
  err : Option Error
deriving DecidableEq, Repr

/-- The variables of the matching loops. -/
structure LoopState where
  done : List Order
  partialOrd : Option Order
  partialQuantityProcessed : Decimal
  amount : Decimal
  rollbackPartial : Option RollbackPartial
deriving DecidableEq, Repr

/-- The `iter` of a matching loop: `asks.MinPriceQueue` or `bids.MaxPriceQueue`. -/
def OrderBook.best (ob : OrderBook) : SideRef → Option OrderQueue
  | SideRef.asks => ob.asks.MinPriceQueue
  | SideRef.bids => ob.bids.MaxPriceQueue

/-- The loop of `ProcessMarketQuantityOrder`, cut off after `fuel` tests of its condition. -/
def marketQuantityLoop (s : SideRef) : Nat → OrderBook → LoopState → Option (LoopState × OrderBook)
  | 0, _, _ => none
  | fuel + 1, ob, st =>
    if 0 < st.amount ∧ 0 < (ob.side s).Len then
      match ob.best s with
      | none => none
      | some bestPrice =>
        match ob.processQueue bestPrice st.amount with
        | none => none
        | some (r, ob1) =>
          marketQuantityLoop s fuel ob1
            { done := st.done ++ r.done, partialOrd := r.partialOrd,
              partialQuantityProcessed := r.partialQuantityProcessed,
              amount := r.quantityLeft, rollbackPartial := r.rollbackPartial }
    else some (st, ob)

/-- ProcessMarketQuantityOrder immediately gets definite quantity from the order book with
market price. -/
def OrderBook.ProcessMarketQuantityOrder (ob : OrderBook) (side : Side) (quantity : Decimal) :
    Option (MarketResult × OrderBook) :=
  if quantity ≤ 0 then
    some ({ done := [], partialOrd := none, partialQuantityProcessed := 0, left := 0,
            rollback := none, err := some Error.ErrInvalidQuantity }, ob)
  else
    let sideToProcess := if side = Side.Buy then SideRef.asks else SideRef.bids
    match marketQuantityLoop sideToProcess ((ob.side sideToProcess).priceTree.length + 1) ob
        { done := [], partialOrd := none, partialQuantityProcessed := 0, amount := quantity,
          rollbackPartial := none } with
    | none => none
    | some (st, ob1) =>
      some ({ done := st.done, partialOrd := st.partialOrd,
              partialQuantityProcessed := st.partialQuantityProcessed, left := st.amount,
              rollback :=
                if st.rollbackPartial ≠ none ∨ 0 < st.done.length then
                  some (Rollback.market st.rollbackPartial st.done sideToProcess)
                else none,
              err := none }, ob1)

/-- The loop of `ProcessMarketPriceBuy`, cut off after `fuel` tests of its condition. -/
def marketPriceLoop (places : Int) : Nat → OrderBook → LoopState → Option (LoopState × OrderBook)
  | 0, _, _ => none
  | fuel + 1, ob, st =>
    if 0 < st.amount ∧ 0 < ob.asks.Len then
      match ob.asks.MinPriceQueue with
      | none => none
      | some bestPrice =>
        if bestPrice.price = 0 then none
        else
          let quantity := Decimal.DivRound st.amount bestPrice.price places
          if quantity ≤ 0 then some (st, ob)
          else
            match ob.processQueue bestPrice quantity with
            | none => none
            | some (r, ob1) =>
              marketPriceLoop places fuel ob1
                { done := st.done ++ r.done, partialOrd := r.partialOrd,
                  partialQuantityProcessed := r.partialQuantityProcessed,
                  amount := st.amount - (quantity - r.quantityLeft) * bestPrice.price,
                  rollbackPartial := r.rollbackPartial }
    else some (st, ob)

/-- ProcessMarketPriceBuy immediately gets definite price from the order book with market
price. -/
def OrderBook.ProcessMarketPriceBuy (ob : OrderBook) (price : Decimal) (places : Int) :
    Option (MarketResult × OrderBook) :=
  if price ≤ 0 then
    some ({ done := [], partialOrd := none, partialQuantityProcessed := 0, left := 0,
            rollback := none, err := some Error.ErrInvalidPrice }, ob)
  else
    match marketPriceLoop places (ob.asks.priceTree.length + 2) ob
        { done := [], partialOrd := none, partialQuantityProcessed := 0, amount := price,
          rollbackPartial := none } with
    | none => none
    | some (st, ob1) =>
      some ({ done := st.done, partialOrd := st.partialOrd,
              partialQuantityProcessed := st.partialQuantityProcessed, left := st.amount,
              rollback :=
                if st.rollbackPartial ≠ none ∨ 0 < st.done.length then
                  some (Rollback.market st.rollbackPartial st.done SideRef.asks)
                else none,
              err := none }, ob1)

/-- The results of `ProcessLimitOrder`. -/
structure LimitResult where
  done : List Order
  partialOrd : Option Order
  partialQuantityProcessed : Decimal
  rollback : Option Rollback
  err : Option Error
deriving DecidableEq, Repr

/-- The `comparator` of `ProcessLimitOrder`: `price.GreaterThanOrEqual` for a buy,
`price.LessThanOrEqual` for a sell. -/
def comparator (side : Side) (price p : Decimal) : Bool :=
  if side = Side.Buy then decide (price ≥ p) else decide (price ≤ p)

/-- The loop of `ProcessLimitOrder`, cut off after `fuel` tests of its condition; `bestPrice` is
the loop variable of that name. -/
def limitLoop (side : Side) (price : Decimal) (s : SideRef) :
    Nat → OrderBook → Option OrderQueue → LoopState → Option (LoopState × OrderBook)
  | 0, _, _, _ => none
  | fuel + 1, ob, bestPrice, st =>
    if 0 < st.amount ∧ 0 < (ob.side s).Len then
      match bestPrice with
      | none => none
      | some q =>
        if comparator side price q.price then
          match ob.processQueue q st.amount with
          | none => none
          | some (r, ob1) =>
            limitLoop side price s fuel ob1 (ob1.best s)
              { done := st.done ++ r.done, partialOrd := r.partialOrd,
                partialQuantityProcessed := r.partialQuantityProcessed,
                amount := r.quantityLeft, rollbackPartial := r.rollbackPartial }
        else some (st, ob)
    else some (st, ob)

/-- The totals of the summary order: the sums over `done` of the quantities and of
price times quantity. -/
def totals : List Order → Decimal × Decimal → Decimal × Decimal
  | [], acc => acc
  | order :: rest, acc => totals rest (acc.1 + order.quantity, acc.2 + order.price * order.quantity)

/-- The rollback of `ProcessLimitOrder`: nil unless there is something to undo. -/
def limitRollback (rollbackCancel : String) (rollbackPartial : Option RollbackPartial)
    (rollbackDone : List Order) (sideToProcess : SideRef) : Option Rollback :=
  if 0 < rollbackCancel.length ∨ rollbackPartial ≠ none ∨ 0 < rollbackDone.length then
    some (Rollback.limit rollbackCancel rollbackPartial rollbackDone sideToProcess)
  else none

/-- ProcessLimitOrder places new order to the OrderBook; `now` is `time.Now().UTC()`. -/
def OrderBook.ProcessLimitOrder (ob : OrderBook) (side : Side) (orderID : String)
    (quantity price : Decimal) (now : Nat) : Option (LimitResult × OrderBook) :=
  if (ob.orders orderID).isSome then
    some ({ done := [], partialOrd := none, partialQuantityProcessed := 0, rollback := none,
            err := some Error.ErrOrderExists }, ob)
  else if quantity ≤ 0 then
    some ({ done := [], partialOrd := none, partialQuantityProcessed := 0, rollback := none,
            err := some Error.ErrInvalidQuantity }, ob)
  else if price ≤ 0 then
    some ({ done := [], partialOrd := none, partialQuantityProcessed := 0, rollback := none,
            err := some Error.ErrInvalidPrice }, ob)
  else
    let sideToAdd := if side = Side.Buy then SideRef.bids else SideRef.asks
    let sideToProcess := if side = Side.Buy then SideRef.asks else SideRef.bids
    match limitLoop side price sideToProcess ((ob.side sideToProcess).priceTree.length + 1) ob
        (ob.best sideToProcess)
        { done := [], partialOrd := none, partialQuantityProcessed := 0, amount := quantity,
          rollbackPartial := none } with
    | none => none
    | some (st, ob1) =>
      if 0 < st.amount then
        let o := NewOrder orderID side st.amount price now
        some ({ done := st.done,
                partialOrd := if 0 < st.done.length then some o else st.partialOrd,
                partialQuantityProcessed :=
                  if 0 < st.done.length then quantity - st.amount else st.partialQuantityProcessed,
                rollback := limitRollback orderID st.rollbackPartial st.done sideToProcess,
                err := none }, ob1.Append sideToAdd o)
      else
        let t := totals st.done (0, 0)
        let withPartial : Option (Decimal × Decimal) :=
          if 0 < st.partialQuantityProcessed then
            match st.partialOrd with
            | none => none
            | some p => some (t.1 + st.partialQuantityProcessed,
                              t.2 + p.price * st.partialQuantityProcessed)
          else some t
        match withPartial with
        | none => none
        | some (totalQuantity, totalPrice) =>
          if totalQuantity = 0 then none
          else
            some ({ done := st.done ++
                      [NewOrder orderID side quantity (Decimal.Div totalPrice totalQuantity) now],
                    partialOrd := st.partialOrd,
                    partialQuantityProcessed := st.partialQuantityProcessed,
                    rollback := limitRollback "" st.rollbackPartial st.done sideToProcess,
                    err := none }, ob1)

/-- The side of the orders that a half of the book holds. -/
def sideOf : SideRef → Side
  | SideRef.asks => Side.Sell
  | SideRef.bids => Side.Buy

/-- The half of the book that holds the orders of a side. -/
def halfOf : Side → SideRef
  | Side.Sell => SideRef.asks
  | Side.Buy => SideRef.bids

/-- The list elements of a side, level by level in ascending price order. -/
def OrderSide.refs (os : OrderSide) : List Nat := os.priceTree.flatMap (fun q => q.orders)

/-- The book with the levels of one side replaced. -/
def OrderBook.setTree (ob : OrderBook) (s : SideRef) (l : List OrderQueue) : OrderBook :=
  match s with
  | SideRef.asks => { ob with asks := { priceTree := l } }
  | SideRef.bids => { ob with bids := { priceTree := l } }

/-- Well-formedness of one price level of the half holding orders of side `sd`. -/
structure LevelOK (values : Nat → Order) (sd : Side) (q : OrderQueue) : Prop where
  nonempty : q.orders ≠ []
  volume : q.volume = (q.orders.map (fun e => (values e).quantity)).sum
  elems : ∀ e ∈ q.orders, (values e).price = q.price ∧ (values e).side = sd ∧ 0 < (values e).quantity
  price_pos : 0 < q.price

/-- Well-formedness of the book: the representation invariant of the engine. -/
structure WF (ob : OrderBook) : Prop where
  sorted : ∀ s, (ob.side s).priceTree.Pairwise (fun a b => a.price < b.price)
  level : ∀ s, ∀ q ∈ (ob.side s).priceTree, LevelOK ob.values (sideOf s) q
  refs_nodup : ∀ s, (ob.side s).refs.Nodup
  refs_lt : ∀ s, ∀ e ∈ (ob.side s).refs, e < ob.next
  qref_inj : ∀ s s', ∀ q ∈ (ob.side s).priceTree, ∀ q' ∈ (ob.side s').priceTree,
    q.ref = q'.ref → s = s' ∧ q.price = q'.price
  qrefs_lt : ∀ s, ∀ q ∈ (ob.side s).priceTree, q.ref < ob.next
  index_sound : ∀ id e, ob.orders id = some e →
    (ob.values e).id = id ∧ e ∈ (ob.side (halfOf (ob.values e).side)).refs
  index_complete : ∀ s, ∀ e ∈ (ob.side s).refs, ob.orders (ob.values e).id = some e

/-- The levels of a half of the book, best price first: ascending asks, descending bids. -/
def OrderBook.view (ob : OrderBook) : SideRef → List OrderQueue
  | SideRef.asks => ob.asks.priceTree
  | SideRef.bids => ob.bids.priceTree.reverse

/-- The resting orders of a half of the book in price-time order: levels best price first,
within a level oldest arrival first. -/
def OrderBook.resting (ob : OrderBook) (s : SideRef) : List Order :=
  (ob.view s).flatMap (fun q => q.orders.map ob.values)

/-- The sum of the quantities of a list of orders. -/
def sumQty (l : List Order) : Decimal := (l.map (fun o => o.quantity)).sum

/-- The order `v` after `a` of its quantity has been filled. -/
def reduced (v : Order) (a : Decimal) : Order :=
  NewOrder v.id v.side (v.quantity - a) v.price v.time

/-- The elements of a level, each with the identity of the level. -/
def levelElems (q : OrderQueue) : List (Nat × Nat) := q.orders.map (fun e => (q.ref, e))

/-- The elements of a half of the book in price-time order, each with the identity of its
level. -/
def OrderBook.elems (ob : OrderBook) (s : SideRef) : List (Nat × Nat) :=
  (ob.view s).flatMap levelElems

/-- The results of matching the quantity `a` against the elements `es` in turn, `d` being the
orders done so far: the loop of `processQueue` as a recursion over the elements it meets. -/
def fillQueue (values : Nat → Order) : List (Nat × Nat) → List Order → Decimal → QueueResult
  | [], d, a =>
    { done := d, partialOrd := none, partialQuantityProcessed := 0, quantityLeft := a,
      rollbackPartial := none }
  | (qref, e) :: es, d, a =>
    if 0 < a then
      if a < (values e).quantity then
        { done := d, partialOrd := some (reduced (values e) a), partialQuantityProcessed := a,
          quantityLeft := 0, rollbackPartial := some ⟨qref, e, values e⟩ }
      else fillQueue values es (d ++ [values e]) (a - (values e).quantity)
    else
      { done := d, partialOrd := none, partialQuantityProcessed := 0, quantityLeft := a,
        rollbackPartial := none }

/-- The book after matching the quantity `a` against the elements `es` in turn. -/
def fillBook : List (Nat × Nat) → OrderBook → Decimal → OrderBook
  | [], ob, _ => ob
  | (qref, e) :: es, ob, a =>
    if 0 < a then
      if a < (ob.values e).quantity then ob.Update qref e (reduced (ob.values e) a)
      else fillBook es (ob.cancelOrder (ob.values e).id).2 (a - (ob.values e).quantity)
    else ob

/-- What `processQueue` leaves behind on the best level `q` of the half `s`: either the level is
used up, or the quantity is. -/
def LevelOut (ob : OrderBook) (s : SideRef) (q : OrderQueue) (rest : List OrderQueue)
    (r : QueueResult) (ob1 : OrderBook) : Prop :=
  WF ob1 ∧ ob1.next = ob.next ∧ (∀ s', s' ≠ s → ob1.side s' = ob.side s') ∧
  ((ob1.view s = rest ∧ ob1.values = ob.values ∧ r.partialOrd = none ∧
      r.rollbackPartial = none ∧ r.partialQuantityProcessed = 0) ∨
    (r.quantityLeft ≤ 0 ∧ ∃ q1, ob1.view s = q1 :: rest ∧ q1.ref = q.ref ∧ q1.price = q.price))

/-- The loop variables that the results of `processQueue` give. -/
def QueueResult.toLoopState (r : QueueResult) : LoopState :=
  { done := r.done, partialOrd := r.partialOrd,
    partialQuantityProcessed := r.partialQuantityProcessed, amount := r.quantityLeft,
    rollbackPartial := r.rollbackPartial }

/-- The elements of the levels of the half `s` whose price crosses the limit `price` of an
order of side `side`, in price-time order. -/
def OrderBook.crossElems (ob : OrderBook) (s : SideRef) (side : Side) (price : Decimal) :
    List (Nat × Nat) :=
  ((ob.view s).takeWhile (fun q => comparator side price q.price)).flatMap levelElems

/-- The loop of `ProcessMarketPriceBuy` as a recursion over the levels it meets. -/
def notionalFill (values : Nat → Order) (places : Int) : List OrderQueue → LoopState → LoopState
  | [], st => st
  | q :: qs, st =>
    if 0 < st.amount then
      if Decimal.DivRound st.amount q.price places ≤ 0 then st
      else if 0 < (fillQueue values (levelElems q) []
          (Decimal.DivRound st.amount q.price places)).quantityLeft then
        notionalFill values places qs
          { done := st.done ++ (fillQueue values (levelElems q) []
              (Decimal.DivRound st.amount q.price places)).done,
            partialOrd := (fillQueue values (levelElems q) []
              (Decimal.DivRound st.amount q.price places)).partialOrd,
            partialQuantityProcessed := (fillQueue values (levelElems q) []
              (Decimal.DivRound st.amount q.price places)).partialQuantityProcessed,
            amount := st.amount - (Decimal.DivRound st.amount q.price places -
              (fillQueue values (levelElems q) []
                (Decimal.DivRound st.amount q.price places)).quantityLeft) * q.price,
            rollbackPartial := (fillQueue values (levelElems q) []
              (Decimal.DivRound st.amount q.price places)).rollbackPartial }
      else
        { done := st.done ++ (fillQueue values (levelElems q) []
            (Decimal.DivRound st.amount q.price places)).done,
          partialOrd := (fillQueue values (levelElems q) []
            (Decimal.DivRound st.amount q.price places)).partialOrd,
          partialQuantityProcessed := (fillQueue values (levelElems q) []
            (Decimal.DivRound st.amount q.price places)).partialQuantityProcessed,
          amount := st.amount - (Decimal.DivRound st.amount q.price places -
            (fillQueue values (levelElems q) []
              (Decimal.DivRound st.amount q.price places)).quantityLeft) * q.price,
          rollbackPartial := (fillQueue values (levelElems q) []
            (Decimal.DivRound st.amount q.price places)).rollbackPartial }
    else st

/-- The book after the loop of `ProcessMarketPriceBuy`, as a recursion over the levels. -/
def notionalBook (places : Int) : List OrderQueue → OrderBook → Decimal → OrderBook
  | [], ob, _ => ob
  | q :: qs, ob, amount =>
    if 0 < amount then
      if Decimal.DivRound amount q.price places ≤ 0 then ob
      else if 0 < (fillQueue ob.values (levelElems q) []
          (Decimal.DivRound amount q.price places)).quantityLeft then
        notionalBook places qs (fillBook (levelElems q) ob (Decimal.DivRound amount q.price places))
          (amount - (Decimal.DivRound amount q.price places -
            (fillQueue ob.values (levelElems q) []
              (Decimal.DivRound amount q.price places)).quantityLeft) * q.price)
      else fillBook (levelElems q) ob (Decimal.DivRound amount q.price places)
    else ob

/-- The half of the book that an incoming order of side `side` is matched against. -/
def oppositeOf (side : Side) : SideRef :=
  if side = Side.Buy then SideRef.asks else SideRef.bids

/-- The sum over a list of orders of price times quantity. -/
def sumValue (l : List Order) : Decimal := (l.map (fun o => o.price * o.quantity)).sum

/-- The books reachable from `NewOrderBook()` by successful calls of the public mutating
operations. -/
inductive Reachable : OrderBook → Prop
  | init : Reachable NewOrderBook
  | limit {ob ob1 : OrderBook} {r : LimitResult} (side : Side) (orderID : String)
      (quantity price : Decimal) (now : Nat) :
      Reachable ob → ob.ProcessLimitOrder side orderID quantity price now = some (r, ob1) →
      r.err = none → Reachable ob1
  | marketQuantity {ob ob1 : OrderBook} {r : MarketResult} (side : Side) (quantity : Decimal) :
      Reachable ob → ob.ProcessMarketQuantityOrder side quantity = some (r, ob1) →
      r.err = none → Reachable ob1
  | marketPrice {ob ob1 : OrderBook} {r : MarketResult} (price : Decimal) (places : Int) :
      Reachable ob → ob.ProcessMarketPriceBuy price places = some (r, ob1) →
      r.err = none → Reachable ob1
  | cancel {ob : OrderBook} (orderID : String) :
      Reachable ob → Reachable (ob.CancelOrder orderID).2

/-- Order returns order by id. -/
def OrderBook.Order (ob : OrderBook) (orderID : String) : Option Orderbook.Order :=
  match ob.orders orderID with
  | none => none
  | some e => some (ob.values e)

/-- An order with the id `id` rests on one of the two sides of the book. -/
def IsResting (ob : OrderBook) (id : String) : Prop :=
  ∃ s, ∃ o ∈ ob.resting s, o.id = id

/-- The list `d` is the longest initial segment of `L` whose cumulative quantity does not
exceed `Q`. -/
def IsLongestFront (d L : List Order) (Q : Decimal) : Prop :=
  d <+: L ∧ sumQty d ≤ Q ∧ ∀ l, l <+: L → sumQty l ≤ Q → l.length ≤ d.length

/-- The resting orders of the half `s` restricted to the levels whose price crosses the limit
`price` of an order of side `side`, in price-time order. -/
def OrderBook.crossing (ob : OrderBook) (s : SideRef) (side : Side) (price : Decimal) :
    List Orderbook.Order :=
  ((ob.view s).filter (fun q => comparator side price q.price)).flatMap
    (fun q => q.orders.map ob.values)

/-- The quantity still to trade (`quantityToTrade`) when the matching loop of
`ProcessLimitOrder` has ended. -/
def OrderBook.limitRemaining (ob : OrderBook) (side : Side) (quantity price : Decimal) :
    Option Decimal :=
  let sideToProcess := if side = Side.Buy then SideRef.asks else SideRef.bids
  match limitLoop side price sideToProcess ((ob.side sideToProcess).priceTree.length + 1) ob
      (ob.best sideToProcess)
      { done := [], partialOrd := none, partialQuantityProcessed := 0, amount := quantity,
        rollbackPartial := none } with
  | none => none
  | some (st, _) => some st.amount

/-- The results of a call of `ProcessLimitOrder` (an empty record if the call does not
return). -/
def OrderBook.limitResult (ob : OrderBook) (side : Side) (orderID : String)
    (quantity price : Decimal) (now : Nat) : LimitResult :=
  match ob.ProcessLimitOrder side orderID quantity price now with
  | some (r, _) => r
  | none => { done := [], partialOrd := none, partialQuantityProcessed := 0, rollback := none,
              err := none }

/-- The book after a call of `ProcessLimitOrder` (the book itself if the call does not
return). -/
def OrderBook.afterLimit (ob : OrderBook) (side : Side) (orderID : String)
    (quantity price : Decimal) (now : Nat) : OrderBook :=
  match ob.ProcessLimitOrder side orderID quantity price now with
  | some (_, ob1) => ob1
  | none => ob

/-- The results of a call of `ProcessMarketQuantityOrder` (an empty record if the call does not
return). -/
def OrderBook.marketResult (ob : OrderBook) (side : Side) (quantity : Decimal) : MarketResult :=
  match ob.ProcessMarketQuantityOrder side quantity with
  | some (r, _) => r
  | none => { done := [], partialOrd := none, partialQuantityProcessed := 0, left := 0,
              rollback := none, err := none }

/-- The book after a call of `ProcessMarketQuantityOrder` (the book itself if the call does not
return). -/
def OrderBook.afterMarket (ob : OrderBook) (side : Side) (quantity : Decimal) : OrderBook :=
  match ob.ProcessMarketQuantityOrder side quantity with
  | some (_, ob1) => ob1
  | none => ob

/-- The results of a call of `ProcessMarketPriceBuy` (an empty record if the call does not
return). -/
def OrderBook.notionalResult (ob : OrderBook) (price : Decimal) (places : Int) : MarketResult :=
  match ob.ProcessMarketPriceBuy price places with
  | some (r, _) => r
  | none => { done := [], partialOrd := none, partialQuantityProcessed := 0, left := 0,
              rollback := none, err := none }

/-- The book after a call of `ProcessMarketPriceBuy` (the book itself if the call does not
return). -/
def OrderBook.afterNotional (ob : OrderBook) (price : Decimal) (places : Int) : OrderBook :=
  match ob.ProcessMarketPriceBuy price places with
  | some (_, ob1) => ob1
  | none => ob

/-- The book after running a rollback closure, if there is one. -/
def OrderBook.undo (ob : OrderBook) : Option Rollback → OrderBook
  | some r => r.run ob
  | none => ob

/-- The books `ob` and `ob2` hold the same resting orders at the same price levels on the
same sides: level by level in ascending price order the prices and the volumes agree and the
orders of the level are the same up to their order in the queue; `Depth(0)` reports the same;
and `Order` resolves every id to the same order. -/
def SameBook (ob ob2 : OrderBook) : Prop :=
  (∀ s, List.Forall₂
    (fun q q2 => q.price = q2.price ∧ q.volume = q2.volume ∧
      (q.orders.map ob.values).Perm (q2.orders.map ob2.values))
    (ob.side s).priceTree (ob2.side s).priceTree) ∧
  ob2.Depth 0 = ob.Depth 0 ∧ ∀ id, ob2.Order id = ob.Order id

/-- The book `ob1` is the book `ob` after a matching loop on the half `s`: the elements `esD`
at the front of the half were removed, the elements `esR` remain, and either there was no
partial fill (`rp`, `po` nil, `pq` zero), or the first remaining element was filled by `pq`,
`po` being its reduced order and `rp` the closure that restores it. -/
structure Filled (ob : OrderBook) (s : SideRef) (esD esR : List (Nat × Nat))
    (rp : Option RollbackPartial) (po : Option Order) (pq : Decimal) (ob1 : OrderBook) :
    Prop where
  wf : WF ob1
  split : ob.elems s = esD ++ esR
  elems : ob1.elems s = esR
  other : ∀ s', s' ≠ s → ob1.side s' = ob.side s'
  next : ob.next ≤ ob1.next
  orders : ∀ id, ob1.orders id =
    if id ∈ esD.map (fun x => (ob.values x.2).id) then none else ob.orders id
  values : (rp = none ∧ po = none ∧ pq = 0 ∧ ∀ x, x < ob.next → ob1.values x = ob.values x) ∨
    (∃ qref e tl, esR = (qref, e) :: tl ∧ rp = some ⟨qref, e, ob.values e⟩ ∧
      po = some (reduced (ob.values e) pq) ∧ 0 < pq ∧
      pq < (ob.values e).quantity ∧ ob1.values e = reduced (ob.values e) pq ∧
      ∀ x, x < ob.next → x ≠ e → ob1.values x = ob.values x)

/-- A book with two resting sells: `s1`, 2 at 100, and `s2`, 3 at 110. -/
def bookA : OrderBook :=
  (NewOrderBook.afterLimit Side.Sell "s1" 2 100 1).afterLimit Side.Sell "s2" 3 110 2

/-- A book with two resting sells at one price, `s1` of 2 and `s2` of 3 at 100, and a resting
buy `b1`, 4 at 90. -/
def bookB : OrderBook :=
  ((NewOrderBook.afterLimit Side.Sell "s1" 2 100 1).afterLimit Side.Sell "s2" 3 100 2).afterLimit
    Side.Buy "b1" 4 90 3

/-- The book with the one resting sell `s1`, 1 at 0.00000000000000006 (17 decimal places). -/
def bookE : OrderBook :=
  NewOrderBook.afterLimit Side.Sell "s1" 1 (6 / 100000000000000000) 1

/-- The book with the one resting sell `s1`, 2 at 0.00000000000000006 (17 decimal places). -/
def bookF : OrderBook :=
  NewOrderBook.afterLimit Side.Sell "s1" 2 (6 / 100000000000000000) 1

/-- The book with the one resting sell `o-001`, 0.2 at 0.01. -/
def bookC : OrderBook :=
  NewOrderBook.afterLimit Side.Sell "o-001" (1 / 5) (1 / 100) 0

/-- The book `bookC` after a first notional buy of 0.001 (8 places), which takes 0.1 of
`o-001`. -/
def bookC1 : OrderBook := bookC.afterNotional (1 / 1000) 8

/-- The book `bookC1` after a second notional buy of 0.001 (8 places), which consumes the
reduced `o-001`. -/
def bookC2 : OrderBook := bookC1.afterNotional (1 / 1000) 8

/-- The book `bookC2` after the rollback of the second buy and then the rollback of the first
buy have been run. -/
def bookC3 : OrderBook :=
  (bookC2.undo (bookC1.notionalResult (1 / 1000) 8).rollback).undo
    (bookC.notionalResult (1 / 1000) 8).rollback

/-- No bid level has a price that reaches the price of an ask level. -/
def NoCross (ob : OrderBook) : Prop :=
  ∀ b ∈ ob.bids.priceTree, ∀ a ∈ ob.asks.priceTree, b.price < a.price

/-- The sum of the volumes of the levels of a side. -/
def OrderSide.totalVolume (os : OrderSide) : Decimal :=
  (os.priceTree.map (fun q => q.volume)).sum

/-- The volume of the level of a side at the price `p`, zero if the side has no such level. -/
def OrderSide.volumeAt (os : OrderSide) (p : Decimal) : Decimal :=
  match os.priceTree.find? (fun q => decide (q.price = p)) with
  | some q => q.volume
  | none => 0

/-- The loop of `CalculateMarketPrice`, walking from `level` with `iter` (`GreaterThan` or
`LessThan`), cut off after `fuel` tests of its condition; it gives the price and the quantity
that is left. -/
def calculateLoop (iter : Decimal → Option OrderQueue) :
    Nat → Option OrderQueue → Decimal → Decimal → Option (Decimal × Decimal)
  | 0, _, _, _ => none
  | fuel + 1, level, quantity, price =>
    if 0 < quantity then
      match level with
      | none => some (price, quantity)
      | some lv =>
        if quantity ≥ lv.volume then
          calculateLoop iter fuel (iter lv.price) (quantity - lv.volume)
            (price + lv.price * lv.volume)
        else calculateLoop iter fuel (some lv) 0 (price + lv.price * quantity)
    else some (price, quantity)

/-- CalculateMarketPrice returns total market price for requested quantity; if err is not nil
price returns total price of all levels in side. -/
def OrderBook.CalculateMarketPrice (ob : OrderBook) (side : Side) (quantity : Decimal) :
    Option (Decimal × Option Error) :=
  let r :=
    if side = Side.Buy then
      calculateLoop ob.asks.GreaterThan (ob.asks.priceTree.length + 2) ob.asks.MinPriceQueue
        quantity 0
    else
      calculateLoop ob.bids.LessThan (ob.bids.priceTree.length + 2) ob.bids.MaxPriceQueue
        quantity 0
  match r with
  | none => none
  | some (price, left) =>
    some (price, if 0 < left then some Error.ErrInsufficientQuantity else none)

/-- The price estimate as the spec words it: the sum over the levels, walked in the given
order, of the level's price times the smaller of the quantity still unfilled and the level's
volume. -/
def specMarketPrice : List OrderQueue → Decimal → Decimal
  | [], _ => 0
  | q :: qs, quantity =>
    q.price * min quantity q.volume + specMarketPrice qs (quantity - min quantity q.volume)

/-- The first `max` entries of a depth list, all of them when `max` is not positive. -/
def depthCap (max : Int) (l : List (Decimal × Decimal)) : List (Decimal × Decimal) :=
  if 0 < max then l.take max.toNat else l

/-- The value of the results of the loop of a notional buy: orders done, partial fill and
amount left. -/
def LoopState.value (st : LoopState) : Decimal :=
  sumValue st.done +
    (match st.partialOrd with
      | some po => st.partialQuantityProcessed * po.price
      | none => 0) + st.amount

/-- The book with the one resting sell `o1`, 0.1 at 0.01. -/
def bookD : OrderBook :=
  NewOrderBook.afterLimit Side.Sell "o1" (1 / 10) (1 / 100) 0

/-! ### The snapshot of a book

The snapshot is modelled as the value of the schema (an object with the two sides, a side as
the list of its levels in price order, a level with its price, volume and orders, an order
with its five fields, the side as a string), not as text. -/

/-- Modelled from the spec: the string of a side in a serialized order, "buy" or "sell" (the
codec of `Side` is not under src/). -/
def Side.MarshalJSON : Side → String
  | Side.Sell => "sell"
  | Side.Buy => "buy"

/-- Modelled from the spec: the decoder of the side field, which rejects a string that is not
"buy" or "sell". -/
def Side.UnmarshalJSON (s : String) : Option Side :=
  if s = "buy" then some Side.Buy else if s = "sell" then some Side.Sell else none

/-- A serialized order: id, side (as a string), quantity, price and time. -/
structure OrderSnapshot where
  id : String
  side : String
  quantity : Decimal
  price : Decimal
  time : Nat
deriving DecidableEq, Repr

/-- A serialized level: its price, its volume and its orders, oldest first. -/
structure LevelSnapshot where
  price : Decimal
  volume : Decimal
  orders : List OrderSnapshot
deriving DecidableEq, Repr

/-- The snapshot schema: the levels of the asks and of the bids. -/
structure Snapshot where
  asks : List LevelSnapshot
  bids : List LevelSnapshot
deriving DecidableEq, Repr

/-- Modelled from the spec: a serialized order carries id, side, quantity, price and time (the
codec of `Order` is not under src/). -/
def Order.MarshalJSON (o : Order) : OrderSnapshot :=
  { id := o.id, side := o.side.MarshalJSON, quantity := o.quantity, price := o.price,
    time := o.time }

/-- Modelled from the spec: the decoder of an order, which fails when the side field is not
recognized. -/
def Order.UnmarshalJSON (s : OrderSnapshot) : Option Order :=
  match Side.UnmarshalJSON s.side with
  | none => none
  | some sd => some (NewOrder s.id sd s.quantity s.price s.time)

/-- Modelled from the spec: a side serializes its levels in price order, each level as an
object containing its price, volume, and an ordered list of its orders (the codec of
`OrderSide` and `OrderQueue` is not under src/). -/
def OrderSide.MarshalJSON (os : OrderSide) (values : Nat → Order) : List LevelSnapshot :=
  os.priceTree.map (fun q =>
    { price := q.price, volume := q.volume,
      orders := q.orders.map (fun e => (values e).MarshalJSON) })

/-- Modelled from the spec: the decoder of the orders of a level: each order is decoded and
stored in a fresh list element, in the order of the snapshot. -/
def decodeOrders :
    List OrderSnapshot → (Nat → Order) → Nat → Option (List Nat × (Nat → Order) × Nat)
  | [], values, next => some ([], values, next)
  | s :: ss, values, next =>
    match Order.UnmarshalJSON s with
    | none => none
    | some o =>
      match decodeOrders ss (Function.update values next o) (next + 1) with
      | none => none
      | some (es, v, n) => some (next :: es, v, n)

/-- Modelled from the spec: the decoder of the levels of a side: each level becomes a fresh
level object with the price and the volume of the snapshot and its decoded orders. -/
def decodeLevels :
    List LevelSnapshot → (Nat → Order) → Nat → Option (List OrderQueue × (Nat → Order) × Nat)
  | [], values, next => some ([], values, next)
  | lv :: lvs, values, next =>
    match decodeOrders lv.orders values (next + 1) with
    | none => none
    | some (es, v1, n1) =>
      match decodeLevels lvs v1 n1 with
      | none => none
      | some (qs, v2, n2) =>
        some ({ ref := next, volume := lv.volume, price := lv.price, orders := es } :: qs,
          v2, n2)

/-- Modelled from the spec: `Orders()`, the list elements of all orders of a side. -/
def OrderSide.Orders (os : OrderSide) : List Nat := os.priceTree.flatMap (fun q => q.orders)

/-- The loop `for _, order := range side.Orders()` of `UnmarshalJSON`, which stores each
element in the index under the id of its order. -/
def indexOrders (values : Nat → Order) (es : List Nat) (orders : String → Option Nat) :
    String → Option Nat :=
  es.foldl (fun m e => Function.update m (values e).id (some e)) orders

/-- MarshalJSON implements json.Marshaler interface. -/
def OrderBook.MarshalJSON (ob : OrderBook) : Snapshot :=
  { asks := ob.asks.MarshalJSON ob.values, bids := ob.bids.MarshalJSON ob.values }

/-- UnmarshalJSON implements json.Unmarshaler interface: the two sides are decoded, the index
is emptied and rebuilt from the orders of the asks and then of the bids.  Without a result
when the decoder of a side fails. -/
def OrderBook.UnmarshalJSON (ob : OrderBook) (data : Snapshot) : Option OrderBook :=
  match decodeLevels data.asks ob.values ob.next with
  | none => none
  | some (asks, v1, n1) =>
    match decodeLevels data.bids v1 n1 with
    | none => none
    | some (bids, v2, n2) =>
      some { orders :=
               indexOrders v2 (OrderSide.Orders { priceTree := bids })
                 (indexOrders v2 (OrderSide.Orders { priceTree := asks }) (fun _ => none)),
             asks := { priceTree := asks }, bids := { priceTree := bids }, values := v2,
             next := n2 }

/-- The book decoded from the snapshot of `ob` into a new book (the book itself if the
decoder fails). -/
def OrderBook.reloaded (ob : OrderBook) : OrderBook :=
  match NewOrderBook.UnmarshalJSON ob.MarshalJSON with
  | some ob2 => ob2
  | none => ob

/-- The FIFO queue of the level at the price `p` of a side, head (oldest) first, under the
store `values`; empty if the side has no level at `p`. -/
def OrderSide.queueAt (os : OrderSide) (values : Nat → Order) (p : Decimal) : List Order :=
  match os.priceTree.find? (fun q => decide (q.price = p)) with
  | some q => q.orders.map values
  | none => []

/-- The sequence of the resting orders at the price `p` on the side `s` of the book, from head
(oldest) to tail. -/
def OrderBook.queueAt (ob : OrderBook) (s : SideRef) (p : Decimal) : List Orderbook.Order :=
  (ob.side s).queueAt ob.values p

/-- The orders in `done` that rested at the price `p` against an incoming order of side
`side`: the fully consumed counter-orders of the level at `p` (the summary order of a limit
order has the side of the incoming order and is left out). -/
def consumedAt (done : List Order) (side : Side) (p : Decimal) : List Order :=
  done.filter (fun o => decide (o.side ≠ side ∧ o.price = p))

@[simp] theorem halfOf_sideOf (s : SideRef) : halfOf (sideOf s) = s := by cases s <;> rfl

@[simp] theorem sideOf_halfOf (x : Side) : sideOf (halfOf x) = x := by cases x <;> rfl

@[simp] theorem side_asks (ob : OrderBook) : ob.side SideRef.asks = ob.asks := rfl

@[simp] theorem side_bids (ob : OrderBook) : ob.side SideRef.bids = ob.bids := rfl

theorem sideOf_injective {s s' : SideRef} (h : sideOf s = sideOf s') : s = s' := by
  cases s <;> cases s' <;> first | rfl | cases h

/-! ### Lists of levels -/

theorem removeLevel_split (e : Nat) (v : Order) (l1 l2 : List OrderQueue) (q : OrderQueue)
    (h1 : ∀ x ∈ l1, x.price ≠ v.price) (hq : q.price = v.price) :
    removeLevel e v (l1 ++ q :: l2) =
      l1 ++ (if (q.Remove e v).Len = 0 then l2 else q.Remove e v :: l2) := by
  induction l1 with
  | nil => simp [removeLevel, hq]
  | cons x xs ih =>
    have hx : x.price ≠ v.price := h1 x (List.mem_cons_self _ _)
    have := ih (fun y hy => h1 y (List.mem_cons_of_mem _ hy))
    simp [removeLevel, hx, this]

theorem appendLevel_split_found (qref e : Nat) (o : Order) (l1 l2 : List OrderQueue)
    (q : OrderQueue) (h1 : ∀ x ∈ l1, x.price < o.price) (hq : q.price = o.price) :
    appendLevel qref e o (l1 ++ q :: l2) = l1 ++ q.Append e o :: l2 := by
  induction l1 with
  | nil => simp [appendLevel, hq]
  | cons x xs ih =>
    have hx : x.price < o.price := h1 x (List.mem_cons_self _ _)
    have := ih (fun y hy => h1 y (List.mem_cons_of_mem _ hy))
    simp [appendLevel, ne_of_lt hx, not_lt_of_gt hx, this]

theorem appendLevel_split_new (qref e : Nat) (o : Order) (l1 l2 : List OrderQueue)
    (h1 : ∀ x ∈ l1, x.price < o.price) (h2 : ∀ x ∈ l2, o.price < x.price) :
    appendLevel qref e o (l1 ++ l2) = l1 ++ (NewOrderQueue qref o.price).Append e o :: l2 := by
  induction l1 with
  | nil =>
    cases l2 with
    | nil => simp [appendLevel]
    | cons y ys =>
      have hy : o.price < y.price := h2 y (List.mem_cons_self _ _)
      simp [appendLevel, ne_of_gt hy, hy]
  | cons x xs ih =>
    have hx : x.price < o.price := h1 x (List.mem_cons_self _ _)
    have := ih (fun y hy => h1 y (List.mem_cons_of_mem _ hy))
    simp [appendLevel, ne_of_lt hx, not_lt_of_gt hx, this]

/-- A sorted list of levels splits at any price. -/
theorem sorted_split (p : Decimal) (l : List OrderQueue)
    (hs : l.Pairwise (fun a b => a.price < b.price)) :
    (∃ l1 q l2, l = l1 ++ q :: l2 ∧ q.price = p ∧ (∀ x ∈ l1, x.price < p) ∧
        (∀ x ∈ l2, p < x.price)) ∨
    (∃ l1 l2, l = l1 ++ l2 ∧ (∀ x ∈ l1, x.price < p) ∧ (∀ x ∈ l2, p < x.price)) := by
  induction l with
  | nil => exact Or.inr ⟨[], [], rfl, by simp, by simp⟩
  | cons x xs ih =>
    rw [List.pairwise_cons] at hs
    rcases lt_trichotomy x.price p with hlt | heq | hgt
    · rcases ih hs.2 with ⟨l1, q, l2, h, hq, h1, h2⟩ | ⟨l1, l2, h, h1, h2⟩
      · refine Or.inl ⟨x :: l1, q, l2, by simp [h], hq, ?_, h2⟩
        intro y hy
        rcases List.mem_cons.1 hy with rfl | hy
        · exact hlt
        · exact h1 y hy
      · refine Or.inr ⟨x :: l1, l2, by simp [h], ?_, h2⟩
        intro y hy
        rcases List.mem_cons.1 hy with rfl | hy
        · exact hlt
        · exact h1 y hy
    · exact Or.inl ⟨[], x, xs, rfl, heq, by simp, fun y hy => heq ▸ hs.1 y hy⟩
    · exact Or.inr ⟨[], x :: xs, rfl, by simp, fun y hy => by
        rcases List.mem_cons.1 hy with rfl | hy
        · exact hgt
        · exact lt_trans hgt (hs.1 y hy)⟩

theorem sorted_mid {l1 l2 : List OrderQueue} {q : OrderQueue}
    (hs : (l1 ++ q :: l2).Pairwise (fun a b => a.price < b.price)) :
    (∀ x ∈ l1, x.price < q.price) ∧ (∀ x ∈ l2, q.price < x.price) := by
  rw [List.pairwise_append] at hs
  refine ⟨fun x hx => hs.2.2 x hx q (List.mem_cons_self _ _), fun x hx => ?_⟩
  exact (List.pairwise_cons.1 hs.2.1).1 x hx

theorem sorted_replace {l1 l2 : List OrderQueue} {q q' : OrderQueue}
    (hs : (l1 ++ q :: l2).Pairwise (fun a b => a.price < b.price)) (hp : q'.price = q.price) :
    (l1 ++ q' :: l2).Pairwise (fun a b => a.price < b.price) := by
  rw [List.pairwise_append] at hs ⊢
  refine ⟨hs.1, ?_, ?_⟩
  · rw [List.pairwise_cons] at hs ⊢
    exact ⟨fun x hx => hp ▸ hs.2.1.1 x hx, hs.2.1.2⟩
  · intro a ha b hb
    rcases List.mem_cons.1 hb with rfl | hb
    · rw [hp]; exact hs.2.2 a ha q (List.mem_cons_self _ _)
    · exact hs.2.2 a ha b (List.mem_cons_of_mem _ hb)

theorem sorted_drop {l1 l2 : List OrderQueue} {q : OrderQueue}
    (hs : (l1 ++ q :: l2).Pairwise (fun a b => a.price < b.price)) :
    (l1 ++ l2).Pairwise (fun a b => a.price < b.price) :=
  hs.sublist (List.Sublist.append_left (List.sublist_cons_self q l2) l1)

theorem sorted_insert {l1 l2 : List OrderQueue} {q : OrderQueue}
    (hs : (l1 ++ l2).Pairwise (fun a b => a.price < b.price))
    (h1 : ∀ x ∈ l1, x.price < q.price) (h2 : ∀ x ∈ l2, q.price < x.price) :
    (l1 ++ q :: l2).Pairwise (fun a b => a.price < b.price) := by
  rw [List.pairwise_append] at hs ⊢
  refine ⟨hs.1, List.pairwise_cons.2 ⟨h2, hs.2.1⟩, ?_⟩
  intro a ha b hb
  rcases List.mem_cons.1 hb with rfl | hb
  · exact h1 a ha
  · exact hs.2.2 a ha b hb

theorem modify_split (f : OrderQueue → OrderQueue) (l1 l2 : List OrderQueue) (q : OrderQueue)
    (h1 : ∀ x ∈ l1, x.ref ≠ q.ref) (h2 : ∀ x ∈ l2, x.ref ≠ q.ref) :
    (l1 ++ q :: l2).map (fun x => if x.ref = q.ref then f x else x) = l1 ++ f q :: l2 := by
  have e1 : l1.map (fun x => if x.ref = q.ref then f x else x) = l1 := by
    conv_rhs => rw [← List.map_id l1]
    exact List.map_congr_left (fun x hx => by simp [h1 x hx])
  have e2 : l2.map (fun x => if x.ref = q.ref then f x else x) = l2 := by
    conv_rhs => rw [← List.map_id l2]
    exact List.map_congr_left (fun x hx => by simp [h2 x hx])
  simp [e1, e2]

theorem modify_none (f : OrderQueue → OrderQueue) (l : List OrderQueue) (r : Nat)
    (h : ∀ x ∈ l, x.ref ≠ r) :
    l.map (fun x => if x.ref = r then f x else x) = l := by
  conv_rhs => rw [← List.map_id l]
  exact List.map_congr_left (fun x hx => by simp [h x hx])

theorem LevelOK.congr {values values' : Nat → Order} {sd : Side} {q : OrderQueue}
    (h : LevelOK values sd q) (hv : ∀ e ∈ q.orders, values' e = values e) :
    LevelOK values' sd q := by
  refine ⟨h.nonempty, ?_, ?_, h.price_pos⟩
  · rw [h.volume]
    congr 1
    exact List.map_congr_left (fun e he => by rw [hv e he])
  · intro e he
    rw [hv e he]
    exact h.elems e he




/-! ### Projections of modified books -/

@[simp] theorem setTree_side_same (ob : OrderBook) (s : SideRef) (l : List OrderQueue) :
    ((ob.setTree s l).side s).priceTree = l := by cases s <;> rfl

theorem setTree_side_ne (ob : OrderBook) {s s' : SideRef} (l : List OrderQueue) (h : s' ≠ s) :
    (ob.setTree s l).side s' = ob.side s' := by
  cases s <;> cases s' <;> first | rfl | exact absurd rfl h

@[simp] theorem setTree_orders (ob : OrderBook) (s : SideRef) (l : List OrderQueue) :
    (ob.setTree s l).orders = ob.orders := by cases s <;> rfl

@[simp] theorem setTree_values (ob : OrderBook) (s : SideRef) (l : List OrderQueue) :
    (ob.setTree s l).values = ob.values := by cases s <;> rfl

@[simp] theorem setTree_next (ob : OrderBook) (s : SideRef) (l : List OrderQueue) :
    (ob.setTree s l).next = ob.next := by cases s <;> rfl

theorem mem_refs {os : OrderSide} {e : Nat} :
    e ∈ os.refs ↔ ∃ q ∈ os.priceTree, e ∈ q.orders := by
  simp [OrderSide.refs, List.mem_flatMap]

theorem WF.mem_level {ob : OrderBook} (h : WF ob) {s : SideRef} {q : OrderQueue} {e : Nat}
    (hq : q ∈ (ob.side s).priceTree) (he : e ∈ q.orders) :
    (ob.values e).price = q.price ∧ (ob.values e).side = sideOf s ∧ 0 < (ob.values e).quantity :=
  (h.level s q hq).elems e he

/-- An element rests in one half only. -/
theorem WF.side_unique {ob : OrderBook} (h : WF ob) {s s' : SideRef} {e : Nat}
    (he : e ∈ (ob.side s).refs) (he' : e ∈ (ob.side s').refs) : s = s' := by
  obtain ⟨q, hq, hqe⟩ := mem_refs.1 he
  obtain ⟨q', hq', hqe'⟩ := mem_refs.1 he'
  have h1 := (h.mem_level hq hqe).2.1
  have h2 := (h.mem_level hq' hqe').2.1
  exact sideOf_injective (h1.symm.trans h2)

/-- An element rests in one level only. -/
theorem WF.level_unique {ob : OrderBook} (h : WF ob) {s : SideRef} {q q' : OrderQueue} {e : Nat}
    (hq : q ∈ (ob.side s).priceTree) (hq' : q' ∈ (ob.side s).priceTree)
    (he : e ∈ q.orders) (he' : e ∈ q'.orders) : q = q' := by
  have hp : q.price = q'.price :=
    (h.mem_level hq he).1.symm.trans (h.mem_level hq' he').1
  have hs := h.sorted s
  obtain ⟨l1, l2, hl⟩ := List.append_of_mem hq
  rw [hl] at hs hq'
  have hm := sorted_mid hs
  rcases List.mem_append.1 hq' with h1 | h1
  · exact absurd hp.symm (ne_of_lt (hm.1 q' h1))
  · rcases List.mem_cons.1 h1 with h1 | h1
    · exact h1.symm
    · exact absurd hp (ne_of_lt (hm.2 q' h1))

theorem refs_split (l1 l2 : List OrderQueue) (q : OrderQueue) :
    (OrderSide.mk (l1 ++ q :: l2)).refs =
      (OrderSide.mk l1).refs ++ q.orders ++ (OrderSide.mk l2).refs := by
  simp [OrderSide.refs, List.flatMap_append, List.flatMap_cons]

/-! ### cancelOrder -/

/-- The levels of a side after the element `e` has left the level `q`. -/
theorem cancelOrder_eq {ob : OrderBook} (h : WF ob) {s : SideRef} {l1 l2 : List OrderQueue}
    {q : OrderQueue} {e : Nat} (hs : (ob.side s).priceTree = l1 ++ q :: l2) (he : e ∈ q.orders) :
    ob.cancelOrder (ob.values e).id =
      (some (ob.values e),
        { ob.setTree s (l1 ++ (if q.orders.erase e = [] then l2
            else q.Remove e (ob.values e) :: l2)) with
          orders := Function.update ob.orders (ob.values e).id none }) := by
  have hq : q ∈ (ob.side s).priceTree := by rw [hs]; simp
  have hr : e ∈ (ob.side s).refs := mem_refs.2 ⟨q, hq, he⟩
  have hi := h.index_complete s e hr
  have hm := h.mem_level hq he
  have hsd := h.sorted s
  rw [hs] at hsd
  have hl1 : ∀ x ∈ l1, x.price ≠ (ob.values e).price := fun x hx => by
    rw [hm.1]; exact ne_of_lt ((sorted_mid hsd).1 x hx)
  have hlen : ((q.Remove e (ob.values e)).Len = 0) = (q.orders.erase e = []) := by
    simp [OrderQueue.Len, OrderQueue.Remove]
  cases s with
  | asks =>
    have hside : (ob.values e).side ≠ Side.Buy := by rw [hm.2.1]; simp [sideOf]
    simp only [side_asks] at hs
    simp only [OrderBook.cancelOrder, hi, hside, if_false, OrderSide.Remove, hs,
      removeLevel_split e _ l1 l2 q hl1 hm.1.symm, hlen, OrderBook.setTree]
  | bids =>
    have hside : (ob.values e).side = Side.Buy := by rw [hm.2.1]; simp [sideOf]
    simp only [side_bids] at hs
    simp only [OrderBook.cancelOrder, hi, hside, if_true, OrderSide.Remove, hs,
      removeLevel_split e _ l1 l2 q hl1 hm.1.symm, hlen, OrderBook.setTree]



theorem refs_remove {l1 l2 : List OrderQueue} {q : OrderQueue} {e : Nat} {v : Order}
    (hn : (OrderSide.mk (l1 ++ q :: l2)).refs.Nodup) (he : e ∈ q.orders) :
    (OrderSide.mk (l1 ++ (if q.orders.erase e = [] then l2 else q.Remove e v :: l2))).refs =
      (OrderSide.mk (l1 ++ q :: l2)).refs.erase e := by
  rw [refs_split] at hn ⊢
  have hd : e ∉ (OrderSide.mk l1).refs := by
    intro h1
    have := (List.nodup_append.1 (List.nodup_append.1 hn).1).2.2
    exact this h1 he
  rw [List.append_assoc, List.erase_append_right _ hd, List.erase_append_left _ he]
  split_ifs with h0
  · simp [OrderSide.refs, h0, List.flatMap_append]
  · simp [OrderSide.refs, List.flatMap_append, List.flatMap_cons, OrderQueue.Remove]

theorem mem_remove {l1 l2 : List OrderQueue} {q x : OrderQueue} {e : Nat} {v : Order}
    (hx : x ∈ l1 ++ (if q.orders.erase e = [] then l2 else q.Remove e v :: l2)) :
    x ∈ l1 ++ q :: l2 ∨ (x = q.Remove e v ∧ q.orders.erase e ≠ []) := by
  rcases List.mem_append.1 hx with h | h
  · exact Or.inl (List.mem_append_left _ h)
  · split_ifs at h with h0
    · exact Or.inl (List.mem_append_right _ (List.mem_cons_of_mem _ h))
    · rcases List.mem_cons.1 h with h | h
      · exact Or.inr ⟨h, h0⟩
      · exact Or.inl (List.mem_append_right _ (List.mem_cons_of_mem _ h))

/-- Removing a resting order through `cancelOrder` keeps the book well-formed. -/
theorem WF_remove {ob : OrderBook} (h : WF ob) {s : SideRef} {l1 l2 : List OrderQueue}
    {q : OrderQueue} {e : Nat} (hs : (ob.side s).priceTree = l1 ++ q :: l2) (he : e ∈ q.orders) :
    WF { ob.setTree s (l1 ++ (if q.orders.erase e = [] then l2
            else q.Remove e (ob.values e) :: l2)) with
          orders := Function.update ob.orders (ob.values e).id none } := by
  have hq : q ∈ (ob.side s).priceTree := by rw [hs]; simp
  have hr : e ∈ (ob.side s).refs := mem_refs.2 ⟨q, hq, he⟩
  have hsd := h.sorted s
  rw [hs] at hsd
  have hnd := h.refs_nodup s
  have hside : ob.side s = OrderSide.mk (l1 ++ q :: l2) := by
    cases hh : ob.side s; rw [hh] at hs; simp at hs; rw [hs]
  rw [hside] at hnd
  set T' := l1 ++ (if q.orders.erase e = [] then l2 else q.Remove e (ob.values e) :: l2) with hT'
  set ob' : OrderBook := { ob.setTree s T' with
          orders := Function.update ob.orders (ob.values e).id none } with hob'
  have hsame : (ob'.side s).priceTree = T' := setTree_side_same ob s T'
  have hsame' : ob'.side s = OrderSide.mk T' := by
    cases hh : ob'.side s; rw [hh] at hsame; simp at hsame; rw [hsame]
  have hne : ∀ s', s' ≠ s → ob'.side s' = ob.side s' := fun s' hs' => setTree_side_ne ob T' hs'
  have hval : ob'.values = ob.values := setTree_values ob s T'
  have hnext : ob'.next = ob.next := setTree_next ob s T'
  have hord : ob'.orders = Function.update ob.orders (ob.values e).id none := rfl
  have hrefs : (ob'.side s).refs = (ob.side s).refs.erase e := by
    rw [hsame', hside]; exact refs_remove hnd he
  have hold : ∀ s' x, x ∈ (ob'.side s').priceTree →
      x ∈ (ob.side s').priceTree ∨ (s' = s ∧ x = q.Remove e (ob.values e) ∧ q.orders.erase e ≠ []) := by
    intro s' x hx
    by_cases hss : s' = s
    · subst hss
      rw [hsame] at hx
      rcases mem_remove hx with h1 | h1
      · exact Or.inl (hs ▸ h1)
      · exact Or.inr ⟨rfl, h1⟩
    · rw [hne s' hss] at hx; exact Or.inl hx
  have hmemrefs : ∀ s' e', e' ∈ (ob'.side s').refs ↔ e' ∈ (ob.side s').refs ∧ e' ≠ e := by
    intro s' e'
    by_cases hss : s' = s
    · subst hss
      rw [hrefs, (h.refs_nodup s').mem_erase_iff]; tauto
    · rw [hne s' hss]
      constructor
      · intro h1
        refine ⟨h1, fun h2 => hss ?_⟩
        subst h2
        exact h.side_unique h1 hr
      · exact fun h1 => h1.1
  refine ⟨?_, ?_, ?_, ?_, ?_, ?_, ?_, ?_⟩
  · intro s'
    by_cases hss : s' = s
    · subst hss
      rw [hsame, hT']
      split_ifs
      · exact sorted_drop hsd
      · exact sorted_replace hsd rfl
    · rw [hne s' hss]; exact h.sorted s'
  · intro s' x hx
    rw [hval]
    rcases hold s' x hx with h1 | ⟨rfl, rfl, h0⟩
    · exact h.level s' x h1
    · have hlq := h.level s' q hq
      refine ⟨h0, ?_, ?_, hlq.price_pos⟩
      · simp only [OrderQueue.Remove]
        rw [hlq.volume, ← List.sum_map_erase (fun e => (ob.values e).quantity) he]
        ring
      · intro e' he'
        exact hlq.elems e' (List.mem_of_mem_erase he')
  · intro s'
    by_cases hss : s' = s
    · subst hss; rw [hrefs]; exact (h.refs_nodup s').erase e
    · rw [hne s' hss]; exact h.refs_nodup s'
  · intro s' e' he'
    rw [hnext]
    exact h.refs_lt s' e' ((hmemrefs s' e').1 he').1
  · intro s1 s2 x hx y hy hxy
    have hx0 : ∃ x0 ∈ (ob.side s1).priceTree, x0.ref = x.ref ∧ x0.price = x.price := by
      rcases hold s1 x hx with h1 | ⟨rfl, rfl, _⟩
      · exact ⟨x, h1, rfl, rfl⟩
      · exact ⟨q, hq, rfl, rfl⟩
    have hy0 : ∃ y0 ∈ (ob.side s2).priceTree, y0.ref = y.ref ∧ y0.price = y.price := by
      rcases hold s2 y hy with h1 | ⟨rfl, rfl, _⟩
      · exact ⟨y, h1, rfl, rfl⟩
      · exact ⟨q, hq, rfl, rfl⟩
    obtain ⟨x0, hx0m, hx0r, hx0p⟩ := hx0
    obtain ⟨y0, hy0m, hy0r, hy0p⟩ := hy0
    have := h.qref_inj s1 s2 x0 hx0m y0 hy0m (by rw [hx0r, hy0r, hxy])
    exact ⟨this.1, by rw [← hx0p, ← hy0p, this.2]⟩
  · intro s' x hx
    rw [hnext]
    rcases hold s' x hx with h1 | ⟨rfl, rfl, _⟩
    · exact h.qrefs_lt s' x h1
    · exact h.qrefs_lt s' q hq
  · intro id e' hid
    rw [hord] at hid
    by_cases hidd : id = (ob.values e).id
    · subst hidd; simp at hid
    · rw [Function.update_noteq hidd] at hid
      rw [hval]
      have := h.index_sound id e' hid
      refine ⟨this.1, (hmemrefs _ e').2 ⟨this.2, ?_⟩⟩
      rintro rfl
      exact hidd this.1.symm
  · intro s' e' he'
    rw [hval, hord]
    have h1 := (hmemrefs s' e').1 he'
    have h2 := h.index_complete s' e' h1.1
    have hidd : (ob.values e').id ≠ (ob.values e).id := by
      intro heq
      rw [heq, h.index_complete s e hr] at h2
      exact h1.2 (Option.some.inj h2).symm
    rw [Function.update_noteq hidd]
    exact h2

/-! ### Update -/

theorem sum_map_update {l : List Nat} (hn : l.Nodup) {e : Nat} (he : e ∈ l) (f : Nat → Order)
    (o : Order) :
    (l.map (fun x => (Function.update f e o x).quantity)).sum =
      (l.map (fun x => (f x).quantity)).sum - (f e).quantity + o.quantity := by
  induction l with
  | nil => cases he
  | cons a as ih =>
    rw [List.nodup_cons] at hn
    rcases List.mem_cons.1 he with rfl | he'
    · have : as.map (fun x => (Function.update f e o x).quantity) =
          as.map (fun x => (f x).quantity) :=
        List.map_congr_left (fun x hx => by
          have : x ≠ e := fun hxe => hn.1 (hxe ▸ hx)
          simp [Function.update_noteq this])
      simp [this]
      ring
    · have hae : a ≠ e := fun hae => hn.1 (hae ▸ he')
      simp only [List.map_cons, List.sum_cons, Function.update_noteq hae, ih hn.2 he']
      ring

theorem WF.qref_split {ob : OrderBook} (h : WF ob) {s : SideRef} {l1 l2 : List OrderQueue}
    {q : OrderQueue} (hs : (ob.side s).priceTree = l1 ++ q :: l2) :
    (∀ x ∈ l1, x.ref ≠ q.ref) ∧ (∀ x ∈ l2, x.ref ≠ q.ref) ∧
      ∀ s', s' ≠ s → ∀ x ∈ (ob.side s').priceTree, x.ref ≠ q.ref := by
  have hq : q ∈ (ob.side s).priceTree := by rw [hs]; simp
  have hsd := h.sorted s
  rw [hs] at hsd
  have hm := sorted_mid hsd
  refine ⟨fun x hx hr => ?_, fun x hx hr => ?_, fun s' hs' x hx hr => ?_⟩
  · have := (h.qref_inj s s x (by rw [hs]; simp [hx]) q hq hr).2
    exact absurd this (ne_of_lt (hm.1 x hx))
  · have := (h.qref_inj s s x (by rw [hs]; simp [hx]) q hq hr).2
    exact absurd this.symm (ne_of_lt (hm.2 x hx))
  · exact hs' (h.qref_inj s' s x hx q hq hr).1

theorem side_eq_mk {os : OrderSide} {l : List OrderQueue} (h : os.priceTree = l) :
    os = OrderSide.mk l := by
  cases os; simp at h; rw [h]

theorem Update_eq {ob : OrderBook} (h : WF ob) {s : SideRef} {l1 l2 : List OrderQueue}
    {q : OrderQueue} (hs : (ob.side s).priceTree = l1 ++ q :: l2) (e : Nat) (o : Order) :
    ob.Update q.ref e o =
      { ob.setTree s (l1 ++ q.Update (ob.values e) o :: l2) with
        values := Function.update ob.values e o } := by
  obtain ⟨h1, h2, h3⟩ := h.qref_split hs
  cases s with
  | asks =>
    simp only [side_asks] at hs
    have hb := modify_none (fun q => q.Update (ob.values e) o) ob.bids.priceTree q.ref
      (h3 SideRef.bids (by simp))
    simp only [side_bids] at hb
    simp only [OrderBook.Update, OrderSide.modify, hs, modify_split _ l1 l2 q h1 h2, hb,
      OrderBook.setTree]
  | bids =>
    simp only [side_bids] at hs
    have hb := modify_none (fun q => q.Update (ob.values e) o) ob.asks.priceTree q.ref
      (h3 SideRef.asks (by simp))
    simp only [side_asks] at hb
    simp only [OrderBook.Update, OrderSide.modify, hs, modify_split _ l1 l2 q h1 h2, hb,
      OrderBook.setTree]

/-- Replacing the value of a resting element by an order with the same id, side and price and a
positive quantity keeps the book well-formed. -/
theorem WF_update {ob : OrderBook} (h : WF ob) {s : SideRef} {l1 l2 : List OrderQueue}
    {q : OrderQueue} {e : Nat} (hs : (ob.side s).priceTree = l1 ++ q :: l2) (he : e ∈ q.orders)
    {o : Order} (hid : o.id = (ob.values e).id) (hsd : o.side = (ob.values e).side)
    (hp : o.price = (ob.values e).price) (hqty : 0 < o.quantity) :
    WF { ob.setTree s (l1 ++ q.Update (ob.values e) o :: l2) with
        values := Function.update ob.values e o } := by
  have hq : q ∈ (ob.side s).priceTree := by rw [hs]; simp
  have hr : e ∈ (ob.side s).refs := mem_refs.2 ⟨q, hq, he⟩
  have hsort := h.sorted s
  rw [hs] at hsort
  set T' := l1 ++ q.Update (ob.values e) o :: l2 with hT'
  set ob' : OrderBook := { ob.setTree s T' with values := Function.update ob.values e o } with hob'
  have hsame : (ob'.side s).priceTree = T' := setTree_side_same ob s T'
  have hne : ∀ s', s' ≠ s → ob'.side s' = ob.side s' := fun s' hs' => setTree_side_ne ob T' hs'
  have hval : ob'.values = Function.update ob.values e o := rfl
  have hnext : ob'.next = ob.next := setTree_next ob s T'
  have hord : ob'.orders = ob.orders := setTree_orders ob s T'
  have hrefs : ∀ s', (ob'.side s').refs = (ob.side s').refs := by
    intro s'
    by_cases hss : s' = s
    · subst hss
      rw [side_eq_mk hsame, side_eq_mk hs, hT', refs_split, refs_split]
      rfl
    · rw [hne s' hss]
  have hold : ∀ s' x, x ∈ (ob'.side s').priceTree →
      (x ∈ (ob.side s').priceTree ∧ e ∉ x.orders) ∨
      (s' = s ∧ x = q.Update (ob.values e) o) := by
    intro s' x hx
    by_cases hss : s' = s
    · subst hss
      rw [hsame, hT'] at hx
      have hxx : x = q.Update (ob.values e) o ∨ x ∈ l1 ++ l2 := by
        simp only [List.mem_append, List.mem_cons] at hx ⊢; tauto
      rcases hxx with h1 | h1
      · exact Or.inr ⟨rfl, h1⟩
      · have hxm : x ∈ (ob.side s').priceTree := by
          rw [hs]; simp only [List.mem_append, List.mem_cons] at h1 ⊢; tauto
        refine Or.inl ⟨hxm, fun hex => ?_⟩
        have := h.level_unique hxm hq hex he
        subst this
        have hm := sorted_mid hsort
        rcases List.mem_append.1 h1 with h1 | h1
        · exact lt_irrefl _ (hm.1 x h1)
        · exact lt_irrefl _ (hm.2 x h1)
    · rw [hne s' hss] at hx
      refine Or.inl ⟨hx, fun hex => hss ?_⟩
      exact h.side_unique (mem_refs.2 ⟨x, hx, hex⟩) hr
  have hvside : ∀ e', (ob'.values e').side = (ob.values e').side := by
    intro e'
    rw [hval]
    by_cases hee : e' = e
    · subst hee; simp [hsd]
    · rw [Function.update_noteq hee]
  have hvid : ∀ e', (ob'.values e').id = (ob.values e').id := by
    intro e'
    rw [hval]
    by_cases hee : e' = e
    · subst hee; simp [hid]
    · rw [Function.update_noteq hee]
  refine ⟨?_, ?_, ?_, ?_, ?_, ?_, ?_, ?_⟩
  · intro s'
    by_cases hss : s' = s
    · subst hss
      rw [hsame, hT']
      exact sorted_replace hsort rfl
    · rw [hne s' hss]; exact h.sorted s'
  · intro s' x hx
    rcases hold s' x hx with ⟨h1, h2⟩ | ⟨rfl, rfl⟩
    · refine (h.level s' x h1).congr (fun e' he' => ?_)
      rw [hval, Function.update_noteq]
      rintro rfl
      exact h2 he'
    · have hlq := h.level s' q hq
      have hnd : q.orders.Nodup := by
        have := h.refs_nodup s'
        rw [side_eq_mk hs, refs_split] at this
        exact (List.nodup_append.1 (List.nodup_append.1 this).1).2.1
      refine ⟨hlq.nonempty, ?_, ?_, hlq.price_pos⟩
      · simp only [OrderQueue.Update, hval]
        rw [sum_map_update hnd he, hlq.volume]
      · intro e' he'
        rw [hval]
        by_cases hee : e' = e
        · subst hee
          simp only [Function.update_same, OrderQueue.Update]
          have := hlq.elems e' he'
          exact ⟨hp.trans this.1, hsd.trans this.2.1, hqty⟩
        · rw [Function.update_noteq hee]
          exact hlq.elems e' he'
  · intro s'; rw [hrefs]; exact h.refs_nodup s'
  · intro s' e' he'
    rw [hnext]; rw [hrefs] at he'
    exact h.refs_lt s' e' he'
  · intro s1 s2 x hx y hy hxy
    have hx0 : ∃ x0 ∈ (ob.side s1).priceTree, x0.ref = x.ref ∧ x0.price = x.price := by
      rcases hold s1 x hx with h1 | ⟨rfl, rfl⟩
      · exact ⟨x, h1.1, rfl, rfl⟩
      · exact ⟨q, hq, rfl, rfl⟩
    have hy0 : ∃ y0 ∈ (ob.side s2).priceTree, y0.ref = y.ref ∧ y0.price = y.price := by
      rcases hold s2 y hy with h1 | ⟨rfl, rfl⟩
      · exact ⟨y, h1.1, rfl, rfl⟩
      · exact ⟨q, hq, rfl, rfl⟩
    obtain ⟨x0, hx0m, hx0r, hx0p⟩ := hx0
    obtain ⟨y0, hy0m, hy0r, hy0p⟩ := hy0
    have := h.qref_inj s1 s2 x0 hx0m y0 hy0m (by rw [hx0r, hy0r, hxy])
    exact ⟨this.1, by rw [← hx0p, ← hy0p, this.2]⟩
  · intro s' x hx
    rw [hnext]
    rcases hold s' x hx with h1 | ⟨rfl, rfl⟩
    · exact h.qrefs_lt s' x h1.1
    · exact h.qrefs_lt s' q hq
  · intro id e' hid'
    rw [hord] at hid'
    have := h.index_sound id e' hid'
    rw [hvid, hvside, hrefs]
    exact this
  · intro s' e' he'
    rw [hrefs] at he'
    rw [hvid, hord]
    exact h.index_complete s' e' he'

/-! ### Append -/

theorem Append_eq (ob : OrderBook) (s : SideRef) (o : Order) :
    ob.Append s o =
      { ob.setTree s (appendLevel ob.next ob.next o (ob.side s).priceTree) with
        orders := Function.update ob.orders o.id (some ob.next),
        values := Function.update ob.values ob.next o,
        next := ob.next + 1 } := by
  cases s <;> rfl

/-- The two ways `appendLevel` acts on a sorted list: the level exists, or it is created. -/
theorem appendLevel_cases {T : List OrderQueue}
    (hs : T.Pairwise (fun a b => a.price < b.price)) (qref e : Nat) (o : Order) :
    ∃ l1 l2 q0 mid, T = l1 ++ mid ++ l2 ∧
      appendLevel qref e o T = l1 ++ q0.Append e o :: l2 ∧ q0.price = o.price ∧
      (mid = [q0] ∨ (mid = [] ∧ q0 = NewOrderQueue qref o.price)) ∧
      (∀ x ∈ l1, x.price < o.price) ∧ (∀ x ∈ l2, o.price < x.price) := by
  rcases sorted_split o.price T hs with ⟨l1, q, l2, h, hq, h1, h2⟩ | ⟨l1, l2, h, h1, h2⟩
  · refine ⟨l1, l2, q, [q], by simp [h], ?_, hq, Or.inl rfl, h1, h2⟩
    rw [h]; exact appendLevel_split_found qref e o l1 l2 q h1 hq
  · refine ⟨l1, l2, NewOrderQueue qref o.price, [], by simp [h], ?_, rfl, Or.inr ⟨rfl, rfl⟩, h1, h2⟩
    rw [h]; exact appendLevel_split_new qref e o l1 l2 h1 h2

/-- Appending an order with a fresh id to the half of its side keeps the book well-formed. -/
theorem WF_append {ob : OrderBook} (h : WF ob) {s : SideRef} {o : Order}
    (hid : ob.orders o.id = none) (hside : o.side = sideOf s) (hqty : 0 < o.quantity)
    (hprice : 0 < o.price) : WF (ob.Append s o) := by
  rw [Append_eq]
  obtain ⟨l1, l2, q0, mid, hT, hT', hq0p, hmid, hl1, hl2⟩ :=
    appendLevel_cases (h.sorted s) ob.next ob.next o
  rw [hT']
  set T' := l1 ++ q0.Append ob.next o :: l2 with hTd
  set ob' : OrderBook := { ob.setTree s T' with
        orders := Function.update ob.orders o.id (some ob.next),
        values := Function.update ob.values ob.next o,
        next := ob.next + 1 } with hob'
  have hsame : (ob'.side s).priceTree = T' := setTree_side_same ob s T'
  have hne : ∀ s', s' ≠ s → ob'.side s' = ob.side s' := fun s' hs' => setTree_side_ne ob T' hs'
  have hval : ob'.values = Function.update ob.values ob.next o := rfl
  have hnext : ob'.next = ob.next + 1 := rfl
  have hord : ob'.orders = Function.update ob.orders o.id (some ob.next) := rfl
  have hfresh : ∀ s', ob.next ∉ (ob.side s').refs := fun s' hm =>
    lt_irrefl _ (h.refs_lt s' _ hm)
  have hvold : ∀ s' e', e' ∈ (ob.side s').refs → ob'.values e' = ob.values e' := by
    intro s' e' he'
    rw [hval, Function.update_noteq]
    rintro rfl
    exact hfresh s' he'
  have hl1m : ∀ x ∈ l1, x ∈ (ob.side s).priceTree := fun x hx => by rw [hT]; simp [hx]
  have hl2m : ∀ x ∈ l2, x ∈ (ob.side s).priceTree := fun x hx => by rw [hT]; simp [hx]
  -- the level the order joins: its old elements are resting elements of the side
  have hq0 : (mid = [q0] ∧ q0 ∈ (ob.side s).priceTree) ∨
      (mid = [] ∧ q0 = NewOrderQueue ob.next o.price) := by
    rcases hmid with h1 | h1
    · exact Or.inl ⟨h1, by rw [hT, h1]; simp⟩
    · exact Or.inr h1
  have hq0refs : ∀ e' ∈ q0.orders, e' ∈ (ob.side s).refs := by
    intro e' he'
    rcases hq0 with ⟨_, h1⟩ | ⟨_, h1⟩
    · exact mem_refs.2 ⟨q0, h1, he'⟩
    · rw [h1] at he'; simp [NewOrderQueue] at he'
  have hq0ref : q0.ref ≤ ob.next := by
    rcases hq0 with ⟨_, h1⟩ | ⟨_, h1⟩
    · exact le_of_lt (h.qrefs_lt s q0 h1)
    · rw [h1]; simp [NewOrderQueue]
  have hold : ∀ s' x, x ∈ (ob'.side s').priceTree →
      x ∈ (ob.side s').priceTree ∨ (s' = s ∧ x = q0.Append ob.next o) := by
    intro s' x hx
    by_cases hss : s' = s
    · subst hss
      rw [hsame, hTd] at hx
      simp only [List.mem_append, List.mem_cons] at hx
      rcases hx with h1 | h1 | h1
      · exact Or.inl (hl1m x h1)
      · exact Or.inr ⟨rfl, h1⟩
      · exact Or.inl (hl2m x h1)
    · rw [hne s' hss] at hx; exact Or.inl hx
  have hrefsT : (ob.side s).refs = (OrderSide.mk l1).refs ++ q0.orders ++ (OrderSide.mk l2).refs := by
    rw [side_eq_mk hT]
    rcases hq0 with ⟨h1, _⟩ | ⟨h1, h2⟩
    · rw [h1]; simp [OrderSide.refs, List.flatMap_append]
    · rw [h1, h2]; simp [OrderSide.refs, List.flatMap_append, NewOrderQueue]
  have hrefsT' : (ob'.side s).refs =
      (OrderSide.mk l1).refs ++ (q0.orders ++ [ob.next]) ++ (OrderSide.mk l2).refs := by
    rw [side_eq_mk hsame, hTd, refs_split]; rfl
  have hmemrefs : ∀ s' e', e' ∈ (ob'.side s').refs ↔
      e' ∈ (ob.side s').refs ∨ (s' = s ∧ e' = ob.next) := by
    intro s' e'
    by_cases hss : s' = s
    · subst hss
      rw [hrefsT', hrefsT]
      simp only [List.mem_append, List.mem_singleton]
      tauto
    · rw [hne s' hss]; tauto
  refine ⟨?_, ?_, ?_, ?_, ?_, ?_, ?_, ?_⟩
  · intro s'
    by_cases hss : s' = s
    · subst hss
      rw [hsame, hTd]
      have hsd := h.sorted s'
      rw [hT] at hsd
      rcases hq0 with ⟨h1, _⟩ | ⟨h1, h2⟩
      · rw [h1] at hsd
        simp only [List.append_assoc, List.singleton_append] at hsd
        exact sorted_replace hsd rfl
      · rw [h1] at hsd
        simp only [List.append_nil] at hsd
        refine sorted_insert hsd ?_ ?_
        · intro x hx; simp only [OrderQueue.Append, hq0p]; exact hl1 x hx
        · intro x hx; simp only [OrderQueue.Append, hq0p]; exact hl2 x hx
    · rw [hne s' hss]; exact h.sorted s'
  · intro s' x hx
    rcases hold s' x hx with h1 | ⟨rfl, rfl⟩
    · exact (h.level s' x h1).congr (fun e' he' => hvold s' e' (mem_refs.2 ⟨x, h1, he'⟩))
    · have hsum : (q0.orders.map (fun e => (ob'.values e).quantity)).sum =
          (q0.orders.map (fun e => (ob.values e).quantity)).sum := by
        congr 1
        exact List.map_congr_left (fun e' he' => by rw [hvold s' e' (hq0refs e' he')])
      have hvol : q0.volume = (q0.orders.map (fun e => (ob.values e).quantity)).sum := by
        rcases hq0 with ⟨_, h1⟩ | ⟨_, h1⟩
        · exact (h.level s' q0 h1).volume
        · rw [h1]; simp [NewOrderQueue]
      refine ⟨by simp [OrderQueue.Append], ?_, ?_, ?_⟩
      · simp only [OrderQueue.Append, List.map_append, List.sum_append, hsum, hvol,
          List.map_cons, List.map_nil, List.sum_cons, List.sum_nil, add_zero]
        simp [hval]
      · intro e' he'
        simp only [OrderQueue.Append, List.mem_append, List.mem_singleton] at he' ⊢
        rcases he' with he' | rfl
        · have hv := hvold s' e' (hq0refs e' he')
          rw [hval] at hv
          rw [hv]
          rcases hq0 with ⟨_, h1⟩ | ⟨_, h1⟩
          · exact (h.level s' q0 h1).elems e' he'
          · rw [h1] at he'; simp [NewOrderQueue] at he'
        · rw [Function.update_same]
          exact ⟨hq0p.symm, hside, hqty⟩
      · simp only [OrderQueue.Append, hq0p]; exact hprice
  · intro s'
    by_cases hss : s' = s
    · subst hss
      rw [hrefsT']
      have hnd := h.refs_nodup s'
      rw [hrefsT] at hnd
      have hf := hfresh s'
      rw [hrefsT] at hf
      simp only [List.mem_append, not_or] at hf
      simp only [List.nodup_append, List.disjoint_left, List.mem_append, List.mem_singleton,
        List.nodup_cons, List.not_mem_nil, not_false_eq_true, List.nodup_nil, and_true,
        true_and] at hnd ⊢
      refine ⟨⟨hnd.1.1, ⟨hnd.1.2.1, ?_⟩, ?_⟩, hnd.2.1, ?_⟩
      · rintro a ha rfl; exact hf.1.2 ha
      · rintro a ha (h1 | rfl)
        · exact hnd.1.2.2 ha h1
        · exact hf.1.1 ha
      · rintro a (h1 | h1 | rfl) h2
        · exact hnd.2.2 (Or.inl h1) h2
        · exact hnd.2.2 (Or.inr h1) h2
        · exact hf.2 h2
    · rw [hne s' hss]; exact h.refs_nodup s'
  · intro s' e' he'
    rw [hnext]
    rcases (hmemrefs s' e').1 he' with h1 | ⟨_, rfl⟩
    · exact Nat.lt_succ_of_lt (h.refs_lt s' e' h1)
    · exact Nat.lt_succ_self _
  · intro s1 s2 x hx y hy hxy
    rcases hold s1 x hx with hx1 | ⟨rfl, rfl⟩ <;> rcases hold s2 y hy with hy1 | ⟨rfl, rfl⟩
    · exact h.qref_inj s1 s2 x hx1 y hy1 hxy
    · simp only [OrderQueue.Append] at hxy ⊢
      rcases hq0 with ⟨_, h1⟩ | ⟨_, h1⟩
      · exact h.qref_inj s1 s2 x hx1 q0 h1 hxy
      · have := h.qrefs_lt s1 x hx1
        rw [hxy, h1] at this
        simp [NewOrderQueue] at this
    · simp only [OrderQueue.Append] at hxy ⊢
      rcases hq0 with ⟨_, h1⟩ | ⟨_, h1⟩
      · exact h.qref_inj s1 s2 q0 h1 y hy1 hxy
      · have := h.qrefs_lt s2 y hy1
        rw [← hxy, h1] at this
        simp [NewOrderQueue] at this
    · exact ⟨rfl, rfl⟩
  · intro s' x hx
    rw [hnext]
    rcases hold s' x hx with h1 | ⟨rfl, rfl⟩
    · exact Nat.lt_succ_of_lt (h.qrefs_lt s' x h1)
    · exact Nat.lt_succ_of_le hq0ref
  · intro id e' hid'
    rw [hord] at hid'
    by_cases hidd : id = o.id
    · subst hidd
      rw [Function.update_same] at hid'
      have : e' = ob.next := (Option.some.inj hid').symm
      subst this
      rw [hval, Function.update_same, hside, halfOf_sideOf]
      exact ⟨rfl, (hmemrefs s _).2 (Or.inr ⟨rfl, rfl⟩)⟩
    · rw [Function.update_noteq hidd] at hid'
      have hs0 := h.index_sound id e' hid'
      have hv := hvold _ e' hs0.2
      rw [hv]
      exact ⟨hs0.1, (hmemrefs _ e').2 (Or.inl hs0.2)⟩
  · intro s' e' he'
    rw [hord]
    rcases (hmemrefs s' e').1 he' with h1 | ⟨_, rfl⟩
    · rw [hvold s' e' h1]
      have hc := h.index_complete s' e' h1
      have hidd : (ob.values e').id ≠ o.id := by
        intro heq; rw [heq, hid] at hc; cases hc
      rw [Function.update_noteq hidd]; exact hc
    · rw [hval, Function.update_same, Function.update_same]

/-! ### The best-first view of a side -/

theorem view_cases (ob : OrderBook) (s : SideRef) {q : OrderQueue} {rest : List OrderQueue}
    (hv : ob.view s = q :: rest) :
    ∃ l1 l2, (ob.side s).priceTree = l1 ++ q :: l2 ∧
      ∀ (ob1 : OrderBook) (X : List OrderQueue), (ob1.side s).priceTree = l1 ++ X ++ l2 →
        X.length ≤ 1 → ob1.view s = X ++ rest := by
  cases s with
  | asks =>
    refine ⟨[], rest, by simpa [OrderBook.view] using hv, ?_⟩
    intro ob1 X h1 _
    simpa [OrderBook.view] using h1
  | bids =>
    have h0 : ob.bids.priceTree = rest.reverse ++ [q] := by
      have := congrArg List.reverse hv
      simpa [OrderBook.view] using this
    refine ⟨rest.reverse, [], by simpa using h0, ?_⟩
    intro ob1 X h1 hX
    simp only [side_bids, List.append_nil] at h1
    simp only [OrderBook.view, h1, List.reverse_append, List.reverse_reverse]
    match X, hX with
    | [], _ => rfl
    | [x], _ => rfl

theorem mem_view {ob : OrderBook} {s : SideRef} {q : OrderQueue} :
    q ∈ ob.view s ↔ q ∈ (ob.side s).priceTree := by
  cases s <;> simp [OrderBook.view]

theorem best_eq_view (ob : OrderBook) (s : SideRef) : ob.best s = (ob.view s).head? := by
  cases s
  · rfl
  · simp [OrderBook.best, OrderBook.view, OrderSide.MaxPriceQueue, List.head?_reverse]

theorem Len_eq_view (ob : OrderBook) (s : SideRef) :
    (ob.side s).Len = ((ob.view s).map OrderQueue.Len).sum := by
  cases s
  · rfl
  · simp [OrderBook.view, OrderSide.Len, List.sum_reverse]

theorem WF.Len_pos {ob : OrderBook} (h : WF ob) (s : SideRef) :
    0 < (ob.side s).Len ↔ ob.view s ≠ [] := by
  rw [Len_eq_view]
  constructor
  · intro h1 h2; rw [h2] at h1; simp at h1
  · intro h1
    obtain ⟨q, rest, hq⟩ := List.exists_cons_of_ne_nil h1
    rw [hq]
    have hm : q ∈ (ob.side s).priceTree := mem_view.1 (by rw [hq]; simp)
    have := (h.level s q hm).nonempty
    have hl : 0 < q.Len := by
      simp only [OrderQueue.Len]; exact List.length_pos.2 this
    simp only [List.map_cons, List.sum_cons]
    omega

/-- Two levels of one side at the same price are the same level. -/
theorem WF.level_eq_of_price {ob : OrderBook} (h : WF ob) {s : SideRef} {q q' : OrderQueue}
    (hq : q ∈ (ob.side s).priceTree) (hq' : q' ∈ (ob.side s).priceTree)
    (hp : q.price = q'.price) : q = q' := by
  have hs := h.sorted s
  obtain ⟨l1, l2, hl⟩ := List.append_of_mem hq
  rw [hl] at hs hq'
  have hm := sorted_mid hs
  rcases List.mem_append.1 hq' with h1 | h1
  · exact absurd hp.symm (ne_of_lt (hm.1 q' h1))
  · rcases List.mem_cons.1 h1 with h1 | h1
    · exact h1.symm
    · exact absurd hp (ne_of_lt (hm.2 q' h1))

theorem WF.queue_eq {ob : OrderBook} (h : WF ob) {s : SideRef} {q : OrderQueue}
    (hq : q ∈ (ob.side s).priceTree) : ob.queue q.ref = some q := by
  unfold OrderBook.queue
  have hmem : q ∈ ob.asks.priceTree ++ ob.bids.priceTree := by
    cases s
    · exact List.mem_append_left _ hq
    · exact List.mem_append_right _ hq
  cases hf : (ob.asks.priceTree ++ ob.bids.priceTree).find? (fun x => decide (x.ref = q.ref)) with
  | none =>
    have := List.find?_eq_none.1 hf q hmem
    simp at this
  | some x =>
    have hx1 := List.find?_some hf
    have hx2 := List.mem_of_find?_eq_some hf
    simp only [decide_eq_true_eq] at hx1
    have hx3 : ∃ s', x ∈ (ob.side s').priceTree := by
      rcases List.mem_append.1 hx2 with h1 | h1
      · exact ⟨SideRef.asks, h1⟩
      · exact ⟨SideRef.bids, h1⟩
    obtain ⟨s', hs'⟩ := hx3
    have := h.qref_inj s' s x hs' q hq hx1
    obtain ⟨rfl, hp⟩ := this
    rw [h.level_eq_of_price hs' hq hp]

theorem queue_none {ob : OrderBook} {r : Nat}
    (h : ∀ s, ∀ x ∈ (ob.side s).priceTree, x.ref ≠ r) : ob.queue r = none := by
  unfold OrderBook.queue
  rw [List.find?_eq_none]
  intro x hx
  simp only [decide_eq_true_eq]
  rcases List.mem_append.1 hx with h1 | h1
  · exact h SideRef.asks x h1
  · exact h SideRef.bids x h1

/-- The effect of `cancelOrder` on the oldest order of the best level. -/
theorem pop_spec {ob : OrderBook} (h : WF ob) {s : SideRef} {q : OrderQueue}
    {rest : List OrderQueue} (hv : ob.view s = q :: rest) {e : Nat} {es : List Nat}
    (hq : q.orders = e :: es) :
    ∃ ob1, ob.cancelOrder (ob.values e).id = (some (ob.values e), ob1) ∧ WF ob1 ∧
      ob1.view s = (if es = [] then rest else q.Remove e (ob.values e) :: rest) ∧
      (q.Remove e (ob.values e)).orders = es ∧
      (es = [] → ob1.queue q.ref = none) ∧
      (∀ s', s' ≠ s → ob1.side s' = ob.side s') ∧
      ob1.values = ob.values ∧ ob1.next = ob.next ∧
      ob1.orders = Function.update ob.orders (ob.values e).id none := by
  obtain ⟨l1, l2, hT, hview⟩ := view_cases ob s hv
  have he : e ∈ q.orders := by rw [hq]; simp
  have herase : q.orders.erase e = es := by rw [hq]; simp
  refine ⟨_, cancelOrder_eq h hT he, WF_remove h hT he, ?_, ?_, ?_, ?_, ?_, ?_, rfl⟩
  · rw [herase]
    by_cases h0 : es = []
    · simp only [h0, if_true]
      have hh : (({ ob.setTree s (l1 ++ l2) with
          orders := Function.update ob.orders (ob.values e).id none } : OrderBook).side s).priceTree
          = l1 ++ [] ++ l2 := by
        rw [List.append_nil]; exact setTree_side_same ob s (l1 ++ l2)
      have := hview _ [] hh (by simp)
      simpa using this
    · simp only [h0, if_false]
      have hh : (({ ob.setTree s (l1 ++ q.Remove e (ob.values e) :: l2) with
          orders := Function.update ob.orders (ob.values e).id none } : OrderBook).side s).priceTree
          = l1 ++ [q.Remove e (ob.values e)] ++ l2 := by
        rw [List.append_assoc, List.singleton_append]
        exact setTree_side_same ob s (l1 ++ q.Remove e (ob.values e) :: l2)
      have := hview _ [q.Remove e (ob.values e)] hh (by simp)
      simpa using this
  · simp [OrderQueue.Remove, herase]
  · intro h0
    obtain ⟨h1, h2, h3⟩ := h.qref_split hT
    apply queue_none
    intro s' x hx
    by_cases hss : s' = s
    · subst hss
      have hx' : x ∈ l1 ++ l2 := by
        have := setTree_side_same ob s' (l1 ++ (if q.orders.erase e = [] then l2
            else q.Remove e (ob.values e) :: l2))
        rw [herase, h0] at this
        simp only [if_true] at this
        rw [herase, h0] at hx
        simp only [if_true] at hx
        change x ∈ ((ob.setTree s' (l1 ++ l2)).side s').priceTree at hx
        rwa [setTree_side_same] at hx
      rcases List.mem_append.1 hx' with hx' | hx'
      · exact h1 x hx'
      · exact h2 x hx'
    · have : x ∈ (ob.side s').priceTree := by
        change x ∈ ((ob.setTree s _).side s').priceTree at hx
        rwa [setTree_side_ne ob _ hss] at hx
      exact h3 s' hss x this
  · intro s' hss
    exact setTree_side_ne ob _ hss
  · exact setTree_values ob s _
  · exact setTree_next ob s _

/-- The effect of `Update` on the oldest order of the best level. -/
theorem update_spec {ob : OrderBook} (h : WF ob) {s : SideRef} {q : OrderQueue}
    {rest : List OrderQueue} (hv : ob.view s = q :: rest) {e : Nat} (he : e ∈ q.orders)
    {o : Order} (hid : o.id = (ob.values e).id) (hsd : o.side = (ob.values e).side)
    (hp : o.price = (ob.values e).price) (hqty : 0 < o.quantity) :
    WF (ob.Update q.ref e o) ∧
      (ob.Update q.ref e o).view s = q.Update (ob.values e) o :: rest ∧
      (∀ s', s' ≠ s → (ob.Update q.ref e o).side s' = ob.side s') ∧
      (ob.Update q.ref e o).values = Function.update ob.values e o ∧
      (ob.Update q.ref e o).next = ob.next ∧
      (ob.Update q.ref e o).orders = ob.orders := by
  obtain ⟨l1, l2, hT, hview⟩ := view_cases ob s hv
  rw [Update_eq h hT e o]
  refine ⟨WF_update h hT he hid hsd hp hqty, ?_, ?_, rfl, ?_, ?_⟩
  · have hh : (({ ob.setTree s (l1 ++ q.Update (ob.values e) o :: l2) with
        values := Function.update ob.values e o } : OrderBook).side s).priceTree
        = l1 ++ [q.Update (ob.values e) o] ++ l2 := by
      rw [List.append_assoc, List.singleton_append]
      exact setTree_side_same ob s _
    have := hview _ [q.Update (ob.values e) o] hh (by simp)
    simpa using this
  · intro s' hss
    exact setTree_side_ne ob _ hss
  · exact setTree_next ob s _
  · exact setTree_orders ob s _

theorem cancelOrder_values (ob : OrderBook) (id : String) :
    (ob.cancelOrder id).2.values = ob.values := by
  unfold OrderBook.cancelOrder
  split
  · rfl
  · split <;> rfl

theorem cancelOrder_next (ob : OrderBook) (id : String) :
    (ob.cancelOrder id).2.next = ob.next := by
  unfold OrderBook.cancelOrder
  split
  · rfl
  · split <;> rfl

/-- The loop of `processQueue` on the best level of a well-formed book. -/
theorem processQueueLoop_level {s : SideRef} {rest : List OrderQueue} :
    ∀ (n : Nat) (ob : OrderBook) (q : OrderQueue) (d : List Order) (a : Decimal) (fuel : Nat),
      q.orders.length = n → WF ob → ob.view s = q :: rest → n + 1 ≤ fuel →
      processQueueLoop q.ref fuel ob ⟨d, none, 0, a, none⟩ =
        some (fillQueue ob.values (levelElems q) d a, fillBook (levelElems q) ob a) ∧
      LevelOut ob s q rest (fillQueue ob.values (levelElems q) d a)
        (fillBook (levelElems q) ob a) := by
  intro n
  induction n with
  | zero =>
    intro ob q d a fuel hn h hv _
    have hm : q ∈ (ob.side s).priceTree := mem_view.1 (by rw [hv]; simp)
    exact absurd (List.length_eq_zero.1 hn) (h.level s q hm).nonempty
  | succ n ih =>
    intro ob q d a fuel hn h hv hfuel
    have hm : q ∈ (ob.side s).priceTree := mem_view.1 (by rw [hv]; simp)
    obtain ⟨e, es, hq⟩ : ∃ e es, q.orders = e :: es := by
      cases hh : q.orders with
      | nil => rw [hh] at hn; simp at hn
      | cons e es => exact ⟨e, es, rfl⟩
    have hes : es.length = n := by rw [hq] at hn; simpa using hn
    have hqueue := h.queue_eq hm
    obtain ⟨f, rfl⟩ : ∃ f, fuel = f + 1 := ⟨fuel - 1, by omega⟩
    have hf : n + 1 ≤ f := by omega
    have hlen : 0 < q.Len := by simp [OrderQueue.Len, hq]
    have hhead : q.Head = some e := by simp [OrderQueue.Head, hq]
    have hel : levelElems q = (q.ref, e) :: es.map (fun x => (q.ref, x)) := by
      simp [levelElems, hq]
    have he : e ∈ q.orders := by rw [hq]; simp
    by_cases ha : 0 < a
    · by_cases hlt : a < (ob.values e).quantity
      · -- the head order is larger than the quantity: a partial fill
        have hpos : 0 < (reduced (ob.values e) a).quantity := by
          simp only [reduced, NewOrder]; linarith
        obtain ⟨hw, hview, hside, hvals, hnext, _⟩ :=
          update_spec h hv he (o := reduced (ob.values e) a) rfl rfl rfl hpos
        have hm1 : q.Update (ob.values e) (reduced (ob.values e) a) ∈
            ((ob.Update q.ref e (reduced (ob.values e) a)).side s).priceTree :=
          mem_view.1 (by rw [hview]; simp)
        have hqueue1 := hw.queue_eq hm1
        have hr1 : (q.Update (ob.values e) (reduced (ob.values e) a)).ref = q.ref := rfl
        rw [hr1] at hqueue1
        obtain ⟨f', rfl⟩ : ∃ f', f = f' + 1 := ⟨f - 1, by omega⟩
        have hred : NewOrder (ob.values e).id (ob.values e).side ((ob.values e).quantity - a)
            (ob.values e).price (ob.values e).time = reduced (ob.values e) a := rfl
        refine ⟨?_, hw |> fun _ => ?_⟩
        · simp only [processQueueLoop, hqueue, hlen, ha, and_self, if_true, hhead, hlt, hred,
            hqueue1, lt_irrefl, and_false, if_false, hel, fillQueue, fillBook]
        · simp only [hel, fillQueue, fillBook, ha, hlt, if_true]
          exact ⟨hw, hnext, hside, Or.inr ⟨le_refl _, _, hview, rfl, rfl⟩⟩
      · -- the head order is consumed
        obtain ⟨ob1, hc, hw1, hview1, hord1, hnone, hside1, hvals1, hnext1, _⟩ :=
          pop_spec h hv hq
        have hc2 : (ob.cancelOrder (ob.values e).id).2 = ob1 := by rw [hc]
        by_cases h0 : es = []
        · subst h0
          simp only [if_true] at hview1
          have hq1 := hnone rfl
          obtain ⟨f', rfl⟩ : ∃ f', f = f' + 1 := ⟨f - 1, by omega⟩
          refine ⟨?_, ?_⟩
          · simp only [processQueueLoop, hqueue, hlen, ha, and_self, if_true, hhead, hlt,
              if_false, hc, hq1, hel, fillQueue, fillBook, List.map_nil]
          · simp only [hel, fillQueue, fillBook, ha, hlt, if_true, if_false, List.map_nil, hc2]
            exact ⟨hw1, hnext1, hside1, Or.inl ⟨hview1, hvals1, rfl, rfl, rfl⟩⟩
        · simp only [h0, if_false] at hview1
          have hr1 : (q.Remove e (ob.values e)).ref = q.ref := rfl
          have hp1 : (q.Remove e (ob.values e)).price = q.price := rfl
          obtain ⟨heq, hout⟩ := ih ob1 (q.Remove e (ob.values e)) (d ++ [ob.values e])
            (a - (ob.values e).quantity) f (by rw [hord1]; exact hes) hw1 hview1 hf
          have hel1 : levelElems (q.Remove e (ob.values e)) = es.map (fun x => (q.ref, x)) := by
            show List.map (fun x => ((q.Remove e (ob.values e)).ref, x))
              (q.Remove e (ob.values e)).orders = _
            rw [hord1, hr1]
          rw [hr1, hel1, hvals1] at heq
          rw [hel1, hvals1] at hout
          refine ⟨?_, ?_⟩
          · simp only [processQueueLoop, hqueue, hlen, ha, and_self, if_true, hhead, hlt,
              if_false, hc, hel, fillQueue, fillBook]
            exact heq
          · simp only [hel, fillQueue, fillBook, ha, hlt, if_true, if_false, hc2]
            obtain ⟨k1, k2, k3, k4⟩ := hout
            refine ⟨k1, k2.trans hnext1, fun s' hs' => (k3 s' hs').trans (hside1 s' hs'), ?_⟩
            rcases k4 with ⟨m1, m2, m3⟩ | ⟨m1, q1, m2, m3, m4⟩
            · exact Or.inl ⟨m1, m2.trans hvals1, m3⟩
            · exact Or.inr ⟨m1, q1, m2, m3, m4⟩
    · -- nothing left to trade
      refine ⟨?_, ?_⟩
      · simp only [processQueueLoop, hqueue, ha, and_false, if_false, hel, fillQueue, fillBook]
      · simp only [hel, fillQueue, fillBook, ha, if_false]
        exact ⟨h, rfl, fun _ _ => rfl, Or.inr ⟨le_of_not_lt ha, q, hv, rfl, rfl⟩⟩

/-! ### The matching recursion -/

theorem fillQueue_nonpos (values : Nat → Order) (es : List (Nat × Nat)) (d : List Order)
    {a : Decimal} (ha : ¬ 0 < a) :
    fillQueue values es d a = ⟨d, none, 0, a, none⟩ := by
  cases es with
  | nil => rfl
  | cons x xs => obtain ⟨qr, e⟩ := x; simp [fillQueue, ha]

theorem fillBook_nonpos (es : List (Nat × Nat)) (ob : OrderBook) {a : Decimal} (ha : ¬ 0 < a) :
    fillBook es ob a = ob := by
  cases es with
  | nil => rfl
  | cons x xs => obtain ⟨qr, e⟩ := x; simp [fillBook, ha]

theorem fillQueue_done (values : Nat → Order) :
    ∀ (es : List (Nat × Nat)) (d : List Order) (a : Decimal),
      fillQueue values es d a =
        { fillQueue values es [] a with done := d ++ (fillQueue values es [] a).done } := by
  intro es
  induction es with
  | nil => intro d a; simp [fillQueue]
  | cons x xs ih =>
    intro d a
    obtain ⟨qr, e⟩ := x
    by_cases ha : 0 < a
    · by_cases hlt : a < (values e).quantity
      · simp [fillQueue, ha, hlt]
      · simp only [fillQueue, ha, hlt, if_true, if_false, List.nil_append]
        rw [ih (d ++ [values e]), ih [values e]]
        simp
    · simp [fillQueue, ha]

theorem fillQueue_append (values : Nat → Order) :
    ∀ (es1 es2 : List (Nat × Nat)) (d : List Order) (a : Decimal),
      fillQueue values (es1 ++ es2) d a =
        if 0 < (fillQueue values es1 d a).quantityLeft then
          fillQueue values es2 (fillQueue values es1 d a).done
            (fillQueue values es1 d a).quantityLeft
        else fillQueue values es1 d a := by
  intro es1
  induction es1 with
  | nil =>
    intro es2 d a
    by_cases ha : 0 < a
    · simp [fillQueue, ha]
    · simp [fillQueue, ha, fillQueue_nonpos values es2 d ha]
  | cons x xs ih =>
    intro es2 d a
    obtain ⟨qr, e⟩ := x
    by_cases ha : 0 < a
    · by_cases hlt : a < (values e).quantity
      · simp [fillQueue, ha, hlt]
      · simp only [List.cons_append, fillQueue, ha, hlt, if_true, if_false]
        exact ih es2 _ _
    · simp [fillQueue, ha]

theorem fillBook_values :
    ∀ (es : List (Nat × Nat)) (ob : OrderBook) (a : Decimal),
      (fillQueue ob.values es [] a).rollbackPartial = none →
      (fillBook es ob a).values = ob.values := by
  intro es
  induction es with
  | nil => intro ob a _; rfl
  | cons x xs ih =>
    intro ob a hr
    obtain ⟨qr, e⟩ := x
    by_cases ha : 0 < a
    · by_cases hlt : a < (ob.values e).quantity
      · simp [fillQueue, ha, hlt] at hr
      · simp only [fillQueue, ha, hlt, if_true, if_false] at hr
        rw [fillQueue_done] at hr
        simp only [fillBook, ha, hlt, if_true, if_false]
        rw [ih _ _ (by rw [cancelOrder_values]; exact hr), cancelOrder_values]
    · simp [fillBook, ha]

theorem fillBook_append :
    ∀ (es1 es2 : List (Nat × Nat)) (ob : OrderBook) (a : Decimal),
      fillBook (es1 ++ es2) ob a =
        if 0 < (fillQueue ob.values es1 [] a).quantityLeft then
          fillBook es2 (fillBook es1 ob a) (fillQueue ob.values es1 [] a).quantityLeft
        else fillBook es1 ob a := by
  intro es1
  induction es1 with
  | nil =>
    intro es2 ob a
    by_cases ha : 0 < a
    · simp [fillQueue, fillBook, ha]
    · simp [fillQueue, fillBook, ha, fillBook_nonpos es2 ob ha]
  | cons x xs ih =>
    intro es2 ob a
    obtain ⟨qr, e⟩ := x
    by_cases ha : 0 < a
    · by_cases hlt : a < (ob.values e).quantity
      · simp [fillQueue, fillBook, ha, hlt]
      · simp only [List.cons_append, fillQueue, fillBook, ha, hlt, if_true, if_false,
          List.append_eq, List.nil_append]
        rw [ih es2 _ _, cancelOrder_values, fillQueue_done ob.values xs [ob.values e]]
    · simp [fillQueue, fillBook, ha]

/-- The unexported `processQueue` on the best level of a well-formed book. -/
theorem processQueue_spec {ob : OrderBook} (h : WF ob) {s : SideRef} {q : OrderQueue}
    {rest : List OrderQueue} (hv : ob.view s = q :: rest) (a : Decimal) :
    ob.processQueue q a =
        some (fillQueue ob.values (levelElems q) [] a, fillBook (levelElems q) ob a) ∧
      LevelOut ob s q rest (fillQueue ob.values (levelElems q) [] a)
        (fillBook (levelElems q) ob a) :=
  processQueueLoop_level q.orders.length ob q [] a (q.Len + 1) rfl h hv (le_refl _)

theorem elems_cons {ob : OrderBook} {s : SideRef} {q : OrderQueue} {rest : List OrderQueue}
    (hv : ob.view s = q :: rest) : ob.elems s = levelElems q ++ rest.flatMap levelElems := by
  simp [OrderBook.elems, hv]

/-- The loop of `ProcessMarketQuantityOrder` on a well-formed book. -/
theorem marketQuantityLoop_spec (s : SideRef) :
    ∀ (n : Nat) (ob : OrderBook) (st : LoopState) (fuel : Nat),
      (ob.view s).length = n → WF ob → n + 1 ≤ fuel →
      st.partialOrd = none → st.partialQuantityProcessed = 0 → st.rollbackPartial = none →
      marketQuantityLoop s fuel ob st =
        some ((fillQueue ob.values (ob.elems s) st.done st.amount).toLoopState,
          fillBook (ob.elems s) ob st.amount) ∧
      WF (fillBook (ob.elems s) ob st.amount) ∧
      (fillBook (ob.elems s) ob st.amount).next = ob.next ∧
      (∀ s', s' ≠ s → (fillBook (ob.elems s) ob st.amount).side s' = ob.side s') := by
  intro n
  induction n with
  | zero =>
    intro ob st fuel hn h hfuel hp1 hp2 hp3
    have hv : ob.view s = [] := List.length_eq_zero.1 hn
    obtain ⟨f, rfl⟩ : ∃ f, fuel = f + 1 := ⟨fuel - 1, by omega⟩
    have hlen : ¬ 0 < (ob.side s).Len := by rw [h.Len_pos, hv]; simp
    have he : ob.elems s = [] := by simp [OrderBook.elems, hv]
    obtain ⟨d, po, pq, am, rp⟩ := st
    simp only at hp1 hp2 hp3
    subst hp1 hp2 hp3
    rw [he]
    refine ⟨?_, h, rfl, fun _ _ => rfl⟩
    simp only [marketQuantityLoop, hlen, and_false, if_false, fillQueue, fillBook,
      QueueResult.toLoopState]
  | succ n ih =>
    intro ob st fuel hn h hfuel hp1 hp2 hp3
    obtain ⟨q, rest, hv⟩ : ∃ q rest, ob.view s = q :: rest := by
      cases hh : ob.view s with
      | nil => rw [hh] at hn; simp at hn
      | cons q rest => exact ⟨q, rest, rfl⟩
    have hrest : rest.length = n := by rw [hv] at hn; simpa using hn
    obtain ⟨f, rfl⟩ : ∃ f, fuel = f + 1 := ⟨fuel - 1, by omega⟩
    have hf : n + 1 ≤ f := by omega
    obtain ⟨d, po, pq, am, rp⟩ := st
    simp only at hp1 hp2 hp3
    subst hp1 hp2 hp3
    by_cases ha : 0 < am
    · have hlen : 0 < (ob.side s).Len := by rw [h.Len_pos, hv]; simp
      have hbest : ob.best s = some q := by rw [best_eq_view, hv]; rfl
      obtain ⟨hpq, hw1, hnext1, hside1, hcase⟩ := processQueue_spec h hv am
      have hel := elems_cons hv
      have hstep : marketQuantityLoop s (f + 1) ob ⟨d, none, 0, am, none⟩ =
          marketQuantityLoop s f (fillBook (levelElems q) ob am)
            ⟨d ++ (fillQueue ob.values (levelElems q) [] am).done,
            (fillQueue ob.values (levelElems q) [] am).partialOrd,
            (fillQueue ob.values (levelElems q) [] am).partialQuantityProcessed,
            (fillQueue ob.values (levelElems q) [] am).quantityLeft,
            (fillQueue ob.values (levelElems q) [] am).rollbackPartial⟩ := by
        simp only [marketQuantityLoop, ha, hlen, and_self, if_true, hbest, hpq]
      rw [hstep, hel, fillQueue_append, fillBook_append]
      rw [fillQueue_done ob.values (levelElems q) d am]
      simp only
      rcases hcase with ⟨c1, c2, c3, c4, c5⟩ | ⟨c1, q1, c2, c3, c4⟩
      · -- the level is used up: the loop goes on with the next level
        have hih := ih (fillBook (levelElems q) ob am)
          ⟨d ++ (fillQueue ob.values (levelElems q) [] am).done,
            (fillQueue ob.values (levelElems q) [] am).partialOrd,
            (fillQueue ob.values (levelElems q) [] am).partialQuantityProcessed,
            (fillQueue ob.values (levelElems q) [] am).quantityLeft,
            (fillQueue ob.values (levelElems q) [] am).rollbackPartial⟩ f
          (by rw [c1]; exact hrest) hw1 hf c3 c5 c4
        have hel1 : (fillBook (levelElems q) ob am).elems s = rest.flatMap levelElems := by
          simp [OrderBook.elems, c1]
        rw [hel1, c2] at hih
        simp only at hih
        obtain ⟨i1, i2, i3, i4⟩ := hih
        rw [i1]
        by_cases hl : 0 < (fillQueue ob.values (levelElems q) [] am).quantityLeft
        · simp only [hl, if_true]
          exact ⟨trivial, i2, i3.trans hnext1, fun s' hs' => (i4 s' hs').trans (hside1 s' hs')⟩
        · simp only [hl, if_false]
          rw [fillQueue_nonpos _ _ _ hl, fillBook_nonpos _ _ hl]
          refine ⟨?_, hw1, hnext1, hside1⟩
          simp [QueueResult.toLoopState, c3, c4, c5]
      · -- the quantity is used up: the loop stops
        have hl : ¬ 0 < (fillQueue ob.values (levelElems q) [] am).quantityLeft := not_lt.2 c1
        obtain ⟨f', rfl⟩ : ∃ f', f = f' + 1 := ⟨f - 1, by omega⟩
        simp only [hl, if_false]
        refine ⟨?_, hw1, hnext1, hside1⟩
        simp only [marketQuantityLoop, hl, false_and, if_false, QueueResult.toLoopState]
    · rw [fillQueue_nonpos _ _ _ ha, fillBook_nonpos _ _ ha]
      refine ⟨?_, h, rfl, fun _ _ => rfl⟩
      simp only [marketQuantityLoop, ha, false_and, if_false, QueueResult.toLoopState]

theorem crossElems_cons_cross {ob : OrderBook} {s : SideRef} {side : Side} {price : Decimal}
    {q : OrderQueue} {rest : List OrderQueue} (hv : ob.view s = q :: rest)
    (hc : comparator side price q.price = true) :
    ob.crossElems s side price = levelElems q ++
      (rest.takeWhile (fun q => comparator side price q.price)).flatMap levelElems := by
  simp [OrderBook.crossElems, hv, List.takeWhile_cons, hc]

theorem crossElems_cons_stop {ob : OrderBook} {s : SideRef} {side : Side} {price : Decimal}
    {q : OrderQueue} {rest : List OrderQueue} (hv : ob.view s = q :: rest)
    (hc : ¬ comparator side price q.price = true) :
    ob.crossElems s side price = [] := by
  simp [OrderBook.crossElems, hv, List.takeWhile_cons, hc]

/-- The loop of `ProcessLimitOrder` on a well-formed book. -/
theorem limitLoop_spec (side : Side) (price : Decimal) (s : SideRef) :
    ∀ (n : Nat) (ob : OrderBook) (st : LoopState) (fuel : Nat),
      (ob.view s).length = n → WF ob → n + 1 ≤ fuel →
      st.partialOrd = none → st.partialQuantityProcessed = 0 → st.rollbackPartial = none →
      limitLoop side price s fuel ob (ob.best s) st =
        some ((fillQueue ob.values (ob.crossElems s side price) st.done st.amount).toLoopState,
          fillBook (ob.crossElems s side price) ob st.amount) ∧
      WF (fillBook (ob.crossElems s side price) ob st.amount) ∧
      (fillBook (ob.crossElems s side price) ob st.amount).next = ob.next ∧
      (∀ s', s' ≠ s →
        (fillBook (ob.crossElems s side price) ob st.amount).side s' = ob.side s') := by
  intro n
  induction n with
  | zero =>
    intro ob st fuel hn h hfuel hp1 hp2 hp3
    have hv : ob.view s = [] := List.length_eq_zero.1 hn
    obtain ⟨f, rfl⟩ : ∃ f, fuel = f + 1 := ⟨fuel - 1, by omega⟩
    have hlen : ¬ 0 < (ob.side s).Len := by rw [h.Len_pos, hv]; simp
    have he : ob.crossElems s side price = [] := by simp [OrderBook.crossElems, hv]
    obtain ⟨d, po, pq, am, rp⟩ := st
    simp only at hp1 hp2 hp3
    subst hp1 hp2 hp3
    rw [he]
    refine ⟨?_, h, rfl, fun _ _ => rfl⟩
    simp only [limitLoop, hlen, and_false, if_false, fillQueue, fillBook,
      QueueResult.toLoopState]
  | succ n ih =>
    intro ob st fuel hn h hfuel hp1 hp2 hp3
    obtain ⟨q, rest, hv⟩ : ∃ q rest, ob.view s = q :: rest := by
      cases hh : ob.view s with
      | nil => rw [hh] at hn; simp at hn
      | cons q rest => exact ⟨q, rest, rfl⟩
    have hrest : rest.length = n := by rw [hv] at hn; simpa using hn
    obtain ⟨f, rfl⟩ : ∃ f, fuel = f + 1 := ⟨fuel - 1, by omega⟩
    have hf : n + 1 ≤ f := by omega
    obtain ⟨d, po, pq, am, rp⟩ := st
    simp only at hp1 hp2 hp3
    subst hp1 hp2 hp3
    by_cases ha : 0 < am
    · have hlen : 0 < (ob.side s).Len := by rw [h.Len_pos, hv]; simp
      have hbest : ob.best s = some q := by rw [best_eq_view, hv]; rfl
      by_cases hc : comparator side price q.price = true
      · obtain ⟨hpq, hw1, hnext1, hside1, hcase⟩ := processQueue_spec h hv am
        have hel := crossElems_cons_cross hv hc
        have hstep : limitLoop side price s (f + 1) ob (ob.best s) ⟨d, none, 0, am, none⟩ =
            limitLoop side price s f (fillBook (levelElems q) ob am)
              ((fillBook (levelElems q) ob am).best s)
              ⟨d ++ (fillQueue ob.values (levelElems q) [] am).done,
              (fillQueue ob.values (levelElems q) [] am).partialOrd,
              (fillQueue ob.values (levelElems q) [] am).partialQuantityProcessed,
              (fillQueue ob.values (levelElems q) [] am).quantityLeft,
              (fillQueue ob.values (levelElems q) [] am).rollbackPartial⟩ := by
          simp only [limitLoop, ha, hlen, and_self, if_true, hbest, hpq, hc]
        rw [hstep, hel, fillQueue_append, fillBook_append]
        rw [fillQueue_done ob.values (levelElems q) d am]
        simp only
        rcases hcase with ⟨c1, c2, c3, c4, c5⟩ | ⟨c1, q1, c2, c3, c4⟩
        · have hih := ih (fillBook (levelElems q) ob am)
            ⟨d ++ (fillQueue ob.values (levelElems q) [] am).done,
              (fillQueue ob.values (levelElems q) [] am).partialOrd,
              (fillQueue ob.values (levelElems q) [] am).partialQuantityProcessed,
              (fillQueue ob.values (levelElems q) [] am).quantityLeft,
              (fillQueue ob.values (levelElems q) [] am).rollbackPartial⟩ f
            (by rw [c1]; exact hrest) hw1 hf c3 c5 c4
          have hel1 : (fillBook (levelElems q) ob am).crossElems s side price =
              (rest.takeWhile (fun q => comparator side price q.price)).flatMap levelElems := by
            simp [OrderBook.crossElems, c1]
          rw [hel1, c2] at hih
          simp only at hih
          obtain ⟨i1, i2, i3, i4⟩ := hih
          rw [i1]
          by_cases hl : 0 < (fillQueue ob.values (levelElems q) [] am).quantityLeft
          · simp only [hl, if_true]
            exact ⟨trivial, i2, i3.trans hnext1,
              fun s' hs' => (i4 s' hs').trans (hside1 s' hs')⟩
          · simp only [hl, if_false]
            rw [fillQueue_nonpos _ _ _ hl, fillBook_nonpos _ _ hl]
            refine ⟨?_, hw1, hnext1, hside1⟩
            simp [QueueResult.toLoopState, c3, c4, c5]
        · have hl : ¬ 0 < (fillQueue ob.values (levelElems q) [] am).quantityLeft := not_lt.2 c1
          obtain ⟨f', rfl⟩ : ∃ f', f = f' + 1 := ⟨f - 1, by omega⟩
          simp only [hl, if_false]
          refine ⟨?_, hw1, hnext1, hside1⟩
          simp only [limitLoop, hl, false_and, if_false, QueueResult.toLoopState]
      · rw [crossElems_cons_stop hv hc]
        refine ⟨?_, h, rfl, fun _ _ => rfl⟩
        simp only [limitLoop, ha, hlen, and_self, if_true, hbest, hc, fillQueue, fillBook,
          QueueResult.toLoopState]
        simp
    · rw [fillQueue_nonpos _ _ _ ha, fillBook_nonpos _ _ ha]
      refine ⟨?_, h, rfl, fun _ _ => rfl⟩
      simp only [limitLoop, ha, false_and, if_false, QueueResult.toLoopState]

/-! ### Rounding -/

theorem pow_places_pos (places : Int) : (0 : ℚ) < (10 : ℚ) ^ places :=
  zpow_pos (by norm_num) places

/-- After a fill of the rounded quantity, what is left of the notional rounds to no quantity at
the same or a worse price. -/
theorem DivRound_residual {a p p2 a1 : Decimal} {places : Int} (ha : 0 < a) (hp : 0 < p)
    (hp2 : p ≤ p2) (ha1 : 0 < a1) (hle : a1 ≤ a - Decimal.DivRound a p places * p) :
    Decimal.DivRound a1 p2 places ≤ 0 := by
  have hs := pow_places_pos places
  have hp2pos : 0 < p2 := lt_of_lt_of_le hp hp2
  have hx : 0 ≤ a / p * (10 : ℚ) ^ places := by positivity
  have hy : 0 ≤ a1 / p2 * (10 : ℚ) ^ places := by positivity
  simp only [Decimal.DivRound, hx, if_true] at hle
  simp only [Decimal.DivRound, hy, if_true]
  set s : ℚ := (10 : ℚ) ^ places with hsdef
  set x : ℚ := a / p * s with hxdef
  set y : ℚ := a1 / p2 * s with hydef
  have hfl : x + 1 / 2 < (⌊x + 1 / 2⌋ : ℚ) + 1 := Int.lt_floor_add_one _
  generalize (⌊x + 1 / 2⌋ : ℚ) = n at hle hfl
  have hpne : p ≠ 0 := ne_of_gt hp
  have hsne : s ≠ 0 := ne_of_gt hs
  have h1 : a1 / p * s ≤ x - n := by
    have h2 : a1 / p ≤ a / p - n / s := by
      rw [div_le_iff₀ hp]
      have : (a / p - n / s) * p = a - n / s * p := by
        field_simp
        ring
      rw [this]; exact hle
    have h3 := mul_le_mul_of_nonneg_right h2 (le_of_lt hs)
    have h4 : (a / p - n / s) * s = x - n := by
      rw [hxdef]; field_simp
      ring
    rw [h4] at h3; exact h3
  have h5 : y ≤ a1 / p * s := by
    rw [hydef]
    apply mul_le_mul_of_nonneg_right _ (le_of_lt hs)
    exact div_le_div_of_nonneg_left (le_of_lt ha1) hp hp2
  have hy2 : y < 1 / 2 := by linarith
  have hfloor : ⌊y + 1 / 2⌋ = 0 := by
    rw [Int.floor_eq_iff]
    constructor
    · simp only [Int.cast_zero]; linarith
    · simp only [Int.cast_zero]; linarith
  rw [hfloor]
  simp

/-- The loop of `ProcessMarketPriceBuy` stops when the notional rounds to no quantity. -/
theorem marketPriceLoop_stop {places : Int} {ob : OrderBook} (h : WF ob) (st : LoopState)
    (fuel : Nat)
    (hstop : 0 < st.amount → ∀ q ∈ (ob.view SideRef.asks).head?,
      Decimal.DivRound st.amount q.price places ≤ 0) :
    marketPriceLoop places (fuel + 1) ob st = some (st, ob) := by
  by_cases ha : 0 < st.amount
  · cases hv : ob.view SideRef.asks with
    | nil =>
      have hlen : ¬ 0 < ob.asks.Len := by
        have := h.Len_pos SideRef.asks
        rw [side_asks] at this
        rw [this, hv]; simp
      simp only [marketPriceLoop, hlen, and_false, if_false]
    | cons q rest =>
      have hlen : 0 < ob.asks.Len := by
        have := h.Len_pos SideRef.asks
        rw [side_asks] at this
        rw [this, hv]; simp
      have hbest : ob.asks.MinPriceQueue = some q := by
        have := best_eq_view ob SideRef.asks
        rw [hv] at this; exact this
      have hm : q ∈ (ob.side SideRef.asks).priceTree := mem_view.1 (by rw [hv]; simp)
      have hp : q.price ≠ 0 := ne_of_gt (h.level _ q hm).price_pos
      have hq := hstop ha q (by rw [hv]; simp)
      simp only [marketPriceLoop, ha, hlen, and_self, if_true, hbest, hp, if_false, hq]
  · simp only [marketPriceLoop, ha, false_and, if_false]

theorem notionalFill_nonpos (values : Nat → Order) (places : Int) (l : List OrderQueue)
    {st : LoopState} (ha : ¬ 0 < st.amount) : notionalFill values places l st = st := by
  cases l with
  | nil => rfl
  | cons q qs => simp [notionalFill, ha]

theorem notionalBook_nonpos (places : Int) (l : List OrderQueue) (ob : OrderBook)
    {a : Decimal} (ha : ¬ 0 < a) : notionalBook places l ob a = ob := by
  cases l with
  | nil => rfl
  | cons q qs => simp [notionalBook, ha]

/-- The loop of `ProcessMarketPriceBuy` on a well-formed book. -/
theorem marketPriceLoop_spec (places : Int) :
    ∀ (n : Nat) (ob : OrderBook) (st : LoopState) (fuel : Nat),
      (ob.view SideRef.asks).length = n → WF ob → n + 2 ≤ fuel →
      marketPriceLoop places fuel ob st =
        some (notionalFill ob.values places (ob.view SideRef.asks) st,
          notionalBook places (ob.view SideRef.asks) ob st.amount) ∧
      WF (notionalBook places (ob.view SideRef.asks) ob st.amount) ∧
      (notionalBook places (ob.view SideRef.asks) ob st.amount).next = ob.next ∧
      (∀ s', s' ≠ SideRef.asks →
        (notionalBook places (ob.view SideRef.asks) ob st.amount).side s' = ob.side s') := by
  intro n
  induction n with
  | zero =>
    intro ob st fuel hn h hfuel
    have hv : ob.view SideRef.asks = [] := List.length_eq_zero.1 hn
    obtain ⟨f, rfl⟩ : ∃ f, fuel = f + 1 := ⟨fuel - 1, by omega⟩
    rw [hv]
    refine ⟨?_, h, rfl, fun _ _ => rfl⟩
    rw [marketPriceLoop_stop h st f (by rw [hv]; simp)]
    rfl
  | succ n ih =>
    intro ob st fuel hn h hfuel
    obtain ⟨q, rest, hv⟩ : ∃ q rest, ob.view SideRef.asks = q :: rest := by
      cases hh : ob.view SideRef.asks with
      | nil => rw [hh] at hn; simp at hn
      | cons q rest => exact ⟨q, rest, rfl⟩
    have hrest : rest.length = n := by rw [hv] at hn; simpa using hn
    obtain ⟨f, rfl⟩ : ∃ f, fuel = f + 1 := ⟨fuel - 1, by omega⟩
    have hf : n + 2 ≤ f := by omega
    rw [hv]
    by_cases ha : 0 < st.amount
    · have hlen : 0 < ob.asks.Len := by
        have := h.Len_pos SideRef.asks
        rw [side_asks] at this
        rw [this, hv]; simp
      have hbest : ob.asks.MinPriceQueue = some q := by
        have := best_eq_view ob SideRef.asks
        rw [hv] at this; exact this
      have hm : q ∈ (ob.side SideRef.asks).priceTree := mem_view.1 (by rw [hv]; simp)
      have hppos : 0 < q.price := (h.level _ q hm).price_pos
      have hp : q.price ≠ 0 := ne_of_gt hppos
      have hsorted : ∀ x ∈ rest, q.price ≤ x.price := by
        have := h.sorted SideRef.asks
        have hv' : (ob.side SideRef.asks).priceTree = q :: rest := hv
        rw [hv'] at this
        exact fun x hx => le_of_lt ((List.pairwise_cons.1 this).1 x hx)
      by_cases hq : Decimal.DivRound st.amount q.price places ≤ 0
      · refine ⟨?_, ?_⟩
        · simp only [marketPriceLoop, ha, hlen, and_self, if_true, hbest, hp, if_false, hq,
            notionalFill, notionalBook]
        · have hb : notionalBook places (q :: rest) ob st.amount = ob := by
            simp only [notionalBook, ha, if_true, hq]
          rw [hb]
          exact ⟨h, rfl, fun _ _ => rfl⟩
      · obtain ⟨hpq, hw1, hnext1, hside1, hcase⟩ :=
          processQueue_spec h hv (Decimal.DivRound st.amount q.price places)
        set t := Decimal.DivRound st.amount q.price places with ht
        set r := fillQueue ob.values (levelElems q) [] t with hr
        set ob1 := fillBook (levelElems q) ob t with hob1
        set st1 : LoopState :=
          { done := st.done ++ r.done, partialOrd := r.partialOrd,
            partialQuantityProcessed := r.partialQuantityProcessed,
            amount := st.amount - (t - r.quantityLeft) * q.price,
            rollbackPartial := r.rollbackPartial } with hst1
        have hstep : marketPriceLoop places (f + 1) ob st = marketPriceLoop places f ob1 st1 := by
          simp only [marketPriceLoop, ha, hlen, and_self, if_true, hbest, hp, if_false, hq,
            ← ht, hpq]
        rw [hstep]
        -- when the quantity is used up the loop stops at the next test
        have hstopped : ¬ 0 < r.quantityLeft →
            (∀ x ∈ (ob1.view SideRef.asks).head?, q.price ≤ x.price) →
            marketPriceLoop places f ob1 st1 = some (st1, ob1) := by
          intro hl hprice
          obtain ⟨f', rfl⟩ : ∃ f', f = f' + 1 := ⟨f - 1, by omega⟩
          apply marketPriceLoop_stop hw1
          intro ha1 x hx
          refine DivRound_residual ha hppos (hprice x hx) ha1 ?_
          have : 0 ≤ -r.quantityLeft * q.price :=
            mul_nonneg (by linarith [not_lt.1 hl]) (le_of_lt hppos)
          simp only [hst1]
          nlinarith
        by_cases hl : 0 < r.quantityLeft
        · -- the level is used up and quantity is left: the loop goes on
          rcases hcase with ⟨c1, c2, c3, c4, c5⟩ | ⟨c1, _⟩
          · have hih := ih ob1 st1 f (by rw [c1]; exact hrest) hw1 hf
            rw [c1, c2] at hih
            obtain ⟨i1, i2, i3, i4⟩ := hih
            refine ⟨?_, ?_⟩
            · rw [i1]
              simp only [notionalFill, notionalBook, ha, if_true, hq, if_false, ← ht, ← hr, hl,
                ← hob1]
            · simp only [notionalBook, ha, if_true, hq, if_false, ← ht, ← hr, hl, ← hob1]
              exact ⟨i2, i3.trans hnext1, fun s' hs' => (i4 s' hs').trans (hside1 s' hs')⟩
          · exact absurd hl (not_lt.2 c1)
        · have hprice : ∀ x ∈ (ob1.view SideRef.asks).head?, q.price ≤ x.price := by
            intro x hx
            rcases hcase with ⟨c1, _⟩ | ⟨_, q1, c2, _, c4⟩
            · rw [c1] at hx
              have : x ∈ rest := List.mem_of_mem_head? hx
              exact hsorted x this
            · rw [c2] at hx
              simp only [List.head?_cons, Option.mem_def, Option.some.injEq] at hx
              rw [← hx, c4]
          refine ⟨?_, ?_⟩
          · rw [hstopped hl hprice]
            simp only [notionalFill, notionalBook, ha, if_true, hq, if_false, ← ht, ← hr, hl,
              ← hob1]
          · simp only [notionalBook, ha, if_true, hq, if_false, ← ht, ← hr, hl, ← hob1]
            exact ⟨hw1, hnext1, hside1⟩
    · refine ⟨?_, ?_⟩
      · rw [marketPriceLoop_stop h st f (fun h0 => absurd h0 ha)]
        rw [notionalFill_nonpos _ _ _ ha, notionalBook_nonpos _ _ _ ha]
      · rw [notionalBook_nonpos _ _ _ ha]
        exact ⟨h, rfl, fun _ _ => rfl⟩

/-! ### The structure of a fill -/

theorem elems_head {ob : OrderBook} (h : WF ob) {s : SideRef} {qr e : Nat}
    {t : List (Nat × Nat)} (he : ob.elems s = (qr, e) :: t) :
    ∃ q rest es, ob.view s = q :: rest ∧ q.ref = qr ∧ q.orders = e :: es ∧
      t = es.map (fun x => (q.ref, x)) ++ rest.flatMap levelElems := by
  cases hv : ob.view s with
  | nil => simp [OrderBook.elems, hv] at he
  | cons q rest =>
    have hm : q ∈ (ob.side s).priceTree := mem_view.1 (by rw [hv]; simp)
    have hne := (h.level s q hm).nonempty
    cases hq : q.orders with
    | nil => exact absurd hq hne
    | cons e' es =>
      simp only [OrderBook.elems, hv, List.flatMap_cons, levelElems, hq, List.map_cons,
        List.cons_append, List.cons.injEq, Prod.mk.injEq] at he
      obtain ⟨⟨h1, h2⟩, h3⟩ := he
      subst h2
      exact ⟨q, rest, es, rfl, h1, hq, by rw [← h3]⟩

/-- The structure of the results of a fill along the resting elements of a half. -/
theorem fill_struct (s : SideRef) :
    ∀ (es : List (Nat × Nat)) (ob : OrderBook) (a : Decimal) (es2 : List (Nat × Nat)),
      WF ob → ob.elems s = es ++ es2 →
      WF (fillBook es ob a) ∧ (fillBook es ob a).next = ob.next ∧
      (∀ s', s' ≠ s → (fillBook es ob a).side s' = ob.side s') ∧
      ∃ esD esR, es = esD ++ esR ∧
        (fillQueue ob.values es [] a).done = esD.map (fun x => ob.values x.2) ∧
        (fillBook es ob a).elems s = esR ++ es2 ∧
        (∀ id, (fillBook es ob a).orders id =
          if id ∈ (fillQueue ob.values es [] a).done.map (fun o => o.id) then none
          else ob.orders id) ∧
        (((fillQueue ob.values es [] a).rollbackPartial = none ∧
            (fillQueue ob.values es [] a).partialOrd = none ∧
            (fillQueue ob.values es [] a).partialQuantityProcessed = 0 ∧
            (fillBook es ob a).values = ob.values ∧
            (fillQueue ob.values es [] a).quantityLeft =
              a - sumQty (fillQueue ob.values es [] a).done ∧
            (esR = [] ∨ (fillQueue ob.values es [] a).quantityLeft ≤ 0)) ∨
          (∃ qref e tl, esR = (qref, e) :: tl ∧
            (fillQueue ob.values es [] a).rollbackPartial = some ⟨qref, e, ob.values e⟩ ∧
            (fillQueue ob.values es [] a).partialOrd =
              some (reduced (ob.values e)
                (fillQueue ob.values es [] a).partialQuantityProcessed) ∧
            0 < (fillQueue ob.values es [] a).partialQuantityProcessed ∧
            (fillQueue ob.values es [] a).partialQuantityProcessed < (ob.values e).quantity ∧
            (fillQueue ob.values es [] a).partialQuantityProcessed =
              a - sumQty (fillQueue ob.values es [] a).done ∧
            (fillQueue ob.values es [] a).quantityLeft = 0 ∧
            (fillBook es ob a).values = Function.update ob.values e
              (reduced (ob.values e)
                (fillQueue ob.values es [] a).partialQuantityProcessed))) := by
  intro es
  induction es with
  | nil =>
    intro ob a es2 h he
    refine ⟨h, rfl, fun _ _ => rfl, [], [], rfl, rfl, he, fun id => by simp [fillQueue, fillBook],
      Or.inl ⟨rfl, rfl, rfl, rfl, by simp [fillQueue, sumQty], Or.inl rfl⟩⟩
  | cons x t ih =>
    intro ob a es2 h he
    obtain ⟨qr, e⟩ := x
    obtain ⟨q, rest, esq, hv, hqr, hq, ht⟩ := elems_head h he
    subst hqr
    have hmem : e ∈ q.orders := by rw [hq]; simp
    by_cases ha : 0 < a
    · by_cases hlt : a < (ob.values e).quantity
      · -- a partial fill of the head
        have hpos : 0 < (reduced (ob.values e) a).quantity := by
          simp only [reduced, NewOrder]; linarith
        obtain ⟨hw, hview, hside, hvals, hnext, hord⟩ :=
          update_spec h hv hmem (o := reduced (ob.values e) a) rfl rfl rfl hpos
        have hfq : fillQueue ob.values ((q.ref, e) :: t) [] a =
            ⟨[], some (reduced (ob.values e) a), a, 0, some ⟨q.ref, e, ob.values e⟩⟩ := by
          simp [fillQueue, ha, hlt]
        have hfb : fillBook ((q.ref, e) :: t) ob a = ob.Update q.ref e (reduced (ob.values e) a) := by
          simp [fillBook, ha, hlt]
        rw [hfq, hfb]
        refine ⟨hw, hnext, hside, [], (q.ref, e) :: t, rfl, rfl, ?_, ?_, Or.inr ?_⟩
        · rw [← he]
          simp only [OrderBook.elems, hview, hv, List.flatMap_cons]
          rfl
        · intro id; simp [hord]
        · exact ⟨q.ref, e, t, rfl, rfl, rfl, ha, hlt, by simp [sumQty], rfl, hvals⟩
      · -- the head is consumed
        obtain ⟨ob1, hc, hw1, hview1, hord1, _, hside1, hvals1, hnext1, horders1⟩ :=
          pop_spec h hv hq
        have hc2 : (ob.cancelOrder (ob.values e).id).2 = ob1 := by rw [hc]
        have he1 : ob1.elems s = t ++ es2 := by
          have h1 : t ++ es2 = esq.map (fun x => (q.ref, x)) ++ rest.flatMap levelElems := by
            have := he
            simp only [OrderBook.elems, hv, List.flatMap_cons, levelElems, hq, List.map_cons,
              List.cons_append, List.cons.injEq, true_and] at this
            exact this.symm
          rw [h1]
          by_cases h0 : esq = []
          · simp only [h0, if_true] at hview1
            simp [OrderBook.elems, hview1, h0]
          · simp only [h0, if_false] at hview1
            simp only [OrderBook.elems, hview1, List.flatMap_cons, levelElems, hord1]
            rfl
        obtain ⟨i1, i2, i3, esD, esR, j1, j2, j3, j4, j5⟩ :=
          ih ob1 (a - (ob.values e).quantity) es2 hw1 he1
        rw [hvals1] at j2 j4 j5
        have hfq : fillQueue ob.values ((q.ref, e) :: t) [] a =
            { fillQueue ob.values t [] (a - (ob.values e).quantity) with
              done := ob.values e ::
                (fillQueue ob.values t [] (a - (ob.values e).quantity)).done } := by
          simp only [fillQueue, ha, hlt, if_true, if_false, List.nil_append]
          rw [fillQueue_done]
          rfl
        have hfb : fillBook ((q.ref, e) :: t) ob a =
            fillBook t ob1 (a - (ob.values e).quantity) := by
          simp only [fillBook, ha, hlt, if_true, if_false, hc2]
        rw [hfq, hfb]
        simp only
        refine ⟨i1, i2.trans hnext1, fun s' hs' => (i3 s' hs').trans (hside1 s' hs'),
          (q.ref, e) :: esD, esR, by rw [j1]; rfl, by rw [j2]; rfl, j3, ?_, ?_⟩
        · intro id
          rw [j4 id, horders1]
          by_cases hid : id = (ob.values e).id
          · subst hid; simp
          · simp only [List.map_cons, List.mem_cons, hid, false_or,
              Function.update_noteq hid]
        · rcases j5 with ⟨k1, k2, k3, k4, k5, k6⟩ | ⟨qref, e', tl, k1, k2, k3, k4, k5, k6, k7, k8⟩
          · refine Or.inl ⟨k1, k2, k3, k4, ?_, k6⟩
            rw [k5]; simp only [sumQty, List.map_cons, List.sum_cons]; ring
          · refine Or.inr ⟨qref, e', tl, k1, k2, k3, k4, k5, ?_, k7, ?_⟩
            · rw [k6]; simp only [sumQty, List.map_cons, List.sum_cons]; ring
            · rw [k8]
    · have hfq : fillQueue ob.values ((q.ref, e) :: t) [] a = ⟨[], none, 0, a, none⟩ :=
        fillQueue_nonpos _ _ _ ha
      have hfb : fillBook ((q.ref, e) :: t) ob a = ob := fillBook_nonpos _ _ ha
      rw [hfq, hfb]
      refine ⟨h, rfl, fun _ _ => rfl, [], (q.ref, e) :: t, rfl, rfl, he, fun id => by simp,
        Or.inl ⟨rfl, rfl, rfl, rfl, by simp [sumQty], Or.inr (le_of_not_lt ha)⟩⟩

/-! ### The public operations on a well-formed book -/

theorem view_length (ob : OrderBook) (s : SideRef) :
    (ob.view s).length = (ob.side s).priceTree.length := by
  cases s <;> simp [OrderBook.view]

theorem fillQueue_left_nonneg (values : Nat → Order) :
    ∀ (es : List (Nat × Nat)) (d : List Order) (a : Decimal), 0 ≤ a →
      0 ≤ (fillQueue values es d a).quantityLeft := by
  intro es
  induction es with
  | nil => intro d a ha; exact ha
  | cons x t ih =>
    intro d a ha
    obtain ⟨qr, e⟩ := x
    by_cases h0 : 0 < a
    · by_cases hlt : a < (values e).quantity
      · simp [fillQueue, h0, hlt]
      · simp only [fillQueue, h0, hlt, if_true, if_false]
        exact ih _ _ (by linarith [not_lt.1 hlt])
    · simp only [fillQueue, h0, if_false]; exact ha

theorem oppositeOf_buy : oppositeOf Side.Buy = SideRef.asks := rfl

theorem oppositeOf_sell : oppositeOf Side.Sell = SideRef.bids := rfl

theorem oppositeOf_ne (side : Side) : halfOf side ≠ oppositeOf side := by
  cases side <;> simp [halfOf, oppositeOf]

/-- `ProcessMarketQuantityOrder` on a well-formed book, for a positive quantity. -/
theorem ProcessMarketQuantityOrder_eq {ob : OrderBook} (h : WF ob) (side : Side)
    {quantity : Decimal} (hq : 0 < quantity) :
    ob.ProcessMarketQuantityOrder side quantity =
      some ({ done := (fillQueue ob.values (ob.elems (oppositeOf side)) [] quantity).done,
              partialOrd := (fillQueue ob.values (ob.elems (oppositeOf side)) [] quantity).partialOrd,
              partialQuantityProcessed :=
                (fillQueue ob.values (ob.elems (oppositeOf side)) [] quantity).partialQuantityProcessed,
              left := (fillQueue ob.values (ob.elems (oppositeOf side)) [] quantity).quantityLeft,
              rollback :=
                if (fillQueue ob.values (ob.elems (oppositeOf side)) [] quantity).rollbackPartial ≠ none ∨
                    0 < (fillQueue ob.values (ob.elems (oppositeOf side)) [] quantity).done.length then
                  some (Rollback.market
                    (fillQueue ob.values (ob.elems (oppositeOf side)) [] quantity).rollbackPartial
                    (fillQueue ob.values (ob.elems (oppositeOf side)) [] quantity).done
                    (oppositeOf side))
                else none,
              err := none },
            fillBook (ob.elems (oppositeOf side)) ob quantity) := by
  have hloop := (marketQuantityLoop_spec (oppositeOf side) _ ob ⟨[], none, 0, quantity, none⟩
    ((ob.side (oppositeOf side)).priceTree.length + 1) (view_length ob _) h (le_refl _)
    rfl rfl rfl).1
  unfold OrderBook.ProcessMarketQuantityOrder
  rw [if_neg (not_le.2 hq)]
  simp only [oppositeOf] at hloop ⊢
  rw [hloop]
  rfl

/-- `ProcessMarketPriceBuy` on a well-formed book, for a positive notional. -/
theorem ProcessMarketPriceBuy_eq {ob : OrderBook} (h : WF ob) {price : Decimal} (places : Int)
    (hp : 0 < price) :
    ob.ProcessMarketPriceBuy price places =
      some ({ done := (notionalFill ob.values places (ob.view SideRef.asks)
                ⟨[], none, 0, price, none⟩).done,
              partialOrd := (notionalFill ob.values places (ob.view SideRef.asks)
                ⟨[], none, 0, price, none⟩).partialOrd,
              partialQuantityProcessed := (notionalFill ob.values places (ob.view SideRef.asks)
                ⟨[], none, 0, price, none⟩).partialQuantityProcessed,
              left := (notionalFill ob.values places (ob.view SideRef.asks)
                ⟨[], none, 0, price, none⟩).amount,
              rollback :=
                if (notionalFill ob.values places (ob.view SideRef.asks)
                      ⟨[], none, 0, price, none⟩).rollbackPartial ≠ none ∨
                    0 < (notionalFill ob.values places (ob.view SideRef.asks)
                      ⟨[], none, 0, price, none⟩).done.length then
                  some (Rollback.market
                    (notionalFill ob.values places (ob.view SideRef.asks)
                      ⟨[], none, 0, price, none⟩).rollbackPartial
                    (notionalFill ob.values places (ob.view SideRef.asks)
                      ⟨[], none, 0, price, none⟩).done SideRef.asks)
                else none,
              err := none },
            notionalBook places (ob.view SideRef.asks) ob price) := by
  have hloop := (marketPriceLoop_spec places _ ob ⟨[], none, 0, price, none⟩
    (ob.asks.priceTree.length + 2) (view_length ob SideRef.asks) h (le_refl _)).1
  unfold OrderBook.ProcessMarketPriceBuy
  rw [if_neg (not_le.2 hp), hloop]

theorem totals_eq : ∀ (l : List Order) (acc : Decimal × Decimal),
    totals l acc = (acc.1 + sumQty l, acc.2 + sumValue l) := by
  intro l
  induction l with
  | nil => intro acc; simp [totals, sumQty, sumValue]
  | cons o t ih =>
    intro acc
    simp only [totals, ih, sumQty, sumValue, List.map_cons, List.sum_cons]
    ext <;> simp <;> ring

theorem crossElems_split (ob : OrderBook) (s : SideRef) (side : Side) (price : Decimal) :
    ob.elems s = ob.crossElems s side price ++
      ((ob.view s).dropWhile (fun q => comparator side price q.price)).flatMap levelElems := by
  simp only [OrderBook.elems, OrderBook.crossElems, ← List.flatMap_append,
    List.takeWhile_append_dropWhile]

/-- The price value of the partial fill that enters the summary order. -/
theorem fill_partial_cases {ob : OrderBook} (h : WF ob) (s : SideRef) (es es2 : List (Nat × Nat))
    (he : ob.elems s = es ++ es2) (a : Decimal) :
    ((fillQueue ob.values es [] a).partialQuantityProcessed = 0 ∧
        (fillQueue ob.values es [] a).partialOrd = none ∧
        (fillQueue ob.values es [] a).quantityLeft =
          a - sumQty (fillQueue ob.values es [] a).done) ∨
      (0 < (fillQueue ob.values es [] a).partialQuantityProcessed ∧
        (∃ p, (fillQueue ob.values es [] a).partialOrd = some p) ∧
        (fillQueue ob.values es [] a).quantityLeft = 0 ∧
        (fillQueue ob.values es [] a).partialQuantityProcessed =
          a - sumQty (fillQueue ob.values es [] a).done) := by
  obtain ⟨_, _, _, esD, esR, _, _, _, _, j5⟩ := fill_struct s es ob a es2 h he
  rcases j5 with ⟨k1, k2, k3, k4, k5, k6⟩ | ⟨qref, e', tl, k1, k2, k3, k4, k5, k6, k7, k8⟩
  · exact Or.inl ⟨k3, k2, k5⟩
  · exact Or.inr ⟨k4, ⟨_, k3⟩, k7, k6⟩

/-- `ProcessLimitOrder` on a well-formed book, for a fresh id and positive quantity and price. -/
theorem ProcessLimitOrder_eq {ob : OrderBook} (h : WF ob) (side : Side) {orderID : String}
    {quantity price : Decimal} (now : Nat) (hid : ob.orders orderID = none)
    (hq : 0 < quantity) (hp : 0 < price) :
    ob.ProcessLimitOrder side orderID quantity price now =
      if 0 < (fillQueue ob.values (ob.crossElems (oppositeOf side) side price) []
          quantity).quantityLeft then
        some ({ done := (fillQueue ob.values (ob.crossElems (oppositeOf side) side price) []
                  quantity).done,
                partialOrd :=
                  if 0 < (fillQueue ob.values (ob.crossElems (oppositeOf side) side price) []
                      quantity).done.length then
                    some (NewOrder orderID side
                      (fillQueue ob.values (ob.crossElems (oppositeOf side) side price) []
                        quantity).quantityLeft price now)
                  else (fillQueue ob.values (ob.crossElems (oppositeOf side) side price) []
                    quantity).partialOrd,
                partialQuantityProcessed :=
                  if 0 < (fillQueue ob.values (ob.crossElems (oppositeOf side) side price) []
                      quantity).done.length then
                    quantity - (fillQueue ob.values (ob.crossElems (oppositeOf side) side price) []
                      quantity).quantityLeft
                  else (fillQueue ob.values (ob.crossElems (oppositeOf side) side price) []
                    quantity).partialQuantityProcessed,
                rollback := limitRollback orderID
                  (fillQueue ob.values (ob.crossElems (oppositeOf side) side price) []
                    quantity).rollbackPartial
                  (fillQueue ob.values (ob.crossElems (oppositeOf side) side price) []
                    quantity).done (oppositeOf side),
                err := none },
              (fillBook (ob.crossElems (oppositeOf side) side price) ob quantity).Append
                (halfOf side)
                (NewOrder orderID side
                  (fillQueue ob.values (ob.crossElems (oppositeOf side) side price) []
                    quantity).quantityLeft price now))
      else
        some ({ done := (fillQueue ob.values (ob.crossElems (oppositeOf side) side price) []
                  quantity).done ++
                  [NewOrder orderID side quantity
                    (Decimal.Div
                      (sumValue (fillQueue ob.values (ob.crossElems (oppositeOf side) side price)
                          [] quantity).done +
                        (match (fillQueue ob.values (ob.crossElems (oppositeOf side) side price)
                            [] quantity).partialOrd with
                          | some p => p.price
                          | none => 0) *
                        (fillQueue ob.values (ob.crossElems (oppositeOf side) side price) []
                          quantity).partialQuantityProcessed)
                      quantity) now],
                partialOrd := (fillQueue ob.values (ob.crossElems (oppositeOf side) side price)
                  [] quantity).partialOrd,
                partialQuantityProcessed :=
                  (fillQueue ob.values (ob.crossElems (oppositeOf side) side price) []
                    quantity).partialQuantityProcessed,
                rollback := limitRollback ""
                  (fillQueue ob.values (ob.crossElems (oppositeOf side) side price) []
                    quantity).rollbackPartial
                  (fillQueue ob.values (ob.crossElems (oppositeOf side) side price) []
                    quantity).done (oppositeOf side),
                err := none },
              fillBook (ob.crossElems (oppositeOf side) side price) ob quantity) := by
  have hloop := (limitLoop_spec side price (oppositeOf side) _ ob ⟨[], none, 0, quantity, none⟩
    ((ob.side (oppositeOf side)).priceTree.length + 1) (view_length ob _) h (le_refl _)
    rfl rfl rfl).1
  have hcases := fill_partial_cases h (oppositeOf side) _ _
    (crossElems_split ob (oppositeOf side) side price) quantity
  have hnn := fillQueue_left_nonneg ob.values (ob.crossElems (oppositeOf side) side price) []
    quantity (le_of_lt hq)
  set r := fillQueue ob.values (ob.crossElems (oppositeOf side) side price) [] quantity with hr
  have hside1 : (if side = Side.Buy then SideRef.asks else SideRef.bids) = oppositeOf side := rfl
  have hside2 : (if side = Side.Buy then SideRef.bids else SideRef.asks) = halfOf side := by
    cases side <;> rfl
  unfold OrderBook.ProcessLimitOrder
  simp only [hid, Option.isSome_none, Bool.false_eq_true, if_false, not_le.2 hq, not_le.2 hp,
    hside1, hside2]
  rw [hloop]
  simp only [QueueResult.toLoopState]
  by_cases hl : 0 < r.quantityLeft
  · simp only [hl, if_true]
  · simp only [hl, if_false, totals_eq, zero_add]
    have hl0 : r.quantityLeft = 0 := le_antisymm (not_lt.1 hl) hnn
    rcases hcases with ⟨c1, c2, c3⟩ | ⟨c1, ⟨p, c2⟩, c3, c4⟩
    · have hsum : sumQty r.done = quantity := by rw [hl0] at c3; linarith
      have : ¬ (0 < r.partialQuantityProcessed) := by rw [c1]; exact lt_irrefl _
      simp only [this, if_false, hsum, ne_of_gt hq, c1, c2, mul_zero, add_zero, lt_irrefl]
    · have hsum : sumQty r.done + r.partialQuantityProcessed = quantity := by rw [c4]; ring
      simp only [c1, if_true, c2, hsum, ne_of_gt hq, if_false]

/-! ### Reachable books are well-formed -/

theorem WF_new : WF NewOrderBook := by
  refine ⟨?_, ?_, ?_, ?_, ?_, ?_, ?_, ?_⟩
  · intro s; cases s <;> simp [NewOrderBook, NewOrderSide, OrderBook.side]
  · intro s q hq; cases s <;> simp [NewOrderBook, NewOrderSide, OrderBook.side] at hq
  · intro s; cases s <;> simp [NewOrderBook, NewOrderSide, OrderBook.side, OrderSide.refs]
  · intro s e he; cases s <;> simp [NewOrderBook, NewOrderSide, OrderBook.side, OrderSide.refs] at he
  · intro s s' q hq; cases s <;> simp [NewOrderBook, NewOrderSide, OrderBook.side] at hq
  · intro s q hq; cases s <;> simp [NewOrderBook, NewOrderSide, OrderBook.side] at hq
  · intro id e he; simp [NewOrderBook] at he
  · intro s e he; cases s <;> simp [NewOrderBook, NewOrderSide, OrderBook.side, OrderSide.refs] at he

theorem fillBook_orders_none {ob : OrderBook} (h : WF ob) (s : SideRef) (es es2 : List (Nat × Nat))
    (he : ob.elems s = es ++ es2) (a : Decimal) {id : String} (hid : ob.orders id = none) :
    (fillBook es ob a).orders id = none := by
  obtain ⟨_, _, _, esD, esR, _, _, _, j4, _⟩ := fill_struct s es ob a es2 h he
  rw [j4 id]
  split_ifs
  · rfl
  · exact hid

theorem WF_fill_cross {ob : OrderBook} (h : WF ob) (s : SideRef) (side : Side)
    (price a : Decimal) : WF (fillBook (ob.crossElems s side price) ob a) :=
  (fill_struct s _ ob a _ h (crossElems_split ob s side price)).1

theorem WF_fill_all {ob : OrderBook} (h : WF ob) (s : SideRef) (a : Decimal) :
    WF (fillBook (ob.elems s) ob a) :=
  (fill_struct s _ ob a [] h (by simp)).1

theorem sideOf_halfOf_eq (side : Side) : side = sideOf (halfOf side) := by simp

theorem ProcessLimitOrder_WF {ob ob1 : OrderBook} (h : WF ob) {side : Side} {orderID : String}
    {quantity price : Decimal} {now : Nat} {r : LimitResult}
    (hr : ob.ProcessLimitOrder side orderID quantity price now = some (r, ob1)) : WF ob1 := by
  by_cases hid : (ob.orders orderID).isSome
  · simp only [OrderBook.ProcessLimitOrder, hid, if_true, Option.some.injEq, Prod.mk.injEq] at hr
    rw [← hr.2]; exact h
  · by_cases hq : quantity ≤ 0
    · simp only [OrderBook.ProcessLimitOrder, hid, hq, if_true, if_false, Bool.false_eq_true,
        Option.some.injEq, Prod.mk.injEq] at hr
      rw [← hr.2]; exact h
    · by_cases hp : price ≤ 0
      · simp only [OrderBook.ProcessLimitOrder, hid, hq, hp, if_true, if_false,
          Bool.false_eq_true, Option.some.injEq, Prod.mk.injEq] at hr
        rw [← hr.2]; exact h
      · have hid' : ob.orders orderID = none := by
          cases hh : ob.orders orderID with
          | none => rfl
          | some e => rw [hh] at hid; simp at hid
        rw [ProcessLimitOrder_eq h side now hid' (not_le.1 hq) (not_le.1 hp)] at hr
        have hw := WF_fill_cross h (oppositeOf side) side price quantity
        by_cases hl : 0 < (fillQueue ob.values (ob.crossElems (oppositeOf side) side price) []
            quantity).quantityLeft
        · rw [if_pos hl] at hr
          have h2 := (Prod.mk.inj (Option.some.inj hr)).2
          rw [← h2]
          refine WF_append hw ?_ ?_ hl (not_le.1 hp)
          · exact fillBook_orders_none h (oppositeOf side) _ _
              (crossElems_split ob (oppositeOf side) side price) quantity hid'
          · simp [NewOrder]
        · rw [if_neg hl] at hr
          have h2 := (Prod.mk.inj (Option.some.inj hr)).2
          rw [← h2]; exact hw

theorem ProcessMarketQuantityOrder_WF {ob ob1 : OrderBook} (h : WF ob) {side : Side}
    {quantity : Decimal} {r : MarketResult}
    (hr : ob.ProcessMarketQuantityOrder side quantity = some (r, ob1)) : WF ob1 := by
  by_cases hq : quantity ≤ 0
  · simp only [OrderBook.ProcessMarketQuantityOrder, hq, if_true, Option.some.injEq,
      Prod.mk.injEq] at hr
    rw [← hr.2]; exact h
  · rw [ProcessMarketQuantityOrder_eq h side (not_le.1 hq)] at hr
    simp only [Option.some.injEq, Prod.mk.injEq] at hr
    rw [← hr.2]; exact WF_fill_all h _ _

theorem ProcessMarketPriceBuy_WF {ob ob1 : OrderBook} (h : WF ob) {price : Decimal}
    {places : Int} {r : MarketResult}
    (hr : ob.ProcessMarketPriceBuy price places = some (r, ob1)) : WF ob1 := by
  by_cases hq : price ≤ 0
  · simp only [OrderBook.ProcessMarketPriceBuy, hq, if_true, Option.some.injEq,
      Prod.mk.injEq] at hr
    rw [← hr.2]; exact h
  · rw [ProcessMarketPriceBuy_eq h places (not_le.1 hq)] at hr
    simp only [Option.some.injEq, Prod.mk.injEq] at hr
    rw [← hr.2]
    exact (marketPriceLoop_spec places _ ob ⟨[], none, 0, price, none⟩
      (ob.asks.priceTree.length + 2) (view_length ob SideRef.asks) h (le_refl _)).2.1

/-- The resting element behind an indexed id, with its level. -/
theorem WF.index_level {ob : OrderBook} (h : WF ob) {id : String} {e : Nat}
    (he : ob.orders id = some e) :
    (ob.values e).id = id ∧ ∃ l1 q l2,
      (ob.side (halfOf (ob.values e).side)).priceTree = l1 ++ q :: l2 ∧ e ∈ q.orders := by
  obtain ⟨h1, h2⟩ := h.index_sound id e he
  obtain ⟨q, hq, hqe⟩ := mem_refs.1 h2
  obtain ⟨l1, l2, hl⟩ := List.append_of_mem hq
  exact ⟨h1, l1, q, l2, hl, hqe⟩

theorem cancelOrder_WF {ob : OrderBook} (h : WF ob) (id : String) :
    WF (ob.cancelOrder id).2 := by
  cases he : ob.orders id with
  | none => simp only [OrderBook.cancelOrder, he]; exact h
  | some e =>
    obtain ⟨h1, l1, q, l2, hl, hqe⟩ := h.index_level he
    have := cancelOrder_eq h hl hqe
    rw [h1] at this
    rw [this]
    have hw := WF_remove h hl hqe
    rw [h1] at hw
    exact hw

theorem CancelOrder_snd (ob : OrderBook) (id : String) :
    (ob.CancelOrder id).2 = (ob.cancelOrder id).2 := by
  unfold OrderBook.CancelOrder
  rcases hc : ob.cancelOrder id with ⟨_ | o, ob1⟩ <;> rfl

theorem CancelOrder_WF {ob : OrderBook} (h : WF ob) (id : String) :
    WF (ob.CancelOrder id).2 := by
  rw [CancelOrder_snd]; exact cancelOrder_WF h id

/-- Every reachable book is well-formed. -/
theorem Reachable.wf {ob : OrderBook} (h : Reachable ob) : WF ob := by
  induction h with
  | init => exact WF_new
  | limit side orderID quantity price now _ hr _ ih => exact ProcessLimitOrder_WF ih hr
  | marketQuantity side quantity _ hr _ ih => exact ProcessMarketQuantityOrder_WF ih hr
  | marketPrice price places _ hr _ ih => exact ProcessMarketPriceBuy_WF ih hr
  | cancel orderID _ ih => exact CancelOrder_WF ih orderID

/-! ### Resting orders and the index -/

theorem mem_resting {ob : OrderBook} {s : SideRef} {o : Order} :
    o ∈ ob.resting s ↔ ∃ e ∈ (ob.side s).refs, ob.values e = o := by
  simp only [OrderBook.resting, List.mem_flatMap, List.mem_map, mem_view, mem_refs]
  constructor
  · rintro ⟨q, hq, e, he, rfl⟩; exact ⟨e, ⟨q, hq, he⟩, rfl⟩
  · rintro ⟨e, ⟨q, hq, he⟩, rfl⟩; exact ⟨q, hq, e, he, rfl⟩

theorem WF.isResting_iff {ob : OrderBook} (h : WF ob) (id : String) :
    IsResting ob id ↔ (ob.orders id).isSome = true := by
  constructor
  · rintro ⟨s, o, ho, rfl⟩
    obtain ⟨e, he, rfl⟩ := mem_resting.1 ho
    rw [h.index_complete s e he]; rfl
  · intro hs
    obtain ⟨e, he⟩ := Option.isSome_iff_exists.1 hs
    obtain ⟨h1, h2⟩ := h.index_sound id e he
    exact ⟨_, ob.values e, mem_resting.2 ⟨e, h2, rfl⟩, h1⟩

theorem WF.not_resting {ob : OrderBook} (h : WF ob) {id : String} (hid : ¬ IsResting ob id) :
    ob.orders id = none := by
  cases ho : ob.orders id with
  | none => rfl
  | some e => exact absurd ((h.isResting_iff id).2 (by rw [ho]; rfl)) hid

/-! ### Calls that return an error -/

theorem ProcessLimitOrder_err {ob ob1 : OrderBook} {side : Side} {orderID : String}
    {quantity price : Decimal} {now : Nat} {r : LimitResult}
    (hr : ob.ProcessLimitOrder side orderID quantity price now = some (r, ob1))
    (he : r.err ≠ none) :
    ob1 = ob ∧ r.done = [] ∧ r.partialOrd = none ∧ r.rollback = none ∧
      r.partialQuantityProcessed = 0 := by
  unfold OrderBook.ProcessLimitOrder at hr
  by_cases h1 : (ob.orders orderID).isSome = true
  · rw [if_pos h1] at hr
    obtain ⟨rfl, rfl⟩ := Prod.mk.inj (Option.some.inj hr)
    exact ⟨rfl, rfl, rfl, rfl, rfl⟩
  · rw [if_neg h1] at hr
    by_cases h2 : quantity ≤ 0
    · rw [if_pos h2] at hr
      obtain ⟨rfl, rfl⟩ := Prod.mk.inj (Option.some.inj hr)
      exact ⟨rfl, rfl, rfl, rfl, rfl⟩
    · rw [if_neg h2] at hr
      by_cases h3 : price ≤ 0
      · rw [if_pos h3] at hr
        obtain ⟨rfl, rfl⟩ := Prod.mk.inj (Option.some.inj hr)
        exact ⟨rfl, rfl, rfl, rfl, rfl⟩
      · rw [if_neg h3] at hr
        exfalso
        simp only at hr
        split at hr
        · exact Option.noConfusion hr
        · split at hr
          · obtain ⟨rfl, -⟩ := Prod.mk.inj (Option.some.inj hr)
            exact he rfl
          · split at hr
            · exact Option.noConfusion hr
            · split at hr
              · exact Option.noConfusion hr
              · obtain ⟨rfl, -⟩ := Prod.mk.inj (Option.some.inj hr)
                exact he rfl

theorem ProcessMarketQuantityOrder_err {ob ob1 : OrderBook} {side : Side} {quantity : Decimal}
    {r : MarketResult} (hr : ob.ProcessMarketQuantityOrder side quantity = some (r, ob1))
    (he : r.err ≠ none) :
    ob1 = ob ∧ r.done = [] ∧ r.partialOrd = none ∧ r.rollback = none ∧
      r.partialQuantityProcessed = 0 ∧ r.left = 0 := by
  unfold OrderBook.ProcessMarketQuantityOrder at hr
  by_cases h1 : quantity ≤ 0
  · rw [if_pos h1] at hr
    obtain ⟨rfl, rfl⟩ := Prod.mk.inj (Option.some.inj hr)
    exact ⟨rfl, rfl, rfl, rfl, rfl, rfl⟩
  · rw [if_neg h1] at hr
    exfalso
    dsimp only at hr
    generalize (if side = Side.Buy then SideRef.asks else SideRef.bids) = sp at hr
    split at hr
    · exact Option.noConfusion hr
    · obtain ⟨rfl, -⟩ := Prod.mk.inj (Option.some.inj hr)
      exact he rfl

theorem ProcessMarketPriceBuy_err {ob ob1 : OrderBook} {price : Decimal} {places : Int}
    {r : MarketResult} (hr : ob.ProcessMarketPriceBuy price places = some (r, ob1))
    (he : r.err ≠ none) :
    ob1 = ob ∧ r.done = [] ∧ r.partialOrd = none ∧ r.rollback = none ∧
      r.partialQuantityProcessed = 0 ∧ r.left = 0 := by
  unfold OrderBook.ProcessMarketPriceBuy at hr
  by_cases h1 : price ≤ 0
  · rw [if_pos h1] at hr
    obtain ⟨rfl, rfl⟩ := Prod.mk.inj (Option.some.inj hr)
    exact ⟨rfl, rfl, rfl, rfl, rfl, rfl⟩
  · rw [if_neg h1] at hr
    exfalso
    split at hr
    · exact Option.noConfusion hr
    · obtain ⟨rfl, -⟩ := Prod.mk.inj (Option.some.inj hr)
      exact he rfl

/-- The error that `ProcessLimitOrder` returns, whenever it returns. -/
theorem ProcessLimitOrder_error {ob ob1 : OrderBook} {side : Side} {orderID : String}
    {quantity price : Decimal} {now : Nat} {r : LimitResult}
    (hr : ob.ProcessLimitOrder side orderID quantity price now = some (r, ob1)) :
    r.err =
      if (ob.orders orderID).isSome = true then some Error.ErrOrderExists
      else if quantity ≤ 0 then some Error.ErrInvalidQuantity
      else if price ≤ 0 then some Error.ErrInvalidPrice
      else none := by
  by_cases h1 : (ob.orders orderID).isSome = true
  · rw [if_pos h1]
    unfold OrderBook.ProcessLimitOrder at hr
    rw [if_pos h1] at hr
    obtain ⟨rfl, -⟩ := Prod.mk.inj (Option.some.inj hr)
    rfl
  · rw [if_neg h1]
    by_cases h2 : quantity ≤ 0
    · rw [if_pos h2]
      unfold OrderBook.ProcessLimitOrder at hr
      rw [if_neg h1, if_pos h2] at hr
      obtain ⟨rfl, -⟩ := Prod.mk.inj (Option.some.inj hr)
      rfl
    · rw [if_neg h2]
      by_cases h3 : price ≤ 0
      · rw [if_pos h3]
        unfold OrderBook.ProcessLimitOrder at hr
        rw [if_neg h1, if_neg h2, if_pos h3] at hr
        obtain ⟨rfl, -⟩ := Prod.mk.inj (Option.some.inj hr)
        rfl
      · rw [if_neg h3]
        by_contra he
        obtain ⟨rfl, -, -, -, -⟩ := ProcessLimitOrder_err hr he
        unfold OrderBook.ProcessLimitOrder at hr
        rw [if_neg h1, if_neg h2, if_neg h3] at hr
        simp only at hr
        split at hr
        · exact Option.noConfusion hr
        · split at hr
          · obtain ⟨rfl, -⟩ := Prod.mk.inj (Option.some.inj hr)
            exact he rfl
          · split at hr
            · exact Option.noConfusion hr
            · split at hr
              · exact Option.noConfusion hr
              · obtain ⟨rfl, -⟩ := Prod.mk.inj (Option.some.inj hr)
                exact he rfl

/-- `ProcessLimitOrder` returns, with the book as it was, when one of its three checks
fails. -/
theorem ProcessLimitOrder_refuses {ob : OrderBook} (side : Side) {orderID : String}
    {quantity price : Decimal} (now : Nat)
    (h : (ob.orders orderID).isSome = true ∨ quantity ≤ 0 ∨ price ≤ 0) :
    ∃ r, ob.ProcessLimitOrder side orderID quantity price now = some (r, ob) := by
  by_cases h1 : (ob.orders orderID).isSome = true
  · exact ⟨_, by unfold OrderBook.ProcessLimitOrder; rw [if_pos h1]⟩
  by_cases h2 : quantity ≤ 0
  · exact ⟨_, by unfold OrderBook.ProcessLimitOrder; rw [if_neg h1, if_pos h2]⟩
  by_cases h3 : price ≤ 0
  · exact ⟨_, by unfold OrderBook.ProcessLimitOrder; rw [if_neg h1, if_neg h2, if_pos h3]⟩
  rcases h with h | h | h
  · exact absurd h h1
  · exact absurd h h2
  · exact absurd h h3

/-! ### The calls return on a well-formed book -/

theorem ProcessLimitOrder_total {ob : OrderBook} (h : WF ob) (side : Side) (orderID : String)
    (quantity price : Decimal) (now : Nat) :
    ∃ r ob1, ob.ProcessLimitOrder side orderID quantity price now = some (r, ob1) := by
  by_cases h1 : (ob.orders orderID).isSome = true
  · exact ⟨_, _, by unfold OrderBook.ProcessLimitOrder; rw [if_pos h1]⟩
  by_cases h2 : quantity ≤ 0
  · exact ⟨_, _, by unfold OrderBook.ProcessLimitOrder; rw [if_neg h1, if_pos h2]⟩
  by_cases h3 : price ≤ 0
  · exact ⟨_, _, by unfold OrderBook.ProcessLimitOrder; rw [if_neg h1, if_neg h2, if_pos h3]⟩
  have hid : ob.orders orderID = none := by
    cases ho : ob.orders orderID with
    | none => rfl
    | some e => rw [ho] at h1; exact absurd rfl h1
  rw [ProcessLimitOrder_eq h side now hid (not_le.1 h2) (not_le.1 h3)]
  split_ifs <;> exact ⟨_, _, rfl⟩

theorem ProcessMarketQuantityOrder_total {ob : OrderBook} (h : WF ob) (side : Side)
    (quantity : Decimal) :
    ∃ r ob1, ob.ProcessMarketQuantityOrder side quantity = some (r, ob1) := by
  by_cases h1 : quantity ≤ 0
  · exact ⟨_, _, by unfold OrderBook.ProcessMarketQuantityOrder; rw [if_pos h1]⟩
  · exact ⟨_, _, ProcessMarketQuantityOrder_eq h side (not_le.1 h1)⟩

theorem ProcessMarketPriceBuy_total {ob : OrderBook} (h : WF ob) (price : Decimal)
    (places : Int) :
    ∃ r ob1, ob.ProcessMarketPriceBuy price places = some (r, ob1) := by
  by_cases h1 : price ≤ 0
  · exact ⟨_, _, by unfold OrderBook.ProcessMarketPriceBuy; rw [if_pos h1]⟩
  · exact ⟨_, _, ProcessMarketPriceBuy_eq h places (not_le.1 h1)⟩

theorem ProcessLimitOrder_some {ob : OrderBook} (h : Reachable ob) (side : Side)
    (orderID : String) (quantity price : Decimal) (now : Nat) :
    ob.ProcessLimitOrder side orderID quantity price now =
      some (ob.limitResult side orderID quantity price now,
        ob.afterLimit side orderID quantity price now) := by
  obtain ⟨r, ob1, hr⟩ := ProcessLimitOrder_total h.wf side orderID quantity price now
  simp only [OrderBook.limitResult, OrderBook.afterLimit, hr]

theorem ProcessMarketQuantityOrder_some {ob : OrderBook} (h : Reachable ob) (side : Side)
    (quantity : Decimal) :
    ob.ProcessMarketQuantityOrder side quantity =
      some (ob.marketResult side quantity, ob.afterMarket side quantity) := by
  obtain ⟨r, ob1, hr⟩ := ProcessMarketQuantityOrder_total h.wf side quantity
  simp only [OrderBook.marketResult, OrderBook.afterMarket, hr]

theorem ProcessMarketPriceBuy_some {ob : OrderBook} (h : Reachable ob) (price : Decimal)
    (places : Int) :
    ob.ProcessMarketPriceBuy price places =
      some (ob.notionalResult price places, ob.afterNotional price places) := by
  obtain ⟨r, ob1, hr⟩ := ProcessMarketPriceBuy_total h.wf price places
  simp only [OrderBook.notionalResult, OrderBook.afterNotional, hr]

/-! ### The books after a call are reachable -/

theorem Reachable.afterLimit {ob : OrderBook} (h : Reachable ob) (side : Side)
    (orderID : String) (quantity price : Decimal) (now : Nat) :
    Reachable (ob.afterLimit side orderID quantity price now) := by
  have hs := ProcessLimitOrder_some h side orderID quantity price now
  by_cases he : (ob.limitResult side orderID quantity price now).err = none
  · exact Reachable.limit side orderID quantity price now h hs he
  · rw [(ProcessLimitOrder_err hs he).1]; exact h

theorem Reachable.afterMarket {ob : OrderBook} (h : Reachable ob) (side : Side)
    (quantity : Decimal) : Reachable (ob.afterMarket side quantity) := by
  have hs := ProcessMarketQuantityOrder_some h side quantity
  by_cases he : (ob.marketResult side quantity).err = none
  · exact Reachable.marketQuantity side quantity h hs he
  · rw [(ProcessMarketQuantityOrder_err hs he).1]; exact h

theorem Reachable.afterNotional {ob : OrderBook} (h : Reachable ob) (price : Decimal)
    (places : Int) : Reachable (ob.afterNotional price places) := by
  have hs := ProcessMarketPriceBuy_some h price places
  by_cases he : (ob.notionalResult price places).err = none
  · exact Reachable.marketPrice price places h hs he
  · rw [(ProcessMarketPriceBuy_err hs he).1]; exact h

theorem reachable_bookA : Reachable bookA :=
  (Reachable.init.afterLimit _ _ _ _ _).afterLimit _ _ _ _ _

theorem reachable_bookB : Reachable bookB :=
  ((Reachable.init.afterLimit _ _ _ _ _).afterLimit _ _ _ _ _).afterLimit _ _ _ _ _

theorem reachable_bookC : Reachable bookC := Reachable.init.afterLimit _ _ _ _ _

theorem reachable_bookE : Reachable bookE := Reachable.init.afterLimit _ _ _ _ _

theorem reachable_bookF : Reachable bookF := Reachable.init.afterLimit _ _ _ _ _

/-! ### The longest initial segment within a quantity -/

theorem resting_eq_elems (ob : OrderBook) (s : SideRef) :
    ob.resting s = (ob.elems s).map (fun x => ob.values x.2) := by
  simp only [OrderBook.resting, OrderBook.elems, List.map_flatMap, levelElems, List.map_map]
  rfl

theorem mem_elems {ob : OrderBook} {s : SideRef} {x : Nat × Nat} (hx : x ∈ ob.elems s) :
    ∃ q ∈ (ob.side s).priceTree, q.ref = x.1 ∧ x.2 ∈ q.orders := by
  simp only [OrderBook.elems, List.mem_flatMap, levelElems, List.mem_map] at hx
  obtain ⟨q, hq, e, he, rfl⟩ := hx
  exact ⟨q, mem_view.1 hq, rfl, he⟩

theorem WF.elems_pos {ob : OrderBook} (h : WF ob) {s : SideRef} {x : Nat × Nat}
    (hx : x ∈ ob.elems s) : 0 < (ob.values x.2).quantity := by
  obtain ⟨q, hq, -, he⟩ := mem_elems hx
  exact (h.mem_level hq he).2.2

theorem sumQty_append (l1 l2 : List Order) : sumQty (l1 ++ l2) = sumQty l1 + sumQty l2 := by
  simp [sumQty]

theorem sumQty_cons (o : Order) (l : List Order) : sumQty (o :: l) = o.quantity + sumQty l := by
  simp [sumQty]

theorem sumQty_nonneg {l : List Order} (hpos : ∀ o ∈ l, 0 < o.quantity) : 0 ≤ sumQty l := by
  induction l with
  | nil => simp [sumQty]
  | cons o t ih =>
    rw [sumQty_cons]
    have h1 := hpos o (by simp)
    have h2 := ih (fun x hx => hpos x (by simp [hx]))
    linarith

/-- An initial segment within the quantity whose next order would exceed it is the longest. -/
theorem longest_front {d L : List Order} {Q : Decimal} (hpos : ∀ o ∈ L, 0 < o.quantity)
    (hd : d <+: L) (hle : sumQty d ≤ Q)
    (hnext : ∀ x t, L = d ++ x :: t → Q < sumQty d + x.quantity) : IsLongestFront d L Q := by
  refine ⟨hd, hle, fun l hl hlQ => ?_⟩
  by_contra hlen
  have hlt : d.length < l.length := not_le.1 hlen
  obtain ⟨r, rfl⟩ := List.prefix_of_prefix_length_le hd hl (le_of_lt hlt)
  obtain ⟨t, ht⟩ := hl
  cases r with
  | nil => simp at hlt
  | cons x r' =>
    have h1 := hnext x (r' ++ t) (by rw [← ht]; simp)
    have h2 : 0 ≤ sumQty r' := sumQty_nonneg (fun o ho => hpos o (by rw [← ht]; simp [ho]))
    rw [sumQty_append, sumQty_cons] at hlQ
    linarith

/-- The orders that a fill consumes completely are the longest initial segment, within the
quantity, of the orders it is run against. -/
theorem fill_longest {ob : OrderBook} (h : WF ob) (s : SideRef) (es es2 : List (Nat × Nat))
    (he : ob.elems s = es ++ es2) {a : Decimal} (ha : 0 ≤ a) :
    IsLongestFront (fillQueue ob.values es [] a).done (es.map (fun x => ob.values x.2)) a := by
  obtain ⟨-, -, -, esD, esR, hsplit, hdone, -, -, hcase⟩ := fill_struct s es ob a es2 h he
  have hnn := fillQueue_left_nonneg ob.values es [] a ha
  have hpos : ∀ o ∈ es.map (fun x => ob.values x.2), 0 < o.quantity := by
    intro o ho
    obtain ⟨x, hx, rfl⟩ := List.mem_map.1 ho
    exact h.elems_pos (s := s) (by rw [he]; simp [hx])
  have hL : es.map (fun x => ob.values x.2) =
      (fillQueue ob.values es [] a).done ++ esR.map (fun x => ob.values x.2) := by
    rw [hdone, ← List.map_append, ← hsplit]
  refine longest_front hpos ⟨_, hL.symm⟩ ?_ ?_
  · rcases hcase with ⟨-, -, -, -, k5, -⟩ | ⟨qref, e, tl, -, -, -, k4, -, k6, -, -⟩
    · linarith
    · linarith
  · intro x t hxt
    have hR : esR.map (fun x => ob.values x.2) = x :: t :=
      List.append_cancel_left (hL.symm.trans hxt)
    have hxpos : 0 < x.quantity := hpos x (by rw [hxt]; simp)
    rcases hcase with ⟨-, -, -, -, k5, k6⟩ | ⟨qref, e, tl, k1, -, -, k4, k5, k6, -, -⟩
    · rcases k6 with k6 | k6
      · rw [k6] at hR; simp at hR
      · linarith
    · rw [k1] at hR
      simp only [List.map_cons, List.cons.injEq] at hR
      rw [← hR.1]
      linarith

/-! ### The crossing levels -/

theorem filter_eq_takeWhile {α : Type} {R : α → α → Prop} (p : α → Bool)
    (hR : ∀ a b, R a b → p b = true → p a = true) :
    ∀ {l : List α}, l.Pairwise R → l.filter p = l.takeWhile p := by
  intro l
  induction l with
  | nil => intro _; rfl
  | cons a t ih =>
    intro hl
    obtain ⟨h1, h2⟩ := List.pairwise_cons.1 hl
    by_cases hp : p a = true
    · simp only [List.filter_cons, List.takeWhile_cons, hp, if_true, ih h2]
    · simp only [List.filter_cons, List.takeWhile_cons, hp, if_false, Bool.false_eq_true]
      rw [List.filter_eq_nil_iff]
      intro b hb hpb
      exact hp (hR a b (h1 b hb) hpb)

theorem WF.view_sorted {ob : OrderBook} (h : WF ob) (side : Side) :
    (ob.view (oppositeOf side)).Pairwise
      (fun a b => if side = Side.Buy then a.price < b.price else b.price < a.price) := by
  cases side with
  | Buy => simpa [oppositeOf, OrderBook.view] using h.sorted SideRef.asks
  | Sell =>
    have := h.sorted SideRef.bids
    simpa [oppositeOf, OrderBook.view, List.pairwise_reverse] using this

theorem WF.crossing_eq {ob : OrderBook} (h : WF ob) (side : Side) (price : Decimal) :
    ob.crossing (oppositeOf side) side price =
      (ob.crossElems (oppositeOf side) side price).map (fun x => ob.values x.2) := by
  have hf := filter_eq_takeWhile (fun q : OrderQueue => comparator side price q.price)
    (R := fun a b => if side = Side.Buy then a.price < b.price else b.price < a.price)
    (by
      intro a b hab hb
      cases side with
      | Buy =>
        simp only [comparator, if_true, ge_iff_le, decide_eq_true_eq] at hab hb ⊢
        linarith
      | Sell =>
        simp only [comparator, if_false, decide_eq_true_eq, reduceCtorEq] at hab hb ⊢
        linarith) (h.view_sorted side)
  simp only [OrderBook.crossing, OrderBook.crossElems, hf, List.map_flatMap, levelElems,
    List.map_map]
  rfl

/-! ### Successful limit orders -/

theorem ProcessLimitOrder_ok {ob ob1 : OrderBook} {side : Side} {orderID : String}
    {quantity price : Decimal} {now : Nat} {r : LimitResult}
    (hr : ob.ProcessLimitOrder side orderID quantity price now = some (r, ob1))
    (he : r.err = none) : ob.orders orderID = none ∧ 0 < quantity ∧ 0 < price := by
  unfold OrderBook.ProcessLimitOrder at hr
  by_cases h1 : (ob.orders orderID).isSome = true
  · rw [if_pos h1] at hr
    obtain ⟨rfl, -⟩ := Prod.mk.inj (Option.some.inj hr)
    exact absurd he (by simp)
  · rw [if_neg h1] at hr
    by_cases h2 : quantity ≤ 0
    · rw [if_pos h2] at hr
      obtain ⟨rfl, -⟩ := Prod.mk.inj (Option.some.inj hr)
      exact absurd he (by simp)
    · rw [if_neg h2] at hr
      by_cases h3 : price ≤ 0
      · rw [if_pos h3] at hr
        obtain ⟨rfl, -⟩ := Prod.mk.inj (Option.some.inj hr)
        exact absurd he (by simp)
      · refine ⟨?_, not_le.1 h2, not_le.1 h3⟩
        cases ho : ob.orders orderID with
        | none => rfl
        | some e => rw [ho] at h1; exact absurd rfl h1

theorem limitRemaining_eq {ob : OrderBook} (h : WF ob) (side : Side) (quantity price : Decimal) :
    ob.limitRemaining side quantity price =
      some (fillQueue ob.values (ob.crossElems (oppositeOf side) side price) []
        quantity).quantityLeft := by
  have hloop := (limitLoop_spec side price (oppositeOf side) _ ob ⟨[], none, 0, quantity, none⟩
    ((ob.side (oppositeOf side)).priceTree.length + 1) (view_length ob _) h (le_refl _)
    rfl rfl rfl).1
  have hside1 : (if side = Side.Buy then SideRef.asks else SideRef.bids) = oppositeOf side := rfl
  unfold OrderBook.limitRemaining
  simp only [hside1]
  rw [hloop]
  rfl

/-! ### The prices met by a fill of the crossing levels -/

theorem WF.cross_price {ob : OrderBook} (h : WF ob) {s : SideRef} {side : Side}
    {price : Decimal} {x : Nat × Nat} (hx : x ∈ ob.crossElems s side price) :
    comparator side price (ob.values x.2).price = true := by
  simp only [OrderBook.crossElems, List.mem_flatMap, levelElems, List.mem_map] at hx
  obtain ⟨q, hq, e, he, rfl⟩ := hx
  have hc := List.mem_takeWhile_imp hq
  have hm : q ∈ (ob.side s).priceTree := mem_view.1 ((List.takeWhile_sublist _).subset hq)
  rw [(h.mem_level hm he).1]
  exact hc

theorem fill_done_mem {ob : OrderBook} (h : WF ob) (s : SideRef) (es es2 : List (Nat × Nat))
    (he : ob.elems s = es ++ es2) (a : Decimal) {o : Order}
    (ho : o ∈ (fillQueue ob.values es [] a).done) : ∃ x ∈ es, ob.values x.2 = o := by
  obtain ⟨-, -, -, esD, esR, hsplit, hdone, -, -, -⟩ := fill_struct s es ob a es2 h he
  rw [hdone] at ho
  obtain ⟨x, hx, rfl⟩ := List.mem_map.1 ho
  exact ⟨x, by rw [hsplit]; simp [hx], rfl⟩

theorem fill_partial_mem {ob : OrderBook} (h : WF ob) (s : SideRef) (es es2 : List (Nat × Nat))
    (he : ob.elems s = es ++ es2) (a : Decimal) {p : Order}
    (hp : (fillQueue ob.values es [] a).partialOrd = some p) :
    ∃ x ∈ es, p = reduced (ob.values x.2) (fillQueue ob.values es [] a).partialQuantityProcessed ∧
      0 < (fillQueue ob.values es [] a).partialQuantityProcessed := by
  obtain ⟨-, -, -, esD, esR, hsplit, -, -, -, hcase⟩ := fill_struct s es ob a es2 h he
  rcases hcase with ⟨-, k2, -⟩ | ⟨qref, e, tl, k1, -, k3, k4, -⟩
  · rw [k2] at hp; exact Option.noConfusion hp
  · rw [k3] at hp
    exact ⟨(qref, e), by rw [hsplit, k1]; simp, (Option.some.inj hp).symm, k4⟩

theorem fill_done_resting {ob : OrderBook} (h : WF ob) (s : SideRef) (es es2 : List (Nat × Nat))
    (he : ob.elems s = es ++ es2) (a : Decimal) {o : Order}
    (ho : o ∈ (fillQueue ob.values es [] a).done) : o ∈ ob.resting s := by
  obtain ⟨x, hx, rfl⟩ := fill_done_mem h s es es2 he a ho
  rw [resting_eq_elems, he]
  exact List.mem_map.2 ⟨x, by simp [hx], rfl⟩

/-! ### Bounds on a volume-weighted average -/

theorem sumValue_cons (o : Order) (l : List Order) :
    sumValue (o :: l) = o.price * o.quantity + sumValue l := by
  simp [sumValue]

theorem sumValue_le {l : List Order} {P : Decimal}
    (hl : ∀ o ∈ l, o.price ≤ P ∧ 0 < o.quantity) : sumValue l ≤ P * sumQty l := by
  induction l with
  | nil => simp [sumValue, sumQty]
  | cons o t ih =>
    rw [sumValue_cons, sumQty_cons]
    have h1 := hl o (by simp)
    have h2 := ih (fun x hx => hl x (by simp [hx]))
    nlinarith [mul_le_mul_of_nonneg_right h1.1 (le_of_lt h1.2)]

theorem sumValue_ge {l : List Order} {P : Decimal}
    (hl : ∀ o ∈ l, P ≤ o.price ∧ 0 < o.quantity) : P * sumQty l ≤ sumValue l := by
  induction l with
  | nil => simp [sumValue, sumQty]
  | cons o t ih =>
    rw [sumValue_cons, sumQty_cons]
    have h1 := hl o (by simp)
    have h2 := ih (fun x hx => hl x (by simp [hx]))
    nlinarith [mul_le_mul_of_nonneg_right h1.1 (le_of_lt h1.2)]

theorem average_le {V W Q P : Decimal} (hQ : 0 < Q) (h : V ≤ P * W) (hW : W = Q) :
    V / Q ≤ P := by
  subst hW
  rw [div_le_iff₀ hQ]
  exact h

theorem average_ge {V W Q P : Decimal} (hQ : 0 < Q) (h : P * W ≤ V) (hW : W = Q) :
    P ≤ V / Q := by
  subst hW
  rw [le_div_iff₀ hQ]
  exact h

/-! ### The rounding of a quotient -/

theorem DivRound_nonneg_eq {a p : Decimal} (places : Int) (hx : 0 ≤ a / p) :
    Decimal.DivRound a p places =
      ((⌊a / p * (10 : ℚ) ^ places + 1 / 2⌋ : ℤ) : ℚ) / (10 : ℚ) ^ places := by
  have hs := pow_places_pos places
  have hy : 0 ≤ a / p * (10 : ℚ) ^ places := mul_nonneg hx (le_of_lt hs)
  simp only [Decimal.DivRound, hy, if_true]

/-- The rounded quotient is a multiple of the unit of the last place and is within half a
unit of the quotient. -/
theorem DivRound_near {a p : Decimal} (places : Int) (hx : 0 ≤ a / p) :
    (∃ m : ℤ, Decimal.DivRound a p places = (m : ℚ) / (10 : ℚ) ^ places) ∧
      Decimal.DivRound a p places ≤ a / p + 1 / (2 * (10 : ℚ) ^ places) ∧
      a / p - 1 / (2 * (10 : ℚ) ^ places) ≤ Decimal.DivRound a p places := by
  have hs := pow_places_pos places
  have hs' : (10 : ℚ) ^ places ≠ 0 := ne_of_gt hs
  rw [DivRound_nonneg_eq places hx]
  have h1 : ((⌊a / p * (10 : ℚ) ^ places + 1 / 2⌋ : ℤ) : ℚ) ≤
      a / p * (10 : ℚ) ^ places + 1 / 2 := Int.floor_le _
  have h2 : a / p * (10 : ℚ) ^ places + 1 / 2 <
      ((⌊a / p * (10 : ℚ) ^ places + 1 / 2⌋ : ℤ) : ℚ) + 1 := Int.lt_floor_add_one _
  refine ⟨⟨_, rfl⟩, ?_, ?_⟩
  · rw [div_le_iff₀ hs]
    have : (a / p + 1 / (2 * (10 : ℚ) ^ places)) * (10 : ℚ) ^ places =
        a / p * (10 : ℚ) ^ places + 1 / 2 := by
      field_simp
      ring
    rw [this]
    exact h1
  · rw [le_div_iff₀ hs]
    have : (a / p - 1 / (2 * (10 : ℚ) ^ places)) * (10 : ℚ) ^ places =
        a / p * (10 : ℚ) ^ places - 1 / 2 := by
      field_simp
      ring
    rw [this]
    linarith

/-- Rounding does not cross a multiple of the unit of the last place. -/
theorem DivRound_grid {a p : Decimal} (places : Int) (n : ℤ) (hx : 0 ≤ a / p) :
    (a / p ≤ (n : ℚ) / (10 : ℚ) ^ places →
      Decimal.DivRound a p places ≤ (n : ℚ) / (10 : ℚ) ^ places) ∧
    ((n : ℚ) / (10 : ℚ) ^ places ≤ a / p →
      (n : ℚ) / (10 : ℚ) ^ places ≤ Decimal.DivRound a p places) := by
  have hs := pow_places_pos places
  rw [DivRound_nonneg_eq places hx]
  constructor
  · intro h
    have h1 : a / p * (10 : ℚ) ^ places ≤ (n : ℚ) := (le_div_iff₀ hs).1 h
    apply div_le_div_of_nonneg_right _ (le_of_lt hs)
    have : ⌊a / p * (10 : ℚ) ^ places + 1 / 2⌋ ≤ n := by
      rw [← Int.lt_add_one_iff, Int.floor_lt]
      push_cast
      linarith
    exact_mod_cast this
  · intro h
    have h1 : (n : ℚ) ≤ a / p * (10 : ℚ) ^ places := (div_le_iff₀ hs).1 h
    apply div_le_div_of_nonneg_right _ (le_of_lt hs)
    have : n ≤ ⌊a / p * (10 : ℚ) ^ places + 1 / 2⌋ := by
      rw [Int.le_floor]
      linarith
    exact_mod_cast this

theorem DivRound_grid_eq {a p : Decimal} (places : Int) (n : ℤ) (hx : 0 ≤ a / p)
    (h : a / p = (n : ℚ) / (10 : ℚ) ^ places) : Decimal.DivRound a p places = a / p := by
  obtain ⟨h1, h2⟩ := DivRound_grid places n hx
  exact le_antisymm (by rw [h]; exact h1 (le_of_eq h)) (by rw [h]; exact h2 (le_of_eq h.symm))

/-! ### The order that `Append` places -/

theorem Append_Order (ob : OrderBook) (s : SideRef) (o : Order) :
    (ob.Append s o).Order o.id = some o := by
  cases s <;> simp [OrderBook.Order, OrderBook.Append]

theorem Append_tail {ob : OrderBook} (h : WF ob) (s : SideRef) (o : Order) :
    ∃ q ∈ ((ob.Append s o).side s).priceTree, q.price = o.price ∧
      q.orders.getLast?.map (ob.Append s o).values = some o := by
  obtain ⟨l1, l2, q0, mid, -, happ, hprice, -, -, -⟩ :=
    appendLevel_cases (h.sorted s) ob.next ob.next o
  refine ⟨q0.Append ob.next o, ?_, hprice, ?_⟩
  · rw [Append_eq]
    have hmem : q0.Append ob.next o ∈ appendLevel ob.next ob.next o (ob.side s).priceTree := by
      rw [happ]; simp
    cases s <;> exact hmem
  · rw [Append_eq]
    simp [OrderQueue.Append]

/-! ### The prices executed by a limit order -/

theorem comparator_buy {price p : Decimal} :
    comparator Side.Buy price p = true ↔ p ≤ price := by
  simp [comparator]

theorem comparator_sell {price p : Decimal} :
    comparator Side.Sell price p = true ↔ price ≤ p := by
  simp [comparator]

theorem comparator_self (side : Side) (price : Decimal) : comparator side price price = true := by
  cases side
  · exact comparator_sell.2 (le_refl _)
  · exact comparator_buy.2 (le_refl _)

theorem average_cross (side : Side) {D : List Order} {P m pq Q : Decimal}
    (hD : ∀ o ∈ D, comparator side P o.price = true ∧ 0 < o.quantity)
    (hm : 0 < pq → comparator side P m = true) (hpq : 0 ≤ pq) (hQ : 0 < Q)
    (hW : sumQty D + pq = Q) :
    comparator side P ((sumValue D + m * pq) / Q) = true := by
  rcases eq_or_lt_of_le hpq with h0 | hpos
  · subst h0
    cases side
    · rw [comparator_sell]
      refine average_ge hQ ?_ hW
      have := sumValue_ge (l := D) (P := P) (fun o ho => ⟨comparator_sell.1 (hD o ho).1, (hD o ho).2⟩)
      simpa using this
    · rw [comparator_buy]
      refine average_le hQ ?_ hW
      have := sumValue_le (l := D) (P := P) (fun o ho => ⟨comparator_buy.1 (hD o ho).1, (hD o ho).2⟩)
      simpa using this
  · cases side
    · rw [comparator_sell]
      refine average_ge hQ ?_ hW
      have h1 := sumValue_ge (l := D) (P := P)
        (fun o ho => ⟨comparator_sell.1 (hD o ho).1, (hD o ho).2⟩)
      have h2 := mul_le_mul_of_nonneg_right (comparator_sell.1 (hm hpos)) hpq
      linarith
    · rw [comparator_buy]
      refine average_le hQ ?_ hW
      have h1 := sumValue_le (l := D) (P := P)
        (fun o ho => ⟨comparator_buy.1 (hD o ho).1, (hD o ho).2⟩)
      have h2 := mul_le_mul_of_nonneg_right (comparator_buy.1 (hm hpos)) hpq
      linarith

theorem WF.elems_price_pos {ob : OrderBook} (h : WF ob) {s : SideRef} {x : Nat × Nat}
    (hx : x ∈ ob.elems s) : 0 < (ob.values x.2).price := by
  obtain ⟨q, hq, -, he⟩ := mem_elems hx
  rw [(h.mem_level hq he).1]
  exact (h.level s q hq).price_pos

/-- The value executed by a matching run is not negative. -/
theorem fill_value_nonneg {ob : OrderBook} (h : WF ob) (s : SideRef) (es es2 : List (Nat × Nat))
    (he : ob.elems s = es ++ es2) (a : Decimal) :
    0 ≤ sumValue (fillQueue ob.values es [] a).done +
      (match (fillQueue ob.values es [] a).partialOrd with
        | some p => p.price
        | none => 0) * (fillQueue ob.values es [] a).partialQuantityProcessed := by
  have h1 : (0 : Decimal) * sumQty (fillQueue ob.values es [] a).done ≤
      sumValue (fillQueue ob.values es [] a).done := by
    refine sumValue_ge ?_
    intro o ho
    obtain ⟨x, hx, rfl⟩ := fill_done_mem h s es es2 he a ho
    have hx' : x ∈ ob.elems s := by rw [he]; simp [hx]
    exact ⟨le_of_lt (h.elems_price_pos hx'), h.elems_pos hx'⟩
  rw [zero_mul] at h1
  refine add_nonneg h1 ?_
  rcases fill_partial_cases h s es es2 he a with ⟨c1, -, -⟩ | ⟨c1, ⟨p, c2⟩, -, -⟩
  · rw [c1, mul_zero]
  · obtain ⟨x, hx, hp, -⟩ := fill_partial_mem h s es es2 he a c2
    have hx' : x ∈ ob.elems s := by rw [he]; simp [hx]
    have hpp : 0 < p.price := by rw [hp]; exact h.elems_price_pos hx'
    rw [c2]
    exact mul_nonneg (le_of_lt hpp) (le_of_lt c1)

/-- The consumed counter-orders `D` and the partial order of a successful limit order have a
price that crosses the limit or is the limit; the summary order, when there is one, has the
rounding to 16 decimal places of a quotient that is not negative and crosses the limit or is
the limit. -/
theorem limit_prices {ob ob1 : OrderBook} {side : Side} {orderID : String}
    {quantity price : Decimal} {now : Nat} {r : LimitResult} (hw : WF ob)
    (hr : ob.ProcessLimitOrder side orderID quantity price now = some (r, ob1))
    (herr : r.err = none) :
    ∃ D : List Order,
      (∀ o ∈ D, o ∈ ob.resting (oppositeOf side) ∧ comparator side price o.price = true) ∧
      (∀ p, r.partialOrd = some p → comparator side price p.price = true) ∧
      (r.done = D ∨ ∃ V : Decimal, 0 ≤ V / quantity ∧
        comparator side price (V / quantity) = true ∧
        r.done = D ++ [NewOrder orderID side quantity (Decimal.DivRound V quantity 16) now]) := by
  obtain ⟨hid, hq, hp⟩ := ProcessLimitOrder_ok hr herr
  have heq := ProcessLimitOrder_eq hw side now hid hq hp
  have hsplit := crossElems_split ob (oppositeOf side) side price
  have hcases := fill_partial_cases hw (oppositeOf side) _ _ hsplit quantity
  have hrest := fun o => fill_done_resting hw (oppositeOf side) _ _ hsplit quantity (o := o)
  have hdone : ∀ o ∈ (fillQueue ob.values (ob.crossElems (oppositeOf side) side price) []
      quantity).done, comparator side price o.price = true ∧ 0 < o.quantity := by
    intro o ho
    obtain ⟨x, hx, rfl⟩ := fill_done_mem hw (oppositeOf side) _ _ hsplit quantity ho
    exact ⟨hw.cross_price hx, hw.elems_pos (s := oppositeOf side) (by rw [hsplit]; simp [hx])⟩
  have hdone0 : ∀ o ∈ (fillQueue ob.values (ob.crossElems (oppositeOf side) side price) []
      quantity).done, comparator Side.Sell 0 o.price = true ∧ 0 < o.quantity := by
    intro o ho
    obtain ⟨x, hx, rfl⟩ := fill_done_mem hw (oppositeOf side) _ _ hsplit quantity ho
    have hx' : x ∈ ob.elems (oppositeOf side) := by rw [hsplit]; simp [hx]
    exact ⟨comparator_sell.2 (le_of_lt (hw.elems_price_pos hx')), hw.elems_pos hx'⟩
  have hpart : ∀ p, (fillQueue ob.values (ob.crossElems (oppositeOf side) side price) []
      quantity).partialOrd = some p → comparator side price p.price = true := by
    intro p hpo
    obtain ⟨x, hx, rfl, -⟩ := fill_partial_mem hw (oppositeOf side) _ _ hsplit quantity hpo
    exact hw.cross_price hx
  have hpart0 : ∀ p, (fillQueue ob.values (ob.crossElems (oppositeOf side) side price) []
      quantity).partialOrd = some p → comparator Side.Sell 0 p.price = true := by
    intro p hpo
    obtain ⟨x, hx, rfl, -⟩ := fill_partial_mem hw (oppositeOf side) _ _ hsplit quantity hpo
    have hx' : x ∈ ob.elems (oppositeOf side) := by rw [hsplit]; simp [hx]
    exact comparator_sell.2 (le_of_lt (hw.elems_price_pos hx'))
  have hnn := fillQueue_left_nonneg ob.values (ob.crossElems (oppositeOf side) side price) []
    quantity (le_of_lt hq)
  rw [hr] at heq
  by_cases hl : 0 < (fillQueue ob.values (ob.crossElems (oppositeOf side) side price) []
      quantity).quantityLeft
  · rw [if_pos hl] at heq
    obtain ⟨rfl, -⟩ := Prod.mk.inj (Option.some.inj heq)
    refine ⟨_, fun o ho => ⟨hrest o ho, (hdone o ho).1⟩, ?_, Or.inl rfl⟩
    intro p hpo
    simp only at hpo
    split_ifs at hpo
    · rw [← Option.some.inj hpo]; exact comparator_self side price
    · exact hpart p hpo
  · rw [if_neg hl] at heq
    obtain ⟨rfl, -⟩ := Prod.mk.inj (Option.some.inj heq)
    have hl0 := le_antisymm (not_lt.1 hl) hnn
    have hpq : 0 ≤ (fillQueue ob.values (ob.crossElems (oppositeOf side) side price) []
        quantity).partialQuantityProcessed := by
      rcases hcases with ⟨c1, -, -⟩ | ⟨c1, -, -, -⟩
      · rw [c1]
      · exact le_of_lt c1
    have hsum : sumQty (fillQueue ob.values (ob.crossElems (oppositeOf side) side price) []
        quantity).done + (fillQueue ob.values (ob.crossElems (oppositeOf side) side price) []
        quantity).partialQuantityProcessed = quantity := by
      rcases hcases with ⟨c1, -, c3⟩ | ⟨-, -, -, c4⟩
      · rw [c1, add_zero]; rw [hl0] at c3; linarith
      · rw [c4]; ring
    have hm : ∀ (sd : Side) (P : Decimal),
        (∀ p, (fillQueue ob.values (ob.crossElems (oppositeOf side) side price) []
          quantity).partialOrd = some p → comparator sd P p.price = true) →
        0 < (fillQueue ob.values (ob.crossElems (oppositeOf side) side price) []
          quantity).partialQuantityProcessed →
        comparator sd P (match (fillQueue ob.values
          (ob.crossElems (oppositeOf side) side price) [] quantity).partialOrd with
          | some p => p.price
          | none => 0) = true := by
      intro sd P hP hpos
      rcases hcases with ⟨c1, -, -⟩ | ⟨-, ⟨p, c2⟩, -, -⟩
      · rw [c1] at hpos; exact absurd hpos (lt_irrefl _)
      · rw [c2]; exact hP p c2
    refine ⟨_, fun o ho => ⟨hrest o ho, (hdone o ho).1⟩, hpart, Or.inr ⟨_, ?_, ?_, rfl⟩⟩
    · exact comparator_sell.1 (average_cross Side.Sell hdone0 (hm Side.Sell 0 hpart0) hpq hq hsum)
    · exact average_cross side hdone (hm side price hpart) hpq hq hsum

/-! ### A partial fill of the head order -/

/-- The loop of `processQueue` at a head order that exceeds the quantity left. -/
theorem partial_head_loop {ob : OrderBook} (h : WF ob) {s : SideRef} {q : OrderQueue}
    {rest : List OrderQueue} {e : Nat} {tl : List Nat} (d : List Order) {a : Decimal}
    {fuel : Nat} (hv : ob.view s = q :: rest) (hq : q.orders = e :: tl) (ha : 0 < a)
    (hlt : a < (ob.values e).quantity) (hfuel : q.orders.length + 1 ≤ fuel) :
    ∃ ob1 q1,
      processQueueLoop q.ref fuel ob ⟨d, none, 0, a, none⟩ =
        some (⟨d, some (reduced (ob.values e) a), a, 0, some ⟨q.ref, e, ob.values e⟩⟩, ob1) ∧
      ob1.view s = q1 :: rest ∧ q1.ref = q.ref ∧ q1.price = q.price ∧ q1.orders = q.orders ∧
      q1.orders.map ob1.values = reduced (ob.values e) a :: tl.map ob.values ∧
      ob1.Order (ob.values e).id = some (reduced (ob.values e) a) := by
  have hloop := (processQueueLoop_level q.orders.length ob q d a fuel rfl h hv hfuel).1
  have hmem : e ∈ q.orders := by rw [hq]; simp
  have hm : q ∈ (ob.side s).priceTree := mem_view.1 (by rw [hv]; simp)
  have hpos : 0 < (reduced (ob.values e) a).quantity := by
    simp only [reduced, NewOrder]; linarith
  obtain ⟨-, hview, -, hvals, -, hord⟩ :=
    update_spec h hv hmem (o := reduced (ob.values e) a) rfl rfl rfl hpos
  have hel : levelElems q = (q.ref, e) :: tl.map (fun x => (q.ref, x)) := by
    simp [levelElems, hq]
  have hfq : fillQueue ob.values (levelElems q) d a =
      ⟨d, some (reduced (ob.values e) a), a, 0, some ⟨q.ref, e, ob.values e⟩⟩ := by
    rw [hel]; simp [fillQueue, ha, hlt]
  have hfb : fillBook (levelElems q) ob a = ob.Update q.ref e (reduced (ob.values e) a) := by
    rw [hel]; simp [fillBook, ha, hlt]
  rw [hfq, hfb] at hloop
  have hnd : (q.orders).Nodup := by
    have := h.refs_nodup s
    obtain ⟨l1, l2, hsplit⟩ := List.append_of_mem hm
    rw [show ob.side s = OrderSide.mk (l1 ++ q :: l2) from side_eq_mk hsplit, refs_split] at this
    exact (List.nodup_append.1 (List.nodup_append.1 this).1).2.1
  have hnot : e ∉ tl := by rw [hq] at hnd; exact (List.nodup_cons.1 hnd).1
  refine ⟨_, _, hloop, hview, rfl, rfl, rfl, ?_, ?_⟩
  · show q.orders.map _ = _
    rw [hq, hvals, List.map_cons, Function.update_same]
    congr 1
    apply List.map_congr_left
    intro x hx
    have hxe : x ≠ e := fun hxe => hnot (by rw [← hxe]; exact hx)
    exact Function.update_noteq hxe _ _
  · have hidx := h.index_complete s e (mem_refs.2 ⟨q, hm, hmem⟩)
    simp only [OrderBook.Order, hord, hidx, hvals, Function.update_same]

theorem zpow_sixteen : (10 : ℚ) ^ (16 : ℤ) = 10 ^ 16 := by norm_num

/-- The quotient of a price times a quantity by the quantity, as `Div` returns it: the price
rounded to 16 decimal places. -/
theorem Div_mul_self {p q : Decimal} (hq : 0 < q) (hp : 0 ≤ p) :
    (∃ m : ℤ, Decimal.Div (p * q) q = (m : ℚ) / 10 ^ 16) ∧
      Decimal.Div (p * q) q ≤ p + 1 / (2 * 10 ^ 16) ∧
      p - 1 / (2 * 10 ^ 16) ≤ Decimal.Div (p * q) q ∧
      ((∃ n : ℤ, p = (n : ℚ) / 10 ^ 16) → Decimal.Div (p * q) q = p) := by
  have hpq : p * q / q = p := by field_simp
  have hx : 0 ≤ p * q / q := by rw [hpq]; exact hp
  obtain ⟨h1, h2, h3⟩ := DivRound_near 16 hx
  rw [hpq, zpow_sixteen] at h2 h3
  rw [zpow_sixteen] at h1
  refine ⟨h1, h2, h3, ?_⟩
  rintro ⟨n, hn⟩
  have := DivRound_grid_eq 16 n hx (by rw [hpq, zpow_sixteen]; exact hn)
  rw [hpq] at this
  exact this

/-- A crossing limit order smaller than the best opposite head order: the summary order is
alone in `done`, at the quotient, as `Div` returns it, of the head order's price times the
quantity by the quantity. -/
theorem partial_head_limit {ob : OrderBook} (h : WF ob) {side : Side} {orderID : String}
    {quantity price : Decimal} (now : Nat) {q : OrderQueue} {rest : List OrderQueue} {e : Nat}
    {tl : List Nat} (hv : ob.view (oppositeOf side) = q :: rest) (hq : q.orders = e :: tl)
    (hc : comparator side price q.price = true) (hid : ¬ IsResting ob orderID)
    (hqty : 0 < quantity) (hp : 0 < price) (hlt : quantity < (ob.values e).quantity) :
    ∃ r ob1, ob.ProcessLimitOrder side orderID quantity price now = some (r, ob1) ∧
      r.err = none ∧
      r.done = [NewOrder orderID side quantity
        (Decimal.Div ((ob.values e).price * quantity) quantity) now] ∧
      r.partialOrd = some (reduced (ob.values e) quantity) ∧
      r.partialQuantityProcessed = quantity := by
  have heq := ProcessLimitOrder_eq h side now (h.not_resting hid) hqty hp
  have hel : ob.crossElems (oppositeOf side) side price = (q.ref, e) ::
      (tl.map (fun x => (q.ref, x)) ++
        (rest.takeWhile (fun q => comparator side price q.price)).flatMap levelElems) := by
    rw [crossElems_cons_cross hv hc]; simp [levelElems, hq]
  have hfq : fillQueue ob.values (ob.crossElems (oppositeOf side) side price) [] quantity =
      ⟨[], some (reduced (ob.values e) quantity), quantity, 0,
        some ⟨q.ref, e, ob.values e⟩⟩ := by
    rw [hel]; simp [fillQueue, hqty, hlt]
  rw [hfq, if_neg (lt_irrefl _)] at heq
  refine ⟨_, _, heq, rfl, ?_, rfl, rfl⟩
  simp only [List.nil_append, sumValue, List.map_nil, List.sum_nil, zero_add, reduced, NewOrder]

/-- The price of the head order of a level of a well-formed book is positive. -/
theorem WF.head_price_pos {ob : OrderBook} (h : WF ob) {s : SideRef} {q : OrderQueue}
    {rest : List OrderQueue} {e : Nat} {tl : List Nat} (hv : ob.view s = q :: rest)
    (hq : q.orders = e :: tl) : 0 < (ob.values e).price := by
  have hm : q ∈ (ob.side s).priceTree := mem_view.1 (by rw [hv]; simp)
  rw [(h.mem_level hm (by rw [hq]; simp)).1]
  exact (h.level s q hm).price_pos

/-! ### Books with the same resting orders -/

theorem content_nil {v : Nat → Order} {sd : Side} {T : List OrderQueue}
    (hl : ∀ q ∈ T, LevelOK v sd q) (h : T.flatMap (fun q => q.orders.map v) = []) : T = [] := by
  cases T with
  | nil => rfl
  | cons q t =>
    simp only [List.flatMap_cons, List.append_eq_nil, List.map_eq_nil_iff] at h
    exact absurd h.1 (hl q (by simp)).nonempty

theorem content_head_price {v : Nat → Order} {sd : Side} {q : OrderQueue}
    (hq : LevelOK v sd q) : ∀ o ∈ q.orders.map v, o.price = q.price := by
  intro o ho
  obtain ⟨e, he, rfl⟩ := List.mem_map.1 ho
  exact (hq.elems e he).1

theorem content_tail_price {v : Nat → Order} {sd : Side} {q : OrderQueue} {t : List OrderQueue}
    (hs : (q :: t).Pairwise (fun a b => a.price < b.price)) (hl : ∀ x ∈ t, LevelOK v sd x) :
    ∀ o ∈ t.flatMap (fun x => x.orders.map v), q.price < o.price := by
  intro o ho
  obtain ⟨x, hx, hox⟩ := List.mem_flatMap.1 ho
  rw [content_head_price (hl x hx) o hox]
  exact (List.pairwise_cons.1 hs).1 x hx

theorem level_nonempty {v : Nat → Order} {sd : Side} {q : OrderQueue} (hq : LevelOK v sd q) :
    ∃ o, o ∈ q.orders.map v := by
  cases hh : q.orders with
  | nil => exact absurd hh hq.nonempty
  | cons e es => exact ⟨v e, by simp⟩

theorem levels_of_perm {v v2 : Nat → Order} {sd : Side} :
    ∀ (T T2 : List OrderQueue), T.Pairwise (fun a b => a.price < b.price) →
      T2.Pairwise (fun a b => a.price < b.price) →
      (∀ q ∈ T, LevelOK v sd q) → (∀ q ∈ T2, LevelOK v2 sd q) →
      (T.flatMap (fun q => q.orders.map v)).Perm (T2.flatMap (fun q => q.orders.map v2)) →
      List.Forall₂ (fun q q2 => q.price = q2.price ∧ q.volume = q2.volume ∧
        (q.orders.map v).Perm (q2.orders.map v2)) T T2 := by
  intro T
  induction T with
  | nil =>
    intro T2 _ _ _ hl2 hp
    have := content_nil hl2 (by simpa using hp.symm.eq_nil)
    rw [this]; exact List.Forall₂.nil
  | cons q t ih =>
    intro T2 hs hs2 hl hl2 hp
    cases T2 with
    | nil =>
      have := content_nil hl (by simpa using hp.eq_nil)
      exact absurd this (by simp)
    | cons q2 t2 =>
      have hq := hl q (by simp)
      have hq2 := hl2 q2 (by simp)
      have hlt : ∀ x ∈ t, LevelOK v sd x := fun x hx => hl x (by simp [hx])
      have hlt2 : ∀ x ∈ t2, LevelOK v2 sd x := fun x hx => hl2 x (by simp [hx])
      have hA := content_head_price hq
      have hA2 := content_head_price hq2
      have hC := content_tail_price hs hlt
      have hC2 := content_tail_price hs2 hlt2
      simp only [List.flatMap_cons] at hp
      have hprice : q.price = q2.price := by
        obtain ⟨o, ho⟩ := level_nonempty hq
        obtain ⟨o2, ho2⟩ := level_nonempty hq2
        have h1 : o ∈ q2.orders.map v2 ++ t2.flatMap (fun x => x.orders.map v2) :=
          hp.mem_iff.1 (List.mem_append.2 (Or.inl ho))
        have h2 : o2 ∈ q.orders.map v ++ t.flatMap (fun x => x.orders.map v) :=
          hp.mem_iff.2 (List.mem_append.2 (Or.inl ho2))
        have e1 := hA o ho
        have e2 := hA2 o2 ho2
        rcases List.mem_append.1 h1 with h1 | h1
        · rw [← e1, hA2 o h1]
        · have k1 := hC2 o h1
          rcases List.mem_append.1 h2 with h2 | h2
          · rw [← e2, hA o2 h2]
          · have k2 := hC o2 h2
            rw [e1] at k1; rw [e2] at k2
            exact absurd k1 (not_lt.2 (le_of_lt k2))
      have hfA : ∀ (A C : List Order) (p : Decimal), (∀ o ∈ A, o.price = p) →
          (∀ o ∈ C, p < o.price) →
          (A ++ C).filter (fun o => decide (o.price = p)) = A ∧
          (A ++ C).filter (fun o => !decide (o.price = p)) = C := by
        intro A C p h1 h2
        constructor
        · rw [List.filter_append, List.filter_eq_self.2 (fun o ho => by simp [h1 o ho]),
            List.filter_eq_nil_iff.2 (fun o ho => by simp [ne_of_gt (h2 o ho)]), List.append_nil]
        · rw [List.filter_append, List.filter_eq_nil_iff.2 (fun o ho => by simp [h1 o ho]),
            List.filter_eq_self.2 (fun o ho => by simp [ne_of_gt (h2 o ho)]), List.nil_append]
      obtain ⟨f1, f2⟩ := hfA _ _ q.price hA hC
      obtain ⟨g1, g2⟩ := hfA _ _ q.price (fun o ho => by rw [hA2 o ho, hprice])
        (fun o ho => by rw [hprice]; exact hC2 o ho)
      have pA := hp.filter (fun o => decide (o.price = q.price))
      have pC := hp.filter (fun o => !decide (o.price = q.price))
      rw [f1, g1] at pA
      rw [f2, g2] at pC
      refine List.Forall₂.cons ⟨hprice, ?_, pA⟩
        (ih t2 (List.pairwise_cons.1 hs).2 (List.pairwise_cons.1 hs2).2 hlt hlt2 pC)
      rw [hq.volume, hq2.volume]
      have := (pA.map (fun o => o.quantity)).sum_eq
      simpa [List.map_map, Function.comp_def] using this

theorem resting_perm (ob : OrderBook) (s : SideRef) :
    (ob.resting s).Perm ((ob.side s).priceTree.flatMap (fun q => q.orders.map ob.values)) := by
  cases s with
  | asks => exact List.Perm.refl _
  | bids => exact (List.reverse_perm _).flatMap_right _

theorem Order_some_iff {ob : OrderBook} (h : WF ob) {id : String} {o : Order} :
    ob.Order id = some o ↔ ∃ s, o ∈ ob.resting s ∧ o.id = id := by
  constructor
  · intro ho
    unfold OrderBook.Order at ho
    cases hi : ob.orders id with
    | none => rw [hi] at ho; exact Option.noConfusion ho
    | some e =>
      rw [hi] at ho
      have := Option.some.inj ho
      obtain ⟨h1, h2⟩ := h.index_sound id e hi
      exact ⟨_, mem_resting.2 ⟨e, h2, this⟩, by rw [← this]; exact h1⟩
  · rintro ⟨s, ho, rfl⟩
    obtain ⟨e, he, rfl⟩ := mem_resting.1 ho
    simp only [OrderBook.Order, h.index_complete s e he]

theorem Order_of_perm {ob ob2 : OrderBook} (h : WF ob) (h2 : WF ob2)
    (hp : ∀ s, (ob2.resting s).Perm (ob.resting s)) (id : String) :
    ob2.Order id = ob.Order id := by
  cases ho : ob.Order id with
  | some o =>
    obtain ⟨s, hm, hid⟩ := (Order_some_iff h).1 ho
    exact (Order_some_iff h2).2 ⟨s, (hp s).mem_iff.2 hm, hid⟩
  | none =>
    cases ho2 : ob2.Order id with
    | none => rfl
    | some o2 =>
      obtain ⟨s, hm, hid⟩ := (Order_some_iff h2).1 ho2
      rw [(Order_some_iff h).2 ⟨s, (hp s).mem_iff.1 hm, hid⟩] at ho
      exact Option.noConfusion ho

theorem levels_of_resting {ob ob2 : OrderBook} (h : WF ob) (h2 : WF ob2)
    (hp : ∀ s, (ob2.resting s).Perm (ob.resting s)) (s : SideRef) :
    List.Forall₂ (fun q q2 => q.price = q2.price ∧ q.volume = q2.volume ∧
      (q.orders.map ob.values).Perm (q2.orders.map ob2.values))
      (ob.side s).priceTree (ob2.side s).priceTree :=
  levels_of_perm _ _ (h.sorted s) (h2.sorted s) (h.level s) (h2.level s)
    (((resting_perm ob s).symm.trans (hp s).symm).trans (resting_perm ob2 s))

/-! ### The depth snapshot of a well-formed book -/

theorem find_next {l1 l2 : List OrderQueue} {q : OrderQueue} (lt : Decimal → Decimal → Bool)
    (hirr : ∀ a, lt a a = false) (hasym : ∀ a b, lt a b = true → lt b a = false)
    (hL : (l1 ++ q :: l2).Pairwise (fun a b => lt a.price b.price = true)) :
    (l1 ++ q :: l2).find? (fun x => lt q.price x.price) = l2.head? := by
  obtain ⟨-, h2, h3⟩ := List.pairwise_append.1 hL
  have hnone : l1.find? (fun x => lt q.price x.price) = none := by
    rw [List.find?_eq_none]
    intro x hx
    rw [hasym _ _ (h3 x hx q (by simp))]
    simp
  rw [List.find?_append, hnone, Option.none_or, List.find?_cons, hirr]
  cases l2 with
  | nil => rfl
  | cons y t =>
    rw [List.find?_cons, (List.pairwise_cons.1 h2).1 y (by simp)]
    rfl

theorem depthLoop_walk (L : List OrderQueue) (lt : Decimal → Decimal → Bool)
    (hirr : ∀ a, lt a a = false) (hasym : ∀ a b, lt a b = true → lt b a = false)
    (hL : L.Pairwise (fun a b => lt a.price b.price = true)) :
    ∀ (l2 l1 : List OrderQueue) (acc : List (Decimal × Decimal)) (fuel : Nat),
      l1 ++ l2 = L → l2.length + 1 ≤ fuel →
      depthLoop (fun p => L.find? (fun x => lt p x.price)) 0 fuel l2.head? acc =
        some (acc ++ l2.map (fun q => (q.price, q.volume))) := by
  intro l2
  induction l2 with
  | nil =>
    intro l1 acc fuel _ hf
    obtain ⟨f, rfl⟩ : ∃ f, fuel = f + 1 := ⟨fuel - 1, by simp at hf; omega⟩
    simp [depthLoop]
  | cons q t ih =>
    intro l1 acc fuel hl hf
    obtain ⟨f, rfl⟩ : ∃ f, fuel = f + 1 := ⟨fuel - 1, by simp at hf; omega⟩
    have hnext : L.find? (fun x => lt q.price x.price) = t.head? := by
      rw [← hl]; exact find_next lt hirr hasym (by rw [hl]; exact hL)
    have hrec := ih (l1 ++ [q]) (acc ++ [(q.price, q.volume)]) f (by rw [← hl]; simp)
      (by simp at hf ⊢; omega)
    simp only [List.head?_cons, depthLoop, lt_irrefl, false_and, if_false, hnext, hrec,
      List.map_cons, List.append_assoc, List.singleton_append]

theorem Depth_zero {ob : OrderBook} (h : WF ob) :
    ob.Depth 0 = some
      { Bids := ob.bids.priceTree.reverse.map (fun q => (q.price, q.volume)),
        Asks := ob.asks.priceTree.map (fun q => (q.price, q.volume)) } := by
  have ha := depthLoop_walk ob.asks.priceTree (fun a b => decide (a < b)) (by simp)
    (by intro a b hab; simp only [decide_eq_true_eq, decide_eq_false_iff_not] at hab ⊢
        exact not_lt.2 (le_of_lt hab))
    (by simpa using h.sorted SideRef.asks) ob.asks.priceTree [] []
    (ob.asks.priceTree.length + 1) rfl (le_refl _)
  have hb := depthLoop_walk ob.bids.priceTree.reverse (fun a b => decide (b < a)) (by simp)
    (by intro a b hab; simp only [decide_eq_true_eq, decide_eq_false_iff_not] at hab ⊢
        exact not_lt.2 (le_of_lt hab))
    (by simpa [List.pairwise_reverse] using h.sorted SideRef.bids)
    ob.bids.priceTree.reverse [] [] (ob.bids.priceTree.length + 1) rfl (by simp)
  have hmax : ob.bids.MaxPriceQueue = ob.bids.priceTree.reverse.head? := by
    simp [OrderSide.MaxPriceQueue, List.head?_reverse]
  unfold OrderBook.Depth
  rw [hmax]
  simp only [List.nil_append] at ha hb
  have hG : ob.asks.GreaterThan =
      fun p => ob.asks.priceTree.find? (fun x => decide (p < x.price)) := rfl
  have hLt : ob.bids.LessThan =
      fun p => ob.bids.priceTree.reverse.find? (fun x => decide (x.price < p)) := rfl
  have hmin : ob.asks.MinPriceQueue = ob.asks.priceTree.head? := rfl
  rw [hG, hLt, hmin, ha, hb]

theorem levels_map_eq {R : OrderQueue → OrderQueue → Prop} {T T2 : List OrderQueue}
    (hR : ∀ q q2, R q q2 → q.price = q2.price ∧ q.volume = q2.volume)
    (h : List.Forall₂ R T T2) :
    T2.map (fun q => (q.price, q.volume)) = T.map (fun q => (q.price, q.volume)) := by
  induction h with
  | nil => rfl
  | cons hq _ ih =>
    rw [List.map_cons, List.map_cons, ih, (hR _ _ hq).1, (hR _ _ hq).2]

/-- Two well-formed books with the same resting orders on each side, up to the order within
the sides, hold the same book. -/
theorem SameBook_of_perm {ob ob2 : OrderBook} (h : WF ob) (h2 : WF ob2)
    (hp : ∀ s, (ob2.resting s).Perm (ob.resting s)) : SameBook ob ob2 := by
  refine ⟨levels_of_resting h h2 hp, ?_, Order_of_perm h h2 hp⟩
  have ea := levels_map_eq (fun _ _ hr => ⟨hr.1, hr.2.1⟩) (levels_of_resting h h2 hp SideRef.asks)
  have eb := levels_map_eq (fun _ _ hr => ⟨hr.1, hr.2.1⟩) (levels_of_resting h h2 hp SideRef.bids)
  simp only [OrderBook.side] at ea eb
  rw [Depth_zero h, Depth_zero h2, ea, List.map_reverse, List.map_reverse, eb]

/-! ### The resting orders after `Append` and `cancelOrder` -/

theorem view_congr {ob ob1 : OrderBook} {s : SideRef} (h : ob1.side s = ob.side s) :
    ob1.view s = ob.view s := by
  cases s <;> simp only [OrderBook.side] at h <;> simp only [OrderBook.view, h]

theorem elems_congr {ob ob1 : OrderBook} {s : SideRef} (h : ob1.side s = ob.side s) :
    ob1.elems s = ob.elems s := by
  simp only [OrderBook.elems, view_congr h]

theorem mem_elems_refs {ob : OrderBook} {s : SideRef} {x : Nat × Nat} (hx : x ∈ ob.elems s) :
    x.2 ∈ (ob.side s).refs := by
  obtain ⟨q, hq, -, he⟩ := mem_elems hx
  exact mem_refs.2 ⟨q, hq, he⟩

theorem resting_congr {ob ob1 : OrderBook} {s : SideRef} (h : ob1.side s = ob.side s)
    (hv : ∀ e ∈ (ob.side s).refs, ob1.values e = ob.values e) :
    ob1.resting s = ob.resting s := by
  rw [resting_eq_elems, resting_eq_elems, elems_congr h]
  exact List.map_congr_left (fun x hx => hv x.2 (mem_elems_refs hx))

theorem resting_perm_refs (ob : OrderBook) (s : SideRef) :
    (ob.resting s).Perm ((ob.side s).refs.map ob.values) := by
  have := resting_perm ob s
  rwa [← List.map_flatMap] at this

theorem refs_append (l1 l2 : List OrderQueue) :
    (OrderSide.mk (l1 ++ l2)).refs = (OrderSide.mk l1).refs ++ (OrderSide.mk l2).refs := by
  simp [OrderSide.refs]

theorem Append_side_same (ob : OrderBook) (s : SideRef) (o : Order) :
    ((ob.Append s o).side s).priceTree = appendLevel ob.next ob.next o (ob.side s).priceTree := by
  cases s <;> rfl

theorem Append_side_ne (ob : OrderBook) {s s' : SideRef} (o : Order) (h : s' ≠ s) :
    (ob.Append s o).side s' = ob.side s' := by
  cases s <;> cases s' <;> first | rfl | exact absurd rfl h

theorem Append_values (ob : OrderBook) (s : SideRef) (o : Order) :
    (ob.Append s o).values = Function.update ob.values ob.next o := by
  cases s <;> rfl

theorem Append_orders (ob : OrderBook) (s : SideRef) (o : Order) :
    (ob.Append s o).orders = Function.update ob.orders o.id (some ob.next) := by
  cases s <;> rfl

theorem Append_next (ob : OrderBook) (s : SideRef) (o : Order) :
    (ob.Append s o).next = ob.next + 1 := by
  cases s <;> rfl

theorem Append_refs {ob : OrderBook} (h : WF ob) (s : SideRef) (o : Order) :
    ((ob.Append s o).side s).refs.Perm ((ob.side s).refs ++ [ob.next]) := by
  obtain ⟨l1, l2, q0, mid, hT, happ, -, hmid, -, -⟩ :=
    appendLevel_cases (h.sorted s) ob.next ob.next o
  have e1 : (ob.Append s o).side s = OrderSide.mk (l1 ++ q0.Append ob.next o :: l2) :=
    side_eq_mk (by rw [Append_side_same, happ])
  have e2 : (ob.side s).refs =
      (OrderSide.mk l1).refs ++ q0.orders ++ (OrderSide.mk l2).refs := by
    rcases hmid with rfl | ⟨rfl, rfl⟩
    · rw [show ob.side s = OrderSide.mk (l1 ++ q0 :: l2) from
        side_eq_mk (by rw [hT]; simp), refs_split]
    · rw [show ob.side s = OrderSide.mk (l1 ++ l2) from side_eq_mk (by rw [hT]; simp),
        refs_append]
      simp [NewOrderQueue]
  rw [e1, refs_split, e2]
  simp only [OrderQueue.Append, List.append_assoc]
  exact (List.perm_append_comm.append_left q0.orders).append_left _

theorem Append_resting {ob : OrderBook} (h : WF ob) (s : SideRef) (o : Order) :
    ((ob.Append s o).resting s).Perm (ob.resting s ++ [o]) ∧
      ∀ s', s' ≠ s → (ob.Append s o).resting s' = ob.resting s' := by
  have hold : ∀ s', ∀ e ∈ (ob.side s').refs, (ob.Append s o).values e = ob.values e := by
    intro s' e he
    rw [Append_values]
    exact Function.update_noteq (ne_of_lt (h.refs_lt s' e he)) _ _
  constructor
  · refine (resting_perm_refs _ s).trans ?_
    refine ((Append_refs h s o).map _).trans ?_
    rw [List.map_append, List.map_singleton]
    have hn : (ob.Append s o).values ob.next = o := by rw [Append_values]; simp
    rw [hn, List.map_congr_left (hold s)]
    exact (resting_perm_refs ob s).symm.append_right _
  · intro s' hs'
    exact resting_congr (Append_side_ne ob o hs') (hold s')

theorem cancel_resting {ob : OrderBook} (h : WF ob) {id : String} {e : Nat}
    (he : ob.orders id = some e) :
    (ob.cancelOrder id).1 = some (ob.values e) ∧
    (ob.resting (halfOf (ob.values e).side)).Perm
      (ob.values e :: (ob.cancelOrder id).2.resting (halfOf (ob.values e).side)) ∧
    (∀ s', s' ≠ halfOf (ob.values e).side →
      (ob.cancelOrder id).2.resting s' = ob.resting s') ∧
    (ob.cancelOrder id).2.orders = Function.update ob.orders id none := by
  obtain ⟨hid, l1, q, l2, hs, hmem⟩ := h.index_level he
  have heq := cancelOrder_eq h hs hmem
  rw [hid] at heq
  have hval : (ob.cancelOrder id).2.values = ob.values := cancelOrder_values ob id
  have hrefs : e ∈ (ob.side (halfOf (ob.values e).side)).refs :=
    mem_refs.2 ⟨q, by rw [hs]; simp, hmem⟩
  have hside : (ob.cancelOrder id).2.side (halfOf (ob.values e).side) =
      OrderSide.mk (l1 ++ (if q.orders.erase e = [] then l2
        else q.Remove e (ob.values e) :: l2)) := by
    rw [heq]; exact side_eq_mk (setTree_side_same ob _ _)
  have hother : ∀ s', s' ≠ halfOf (ob.values e).side →
      (ob.cancelOrder id).2.side s' = ob.side s' := by
    intro s' hs'
    rw [heq]; exact setTree_side_ne ob _ hs'
  refine ⟨by rw [heq], ?_, ?_, by rw [heq]⟩
  · refine (resting_perm_refs ob _).trans ?_
    refine ((List.perm_cons_erase hrefs).map ob.values).trans ?_
    rw [List.map_cons]
    refine List.Perm.cons _ ?_
    refine List.Perm.trans ?_ (resting_perm_refs _ _).symm
    rw [hside, hval, refs_remove (by rw [← hs]; exact h.refs_nodup _) hmem, ← hs]
  · intro s' hs'
    exact resting_congr (hother s' hs') (fun x _ => by rw [hval])

/-! ### Running a rollback after a fill -/

theorem appendAll_spec (s : SideRef) :
    ∀ (ds : List Order) (cur : OrderBook), WF cur →
      (∀ o ∈ ds, cur.orders o.id = none ∧ o.side = sideOf s ∧ 0 < o.quantity ∧ 0 < o.price) →
      (ds.map (fun o => o.id)).Nodup →
      WF (cur.appendAll s ds) ∧ ((cur.appendAll s ds).resting s).Perm (cur.resting s ++ ds) ∧
      ∀ s', s' ≠ s → (cur.appendAll s ds).resting s' = cur.resting s' := by
  intro ds
  induction ds with
  | nil =>
    intro cur h _ _
    exact ⟨h, by simp [OrderBook.appendAll], fun _ _ => rfl⟩
  | cons o t ih =>
    intro cur h hpre hnd
    obtain ⟨h1, h2, h3, h4⟩ := hpre o (by simp)
    have hw := WF_append h h1 h2 h3 h4
    rw [List.map_cons, List.nodup_cons] at hnd
    obtain ⟨hnot, hndt⟩ := hnd
    obtain ⟨r1, r2⟩ := Append_resting h s o
    have hpre' : ∀ o' ∈ t, (cur.Append s o).orders o'.id = none ∧ o'.side = sideOf s ∧
        0 < o'.quantity ∧ 0 < o'.price := by
      intro o' ho'
      obtain ⟨k1, k2, k3, k4⟩ := hpre o' (by simp [ho'])
      refine ⟨?_, k2, k3, k4⟩
      rw [Append_orders]
      have hne : o'.id ≠ o.id := fun hc => hnot (List.mem_map.2 ⟨o', ho', hc⟩)
      rw [Function.update_noteq hne]
      exact k1
    obtain ⟨i1, i2, i3⟩ := ih (cur.Append s o) hw hpre' hndt
    refine ⟨i1, ?_, ?_⟩
    · refine i2.trans ?_
      have := r1.append_right t
      simpa using this
    · intro s' hs'
      exact (i3 s' hs').trans (r2 s' hs')

theorem elems_snd_perm (ob : OrderBook) (s : SideRef) :
    ((ob.elems s).map Prod.snd).Perm (ob.side s).refs := by
  have h1 : (ob.elems s).map Prod.snd = (ob.view s).flatMap (fun q => q.orders) := by
    simp only [OrderBook.elems, List.map_flatMap, levelElems, List.map_map]
    congr 1
    funext q
    simp [Function.comp_def]
  rw [h1]
  cases s with
  | asks => exact List.Perm.refl _
  | bids => exact (List.reverse_perm _).flatMap_right _

theorem WF.ids_nodup {ob : OrderBook} (h : WF ob) (s : SideRef) :
    ((ob.elems s).map (fun x => (ob.values x.2).id)).Nodup := by
  have hnd : ((ob.elems s).map Prod.snd).Nodup :=
    (elems_snd_perm ob s).nodup_iff.2 (h.refs_nodup s)
  have : (ob.elems s).map (fun x => (ob.values x.2).id) =
      ((ob.elems s).map Prod.snd).map (fun e => (ob.values e).id) := by
    simp [List.map_map, Function.comp_def]
  rw [this]
  refine List.Nodup.map_on ?_ hnd
  intro e he e' he' hid
  have k1 := h.index_complete s e ((elems_snd_perm ob s).mem_iff.1 he)
  have k2 := h.index_complete s e' ((elems_snd_perm ob s).mem_iff.1 he')
  rw [hid, k2] at k1
  exact (Option.some.inj k1).symm

theorem WF.elem_ok {ob : OrderBook} (h : WF ob) {s : SideRef} {x : Nat × Nat}
    (hx : x ∈ ob.elems s) :
    (ob.values x.2).side = sideOf s ∧ 0 < (ob.values x.2).quantity ∧
      0 < (ob.values x.2).price ∧ x.2 < ob.next := by
  obtain ⟨q, hq, -, he⟩ := mem_elems hx
  obtain ⟨k1, k2, k3⟩ := h.mem_level hq he
  exact ⟨k2, k3, by rw [k1]; exact (h.level s q hq).price_pos,
    h.refs_lt s _ (mem_refs.2 ⟨q, hq, he⟩)⟩

/-- The book after `rollbackPartial` has been run on the book that a fill left. -/
theorem Filled.undo_partial {ob ob1 : OrderBook} {s : SideRef} {esD esR : List (Nat × Nat)}
    {rp : Option RollbackPartial} {po : Option Order} {pq : Decimal} (h : WF ob)
    (hf : Filled ob s esD esR rp po pq ob1) :
    WF (runPartial rp ob1) ∧ (runPartial rp ob1).elems s = esR ∧
      (∀ s', s' ≠ s → (runPartial rp ob1).side s' = ob.side s') ∧
      (runPartial rp ob1).orders = ob1.orders ∧
      ∀ x, x < ob.next → (runPartial rp ob1).values x = ob.values x := by
  rcases hf.values with ⟨rfl, -, -, hv⟩ | ⟨qref, e, tl, hR, rfl, -, hpq, hlt, hve, hv⟩
  · exact ⟨hf.wf, hf.elems, hf.other, rfl, hv⟩
  · obtain ⟨q, rest, es, hview, hqr, hq, -⟩ := elems_head hf.wf (hf.elems.trans hR)
    subst hqr
    have hmem : e ∈ q.orders := by rw [hq]; simp
    have he_lt : e < ob.next :=
      (h.elem_ok (s := s) (x := (q.ref, e)) (by rw [hf.split, hR]; simp)).2.2.2
    obtain ⟨u1, u2, u3, u4, -, u6⟩ := update_spec hf.wf hview hmem (o := ob.values e)
      (by rw [hve]; rfl) (by rw [hve]; rfl) (by rw [hve]; rfl) (by linarith)
    refine ⟨u1, ?_, fun s' hs' => (u3 s' hs').trans (hf.other s' hs'), u6, ?_⟩
    · have : (ob1.Update q.ref e (ob.values e)).elems s = ob1.elems s := by
        simp only [OrderBook.elems, u2, hview, List.flatMap_cons]
        rfl
      exact this.trans hf.elems
    · intro x hx
      show (ob1.Update q.ref e (ob.values e)).values x = ob.values x
      rw [u4]
      by_cases hxe : x = e
      · subst hxe; simp
      · rw [Function.update_noteq hxe]; exact hv x hx hxe

/-- Running the rollback of a fill gives back the resting orders of both halves, up to their
order. -/
theorem Filled.rollback {ob ob1 : OrderBook} {s : SideRef} {esD esR : List (Nat × Nat)}
    {rp : Option RollbackPartial} {po : Option Order} {pq : Decimal} (h : WF ob)
    (hf : Filled ob s esD esR rp po pq ob1) :
    WF ((runPartial rp ob1).appendAll s (esD.map (fun x => ob.values x.2))) ∧
      ∀ s', (((runPartial rp ob1).appendAll s (esD.map (fun x => ob.values x.2))).resting
        s').Perm (ob.resting s') := by
  obtain ⟨w1, e1, o1, i1, v1⟩ := hf.undo_partial h
  have hsub : ∀ x ∈ esD, x ∈ ob.elems s := fun x hx => by rw [hf.split]; simp [hx]
  have hsubR : ∀ x ∈ esR, x ∈ ob.elems s := fun x hx => by rw [hf.split]; simp [hx]
  have hpre : ∀ o ∈ esD.map (fun x => ob.values x.2),
      (runPartial rp ob1).orders o.id = none ∧ o.side = sideOf s ∧ 0 < o.quantity ∧
        0 < o.price := by
    intro o ho
    obtain ⟨x, hx, rfl⟩ := List.mem_map.1 ho
    obtain ⟨k1, k2, k3, -⟩ := h.elem_ok (hsub x hx)
    refine ⟨?_, k1, k2, k3⟩
    rw [i1, hf.orders, if_pos (List.mem_map.2 ⟨x, hx, rfl⟩)]
  have hnd : ((esD.map (fun x => ob.values x.2)).map (fun o => o.id)).Nodup := by
    have := h.ids_nodup s
    rw [hf.split, List.map_append] at this
    have := (List.nodup_append.1 this).1
    simpa [List.map_map, Function.comp_def] using this
  obtain ⟨a1, a2, a3⟩ := appendAll_spec s _ _ w1 hpre hnd
  refine ⟨a1, fun s' => ?_⟩
  by_cases hs' : s' = s
  · subst hs'
    refine a2.trans ?_
    have hr1 : (runPartial rp ob1).resting s' = esR.map (fun x => ob.values x.2) := by
      rw [resting_eq_elems, e1]
      exact List.map_congr_left (fun x hx => v1 x.2 (h.elem_ok (hsubR x hx)).2.2.2)
    rw [hr1, resting_eq_elems ob s', hf.split, List.map_append]
    exact List.perm_append_comm
  · rw [a3 s' hs']
    rw [resting_congr (o1 s' hs') (fun e he => v1 e (h.refs_lt s' e he))]

/-! ### The book that a matching loop leaves -/

theorem Filled.refl {ob : OrderBook} (h : WF ob) (s : SideRef) :
    Filled ob s [] (ob.elems s) none none 0 ob :=
  { wf := h, split := rfl, elems := rfl, other := fun _ _ => rfl, next := le_refl _,
    orders := fun id => by simp,
    values := Or.inl ⟨rfl, rfl, rfl, fun _ _ => rfl⟩ }

theorem fill_Filled {ob : OrderBook} (h : WF ob) (s : SideRef) (es es2 : List (Nat × Nat))
    (he : ob.elems s = es ++ es2) (a : Decimal) :
    ∃ esD esR, Filled ob s esD esR (fillQueue ob.values es [] a).rollbackPartial
        (fillQueue ob.values es [] a).partialOrd
        (fillQueue ob.values es [] a).partialQuantityProcessed (fillBook es ob a) ∧
      (fillQueue ob.values es [] a).done = esD.map (fun x => ob.values x.2) := by
  obtain ⟨hw, hnext, hother, esD, esR, hsplit, hdone, helems, horders, hcase⟩ :=
    fill_struct s es ob a es2 h he
  refine ⟨esD, esR ++ es2, ?_, hdone⟩
  refine { wf := hw, split := by rw [he, hsplit, List.append_assoc], elems := helems,
           other := hother, next := le_of_eq hnext.symm, orders := ?_, values := ?_ }
  · intro id
    rw [horders id, hdone, List.map_map]
    rfl
  · rcases hcase with ⟨k1, k2, k3, k4, -, -⟩ | ⟨qref, e, tl, k1, k2, k3, k4, k5, -, -, k8⟩
    · exact Or.inl ⟨k1, k2, k3, fun x _ => by rw [k4]⟩
    · refine Or.inr ⟨qref, e, tl ++ es2, by rw [k1]; rfl, k2, k3, k4, k5, ?_, ?_⟩
      · rw [k8]; simp
      · intro x _ hxe
        rw [k8, Function.update_noteq hxe]

theorem Filled.trans {ob ob1 ob2 : OrderBook} {s : SideRef} {D1 R1 D2 R2 : List (Nat × Nat)}
    {rp : Option RollbackPartial} {po : Option Order} {pq : Decimal}
    (h1 : Filled ob s D1 R1 none none 0 ob1)
    (hv : ob1.values = ob.values) (h2 : Filled ob1 s D2 R2 rp po pq ob2) :
    Filled ob s (D1 ++ D2) R2 rp po pq ob2 := by
  refine { wf := h2.wf, split := ?_, elems := h2.elems,
           other := fun s' hs' => (h2.other s' hs').trans (h1.other s' hs'),
           next := le_trans h1.next h2.next, orders := ?_, values := ?_ }
  · rw [h1.split, ← h1.elems, h2.split, List.append_assoc]
  · intro id
    rw [h2.orders id, h1.orders id, hv, List.map_append]
    by_cases c1 : id ∈ D1.map (fun x => (ob.values x.2).id)
    · by_cases c2 : id ∈ D2.map (fun x => (ob.values x.2).id) <;>
        simp only [c1, c2, List.mem_append, if_true, if_false, or_true, true_or]
    · by_cases c2 : id ∈ D2.map (fun x => (ob.values x.2).id) <;>
        simp only [c1, c2, List.mem_append, if_true, if_false, or_true, or_false]
  · rcases h2.values with ⟨k1, j1, j2, k2⟩ | ⟨qref, e, tl, k1, k2, j1, k3, k4, k5, k6⟩
    · exact Or.inl ⟨k1, j1, j2, fun x hx => by rw [k2 x (lt_of_lt_of_le hx h1.next), hv]⟩
    · refine Or.inr ⟨qref, e, tl, k1, by rw [k2, hv], by rw [j1, hv], k3,
        by rw [← hv]; exact k4, by rw [k5, hv], ?_⟩
      intro x hx hxe
      rw [k6 x (lt_of_lt_of_le hx h1.next) hxe, hv]

theorem Filled.transport {ob ob1 ob2 : OrderBook} {s : SideRef} {D R : List (Nat × Nat)}
    {rp : Option RollbackPartial} {po : Option Order} {pq : Decimal} (h : WF ob)
    (h1 : Filled ob s D R rp po pq ob1) (hw : WF ob2)
    (hside : ∀ s', ob2.side s' = ob1.side s') (hord : ob2.orders = ob1.orders)
    (hnext : ob1.next ≤ ob2.next) (hv : ∀ x, x < ob1.next → ob2.values x = ob1.values x) :
    Filled ob s D R rp po pq ob2 := by
  refine { wf := hw, split := h1.split, elems := (elems_congr (hside s)).trans h1.elems,
           other := fun s' hs' => (hside s').trans (h1.other s' hs'),
           next := le_trans h1.next hnext, orders := fun id => by rw [hord]; exact h1.orders id,
           values := ?_ }
  rcases h1.values with ⟨k1, j1, j2, k2⟩ | ⟨qref, e, tl, k1, k2, j1, k3, k4, k5, k6⟩
  · exact Or.inl ⟨k1, j1, j2, fun x hx => by rw [hv x (lt_of_lt_of_le hx h1.next), k2 x hx]⟩
  · have he : e < ob.next :=
      (h.elem_ok (s := s) (x := (qref, e)) (by rw [h1.split, k1]; simp)).2.2.2
    refine Or.inr ⟨qref, e, tl, k1, k2, j1, k3, k4, ?_, ?_⟩
    · rw [hv e (lt_of_lt_of_le he h1.next), k5]
    · intro x hx hxe
      rw [hv x (lt_of_lt_of_le hx h1.next), k6 x hx hxe]

/-- The book that the loop of `ProcessMarketPriceBuy` leaves. -/
theorem notional_Filled (places : Int) :
    ∀ (l : List OrderQueue) (ob : OrderBook) (st : LoopState), WF ob →
      ob.view SideRef.asks = l → st.rollbackPartial = none → st.partialOrd = none →
      st.partialQuantityProcessed = 0 →
      ∃ esD esR,
        Filled ob SideRef.asks esD esR (notionalFill ob.values places l st).rollbackPartial
          (notionalFill ob.values places l st).partialOrd
          (notionalFill ob.values places l st).partialQuantityProcessed
          (notionalBook places l ob st.amount) ∧
        (notionalFill ob.values places l st).done =
          st.done ++ esD.map (fun x => ob.values x.2) := by
  intro l
  induction l with
  | nil =>
    intro ob st h _ hrp hpo hpq
    have hF := Filled.refl h SideRef.asks
    exact ⟨[], _, (by simpa [notionalFill, notionalBook, hrp, hpo, hpq] using hF),
      by simp [notionalFill]⟩
  | cons q qs ih =>
    intro ob st h hv hrp hpo hpq
    have hstop : ∃ esD esR, Filled ob SideRef.asks esD esR st.rollbackPartial st.partialOrd
        st.partialQuantityProcessed ob ∧
        st.done = st.done ++ esD.map (fun x => ob.values x.2) :=
      ⟨[], _, by rw [hrp, hpo, hpq]; exact Filled.refl h SideRef.asks, by simp⟩
    by_cases h0 : 0 < st.amount
    · by_cases hz : Decimal.DivRound st.amount q.price places ≤ 0
      · simpa [notionalFill, notionalBook, h0, hz] using hstop
      · obtain ⟨esD1, esR1, hF1, hd1⟩ := fill_Filled h SideRef.asks (levelElems q)
          (qs.flatMap levelElems) (elems_cons hv) (Decimal.DivRound st.amount q.price places)
        by_cases hl : 0 < (fillQueue ob.values (levelElems q) []
            (Decimal.DivRound st.amount q.price places)).quantityLeft
        · obtain ⟨-, ⟨hw1, -, -, hout⟩⟩ := processQueue_spec h hv
            (Decimal.DivRound st.amount q.price places)
          rcases hout with ⟨o1, o2, o3, o4, o5⟩ | ⟨o1, -⟩
          · obtain ⟨esD2, esR2, hF2, hd2⟩ := ih
              (fillBook (levelElems q) ob (Decimal.DivRound st.amount q.price places))
              { done := st.done ++ (fillQueue ob.values (levelElems q) []
                  (Decimal.DivRound st.amount q.price places)).done,
                partialOrd := (fillQueue ob.values (levelElems q) []
                  (Decimal.DivRound st.amount q.price places)).partialOrd,
                partialQuantityProcessed := (fillQueue ob.values (levelElems q) []
                  (Decimal.DivRound st.amount q.price places)).partialQuantityProcessed,
                amount := st.amount - (Decimal.DivRound st.amount q.price places -
                  (fillQueue ob.values (levelElems q) []
                    (Decimal.DivRound st.amount q.price places)).quantityLeft) * q.price,
                rollbackPartial := (fillQueue ob.values (levelElems q) []
                  (Decimal.DivRound st.amount q.price places)).rollbackPartial }
              hw1 o1 o4 o3 o5
            rw [o2] at hd2 hF2
            rw [o4, o3, o5] at hF1
            refine ⟨esD1 ++ esD2, esR2, ?_, ?_⟩
            · simp only [notionalFill, notionalBook, h0, hz, hl, if_true, if_false]
              exact Filled.trans hF1 o2 hF2
            · simp only [notionalFill, h0, hz, hl, if_true, if_false]
              rw [hd2, hd1, List.map_append, List.append_assoc]
          · exact absurd hl (not_lt.2 o1)
        · refine ⟨esD1, esR1, ?_, ?_⟩
          · simp only [notionalFill, notionalBook, h0, hz, hl, if_true, if_false]
            exact hF1
          · simp only [notionalFill, h0, hz, hl, if_true, if_false]
            rw [hd1]
    · simpa [notionalFill, notionalBook, h0] using hstop

/-! ### Cancelling the order that was just appended -/

theorem removeLevel_appendLevel (qref n : Nat) (o : Order) :
    ∀ (T : List OrderQueue), (∀ q ∈ T, n ∉ q.orders ∧ q.orders ≠ []) →
      removeLevel n o (appendLevel qref n o T) = T := by
  intro T
  induction T with
  | nil =>
    intro _
    simp [appendLevel, removeLevel, NewOrderQueue, OrderQueue.Append, OrderQueue.Remove,
      OrderQueue.Len]
  | cons q qs ih =>
    intro hT
    obtain ⟨hn, hne⟩ := hT q (by simp)
    by_cases h1 : q.price = o.price
    · have herase : (q.orders ++ [n]).erase n = q.orders := by
        rw [List.erase_append_right _ hn]; simp
      simp [appendLevel, removeLevel, h1, OrderQueue.Append, OrderQueue.Remove, OrderQueue.Len,
        herase, hne]
      cases q
      simp only [OrderQueue.mk.injEq, true_and, and_true] at h1 ⊢
      exact h1.symm
    · by_cases h2 : o.price < q.price
      · simp [appendLevel, removeLevel, h1, h2, NewOrderQueue, OrderQueue.Append,
          OrderQueue.Remove, OrderQueue.Len]
      · simp only [appendLevel, removeLevel, h1, h2, if_false]
        rw [ih (fun x hx => hT x (by simp [hx]))]

theorem cancel_Append {ob : OrderBook} (h : WF ob) (o : Order)
    (hid : ob.orders o.id = none) :
    (∀ s', ((ob.Append (halfOf o.side) o).cancelOrder o.id).2.side s' = ob.side s') ∧
    ((ob.Append (halfOf o.side) o).cancelOrder o.id).2.orders = ob.orders ∧
    ((ob.Append (halfOf o.side) o).cancelOrder o.id).2.next = ob.next + 1 ∧
    ∀ x, x < ob.next →
      ((ob.Append (halfOf o.side) o).cancelOrder o.id).2.values x = ob.values x := by
  have hT : ∀ s, ∀ q ∈ (ob.side s).priceTree, ob.next ∉ q.orders ∧ q.orders ≠ [] := by
    intro s q hq
    exact ⟨fun hc => absurd (h.refs_lt s _ (mem_refs.2 ⟨q, hq, hc⟩)) (lt_irrefl _),
      (h.level s q hq).nonempty⟩
  have hrm := fun s => removeLevel_appendLevel ob.next ob.next o (ob.side s).priceTree (hT s)
  have hord : Function.update (Function.update ob.orders o.id (some ob.next)) o.id none =
      ob.orders := by
    rw [Function.update_idem, ← hid, Function.update_eq_self]
  refine ⟨?_, ?_, ?_, ?_⟩
  · intro s'
    cases hs : o.side with
    | Sell =>
      have e1 := (side_eq_mk (hrm SideRef.asks).symm).symm
      cases s' <;>
        simp [OrderBook.cancelOrder, OrderBook.Append, halfOf, hs, OrderBook.side,
          OrderSide.Remove, OrderSide.Append]
      exact e1
    | Buy =>
      have e1 := (side_eq_mk (hrm SideRef.bids).symm).symm
      cases s' <;>
        simp [OrderBook.cancelOrder, OrderBook.Append, halfOf, hs, OrderBook.side,
          OrderSide.Remove, OrderSide.Append]
      exact e1
  · cases hs : o.side <;>
      simp [OrderBook.cancelOrder, OrderBook.Append, halfOf, hs, hord]
  · rw [cancelOrder_next, Append_next]
  · intro x hx
    rw [cancelOrder_values, Append_values, Function.update_noteq (ne_of_lt hx)]

/-! ### A rollback run right after its operation -/

theorem ProcessMarketQuantityOrder_ok {ob ob1 : OrderBook} {side : Side} {quantity : Decimal}
    {r : MarketResult} (hr : ob.ProcessMarketQuantityOrder side quantity = some (r, ob1))
    (he : r.err = none) : 0 < quantity := by
  by_contra hq
  unfold OrderBook.ProcessMarketQuantityOrder at hr
  rw [if_pos (not_lt.1 hq)] at hr
  obtain ⟨rfl, -⟩ := Prod.mk.inj (Option.some.inj hr)
  exact absurd he (by simp)

theorem ProcessMarketPriceBuy_ok {ob ob1 : OrderBook} {price : Decimal} {places : Int}
    {r : MarketResult} (hr : ob.ProcessMarketPriceBuy price places = some (r, ob1))
    (he : r.err = none) : 0 < price := by
  by_contra hq
  unfold OrderBook.ProcessMarketPriceBuy at hr
  rw [if_pos (not_lt.1 hq)] at hr
  obtain ⟨rfl, -⟩ := Prod.mk.inj (Option.some.inj hr)
  exact absurd he (by simp)

theorem Filled.sameBook {ob ob1 : OrderBook} {s : SideRef} {esD esR : List (Nat × Nat)}
    {rp : Option RollbackPartial} {po : Option Order} {pq : Decimal} {done : List Order}
    (h : WF ob) (hf : Filled ob s esD esR rp po pq ob1)
    (hd : done = esD.map (fun x => ob.values x.2)) :
    SameBook ob ((runPartial rp ob1).appendAll s done) := by
  subst hd
  obtain ⟨w, p⟩ := hf.rollback h
  exact SameBook_of_perm h w p

theorem rollback_market {ob ob1 : OrderBook} (h : WF ob) {side : Side} {quantity : Decimal}
    {r : MarketResult} {rb : Rollback}
    (hr : ob.ProcessMarketQuantityOrder side quantity = some (r, ob1)) (herr : r.err = none)
    (hrb : r.rollback = some rb) : SameBook ob (rb.run ob1) := by
  have hq := ProcessMarketQuantityOrder_ok hr herr
  have heq := ProcessMarketQuantityOrder_eq h side hq
  rw [hr] at heq
  obtain ⟨rfl, rfl⟩ := Prod.mk.inj (Option.some.inj heq)
  obtain ⟨esD, esR, hF, hd⟩ := fill_Filled h (oppositeOf side) (ob.elems (oppositeOf side)) []
    (List.append_nil _).symm quantity
  simp only at hrb
  split_ifs at hrb
  rw [← Option.some.inj hrb]
  exact hF.sameBook h hd

theorem rollback_notional {ob ob1 : OrderBook} (h : WF ob) {price : Decimal} {places : Int}
    {r : MarketResult} {rb : Rollback}
    (hr : ob.ProcessMarketPriceBuy price places = some (r, ob1)) (herr : r.err = none)
    (hrb : r.rollback = some rb) : SameBook ob (rb.run ob1) := by
  have hq := ProcessMarketPriceBuy_ok hr herr
  have heq := ProcessMarketPriceBuy_eq h places hq
  rw [hr] at heq
  obtain ⟨rfl, rfl⟩ := Prod.mk.inj (Option.some.inj heq)
  obtain ⟨esD, esR, hF, hd⟩ := notional_Filled places (ob.view SideRef.asks) ob
    ⟨[], none, 0, price, none⟩ h rfl rfl rfl rfl
  simp only at hrb
  split_ifs at hrb
  rw [← Option.some.inj hrb]
  exact hF.sameBook h (by simpa using hd)

theorem rollback_limit {ob ob1 : OrderBook} (h : WF ob) {side : Side} {orderID : String}
    {quantity price : Decimal} {now : Nat} {r : LimitResult} {rb : Rollback}
    (hne : 0 < orderID.length)
    (hr : ob.ProcessLimitOrder side orderID quantity price now = some (r, ob1))
    (herr : r.err = none) (hrb : r.rollback = some rb) : SameBook ob (rb.run ob1) := by
  obtain ⟨hid, hq, hp⟩ := ProcessLimitOrder_ok hr herr
  have heq := ProcessLimitOrder_eq h side now hid hq hp
  have hsplit := crossElems_split ob (oppositeOf side) side price
  obtain ⟨esD, esR, hF, hd⟩ := fill_Filled h (oppositeOf side) _ _ hsplit quantity
  have hidfb := fillBook_orders_none h (oppositeOf side) _ _ hsplit quantity hid
  rw [hr] at heq
  by_cases hl : 0 < (fillQueue ob.values (ob.crossElems (oppositeOf side) side price) []
      quantity).quantityLeft
  · rw [if_pos hl] at heq
    obtain ⟨rfl, rfl⟩ := Prod.mk.inj (Option.some.inj heq)
    simp only [limitRollback, hne, true_or, if_true] at hrb
    rw [← Option.some.inj hrb]
    simp only [Rollback.run, hne, if_true]
    have hwa := WF_append hF.wf (s := halfOf side)
      (o := NewOrder orderID side (fillQueue ob.values
        (ob.crossElems (oppositeOf side) side price) [] quantity).quantityLeft price now)
      hidfb (by simp [NewOrder]) hl hp
    obtain ⟨c1, c2, c3, c4⟩ := cancel_Append hF.wf
      (NewOrder orderID side (fillQueue ob.values
        (ob.crossElems (oppositeOf side) side price) [] quantity).quantityLeft price now) hidfb
    have hF' := Filled.transport h hF (cancelOrder_WF hwa orderID) c1 c2
      (le_trans (Nat.le_succ _) (le_of_eq c3.symm)) c4
    exact hF'.sameBook h hd
  · rw [if_neg hl] at heq
    obtain ⟨rfl, rfl⟩ := Prod.mk.inj (Option.some.inj heq)
    simp only [limitRollback] at hrb
    split_ifs at hrb
    rw [← Option.some.inj hrb]
    have h0 : ¬ 0 < "".length := by decide
    simp only [Rollback.run, h0, if_false]
    exact hF.sameBook h hd

theorem rollback_cancel {ob : OrderBook} (h : WF ob) {orderID : String} {rb : Rollback}
    (hrb : (ob.CancelOrder orderID).1.2 = some rb) :
    SameBook ob (rb.run (ob.CancelOrder orderID).2) := by
  cases he : ob.orders orderID with
  | none =>
    have : ob.cancelOrder orderID = (none, ob) := by simp [OrderBook.cancelOrder, he]
    simp [OrderBook.CancelOrder, this] at hrb
  | some e =>
    obtain ⟨c1, c2, c3, c4⟩ := cancel_resting h he
    obtain ⟨hid, l1, q, l2, hs, hmem⟩ := h.index_level he
    have hq : q ∈ (ob.side (halfOf (ob.values e).side)).priceTree := by rw [hs]; simp
    obtain ⟨-, -, k3⟩ := h.mem_level hq hmem
    have hprice : 0 < (ob.values e).price := by
      rw [(h.mem_level hq hmem).1]; exact (h.level _ q hq).price_pos
    have hpair : ob.cancelOrder orderID = (some (ob.values e), (ob.cancelOrder orderID).2) :=
      Prod.ext c1 rfl
    have hrun : rb.run (ob.CancelOrder orderID).2 =
        (ob.cancelOrder orderID).2.Append (halfOf (ob.values e).side) (ob.values e) := by
      rw [CancelOrder_snd]
      unfold OrderBook.CancelOrder at hrb
      rw [hpair] at hrb
      simp only at hrb
      rw [← Option.some.inj hrb]
      cases hsd : (ob.values e).side <;> simp [Rollback.run, hsd, halfOf]
    rw [hrun]
    have hw1 := cancelOrder_WF h orderID
    have hw2 := WF_append hw1 (s := halfOf (ob.values e).side) (o := ob.values e)
      (by rw [c4, hid]; simp) (by simp) k3 hprice
    obtain ⟨a1, a2⟩ := Append_resting hw1 (halfOf (ob.values e).side) (ob.values e)
    refine SameBook_of_perm h hw2 (fun s' => ?_)
    by_cases hs' : s' = halfOf (ob.values e).side
    · subst hs'
      refine a1.trans ?_
      exact List.perm_append_comm.trans c2.symm
    · rw [a2 s' hs', c3 s' hs']

theorem length_pos_of_ne {s : String} (h : s ≠ "") : 0 < s.length := by
  cases s with
  | mk d =>
    cases d with
    | nil => exact absurd rfl h
    | cons c t => simp [String.length]

/-! ### The head order that an operation fills in part -/

theorem Filled.partial_head {ob ob1 : OrderBook} {s : SideRef} {esD esR : List (Nat × Nat)}
    {rp : Option RollbackPartial} {po : Option Order} {pq : Decimal} (h : WF ob)
    (hf : Filled ob s esD esR rp po pq ob1) {p : Order} (hp : po = some p) :
    ∃ hd T, ob.resting s = esD.map (fun x => ob.values x.2) ++ hd :: T ∧ p = reduced hd pq ∧
      0 < pq ∧ pq < hd.quantity ∧ ob1.resting s = p :: T ∧ ob1.Order hd.id = some p := by
  rcases hf.values with ⟨-, j1, -, -⟩ | ⟨qref, e, tl, k1, -, j1, k3, k4, k5, k6⟩
  · rw [j1] at hp; exact Option.noConfusion hp
  · rw [j1] at hp
    have hpe : reduced (ob.values e) pq = p := Option.some.inj hp
    have hsplit := hf.split
    rw [k1] at hsplit
    have hnd : ((ob.elems s).map Prod.snd).Nodup :=
      (elems_snd_perm ob s).nodup_iff.2 (h.refs_nodup s)
    rw [hsplit, List.map_append, List.map_cons] at hnd
    have hnot : e ∉ tl.map Prod.snd := (List.nodup_cons.1 (List.nodup_append.1 hnd).2.1).1
    have hmem : (qref, e) ∈ ob.elems s := by rw [hsplit]; simp
    refine ⟨ob.values e, tl.map (fun x => ob.values x.2), ?_, hpe.symm, k3, k4, ?_, ?_⟩
    · rw [resting_eq_elems, hsplit, List.map_append, List.map_cons]
    · rw [resting_eq_elems, hf.elems, k1, List.map_cons, k5, hpe]
      congr 1
      apply List.map_congr_left
      intro x hx
      have hx_mem : x ∈ ob.elems s := by rw [hsplit]; simp [hx]
      have hxe : x.2 ≠ e := fun hc => hnot (List.mem_map.2 ⟨x, hx, hc⟩)
      exact k6 x.2 (h.elem_ok hx_mem).2.2.2 hxe
    · have hids := h.ids_nodup s
      rw [hsplit, List.map_append, List.map_cons] at hids
      have hdisj := (List.nodup_append.1 hids).2.2
      have hnotD : (ob.values e).id ∉ esD.map (fun x => (ob.values x.2).id) :=
        fun hc => hdisj hc (by simp)
      have hidx := h.index_complete s e (mem_elems_refs hmem)
      simp only [OrderBook.Order, hf.orders, hnotD, if_false, hidx, k5, hpe]

theorem partial_head_market {ob ob1 : OrderBook} (h : WF ob) {side : Side} {quantity : Decimal}
    {r : MarketResult} {p : Order}
    (hr : ob.ProcessMarketQuantityOrder side quantity = some (r, ob1)) (herr : r.err = none)
    (hp : r.partialOrd = some p) :
    ∃ hd T, ob.resting (oppositeOf side) = r.done ++ hd :: T ∧
      p = reduced hd r.partialQuantityProcessed ∧ 0 < r.partialQuantityProcessed ∧
      r.partialQuantityProcessed < hd.quantity ∧ ob1.resting (oppositeOf side) = p :: T ∧
      ob1.Order hd.id = some p := by
  have hq := ProcessMarketQuantityOrder_ok hr herr
  have heq := ProcessMarketQuantityOrder_eq h side hq
  rw [hr] at heq
  obtain ⟨rfl, rfl⟩ := Prod.mk.inj (Option.some.inj heq)
  obtain ⟨esD, esR, hF, hd⟩ := fill_Filled h (oppositeOf side) (ob.elems (oppositeOf side)) []
    (List.append_nil _).symm quantity
  obtain ⟨hd', T, c1, c2⟩ := hF.partial_head h hp
  exact ⟨hd', T, by rw [c1]; simp only [hd], c2⟩

theorem partial_head_notional {ob ob1 : OrderBook} (h : WF ob) {price : Decimal}
    {places : Int} {r : MarketResult} {p : Order}
    (hr : ob.ProcessMarketPriceBuy price places = some (r, ob1)) (herr : r.err = none)
    (hp : r.partialOrd = some p) :
    ∃ hd T, ob.resting SideRef.asks = r.done ++ hd :: T ∧
      p = reduced hd r.partialQuantityProcessed ∧ 0 < r.partialQuantityProcessed ∧
      r.partialQuantityProcessed < hd.quantity ∧ ob1.resting SideRef.asks = p :: T ∧
      ob1.Order hd.id = some p := by
  have hq := ProcessMarketPriceBuy_ok hr herr
  have heq := ProcessMarketPriceBuy_eq h places hq
  rw [hr] at heq
  obtain ⟨rfl, rfl⟩ := Prod.mk.inj (Option.some.inj heq)
  obtain ⟨esD, esR, hF, hd⟩ := notional_Filled places (ob.view SideRef.asks) ob
    ⟨[], none, 0, price, none⟩ h rfl rfl rfl rfl
  obtain ⟨hd', T, c1, c2⟩ := hF.partial_head h hp
  refine ⟨hd', T, ?_, c2⟩
  rw [c1]
  simp only [hd, List.nil_append]

theorem partial_head_limit_order {ob ob1 : OrderBook} (h : WF ob) {side : Side}
    {orderID : String} {quantity price : Decimal} {now : Nat} {r : LimitResult} {p : Order}
    (hr : ob.ProcessLimitOrder side orderID quantity price now = some (r, ob1))
    (herr : r.err = none) (hp : r.partialOrd = some p) (hpid : p.id ≠ orderID) :
    ∃ hd T D avg, r.done = D ++ [NewOrder orderID side quantity avg now] ∧
      ob.resting (oppositeOf side) = D ++ hd :: T ∧
      p = reduced hd r.partialQuantityProcessed ∧ 0 < r.partialQuantityProcessed ∧
      r.partialQuantityProcessed < hd.quantity ∧ ob1.resting (oppositeOf side) = p :: T ∧
      ob1.Order hd.id = some p := by
  obtain ⟨hid, hq, hpr⟩ := ProcessLimitOrder_ok hr herr
  have heq := ProcessLimitOrder_eq h side now hid hq hpr
  have hsplit := crossElems_split ob (oppositeOf side) side price
  obtain ⟨esD, esR, hF, hd⟩ := fill_Filled h (oppositeOf side) _ _ hsplit quantity
  have hcases := fill_partial_cases h (oppositeOf side) _ _ hsplit quantity
  rw [hr] at heq
  by_cases hl : 0 < (fillQueue ob.values (ob.crossElems (oppositeOf side) side price) []
      quantity).quantityLeft
  · rw [if_pos hl] at heq
    obtain ⟨rfl, -⟩ := Prod.mk.inj (Option.some.inj heq)
    exfalso
    simp only at hp
    split_ifs at hp
    · rw [← Option.some.inj hp] at hpid
      exact hpid rfl
    · rcases hcases with ⟨-, c2, -⟩ | ⟨-, -, c3, -⟩
      · rw [c2] at hp; exact Option.noConfusion hp
      · rw [c3] at hl; exact lt_irrefl _ hl
  · rw [if_neg hl] at heq
    obtain ⟨rfl, rfl⟩ := Prod.mk.inj (Option.some.inj heq)
    obtain ⟨hd', T, c1, c2⟩ := hF.partial_head h hp
    exact ⟨hd', T, _, _, rfl, by rw [c1]; simp only [hd], c2⟩

/-! ### The index and the resting orders -/

theorem WF.resting_ids_nodup {ob : OrderBook} (h : WF ob) :
    ((ob.resting SideRef.asks ++ ob.resting SideRef.bids).map (fun o => o.id)).Nodup := by
  have hs : ∀ s, ((ob.resting s).map (fun o => o.id)).Nodup := by
    intro s
    have := h.ids_nodup s
    rw [resting_eq_elems, List.map_map]
    exact this
  rw [List.map_append, List.nodup_append]
  refine ⟨hs _, hs _, ?_⟩
  intro id h1 h2
  obtain ⟨o, ho, rfl⟩ := List.mem_map.1 h1
  obtain ⟨o', ho', hid⟩ := List.mem_map.1 h2
  obtain ⟨e, he, rfl⟩ := mem_resting.1 ho
  obtain ⟨e', he', rfl⟩ := mem_resting.1 ho'
  have k1 := h.index_complete _ e he
  have k2 := h.index_complete _ e' he'
  have hid' : (ob.values e').id = (ob.values e).id := hid
  rw [hid', k1] at k2
  have hee : e = e' := Option.some.inj k2
  subst hee
  exact absurd (h.side_unique he he') (by decide)

theorem WF.Order_level {ob : OrderBook} (h : WF ob) {id : String} {o : Order}
    (ho : ob.Order id = some o) :
    o.id = id ∧ ∃ q ∈ (ob.side (halfOf o.side)).priceTree,
      q.price = o.price ∧ o ∈ q.orders.map ob.values := by
  unfold OrderBook.Order at ho
  cases hi : ob.orders id with
  | none => rw [hi] at ho; exact Option.noConfusion ho
  | some e =>
    rw [hi] at ho
    have hoe : ob.values e = o := Option.some.inj ho
    obtain ⟨hid, l1, q, l2, hs, hmem⟩ := h.index_level hi
    have hq : q ∈ (ob.side (halfOf (ob.values e).side)).priceTree := by rw [hs]; simp
    have hp := (h.mem_level hq hmem).1
    rw [hoe] at hid hq hp
    exact ⟨hid, q, hq, hp.symm, List.mem_map.2 ⟨e, hmem, hoe⟩⟩

theorem WF.Order_resting {ob : OrderBook} (h : WF ob) {s : SideRef} {o : Order}
    (ho : o ∈ ob.resting s) : ob.Order o.id = some o :=
  (Order_some_iff h).2 ⟨s, ho, rfl⟩

theorem Order_isSome (ob : OrderBook) (id : String) :
    (ob.Order id).isSome = (ob.orders id).isSome := by
  unfold OrderBook.Order
  cases ob.orders id <;> rfl

/-! ### The volumes of the levels -/

theorem WF.level_facts {ob : OrderBook} (h : WF ob) {s : SideRef} {q : OrderQueue}
    (hq : q ∈ (ob.side s).priceTree) :
    q.orders ≠ [] ∧ (∀ o ∈ q.orders.map ob.values, 0 < o.quantity) ∧
      q.volume = sumQty (q.orders.map ob.values) := by
  have hl := h.level s q hq
  refine ⟨hl.nonempty, ?_, ?_⟩
  · intro o ho
    obtain ⟨e, he, rfl⟩ := List.mem_map.1 ho
    exact (hl.elems e he).2.2
  · rw [hl.volume, sumQty, List.map_map]
    rfl

theorem WF.level_volume_pos {ob : OrderBook} (h : WF ob) {s : SideRef} {q : OrderQueue}
    (hq : q ∈ (ob.side s).priceTree) : 0 < q.volume := by
  obtain ⟨h1, h2, h3⟩ := h.level_facts hq
  rw [h3]
  cases hh : q.orders with
  | nil => exact absurd hh h1
  | cons e es =>
    rw [hh] at h2
    rw [List.map_cons, sumQty_cons]
    have k1 := h2 (ob.values e) (by simp)
    have k2 := sumQty_nonneg (l := es.map ob.values) (fun o ho => h2 o (by simp [ho]))
    linarith

/-! ### Bids stay below asks -/

theorem dropWhile_not {α : Type} {R : α → α → Prop} (p : α → Bool)
    (hR : ∀ a b, R a b → p b = true → p a = true) :
    ∀ {l : List α}, l.Pairwise R → ∀ b ∈ l.dropWhile p, ¬ p b = true := by
  intro l
  induction l with
  | nil => intro _ b hb; simp at hb
  | cons a t ih =>
    intro hl b hb
    obtain ⟨h1, h2⟩ := List.pairwise_cons.1 hl
    by_cases hp : p a = true
    · rw [List.dropWhile_cons, if_pos hp] at hb
      exact ih h2 b hb
    · rw [List.dropWhile_cons, if_neg hp] at hb
      rcases List.mem_cons.1 hb with rfl | hb
      · exact hp
      · exact fun hc => hp (hR a b (h1 b hb) hc)

theorem mem_elems_of {ob : OrderBook} {s : SideRef} {q : OrderQueue} {e : Nat}
    (hq : q ∈ (ob.side s).priceTree) (he : e ∈ q.orders) : (q.ref, e) ∈ ob.elems s := by
  simp only [OrderBook.elems, List.mem_flatMap, levelElems, List.mem_map]
  exact ⟨q, mem_view.2 hq, e, he, rfl⟩

/-- Every level of a well-formed book has the price of one of its elements. -/
theorem WF.level_elem {ob : OrderBook} (h : WF ob) {s : SideRef} {q : OrderQueue}
    (hq : q ∈ (ob.side s).priceTree) :
    ∃ e, (q.ref, e) ∈ ob.elems s ∧ (ob.values e).price = q.price := by
  cases hh : q.orders with
  | nil => exact absurd hh (h.level s q hq).nonempty
  | cons e es =>
    have he : e ∈ q.orders := by rw [hh]; simp
    exact ⟨e, mem_elems_of hq he, (h.mem_level hq he).1⟩

theorem WF.elem_level {ob : OrderBook} (h : WF ob) {s : SideRef} {x : Nat × Nat}
    (hx : x ∈ ob.elems s) : ∃ q ∈ (ob.side s).priceTree, q.price = (ob.values x.2).price := by
  obtain ⟨q, hq, -, he⟩ := mem_elems hx
  exact ⟨q, hq, ((h.mem_level hq he).1).symm⟩

theorem Filled.values_price {ob ob1 : OrderBook} {s : SideRef} {esD esR : List (Nat × Nat)}
    {rp : Option RollbackPartial} {po : Option Order} {pq : Decimal}
    (hf : Filled ob s esD esR rp po pq ob1) {x : Nat} (hx : x < ob.next) :
    (ob1.values x).price = (ob.values x).price := by
  rcases hf.values with ⟨-, -, -, k⟩ | ⟨qref, e, tl, -, -, -, -, -, k5, k6⟩
  · rw [k x hx]
  · by_cases hxe : x = e
    · subst hxe; rw [k5]; rfl
    · rw [k6 x hx hxe]

/-- The levels that a matching loop leaves on the half it ran on have prices of levels that
the half had before. -/
theorem Filled.levels_within {ob ob1 : OrderBook} {s : SideRef} {esD esR : List (Nat × Nat)}
    {rp : Option RollbackPartial} {po : Option Order} {pq : Decimal} (h : WF ob)
    (hf : Filled ob s esD esR rp po pq ob1) :
    ∀ s', ∀ q1 ∈ (ob1.side s').priceTree, ∃ q ∈ (ob.side s').priceTree, q.price = q1.price := by
  intro s' q1 hq1
  by_cases hs : s' = s
  · subst hs
    obtain ⟨e, he, hp⟩ := hf.wf.level_elem hq1
    rw [hf.elems] at he
    have hmem : (q1.ref, e) ∈ ob.elems s' := by rw [hf.split]; simp [he]
    obtain ⟨q, hq, hqp⟩ := h.elem_level hmem
    refine ⟨q, hq, ?_⟩
    rw [hqp, ← hp]
    exact (hf.values_price (h.elem_ok hmem).2.2.2).symm
  · rw [hf.other s' hs] at hq1
    exact ⟨q1, hq1, rfl⟩

theorem NoCross.of_within {ob ob1 : OrderBook} (h : NoCross ob)
    (hw : ∀ s', ∀ q1 ∈ (ob1.side s').priceTree,
      ∃ q ∈ (ob.side s').priceTree, q.price = q1.price) : NoCross ob1 := by
  intro b hb a ha
  obtain ⟨b0, hb0, eb⟩ := hw SideRef.bids b hb
  obtain ⟨a0, ha0, ea⟩ := hw SideRef.asks a ha
  rw [← eb, ← ea]
  exact h b0 hb0 a0 ha0

theorem Append_levels {ob : OrderBook} (h : WF ob) (s : SideRef) (o : Order) :
    ∀ q1 ∈ ((ob.Append s o).side s).priceTree,
      q1.price = o.price ∨ ∃ q ∈ (ob.side s).priceTree, q.price = q1.price := by
  obtain ⟨l1, l2, q0, mid, hT, happ, hprice, -, -, -⟩ :=
    appendLevel_cases (h.sorted s) ob.next ob.next o
  intro q1 hq1
  rw [Append_side_same, happ] at hq1
  rcases List.mem_append.1 hq1 with k | k
  · exact Or.inr ⟨q1, by rw [hT]; simp [k], rfl⟩
  · rcases List.mem_cons.1 k with rfl | k
    · exact Or.inl hprice
    · exact Or.inr ⟨q1, by rw [hT]; simp [k], rfl⟩

theorem cancelOrder_levels {ob : OrderBook} (h : WF ob) (id : String) :
    ∀ s', ∀ q1 ∈ ((ob.cancelOrder id).2.side s').priceTree,
      ∃ q ∈ (ob.side s').priceTree, q.price = q1.price := by
  intro s' q1 hq1
  cases he : ob.orders id with
  | none =>
    have : ob.cancelOrder id = (none, ob) := by simp [OrderBook.cancelOrder, he]
    rw [this] at hq1
    exact ⟨q1, hq1, rfl⟩
  | some e =>
    obtain ⟨hid, l1, q, l2, hs, hmem⟩ := h.index_level he
    have heq := cancelOrder_eq h hs hmem
    rw [hid] at heq
    rw [heq] at hq1
    by_cases hs' : s' = halfOf (ob.values e).side
    · subst hs'
      have hq1' : q1 ∈ l1 ++ (if q.orders.erase e = [] then l2
          else q.Remove e (ob.values e) :: l2) := by
        have := setTree_side_same ob (halfOf (ob.values e).side)
          (l1 ++ (if q.orders.erase e = [] then l2 else q.Remove e (ob.values e) :: l2))
        rw [← this]; exact hq1
      rcases mem_remove hq1' with k | ⟨rfl, -⟩
      · exact ⟨q1, by rw [hs]; exact k, rfl⟩
      · exact ⟨q, by rw [hs]; simp, rfl⟩
    · have : ({ ob.setTree (halfOf (ob.values e).side)
          (l1 ++ (if q.orders.erase e = [] then l2 else q.Remove e (ob.values e) :: l2)) with
          orders := Function.update ob.orders id none } : OrderBook).side s' = ob.side s' :=
        setTree_side_ne ob _ hs'
      rw [this] at hq1
      exact ⟨q1, hq1, rfl⟩

theorem fill_rest_not_cross {ob : OrderBook} (h : WF ob) (side : Side) (price quantity : Decimal)
    (hl : 0 < (fillQueue ob.values (ob.crossElems (oppositeOf side) side price) []
      quantity).quantityLeft) :
    ∀ q1 ∈ ((fillBook (ob.crossElems (oppositeOf side) side price) ob quantity).side
        (oppositeOf side)).priceTree, ¬ comparator side price q1.price = true := by
  obtain ⟨hw, -, -, esD, esR, -, -, helems, -, hcase⟩ := fill_struct (oppositeOf side) _ ob
    quantity _ h (crossElems_split ob (oppositeOf side) side price)
  have hR : esR = [] ∧ (fillBook (ob.crossElems (oppositeOf side) side price) ob
      quantity).values = ob.values := by
    rcases hcase with ⟨-, -, -, k4, -, k6⟩ | ⟨_, _, _, -, -, -, -, -, -, k7, -⟩
    · rcases k6 with k6 | k6
      · exact ⟨k6, k4⟩
      · exact absurd hl (not_lt.2 k6)
    · rw [k7] at hl; exact absurd hl (lt_irrefl _)
  intro q1 hq1
  obtain ⟨e, he, hp⟩ := hw.level_elem hq1
  rw [helems, hR.1, List.nil_append] at he
  obtain ⟨q, hq, hqe⟩ := List.mem_flatMap.1 he
  simp only [levelElems, List.mem_map, Prod.mk.injEq] at hqe
  obtain ⟨e', he', -, rfl⟩ := hqe
  have hnot := dropWhile_not (fun q : OrderQueue => comparator side price q.price)
    (R := fun a b => if side = Side.Buy then a.price < b.price else b.price < a.price)
    (by
      intro a b hab hb
      cases side with
      | Buy =>
        simp only [comparator, if_true, ge_iff_le, decide_eq_true_eq] at hab hb ⊢
        linarith
      | Sell =>
        simp only [comparator, if_false, decide_eq_true_eq, reduceCtorEq] at hab hb ⊢
        linarith) (h.view_sorted side) q hq
  have hqv : q ∈ (ob.side (oppositeOf side)).priceTree :=
    mem_view.1 ((List.dropWhile_sublist _).subset hq)
  rw [← hp, hR.2, (h.mem_level hqv he').1]
  exact hnot

theorem ProcessLimitOrder_NoCross {ob ob1 : OrderBook} (h : WF ob) (hn : NoCross ob)
    {side : Side} {orderID : String} {quantity price : Decimal} {now : Nat} {r : LimitResult}
    (hr : ob.ProcessLimitOrder side orderID quantity price now = some (r, ob1))
    (herr : r.err = none) : NoCross ob1 := by
  obtain ⟨hid, hq, hp⟩ := ProcessLimitOrder_ok hr herr
  have heq := ProcessLimitOrder_eq h side now hid hq hp
  have hsplit := crossElems_split ob (oppositeOf side) side price
  obtain ⟨esD, esR, hF, -⟩ := fill_Filled h (oppositeOf side) _ _ hsplit quantity
  have hnfb := hn.of_within (hF.levels_within h)
  rw [hr] at heq
  by_cases hl : 0 < (fillQueue ob.values (ob.crossElems (oppositeOf side) side price) []
      quantity).quantityLeft
  · rw [if_pos hl] at heq
    obtain ⟨-, rfl⟩ := Prod.mk.inj (Option.some.inj heq)
    have hrest := fill_rest_not_cross h side price quantity hl
    have hown := Append_levels hF.wf (halfOf side)
      (NewOrder orderID side (fillQueue ob.values
        (ob.crossElems (oppositeOf side) side price) [] quantity).quantityLeft price now)
    have hopp := @Append_side_ne (fillBook (ob.crossElems (oppositeOf side) side price) ob
      quantity) (halfOf side) (oppositeOf side)
      (NewOrder orderID side (fillQueue ob.values
        (ob.crossElems (oppositeOf side) side price) [] quantity).quantityLeft price now)
      (oppositeOf_ne side).symm
    intro b hb a ha
    cases side with
    | Buy =>
      have ha' : a ∈ ((fillBook (ob.crossElems (oppositeOf Side.Buy) Side.Buy price) ob
          quantity).side (oppositeOf Side.Buy)).priceTree := by rw [← hopp]; exact ha
      rcases hown b hb with k | ⟨b0, hb0, eb⟩
      · have := hrest a ha'
        rw [comparator_buy] at this
        rw [k]; exact not_le.1 this
      · rw [← eb]; exact hnfb b0 hb0 a ha'
    | Sell =>
      have hb' : b ∈ ((fillBook (ob.crossElems (oppositeOf Side.Sell) Side.Sell price) ob
          quantity).side (oppositeOf Side.Sell)).priceTree := by rw [← hopp]; exact hb
      rcases hown a ha with k | ⟨a0, ha0, ea⟩
      · have := hrest b hb'
        rw [comparator_sell] at this
        rw [k]; exact not_le.1 this
      · rw [← ea]; exact hnfb b hb' a0 ha0
  · rw [if_neg hl] at heq
    obtain ⟨-, rfl⟩ := Prod.mk.inj (Option.some.inj heq)
    exact hnfb

theorem ProcessMarketQuantityOrder_NoCross {ob ob1 : OrderBook} (h : WF ob) (hn : NoCross ob)
    {side : Side} {quantity : Decimal} {r : MarketResult}
    (hr : ob.ProcessMarketQuantityOrder side quantity = some (r, ob1))
    (herr : r.err = none) : NoCross ob1 := by
  have hq := ProcessMarketQuantityOrder_ok hr herr
  have heq := ProcessMarketQuantityOrder_eq h side hq
  rw [hr] at heq
  obtain ⟨-, rfl⟩ := Prod.mk.inj (Option.some.inj heq)
  obtain ⟨esD, esR, hF, -⟩ := fill_Filled h (oppositeOf side) (ob.elems (oppositeOf side)) []
    (List.append_nil _).symm quantity
  exact hn.of_within (hF.levels_within h)

theorem ProcessMarketPriceBuy_NoCross {ob ob1 : OrderBook} (h : WF ob) (hn : NoCross ob)
    {price : Decimal} {places : Int} {r : MarketResult}
    (hr : ob.ProcessMarketPriceBuy price places = some (r, ob1))
    (herr : r.err = none) : NoCross ob1 := by
  have hq := ProcessMarketPriceBuy_ok hr herr
  have heq := ProcessMarketPriceBuy_eq h places hq
  rw [hr] at heq
  obtain ⟨-, rfl⟩ := Prod.mk.inj (Option.some.inj heq)
  obtain ⟨esD, esR, hF, -⟩ := notional_Filled places (ob.view SideRef.asks) ob
    ⟨[], none, 0, price, none⟩ h rfl rfl rfl rfl
  exact hn.of_within (hF.levels_within h)

theorem Reachable.noCross {ob : OrderBook} (h : Reachable ob) : NoCross ob := by
  induction h with
  | init => intro b hb; simp [NewOrderBook, NewOrderSide] at hb
  | limit side orderID quantity price now hre hr herr ih =>
    exact ProcessLimitOrder_NoCross hre.wf ih hr herr
  | marketQuantity side quantity hre hr herr ih =>
    exact ProcessMarketQuantityOrder_NoCross hre.wf ih hr herr
  | marketPrice price places hre hr herr ih =>
    exact ProcessMarketPriceBuy_NoCross hre.wf ih hr herr
  | cancel orderID hre ih =>
    rw [CancelOrder_snd]
    exact ih.of_within (cancelOrder_levels hre.wf orderID)

/-! ### The effect of `CancelOrder` -/

theorem erase_eq_nil_iff {l : List Nat} {e : Nat} (he : e ∈ l) :
    l.erase e = [] ↔ l = [e] := by
  constructor
  · intro h
    have hp := List.perm_cons_erase he
    rw [h] at hp
    exact List.perm_singleton.1 hp
  · intro h; rw [h]; simp

theorem WF.level_nodup {ob : OrderBook} (h : WF ob) {s : SideRef} {q : OrderQueue}
    (hq : q ∈ (ob.side s).priceTree) : q.orders.Nodup := by
  have := h.refs_nodup s
  obtain ⟨l1, l2, hsplit⟩ := List.append_of_mem hq
  rw [show ob.side s = OrderSide.mk (l1 ++ q :: l2) from side_eq_mk hsplit, refs_split] at this
  exact (List.nodup_append.1 (List.nodup_append.1 this).1).2.1

theorem NoCross.other_price {ob : OrderBook} (hn : NoCross ob) {s s' : SideRef}
    (hs : s' ≠ s) {q x : OrderQueue} (hq : q ∈ (ob.side s).priceTree)
    (hx : x ∈ (ob.side s').priceTree) : x.price ≠ q.price := by
  cases s <;> cases s'
  · exact absurd rfl hs
  · exact ne_of_lt (hn x hx q hq)
  · exact ne_of_gt (hn q hq x hx)
  · exact absurd rfl hs

theorem CancelOrder_absent {ob : OrderBook} {orderID : String}
    (hid : ob.orders orderID = none) : ob.CancelOrder orderID = ((none, none), ob) := by
  simp [OrderBook.CancelOrder, OrderBook.cancelOrder, hid]

/-- `CancelOrder` for an id that is in the index of a well-formed book. -/
theorem CancelOrder_present {ob : OrderBook} (h : WF ob) {orderID : String} {e : Nat}
    (hid : ob.orders orderID = some e) :
    ∃ l1 q l2,
      (ob.CancelOrder orderID).1 = (some (ob.values e), some (Rollback.cancel (ob.values e))) ∧
      (ob.values e).id = orderID ∧
      (ob.side (halfOf (ob.values e).side)).priceTree = l1 ++ q :: l2 ∧ e ∈ q.orders ∧
      q.price = (ob.values e).price ∧
      ((ob.CancelOrder orderID).2.side (halfOf (ob.values e).side)).priceTree =
        l1 ++ (if q.orders = [e] then l2
          else { q with volume := q.volume - (ob.values e).quantity,
                        orders := q.orders.erase e } :: l2) ∧
      (∀ s', s' ≠ halfOf (ob.values e).side →
        (ob.CancelOrder orderID).2.side s' = ob.side s') ∧
      (ob.CancelOrder orderID).2.values = ob.values ∧
      (ob.CancelOrder orderID).2.orders = Function.update ob.orders orderID none := by
  obtain ⟨hid', l1, q, l2, hs, hmem⟩ := h.index_level hid
  have hq : q ∈ (ob.side (halfOf (ob.values e).side)).priceTree := by rw [hs]; simp
  have heq := cancelOrder_eq h hs hmem
  rw [hid'] at heq
  have hiff := erase_eq_nil_iff hmem
  refine ⟨l1, q, l2, ?_, hid', hs, hmem, ((h.mem_level hq hmem).1).symm, ?_, ?_, ?_, ?_⟩
  · simp only [OrderBook.CancelOrder, heq]
  · rw [CancelOrder_snd, heq]
    have := setTree_side_same ob (halfOf (ob.values e).side)
      (l1 ++ (if q.orders.erase e = [] then l2 else q.Remove e (ob.values e) :: l2))
    refine Eq.trans this ?_
    by_cases hc : q.orders = [e]
    · rw [if_pos hc, if_pos (hiff.2 hc)]
    · rw [if_neg hc, if_neg (fun k => hc (hiff.1 k))]
      rfl
  · intro s' hs'
    rw [CancelOrder_snd, heq]
    exact setTree_side_ne ob _ hs'
  · rw [CancelOrder_snd]; exact cancelOrder_values ob orderID
  · rw [CancelOrder_snd, heq]

theorem Order_update_none {ob ob1 : OrderBook} {orderID : String}
    (hv : ob1.values = ob.values) (ho : ob1.orders = Function.update ob.orders orderID none) :
    ob1.Order orderID = none ∧ ∀ id', id' ≠ orderID → ob1.Order id' = ob.Order id' := by
  constructor
  · simp [OrderBook.Order, ho]
  · intro id' hne
    simp [OrderBook.Order, ho, hv, Function.update_noteq hne]

/-- The prices that `Depth(0)` lists. -/
theorem Depth_prices {ob : OrderBook} (h : WF ob) :
    ∃ d, ob.Depth 0 = some d ∧ ∀ p, p ∈ (d.Asks ++ d.Bids).map Prod.fst ↔
      ∃ s, ∃ x ∈ (ob.side s).priceTree, x.price = p := by
  refine ⟨_, Depth_zero h, fun p => ?_⟩
  simp only [List.map_append, List.map_map, List.mem_append, List.mem_map, Function.comp,
    List.mem_reverse]
  constructor
  · rintro (⟨x, hx, rfl⟩ | ⟨x, hx, rfl⟩)
    · exact ⟨SideRef.asks, x, hx, rfl⟩
    · exact ⟨SideRef.bids, x, hx, rfl⟩
  · rintro ⟨s, x, hx, rfl⟩
    cases s
    · exact Or.inl ⟨x, hx, rfl⟩
    · exact Or.inr ⟨x, hx, rfl⟩

/-- After `CancelOrder`, `Depth(0)` lists the price of the cancelled order's level unless the
order was the last one of the level. -/
theorem CancelOrder_depth {ob : OrderBook} (h : WF ob) (hn : NoCross ob) {orderID : String}
    {e : Nat} (hid : ob.orders orderID = some e) :
    ∃ d, (ob.CancelOrder orderID).2.Depth 0 = some d ∧
      ∀ q ∈ (ob.side (halfOf (ob.values e).side)).priceTree, e ∈ q.orders →
        ((q.price ∉ (d.Asks ++ d.Bids).map Prod.fst ↔ q.orders = [e]) ∧
          (q.orders ≠ [e] →
            (q.price, q.volume - (ob.values e).quantity) ∈
              (if (ob.values e).side = Side.Buy then d.Bids else d.Asks))) := by
  have hw1 : WF (ob.CancelOrder orderID).2 := by rw [CancelOrder_snd]; exact cancelOrder_WF h _
  obtain ⟨l1, q0, l2, -, -, hs, hmem, -, htree, hother, -, -⟩ := CancelOrder_present h hid
  obtain ⟨d, hd, hp⟩ := Depth_prices hw1
  have hd0 := Depth_zero hw1
  refine ⟨d, hd, fun q hq he => ?_⟩
  have hq0 : q0 ∈ (ob.side (halfOf (ob.values e).side)).priceTree := by rw [hs]; simp
  have hqq : q = q0 := h.level_unique hq hq0 he hmem
  subst hqq
  have hsorted := h.sorted (halfOf (ob.values e).side)
  rw [hs] at hsorted
  obtain ⟨m1, m2⟩ := sorted_mid hsorted
  constructor
  · rw [hp q.price]
    constructor
    · intro hno
      by_contra hc
      rw [if_neg hc] at htree
      exact hno ⟨_, OrderQueue.mk q.ref (q.volume - (ob.values e).quantity) q.price
        (q.orders.erase e), by rw [htree]; simp, rfl⟩
    · intro hc
      rw [if_pos hc] at htree
      rintro ⟨s, x, hx, hxp⟩
      by_cases hss : s = halfOf (ob.values e).side
      · subst hss
        rw [htree] at hx
        rcases List.mem_append.1 hx with k | k
        · exact absurd hxp (ne_of_lt (m1 x k))
        · exact absurd hxp (ne_of_gt (m2 x k))
      · rw [hother s hss] at hx
        exact hn.other_price hss hq hx hxp
  · intro hc
    rw [if_neg hc] at htree
    rw [hd0] at hd
    have hdd := Option.some.inj hd
    have hin : OrderQueue.mk q.ref (q.volume - (ob.values e).quantity) q.price
        (q.orders.erase e) ∈
        ((ob.CancelOrder orderID).2.side (halfOf (ob.values e).side)).priceTree := by
      rw [htree]; simp
    cases hsd : (ob.values e).side with
    | Sell =>
      rw [hsd] at hin
      simp only [reduceCtorEq, if_false, ← hdd]
      exact List.mem_map.2 ⟨_, hin, rfl⟩
    | Buy =>
      rw [hsd] at hin
      simp only [if_true, ← hdd]
      exact List.mem_map.2 ⟨_, List.mem_reverse.2 hin, rfl⟩

/-! ### The total volume of a side -/

theorem content_sum {v : Nat → Order} {sd : Side} :
    ∀ (T : List OrderQueue), (∀ q ∈ T, LevelOK v sd q) →
      (T.map (fun q => q.volume)).sum = sumQty (T.flatMap (fun q => q.orders.map v)) := by
  intro T
  induction T with
  | nil => intro _; simp [sumQty]
  | cons q t ih =>
    intro hl
    rw [List.map_cons, List.sum_cons, List.flatMap_cons, sumQty_append,
      ih (fun x hx => hl x (by simp [hx])), (hl q (by simp)).volume]
    simp [sumQty, List.map_map, Function.comp_def]

theorem sumQty_perm {l1 l2 : List Order} (h : l1.Perm l2) : sumQty l1 = sumQty l2 := by
  unfold sumQty
  exact (h.map (fun o => o.quantity)).sum_eq

theorem WF.totalVolume_eq {ob : OrderBook} (h : WF ob) (s : SideRef) :
    (ob.side s).totalVolume = sumQty (ob.resting s) := by
  rw [sumQty_perm (resting_perm ob s)]
  exact content_sum _ (h.level s)

theorem WF.tree_nil_of_elems {ob : OrderBook} (h : WF ob) {s : SideRef}
    (he : ob.elems s = []) : (ob.side s).priceTree = [] := by
  rw [List.eq_nil_iff_forall_not_mem]
  intro q hq
  obtain ⟨e, hmem, -⟩ := h.level_elem hq
  rw [he] at hmem
  exact absurd hmem (List.not_mem_nil _)

/-- The leftover of a fill of a whole half. -/
theorem fill_leftover {ob : OrderBook} (h : WF ob) (s : SideRef) {a : Decimal} (ha : 0 < a) :
    (fillQueue ob.values (ob.elems s) [] a).quantityLeft =
        max 0 (a - (ob.side s).totalVolume) ∧
      (0 < (fillQueue ob.values (ob.elems s) [] a).quantityLeft →
        ((fillBook (ob.elems s) ob a).side s).priceTree = [] ∧
        (fillQueue ob.values (ob.elems s) [] a).partialOrd = none ∧
        (fillQueue ob.values (ob.elems s) [] a).partialQuantityProcessed = 0) := by
  obtain ⟨hw, -, -, esD, esR, hsplit, hdone, helems, -, hcase⟩ :=
    fill_struct s (ob.elems s) ob a [] h (List.append_nil _).symm
  have hnn := fillQueue_left_nonneg ob.values (ob.elems s) [] a (le_of_lt ha)
  have hV : (ob.side s).totalVolume =
      sumQty (fillQueue ob.values (ob.elems s) [] a).done +
        sumQty (esR.map (fun x => ob.values x.2)) := by
    rw [h.totalVolume_eq, resting_eq_elems, hdone, ← sumQty_append, ← List.map_append, ← hsplit]
  have hRpos : ∀ o ∈ esR.map (fun x => ob.values x.2), 0 < o.quantity := by
    intro o ho
    obtain ⟨x, hx, rfl⟩ := List.mem_map.1 ho
    exact h.elems_pos (s := s) (by rw [hsplit]; simp [hx])
  have hRnn := sumQty_nonneg hRpos
  rcases hcase with ⟨-, k2, k3, -, k5, k6⟩ | ⟨qref, e, tl, k1, -, -, -, k5, k6, k7, -⟩
  · rcases k6 with k6 | k6
    · subst k6
      have hV' : (ob.side s).totalVolume =
          sumQty (fillQueue ob.values (ob.elems s) [] a).done := by
        rw [hV]; simp [sumQty]
      refine ⟨?_, fun _ => ⟨?_, k2, k3⟩⟩
      · rw [hV', ← k5]; exact (max_eq_right hnn).symm
      · apply hw.tree_nil_of_elems
        rw [helems]; rfl
    · have h0 : (fillQueue ob.values (ob.elems s) [] a).quantityLeft = 0 :=
        le_antisymm k6 hnn
      refine ⟨?_, fun hl => absurd hl (by rw [h0]; exact lt_irrefl _)⟩
      rw [h0]
      refine (max_eq_left ?_).symm
      rw [h0] at k5
      linarith
  · refine ⟨?_, fun hl => absurd hl (by rw [k7]; exact lt_irrefl _)⟩
    rw [k7]
    refine (max_eq_left ?_).symm
    have : (ob.values e).quantity ≤ sumQty (esR.map (fun x => ob.values x.2)) := by
      rw [k1, List.map_cons, sumQty_cons]
      have := sumQty_nonneg (l := tl.map (fun x => ob.values x.2))
        (fun o ho => hRpos o (by rw [k1]; simp only [List.map_cons]; exact List.mem_cons_of_mem _ ho))
      linarith
    linarith

/-! ### The volume at a price after `Append` -/

theorem volumeAt_appendLevel (qref e : Nat) (o : Order) (p : Decimal) :
    ∀ (T : List OrderQueue), T.Pairwise (fun a b => a.price < b.price) →
      (OrderSide.mk (appendLevel qref e o T)).volumeAt p =
        (OrderSide.mk T).volumeAt p + (if p = o.price then o.quantity else 0) := by
  intro T
  induction T with
  | nil =>
    intro _
    by_cases hp : p = o.price
    · simp [appendLevel, OrderSide.volumeAt, NewOrderQueue, OrderQueue.Append, hp]
    · have hp' : ¬ o.price = p := fun k => hp k.symm
      simp [appendLevel, OrderSide.volumeAt, NewOrderQueue, OrderQueue.Append, hp, hp']
  | cons q qs ih =>
    intro hs
    obtain ⟨h1, h2⟩ := List.pairwise_cons.1 hs
    by_cases c1 : q.price = o.price
    · by_cases hp : p = o.price
      · simp [appendLevel, OrderSide.volumeAt, OrderQueue.Append, c1, hp]
      · have hp' : ¬ o.price = p := fun k => hp k.symm
        simp [appendLevel, OrderSide.volumeAt, OrderQueue.Append, c1, hp, hp']
    · by_cases c2 : o.price < q.price
      · by_cases hp : p = o.price
        · have hnone : qs.find? (fun x => decide (x.price = o.price)) = none := by
            rw [List.find?_eq_none]
            intro x hx
            simp only [decide_eq_true_eq]
            exact ne_of_gt (lt_trans c2 (h1 x hx))
          simp [appendLevel, OrderSide.volumeAt, NewOrderQueue, OrderQueue.Append, c1, c2, hp,
            hnone]
        · have hp' : ¬ o.price = p := fun k => hp k.symm
          simp [appendLevel, OrderSide.volumeAt, NewOrderQueue, OrderQueue.Append, c1, c2, hp,
            hp']
      · have hrec := ih h2
        by_cases c3 : q.price = p
        · subst c3
          simp [appendLevel, OrderSide.volumeAt, c1, c2]
        · simp only [OrderSide.volumeAt] at hrec
          simp only [appendLevel, c1, c2, if_false, OrderSide.volumeAt, List.find?_cons, c3,
            decide_False]
          exact hrec

theorem Append_volumeAt {ob : OrderBook} (h : WF ob) (s : SideRef) (o : Order) (p : Decimal) :
    ((ob.Append s o).side s).volumeAt p =
      (ob.side s).volumeAt p + (if p = o.price then o.quantity else 0) := by
  have e1 : (ob.Append s o).side s =
      OrderSide.mk (appendLevel ob.next ob.next o (ob.side s).priceTree) :=
    side_eq_mk (Append_side_same ob s o)
  rw [e1, volumeAt_appendLevel _ _ _ _ _ (h.sorted s)]

/-! ### A limit order that crosses nothing -/

theorem crossElems_nil_of_best {ob : OrderBook} {s : SideRef} {side : Side} {price : Decimal}
    (hb : ∀ q, ob.best s = some q → ¬ comparator side price q.price = true) :
    ob.crossElems s side price = [] := by
  cases hv : ob.view s with
  | nil => simp [OrderBook.crossElems, hv]
  | cons q rest =>
    exact crossElems_cons_stop hv (hb q (by rw [best_eq_view, hv]; rfl))

theorem limit_non_crossing {ob : OrderBook} (h : WF ob) (side : Side) {orderID : String}
    {quantity price : Decimal} (now : Nat) (hid : ob.orders orderID = none)
    (hq : 0 < quantity) (hp : 0 < price)
    (hce : ob.crossElems (oppositeOf side) side price = []) :
    ob.ProcessLimitOrder side orderID quantity price now =
      some ({ done := [], partialOrd := none, partialQuantityProcessed := 0,
              rollback := limitRollback orderID none [] (oppositeOf side), err := none },
        ob.Append (halfOf side) (NewOrder orderID side quantity price now)) := by
  have heq := ProcessLimitOrder_eq h side now hid hq hp
  rw [hce] at heq
  simp only [fillQueue, fillBook, hq, if_true, List.length_nil, lt_irrefl, if_false] at heq
  exact heq

/-! ### The depth snapshot with a cap -/

theorem depthLoop_cap (L : List OrderQueue) (lt : Decimal → Decimal → Bool)
    (hirr : ∀ a, lt a a = false) (hasym : ∀ a b, lt a b = true → lt b a = false)
    (hL : L.Pairwise (fun a b => lt a.price b.price = true)) (max : Int) :
    ∀ (l2 l1 : List OrderQueue) (acc : List (Decimal × Decimal)) (fuel : Nat),
      l1 ++ l2 = L → l2.length + 1 ≤ fuel → (0 < max → (acc.length : Int) < max) →
      depthLoop (fun p => L.find? (fun x => lt p x.price)) max fuel l2.head? acc =
        some (acc ++ (if 0 < max then (l2.map (fun q => (q.price, q.volume))).take
          (max.toNat - acc.length) else l2.map (fun q => (q.price, q.volume)))) := by
  intro l2
  induction l2 with
  | nil =>
    intro l1 acc fuel _ hf _
    obtain ⟨f, rfl⟩ : ∃ f, fuel = f + 1 := ⟨fuel - 1, by simp at hf; omega⟩
    simp [depthLoop]
  | cons q t ih =>
    intro l1 acc fuel hl hf hacc
    obtain ⟨f, rfl⟩ : ∃ f, fuel = f + 1 := ⟨fuel - 1, by simp at hf; omega⟩
    have hnext : L.find? (fun x => lt q.price x.price) = t.head? := by
      rw [← hl]; exact find_next lt hirr hasym (by rw [hl]; exact hL)
    have hlen : ((acc ++ [(q.price, q.volume)]).length : Int) = (acc.length : Int) + 1 := by
      simp
    have hstep : depthLoop (fun p => L.find? (fun x => lt p x.price)) max (f + 1)
        (q :: t).head? acc =
        if 0 < max ∧ max ≤ ((acc ++ [(q.price, q.volume)]).length : Int) then
          some (acc ++ [(q.price, q.volume)])
        else depthLoop (fun p => L.find? (fun x => lt p x.price)) max f
          (L.find? (fun x => lt q.price x.price)) (acc ++ [(q.price, q.volume)]) := rfl
    rw [hstep, hlen, hnext]
    by_cases hm : 0 < max
    · have ha := hacc hm
      by_cases hle : max ≤ (acc.length : Int) + 1
      · have hk : max.toNat - acc.length = 1 := by omega
        rw [if_pos ⟨hm, hle⟩, if_pos hm, hk, List.map_cons, List.take_succ_cons,
          List.take_zero]
      · have hrec := ih (l1 ++ [q]) (acc ++ [(q.price, q.volume)]) f (by rw [← hl]; simp)
          (by simp at hf ⊢; omega) (fun _ => by rw [hlen]; omega)
        have hk : max.toNat - acc.length =
            (max.toNat - (acc ++ [(q.price, q.volume)]).length) + 1 := by
          rw [List.length_append, List.length_singleton]; omega
        rw [if_neg (fun k => hle k.2), hrec, if_pos hm, if_pos hm, hk, List.map_cons,
          List.take_succ_cons, List.append_assoc, List.singleton_append]
    · have hrec := ih (l1 ++ [q]) (acc ++ [(q.price, q.volume)]) f (by rw [← hl]; simp)
        (by simp at hf ⊢; omega) (fun k => absurd k hm)
      rw [if_neg (fun k => hm k.1), hrec, if_neg hm, if_neg hm, List.map_cons,
        List.append_assoc, List.singleton_append]

theorem Depth_cap {ob : OrderBook} (h : WF ob) (max : Int) :
    ob.Depth max = some
      { Bids := depthCap max (ob.bids.priceTree.reverse.map (fun q => (q.price, q.volume))),
        Asks := depthCap max (ob.asks.priceTree.map (fun q => (q.price, q.volume))) } := by
  have ha := depthLoop_cap ob.asks.priceTree (fun a b => decide (a < b)) (by simp)
    (by intro a b hab; simp only [decide_eq_true_eq, decide_eq_false_iff_not] at hab ⊢
        exact not_lt.2 (le_of_lt hab))
    (by simpa using h.sorted SideRef.asks) max ob.asks.priceTree [] []
    (ob.asks.priceTree.length + 1) rfl (le_refl _) (fun k => by simpa using k)
  have hb := depthLoop_cap ob.bids.priceTree.reverse (fun a b => decide (b < a)) (by simp)
    (by intro a b hab; simp only [decide_eq_true_eq, decide_eq_false_iff_not] at hab ⊢
        exact not_lt.2 (le_of_lt hab))
    (by simpa [List.pairwise_reverse] using h.sorted SideRef.bids) max
    ob.bids.priceTree.reverse [] [] (ob.bids.priceTree.length + 1) rfl (by simp)
    (fun k => by simpa using k)
  have hmax : ob.bids.MaxPriceQueue = ob.bids.priceTree.reverse.head? := by
    simp [OrderSide.MaxPriceQueue, List.head?_reverse]
  unfold OrderBook.Depth
  rw [hmax]
  simp only [List.nil_append, List.length_nil, Nat.sub_zero] at ha hb
  have hG : ob.asks.GreaterThan =
      fun p => ob.asks.priceTree.find? (fun x => decide (p < x.price)) := rfl
  have hLt : ob.bids.LessThan =
      fun p => ob.bids.priceTree.reverse.find? (fun x => decide (x.price < p)) := rfl
  have hmin : ob.asks.MinPriceQueue = ob.asks.priceTree.head? := rfl
  rw [hG, hLt, hmin, ha, hb]
  rfl

theorem depthCap_sorted {R : Decimal → Decimal → Prop} (max : Int)
    {l : List (Decimal × Decimal)} (h : (l.map Prod.fst).Pairwise R) :
    ((depthCap max l).map Prod.fst).Pairwise R := by
  unfold depthCap
  split_ifs
  · rw [List.map_take]
    exact h.sublist (List.take_sublist _ _)
  · exact h

theorem depthCap_length (max : Int) (l : List (Decimal × Decimal)) :
    (depthCap max l).length = if 0 < max then min max.toNat l.length else l.length := by
  unfold depthCap
  split_ifs
  · exact List.length_take _ _
  · rfl

/-! ### The price of a market order -/

/-- The sum of the volumes of a list of levels. -/
theorem sumVol_nonneg {l : List OrderQueue} (hv : ∀ q ∈ l, 0 < q.volume) :
    0 ≤ (l.map (fun q => q.volume)).sum := by
  induction l with
  | nil => simp
  | cons q t ih =>
    rw [List.map_cons, List.sum_cons]
    have h1 := hv q (by simp)
    have h2 := ih (fun x hx => hv x (by simp [hx]))
    linarith

theorem specMarketPrice_zero {l : List OrderQueue} (hv : ∀ q ∈ l, 0 < q.volume) :
    specMarketPrice l 0 = 0 := by
  induction l with
  | nil => rfl
  | cons q t ih =>
    have h1 := hv q (by simp)
    have hmin : min (0 : Decimal) q.volume = 0 := min_eq_left (le_of_lt h1)
    unfold specMarketPrice
    rw [hmin, sub_zero, ih (fun x hx => hv x (by simp [hx]))]
    ring

theorem specMarketPrice_all {l : List OrderQueue} (hv : ∀ q ∈ l, 0 < q.volume) :
    ∀ quantity : Decimal, (l.map (fun q => q.volume)).sum ≤ quantity →
      specMarketPrice l quantity = (l.map (fun q => q.price * q.volume)).sum := by
  induction l with
  | nil => intro quantity _; rfl
  | cons q t ih =>
    intro quantity hq
    rw [List.map_cons, List.sum_cons] at hq
    have h2 := sumVol_nonneg (l := t) (fun x hx => hv x (by simp [hx]))
    have hmin : min quantity q.volume = q.volume := min_eq_right (by linarith)
    unfold specMarketPrice
    rw [hmin, ih (fun x hx => hv x (by simp [hx])) _ (by linarith), List.map_cons,
      List.sum_cons]

theorem calculateLoop_stop (iter : Decimal → Option OrderQueue) (fuel : Nat)
    (level : Option OrderQueue) (quantity price : Decimal) (hq : quantity ≤ 0) :
    calculateLoop iter (fuel + 1) level quantity price = some (price, quantity) := by
  unfold calculateLoop
  rw [if_neg (not_lt.2 hq)]

theorem calculateLoop_succ (iter : Decimal → Option OrderQueue) (fuel : Nat)
    (lv : OrderQueue) (quantity price : Decimal) :
    calculateLoop iter (fuel + 1) (some lv) quantity price =
      if 0 < quantity then
        if quantity ≥ lv.volume then
          calculateLoop iter fuel (iter lv.price) (quantity - lv.volume)
            (price + lv.price * lv.volume)
        else calculateLoop iter fuel (some lv) 0 (price + lv.price * quantity)
      else some (price, quantity) := rfl

theorem calculateLoop_walk (L : List OrderQueue) (lt : Decimal → Decimal → Bool)
    (hirr : ∀ a, lt a a = false) (hasym : ∀ a b, lt a b = true → lt b a = false)
    (hL : L.Pairwise (fun a b => lt a.price b.price = true))
    (hv : ∀ q ∈ L, 0 < q.volume) :
    ∀ (l2 l1 : List OrderQueue) (quantity price : Decimal) (fuel : Nat),
      l1 ++ l2 = L → l2.length + 2 ≤ fuel → 0 ≤ quantity →
      calculateLoop (fun p => L.find? (fun x => lt p x.price)) fuel l2.head? quantity price =
        some (price + specMarketPrice l2 quantity,
          max 0 (quantity - (l2.map (fun q => q.volume)).sum)) := by
  intro l2
  induction l2 with
  | nil =>
    intro l1 quantity price fuel _ hf hq
    obtain ⟨f, rfl⟩ : ∃ f, fuel = f + 1 := ⟨fuel - 1, by omega⟩
    unfold calculateLoop
    simp only [List.head?_nil, specMarketPrice, add_zero, List.map_nil, List.sum_nil, sub_zero,
      max_eq_right hq]
    split_ifs <;> rfl
  | cons q t ih =>
    intro l1 quantity price fuel hl hf hq
    obtain ⟨f, rfl⟩ : ∃ f, fuel = f + 1 := ⟨fuel - 1, by omega⟩
    have hf1 : t.length + 2 ≤ f := by simpa using hf
    have hvt : ∀ x ∈ t, 0 < x.volume := fun x hx => hv x (by rw [← hl]; simp [hx])
    have hvq : 0 < q.volume := hv q (by rw [← hl]; simp)
    have hst := sumVol_nonneg hvt
    by_cases h0 : 0 < quantity
    · by_cases hge : quantity ≥ q.volume
      · have hnext : L.find? (fun x => lt q.price x.price) = t.head? := by
          rw [← hl]
          exact find_next lt hirr hasym (by rw [hl]; exact hL)
        have hstep : calculateLoop (fun p => L.find? (fun x => lt p x.price)) (f + 1)
            (q :: t).head? quantity price =
            calculateLoop (fun p => L.find? (fun x => lt p x.price)) f
              (L.find? (fun x => lt q.price x.price)) (quantity - q.volume)
              (price + q.price * q.volume) := by
          refine (calculateLoop_succ _ _ _ _ _).trans ?_
          rw [if_pos h0, if_pos hge]
        rw [hstep, hnext, ih (l1 ++ [q]) _ _ f (by rw [← hl]; simp) hf1 (sub_nonneg.2 hge)]
        have hmin : min quantity q.volume = q.volume := min_eq_right hge
        rw [List.map_cons, List.sum_cons]
        conv_rhs => rw [specMarketPrice, hmin]
        congr 2
        · ring
        · ring_nf
      · obtain ⟨g, rfl⟩ : ∃ g, f = g + 1 := ⟨f - 1, by omega⟩
        have hstep : calculateLoop (fun p => L.find? (fun x => lt p x.price)) (g + 1 + 1)
            (q :: t).head? quantity price =
            calculateLoop (fun p => L.find? (fun x => lt p x.price)) (g + 1)
              (some q) 0 (price + q.price * quantity) := by
          refine (calculateLoop_succ _ _ _ _ _).trans ?_
          rw [if_pos h0, if_neg hge]
        rw [hstep, calculateLoop_stop _ _ _ _ _ (le_refl _)]
        have hlt : quantity < q.volume := not_le.1 hge
        have hmin : min quantity q.volume = quantity := min_eq_left (le_of_lt hlt)
        rw [List.map_cons, List.sum_cons]
        conv_rhs => rw [specMarketPrice, hmin, sub_self, specMarketPrice_zero hvt, add_zero]
        rw [max_eq_left (by linarith)]
    · have hq0 : quantity = 0 := le_antisymm (not_lt.1 h0) hq
      subst hq0
      rw [calculateLoop_stop _ _ _ _ _ (le_refl _),
        specMarketPrice_zero (fun x hx => hv x (by rw [← hl]; simp [hx])), add_zero,
        max_eq_left]
      rw [List.map_cons, List.sum_cons]
      linarith

theorem view_totalVolume (ob : OrderBook) (s : SideRef) :
    ((ob.view s).map (fun q => q.volume)).sum = (ob.side s).totalVolume := by
  cases s
  · rfl
  · simp only [OrderBook.view, OrderBook.side, OrderSide.totalVolume, List.map_reverse,
      List.sum_reverse]

theorem WF.view_volume_pos {ob : OrderBook} (h : WF ob) (s : SideRef) :
    ∀ q ∈ ob.view s, 0 < q.volume := by
  intro q hq
  cases s
  · exact h.level_volume_pos (s := SideRef.asks) hq
  · exact h.level_volume_pos (s := SideRef.bids) (List.mem_reverse.1 hq)

/-- On a well-formed book the price walk returns: for a quantity that is not negative the
accumulated price is the sum of price times filled volume over the levels from the best
price on, and the quantity left is the excess over the total volume of the side. -/
theorem CalculateMarketPrice_eq {ob : OrderBook} (h : WF ob) (side : Side)
    (quantity : Decimal) (hq : 0 ≤ quantity) :
    ob.CalculateMarketPrice side quantity =
      some (specMarketPrice (ob.view (oppositeOf side)) quantity,
        if (ob.side (oppositeOf side)).totalVolume < quantity
        then some Error.ErrInsufficientQuantity else none) := by
  have hG : ob.asks.GreaterThan =
      fun p => ob.asks.priceTree.find? (fun x => decide (p < x.price)) := rfl
  have hLt : ob.bids.LessThan =
      fun p => ob.bids.priceTree.reverse.find? (fun x => decide (x.price < p)) := rfl
  have hmin : ob.asks.MinPriceQueue = ob.asks.priceTree.head? := rfl
  have hmax : ob.bids.MaxPriceQueue = ob.bids.priceTree.reverse.head? := by
    simp [OrderSide.MaxPriceQueue, List.head?_reverse]
  have hpos : ∀ t : Decimal, (0 < max 0 (quantity - t)) ↔ t < quantity := by
    intro t
    rw [lt_max_iff]
    constructor
    · rintro (k | k)
      · exact absurd k (lt_irrefl _)
      · linarith
    · intro k
      exact Or.inr (by linarith)
  have hva := view_totalVolume ob SideRef.asks
  have hvb := view_totalVolume ob SideRef.bids
  simp only [OrderBook.view] at hva hvb
  have ha := calculateLoop_walk ob.asks.priceTree (fun a b => decide (a < b)) (by simp)
    (by intro a b hab; simp only [decide_eq_true_eq, decide_eq_false_iff_not] at hab ⊢
        exact not_lt.2 (le_of_lt hab))
    (by simpa using h.sorted SideRef.asks) (h.view_volume_pos SideRef.asks)
    ob.asks.priceTree [] quantity 0 (ob.asks.priceTree.length + 2) rfl (le_refl _) hq
  have hb := calculateLoop_walk ob.bids.priceTree.reverse (fun a b => decide (b < a))
    (by simp)
    (by intro a b hab; simp only [decide_eq_true_eq, decide_eq_false_iff_not] at hab ⊢
        exact not_lt.2 (le_of_lt hab))
    (by simpa [List.pairwise_reverse] using h.sorted SideRef.bids)
    (h.view_volume_pos SideRef.bids)
    ob.bids.priceTree.reverse [] quantity 0 (ob.bids.priceTree.length + 2) rfl (by simp) hq
  rw [hva, zero_add] at ha
  rw [hvb, zero_add] at hb
  unfold OrderBook.CalculateMarketPrice
  rw [hG, hLt, hmin, hmax, ha, hb]
  cases side
  · simp only [reduceCtorEq, if_false, oppositeOf, hpos, OrderBook.view]
  · simp only [if_true, oppositeOf, hpos, OrderBook.view]

/-- A quantity that is not positive walks no level: the price is zero and there is no
error. -/
theorem CalculateMarketPrice_nonpos (ob : OrderBook) (side : Side) (quantity : Decimal)
    (hq : quantity ≤ 0) :
    ob.CalculateMarketPrice side quantity = some (0, none) := by
  unfold OrderBook.CalculateMarketPrice
  cases side
  · simp only [if_false, reduceCtorEq, calculateLoop_stop _ _ _ _ _ hq, if_neg (not_lt.2 hq)]
  · simp only [if_true, calculateLoop_stop _ _ _ _ _ hq, if_neg (not_lt.2 hq)]

/-! ### The value taken by a notional buy -/

theorem sumValue_append (l1 l2 : List Order) :
    sumValue (l1 ++ l2) = sumValue l1 + sumValue l2 := by
  simp [sumValue, List.map_append, List.sum_append]

/-- Matching a quantity against elements that all rest at the price `p`: the value of the
orders done, of the partial fill and of the quantity left add up. -/
theorem fillQueue_value (values : Nat → Order) (p : Decimal) :
    ∀ (es : List (Nat × Nat)) (d : List Order) (a : Decimal),
      (∀ x ∈ es, (values x.2).price = p) →
      sumValue (fillQueue values es d a).done +
          (fillQueue values es d a).partialQuantityProcessed * p +
          (fillQueue values es d a).quantityLeft * p = sumValue d + a * p ∧
        (∀ po, (fillQueue values es d a).partialOrd = some po → po.price = p) ∧
        ((fillQueue values es d a).partialOrd = none →
          (fillQueue values es d a).partialQuantityProcessed = 0) ∧
        (0 < (fillQueue values es d a).quantityLeft →
          (fillQueue values es d a).partialOrd = none) := by
  intro es
  induction es with
  | nil =>
    intro d a _
    simp only [fillQueue, zero_mul, add_zero, true_and, reduceCtorEq, false_implies,
      implies_true, and_self]
  | cons x t ih =>
    intro d a hp
    obtain ⟨qref, e⟩ := x
    have hpe : (values e).price = p := hp (qref, e) (by simp)
    by_cases h0 : 0 < a
    · by_cases hlt : a < (values e).quantity
      · simp only [fillQueue, if_pos h0, if_pos hlt, zero_mul, add_zero, true_and,
          Option.some.injEq, reduceCtorEq, false_implies, lt_self_iff_false, and_true]
        intro po hpo
        rw [← hpo]
        exact hpe
      · have k := ih (d ++ [values e]) (a - (values e).quantity)
          (fun y hy => hp y (by simp [hy]))
        simp only [fillQueue, if_pos h0, if_neg hlt]
        refine ⟨?_, k.2⟩
        rw [k.1, sumValue_append, sumValue_cons, hpe]
        simp only [sumValue, List.map_nil, List.sum_nil]
        ring
    · simp only [fillQueue, if_neg h0, zero_mul, add_zero, true_and, reduceCtorEq,
        false_implies, implies_true, and_self]

theorem notionalFill_value (values : Nat → Order) (places : Int) :
    ∀ (l : List OrderQueue) (st : LoopState),
      (∀ q ∈ l, ∀ e ∈ q.orders, (values e).price = q.price) → st.partialOrd = none →
      (notionalFill values places l st).value = sumValue st.done + st.amount := by
  intro l
  induction l with
  | nil =>
    intro st _ hpo
    simp only [notionalFill, LoopState.value, hpo, add_zero]
  | cons q qs ih =>
    intro st hl hpo
    have hstop : st.value = sumValue st.done + st.amount := by
      simp only [LoopState.value, hpo, add_zero]
    have hq : ∀ x ∈ levelElems q, (values x.2).price = q.price := by
      intro x hx
      obtain ⟨e, he, rfl⟩ := List.mem_map.1 hx
      exact hl q (by simp) e he
    obtain ⟨k1, k2, k3, k4⟩ := fillQueue_value values q.price (levelElems q) []
      (Decimal.DivRound st.amount q.price places) hq
    simp only [sumValue, List.map_nil, List.sum_nil, zero_add] at k1
    by_cases h0 : 0 < st.amount
    · by_cases hz : Decimal.DivRound st.amount q.price places ≤ 0
      · simpa only [notionalFill, if_pos h0, if_pos hz] using hstop
      · by_cases hlft : 0 < (fillQueue values (levelElems q) []
            (Decimal.DivRound st.amount q.price places)).quantityLeft
        · have hnone := k4 hlft
          simp only [notionalFill, if_pos h0, if_neg hz, if_pos hlft]
          rw [ih _ (fun q' hq' => hl q' (by simp [hq'])) hnone]
          simp only [sumValue_append]
          rw [k3 hnone, zero_mul, add_zero] at k1
          simp only [sumValue]
          linear_combination k1
        · simp only [notionalFill, if_pos h0, if_neg hz, if_neg hlft, LoopState.value,
            sumValue_append]
          cases hpo1 : (fillQueue values (levelElems q) []
              (Decimal.DivRound st.amount q.price places)).partialOrd with
          | none =>
            rw [k3 hpo1, zero_mul, add_zero] at k1
            simp only [sumValue, add_zero]
            linear_combination k1
          | some po =>
            simp only [k2 po hpo1, sumValue]
            linear_combination k1
    · simpa only [notionalFill, if_neg h0] using hstop

/-! ### A notional that buys an exact quantity at the best ask -/

/-- Rounding the quotient of `p · x` by `p` gives `x` back when `x` has at most `places`
decimal places. -/
theorem DivRound_exact {p : Decimal} (hp : 0 < p) (n : ℤ) (places : Int) (hn : 0 ≤ n) :
    Decimal.DivRound (p * ((n : ℚ) / (10 : ℚ) ^ places)) p places =
      (n : ℚ) / (10 : ℚ) ^ places := by
  have hs := pow_places_pos places
  have hx : p * ((n : ℚ) / (10 : ℚ) ^ places) / p * (10 : ℚ) ^ places = (n : ℚ) := by
    have hp' : p ≠ 0 := ne_of_gt hp
    have hs' : (10 : ℚ) ^ places ≠ 0 := ne_of_gt hs
    field_simp
    ring
  have hn' : (0 : ℚ) ≤ (n : ℚ) := by exact_mod_cast hn
  have hfl : ⌊(n : ℚ) + 1 / 2⌋ = n := by
    rw [Int.floor_eq_iff]
    constructor <;> linarith
  simp only [Decimal.DivRound, hx, hn', if_true, hfl]

theorem Filled.totalVolume_after {ob ob1 : OrderBook} {s : SideRef} {esD esR : List (Nat × Nat)}
    {rp : Option RollbackPartial} {po : Option Order} {pq : Decimal} (h : WF ob)
    (hf : Filled ob s esD esR rp po pq ob1) :
    (ob1.side s).totalVolume =
      (ob.side s).totalVolume - sumQty (esD.map (fun x => ob.values x.2)) - pq := by
  have h0 : (ob.side s).totalVolume =
      sumQty (esD.map (fun x => ob.values x.2)) + sumQty (esR.map (fun x => ob.values x.2)) := by
    rw [h.totalVolume_eq, resting_eq_elems, hf.split, List.map_append, sumQty_append]
  rw [hf.wf.totalVolume_eq, h0]
  rcases hf.values with ⟨-, -, k3, k4⟩ | ⟨qref, e, tl, k1, -, k3, -⟩
  · have heq : ob1.resting s = esR.map (fun x => ob.values x.2) := by
      rw [resting_eq_elems, hf.elems]
      apply List.map_congr_left
      intro x hx
      exact k4 x.2 (h.elem_ok (s := s) (by rw [hf.split]; simp [hx])).2.2.2
    rw [heq, k3]
    ring
  · obtain ⟨hd, T, j1, j2, -, -, j5, -⟩ := hf.partial_head h k3
    have j1' : esD.map (fun x => ob.values x.2) ++ esR.map (fun x => ob.values x.2) =
        esD.map (fun x => ob.values x.2) ++ hd :: T := by
      rw [← List.map_append, ← hf.split, ← resting_eq_elems]
      exact j1
    rw [j5, List.append_cancel_left j1', sumQty_cons, sumQty_cons, j2]
    show (hd.quantity - pq) + sumQty T = _
    ring

theorem totalVolume_cons {os : OrderSide} {q : OrderQueue} {rest : List OrderQueue}
    (h : os.priceTree = q :: rest) :
    os.totalVolume = q.volume + (rest.map (fun q => q.volume)).sum := by
  rw [OrderSide.totalVolume, h, List.map_cons, List.sum_cons]

/-- Filling a quantity of at most the volume of the best ask level against that level. -/
theorem fill_best_ask {ob : OrderBook} (h : WF ob) {q : OrderQueue} {rest : List OrderQueue}
    (hv : ob.asks.priceTree = q :: rest) {x : Decimal} (h0 : 0 < x) (hV : x ≤ q.volume) :
    (fillQueue ob.values (levelElems q) [] x).quantityLeft = 0 ∧
      sumQty (fillQueue ob.values (levelElems q) [] x).done +
        (fillQueue ob.values (levelElems q) [] x).partialQuantityProcessed = x ∧
      (∀ o ∈ (fillQueue ob.values (levelElems q) [] x).done, o.price = q.price) ∧
      (∀ po, (fillQueue ob.values (levelElems q) [] x).partialOrd = some po →
        po.price = q.price) ∧
      (fillBook (levelElems q) ob x).bids = ob.bids ∧
      (x = q.volume → (fillBook (levelElems q) ob x).asks.priceTree = rest) ∧
      (x < q.volume → ∃ q1, (fillBook (levelElems q) ob x).asks.priceTree = q1 :: rest ∧
        q1.price = q.price ∧ q1.volume = q.volume - x) ∧
      (∀ e, e ∉ q.orders → (fillBook (levelElems q) ob x).values e = ob.values e) := by
  have hv' : ob.view SideRef.asks = q :: rest := hv
  have he := elems_cons hv'
  have hq : q ∈ (ob.side SideRef.asks).priceTree := by
    show q ∈ ob.asks.priceTree
    rw [hv]; simp
  obtain ⟨-, -, hother, esD, esR, hsplit, hdone, -, -, hcase⟩ :=
    fill_struct SideRef.asks (levelElems q) ob x (rest.flatMap levelElems) h he
  obtain ⟨esD', esR', hF, hdone'⟩ := fill_Filled h SideRef.asks (levelElems q)
    (rest.flatMap levelElems) he x
  have htv := hF.totalVolume_after h
  rw [← hdone'] at htv
  have htv0 : (ob.side SideRef.asks).totalVolume =
      q.volume + (rest.map (fun q => q.volume)).sum := totalVolume_cons hv
  obtain ⟨hw1, -, -, hout⟩ := (processQueue_spec h hv' x).2
  have hnn := fillQueue_left_nonneg ob.values (levelElems q) [] x (le_of_lt h0)
  have hsum : sumQty (fillQueue ob.values (levelElems q) [] x).done +
      (fillQueue ob.values (levelElems q) [] x).partialQuantityProcessed +
      (fillQueue ob.values (levelElems q) [] x).quantityLeft = x := by
    rcases fill_partial_cases h SideRef.asks (levelElems q) (rest.flatMap levelElems) he x
      with ⟨c1, -, c3⟩ | ⟨-, -, c3, c4⟩
    · rw [c1, c3]; ring
    · rw [c3, c4]; ring
  have hmem : ∀ y ∈ levelElems q, (ob.values y.2).price = q.price := by
    intro y hy
    obtain ⟨e, he', rfl⟩ := List.mem_map.1 hy
    exact (h.mem_level hq he').1
  have hprice : ∀ o ∈ (fillQueue ob.values (levelElems q) [] x).done, o.price = q.price := by
    intro o ho
    obtain ⟨y, hy, rfl⟩ := fill_done_mem h SideRef.asks _ _ he x ho
    exact hmem y hy
  have hpo := (fillQueue_value ob.values q.price (levelElems q) [] x hmem).2.1
  have hbids : (fillBook (levelElems q) ob x).bids = ob.bids :=
    hother SideRef.bids (by decide)
  have hvals : ∀ e, e ∉ q.orders → (fillBook (levelElems q) ob x).values e = ob.values e := by
    intro e hne
    rcases hcase with ⟨-, -, -, k4, -, -⟩ | ⟨qref, e0, tl, k1, -, -, -, -, -, -, k8⟩
    · rw [k4]
    · have hin : (qref, e0) ∈ levelElems q := by rw [hsplit, k1]; simp
      obtain ⟨e1, he1, heq⟩ := List.mem_map.1 hin
      have he0 : e0 ∈ q.orders := by
        have := congrArg Prod.snd heq
        simp only at this
        rw [← this]; exact he1
      have hne' : e ≠ e0 := fun hc => hne (by rw [hc]; exact he0)
      rw [k8, Function.update_noteq hne']
  rcases hout with ⟨k1, -, -, -, k5⟩ | ⟨k1, q1, k2, -, k4⟩
  · have k1' : (fillBook (levelElems q) ob x).asks.priceTree = rest := k1
    have htv1 : ((fillBook (levelElems q) ob x).side SideRef.asks).totalVolume =
        (rest.map (fun q => q.volume)).sum := by
      show (fillBook (levelElems q) ob x).asks.totalVolume = _
      rw [OrderSide.totalVolume, k1']
    rw [htv1, htv0, k5] at htv
    rw [k5] at hsum
    have hxV : x = q.volume := by linarith
    refine ⟨by linarith, by linarith, hprice, hpo, hbids, fun _ => k1', fun hlt => ?_, hvals⟩
    exact absurd hxV (ne_of_lt hlt)
  · have k2' : (fillBook (levelElems q) ob x).asks.priceTree = q1 :: rest := k2
    have hl0 : (fillQueue ob.values (levelElems q) [] x).quantityLeft = 0 :=
      le_antisymm k1 hnn
    have htv1 := totalVolume_cons k2'
    have htv1' : ((fillBook (levelElems q) ob x).side SideRef.asks).totalVolume =
        q1.volume + (rest.map (fun q => q.volume)).sum := htv1
    rw [htv1', htv0] at htv
    rw [hl0] at hsum
    have hq1 : q1.volume = q.volume - x := by linarith
    have hpos : 0 < q1.volume := hw1.level_volume_pos (s := SideRef.asks)
      (show q1 ∈ (fillBook (levelElems q) ob x).asks.priceTree by rw [k2']; simp)
    refine ⟨hl0, by linarith, hprice, hpo, hbids, fun hxV => ?_, fun _ => ⟨q1, k2', k4, hq1⟩,
      hvals⟩
    rw [hq1, hxV] at hpos
    exact absurd hpos (by simp)

theorem notionalFill_first (values : Nat → Order) (places : Int) (q : OrderQueue)
    (rest : List OrderQueue) (st : LoopState) {x : Decimal} (hamt : 0 < st.amount)
    (hdr : Decimal.DivRound st.amount q.price places = x) (h0 : 0 < x)
    (hl : (fillQueue values (levelElems q) [] x).quantityLeft = 0) :
    notionalFill values places (q :: rest) st =
      { done := st.done ++ (fillQueue values (levelElems q) [] x).done,
        partialOrd := (fillQueue values (levelElems q) [] x).partialOrd,
        partialQuantityProcessed :=
          (fillQueue values (levelElems q) [] x).partialQuantityProcessed,
        amount := st.amount - x * q.price,
        rollbackPartial := (fillQueue values (levelElems q) [] x).rollbackPartial } := by
  simp only [notionalFill, if_pos hamt, hdr, if_neg (not_le.2 h0), hl, lt_self_iff_false,
    if_false, sub_zero]

theorem notionalBook_first (places : Int) (q : OrderQueue) (rest : List OrderQueue)
    (ob : OrderBook) {amount x : Decimal} (hamt : 0 < amount)
    (hdr : Decimal.DivRound amount q.price places = x) (h0 : 0 < x)
    (hl : (fillQueue ob.values (levelElems q) [] x).quantityLeft = 0) :
    notionalBook places (q :: rest) ob amount = fillBook (levelElems q) ob x := by
  simp only [notionalBook, if_pos hamt, hdr, if_neg (not_le.2 h0), hl, lt_self_iff_false,
    if_false]

/-- A notional of `p · x` on a well-formed book whose best ask level is `q`, at price `p`,
for a quantity `x` of at most the volume of `q` with at most `places` decimal places: the
call is a fill of `x` against the level `q` and nothing is left. -/
theorem ProcessMarketPriceBuy_exact {ob : OrderBook} (h : WF ob) {q : OrderQueue}
    {rest : List OrderQueue} (hv : ob.asks.priceTree = q :: rest) (places : Int) (n : ℤ)
    {x : Decimal} (hx : x = (n : ℚ) / (10 : ℚ) ^ places) (h0 : 0 < x) (hV : x ≤ q.volume) :
    ∃ rb, ob.ProcessMarketPriceBuy (q.price * x) places =
      some ({ done := (fillQueue ob.values (levelElems q) [] x).done,
              partialOrd := (fillQueue ob.values (levelElems q) [] x).partialOrd,
              partialQuantityProcessed :=
                (fillQueue ob.values (levelElems q) [] x).partialQuantityProcessed,
              left := 0, rollback := rb, err := none },
            fillBook (levelElems q) ob x) := by
  have hq : q ∈ (ob.side SideRef.asks).priceTree := by
    show q ∈ ob.asks.priceTree
    rw [hv]; simp
  have hp : 0 < q.price := (h.level SideRef.asks q hq).price_pos
  have hamt : 0 < q.price * x := mul_pos hp h0
  have hs := pow_places_pos places
  have hn : 0 ≤ n := by
    by_contra hneg
    have hneg' : (n : ℚ) < 0 := by exact_mod_cast not_le.1 hneg
    have : x < 0 := by rw [hx]; exact div_neg_of_neg_of_pos hneg' hs
    linarith
  have hdr : Decimal.DivRound (q.price * x) q.price places = x := by
    rw [hx]; exact DivRound_exact hp n places hn
  have hl := (fill_best_ask h hv h0 hV).1
  have hv' : ob.view SideRef.asks = q :: rest := hv
  have hNF := notionalFill_first ob.values places q rest ⟨[], none, 0, q.price * x, none⟩
    hamt hdr h0 hl
  have hNB := notionalBook_first places q rest ob hamt hdr h0 hl
  have heq := ProcessMarketPriceBuy_eq h places hamt
  rw [hv', hNF, hNB] at heq
  simp only [List.nil_append, mul_comm x q.price, sub_self] at heq
  exact ⟨_, heq⟩

theorem reachable_bookD : Reachable bookD := Reachable.init.afterLimit _ _ _ _ _

/-! ### Orders that an operation consumed are gone -/

theorem Order_none_iff {ob : OrderBook} {id : String} :
    ob.Order id = none ↔ ob.orders id = none := by
  unfold OrderBook.Order
  cases ob.orders id <;> simp

theorem WF.gone {ob : OrderBook} (h : WF ob) {id : String} (hid : ob.orders id = none) :
    ob.Order id = none ∧ (ob.CancelOrder id).1.1 = none ∧ ¬ IsResting ob id := by
  refine ⟨Order_none_iff.2 hid, by rw [CancelOrder_absent hid], fun hr => ?_⟩
  have := (h.isResting_iff id).1 hr
  rw [hid] at this
  exact Bool.noConfusion this

theorem Filled.done_gone {ob ob1 : OrderBook} {s : SideRef} {esD esR : List (Nat × Nat)}
    {rp : Option RollbackPartial} {po : Option Order} {pq : Decimal}
    (hf : Filled ob s esD esR rp po pq ob1) {o : Order}
    (ho : o ∈ esD.map (fun x => ob.values x.2)) : ob1.orders o.id = none := by
  rw [hf.orders, if_pos]
  obtain ⟨x, hx, rfl⟩ := List.mem_map.1 ho
  exact List.mem_map.2 ⟨x, hx, rfl⟩

theorem done_gone_market {ob ob1 : OrderBook} (h : WF ob) {side : Side} {quantity : Decimal}
    {r : MarketResult} (hr : ob.ProcessMarketQuantityOrder side quantity = some (r, ob1))
    (herr : r.err = none) : ∀ o ∈ r.done, ob1.orders o.id = none := by
  have hq := ProcessMarketQuantityOrder_ok hr herr
  have heq := ProcessMarketQuantityOrder_eq h side hq
  rw [hr] at heq
  obtain ⟨rfl, rfl⟩ := Prod.mk.inj (Option.some.inj heq)
  obtain ⟨esD, esR, hF, hd⟩ := fill_Filled h (oppositeOf side) (ob.elems (oppositeOf side)) []
    (List.append_nil _).symm quantity
  intro o ho
  exact hF.done_gone (by rw [← hd]; exact ho)

theorem done_gone_notional {ob ob1 : OrderBook} (h : WF ob) {price : Decimal} {places : Int}
    {r : MarketResult} (hr : ob.ProcessMarketPriceBuy price places = some (r, ob1))
    (herr : r.err = none) : ∀ o ∈ r.done, ob1.orders o.id = none := by
  have hq := ProcessMarketPriceBuy_ok hr herr
  have heq := ProcessMarketPriceBuy_eq h places hq
  rw [hr] at heq
  obtain ⟨rfl, rfl⟩ := Prod.mk.inj (Option.some.inj heq)
  obtain ⟨esD, esR, hF, hd⟩ := notional_Filled places (ob.view SideRef.asks) ob
    ⟨[], none, 0, price, none⟩ h rfl rfl rfl rfl
  have hd' : (notionalFill ob.values places (ob.view SideRef.asks)
      ⟨[], none, 0, price, none⟩).done = esD.map (fun x => ob.values x.2) := by
    simpa using hd
  intro o ho
  exact hF.done_gone (by rw [← hd']; exact ho)

theorem done_gone_limit {ob ob1 : OrderBook} (h : WF ob) {side : Side} {orderID : String}
    {quantity price : Decimal} {now : Nat} {r : LimitResult}
    (hr : ob.ProcessLimitOrder side orderID quantity price now = some (r, ob1))
    (herr : r.err = none) :
    (∀ o ∈ r.done, ob1.orders o.id = none) ∧
      (ob.limitRemaining side quantity price = some 0 → ob1.orders orderID = none) := by
  obtain ⟨hid, hq, hp⟩ := ProcessLimitOrder_ok hr herr
  have heq := ProcessLimitOrder_eq h side now hid hq hp
  have hsplit := crossElems_split ob (oppositeOf side) side price
  obtain ⟨esD, esR, hF, hd⟩ := fill_Filled h (oppositeOf side) _ _ hsplit quantity
  have hidfb := fillBook_orders_none h (oppositeOf side) _ _ hsplit quantity hid
  have hrem := limitRemaining_eq h side quantity price
  rw [hr] at heq
  by_cases hl : 0 < (fillQueue ob.values (ob.crossElems (oppositeOf side) side price) []
      quantity).quantityLeft
  · rw [if_pos hl] at heq
    obtain ⟨rfl, rfl⟩ := Prod.mk.inj (Option.some.inj heq)
    constructor
    · intro o ho
      have ho' : o ∈ esD.map (fun x => ob.values x.2) := by rw [← hd]; exact ho
      have hne : o.id ≠ orderID := by
        intro hc
        obtain ⟨x, hx, rfl⟩ := List.mem_map.1 ho'
        have hmem : x ∈ ob.elems (oppositeOf side) := by rw [hF.split]; simp [hx]
        have := h.index_complete (oppositeOf side) x.2 (mem_elems_refs hmem)
        rw [hc, hid] at this
        exact Option.noConfusion this
      have hap := Append_orders (fillBook (ob.crossElems (oppositeOf side) side price) ob
        quantity) (halfOf side) (NewOrder orderID side (fillQueue ob.values
          (ob.crossElems (oppositeOf side) side price) [] quantity).quantityLeft price now)
      rw [hap]
      have hne' : o.id ≠ (NewOrder orderID side (fillQueue ob.values
          (ob.crossElems (oppositeOf side) side price) [] quantity).quantityLeft price now).id :=
        hne
      rw [Function.update_noteq hne']
      exact hF.done_gone ho'
    · intro h0
      rw [hrem] at h0
      rw [Option.some.inj h0] at hl
      exact absurd hl (lt_irrefl _)
  · rw [if_neg hl] at heq
    obtain ⟨rfl, rfl⟩ := Prod.mk.inj (Option.some.inj heq)
    refine ⟨?_, fun _ => hidfb⟩
    intro o ho
    rcases List.mem_append.1 ho with ho | ho
    · exact hF.done_gone (by rw [← hd]; exact ho)
    · rw [List.mem_singleton.1 ho]
      exact hidfb

/-! ### One iteration of the loop of a notional buy -/

/-- A fill of a positive quantity against the best level of a well-formed book removes a
resting order or fills the head order in part. -/
theorem fill_progress {ob : OrderBook} (h : WF ob) {s : SideRef} {q : OrderQueue}
    {rest : List OrderQueue} (hv : ob.view s = q :: rest) {x : Decimal} (hx : 0 < x) :
    ((fillQueue ob.values (levelElems q) [] x).done ≠ [] ∨
        (fillQueue ob.values (levelElems q) [] x).partialOrd ≠ none) ∧
      ((fillQueue ob.values (levelElems q) [] x).done ≠ [] →
        ((fillBook (levelElems q) ob x).resting s).length < (ob.resting s).length) := by
  have hq : q ∈ (ob.side s).priceTree := mem_view.1 (by rw [hv]; simp)
  have he := elems_cons hv
  constructor
  · cases ho : q.orders with
    | nil => exact absurd ho (h.level s q hq).nonempty
    | cons e t =>
      have hl : levelElems q = (q.ref, e) :: t.map (fun e => (q.ref, e)) := by
        simp [levelElems, ho]
      rw [hl]
      by_cases hlt : x < (ob.values e).quantity
      · right
        simp [fillQueue, hx, hlt]
      · left
        simp only [fillQueue, if_pos hx, if_neg hlt, List.nil_append]
        rw [fillQueue_done]
        simp
  · intro hne
    obtain ⟨-, -, -, esD, esR, hsplit, hdone, helems, -, -⟩ :=
      fill_struct s (levelElems q) ob x (rest.flatMap levelElems) h he
    have hD : esD ≠ [] := by
      intro hc
      rw [hdone, hc] at hne
      exact hne rfl
    rw [resting_eq_elems, resting_eq_elems, helems, he, hsplit]
    simp only [List.length_map, List.length_append]
    have := List.length_pos.2 hD
    omega

/-- After a partial fill at the best ask level the notional that is left is not positive or
rounds to no quantity at that level, which is still the best level. -/
theorem partial_then_stop {ob : OrderBook} (h : WF ob) {q : OrderQueue}
    {rest : List OrderQueue} (hv : ob.view SideRef.asks = q :: rest) {a : Decimal}
    (places : Int) (ha : 0 < a)
    (hpo : (fillQueue ob.values (levelElems q) []
      (Decimal.DivRound a q.price places)).partialOrd ≠ none) :
    (fillQueue ob.values (levelElems q) []
        (Decimal.DivRound a q.price places)).quantityLeft = 0 ∧
      (∃ q1, (fillBook (levelElems q) ob
          (Decimal.DivRound a q.price places)).asks.MinPriceQueue = some q1 ∧
        q1.price = q.price) ∧
      (a - Decimal.DivRound a q.price places * q.price ≤ 0 ∨
        Decimal.DivRound (a - Decimal.DivRound a q.price places * q.price) q.price places ≤
          0) := by
  have hq : q ∈ (ob.side SideRef.asks).priceTree := mem_view.1 (by rw [hv]; simp)
  have hp : 0 < q.price := (h.level SideRef.asks q hq).price_pos
  have he := elems_cons hv
  have hl : (fillQueue ob.values (levelElems q) []
      (Decimal.DivRound a q.price places)).quantityLeft = 0 := by
    rcases fill_partial_cases h SideRef.asks (levelElems q) (rest.flatMap levelElems) he
      (Decimal.DivRound a q.price places) with ⟨-, c2, -⟩ | ⟨-, -, c3, -⟩
    · exact absurd c2 hpo
    · exact c3
  refine ⟨hl, ?_, ?_⟩
  · obtain ⟨-, -, -, hout⟩ := (processQueue_spec h hv (Decimal.DivRound a q.price places)).2
    rcases hout with ⟨-, -, k3, -⟩ | ⟨-, q1, k2, -, k4⟩
    · exact absurd k3 hpo
    · refine ⟨q1, ?_, k4⟩
      have k2' : (fillBook (levelElems q) ob
          (Decimal.DivRound a q.price places)).asks.priceTree = q1 :: rest := k2
      simp [OrderSide.MinPriceQueue, k2']
  · by_cases hpos : 0 < a - Decimal.DivRound a q.price places * q.price
    · exact Or.inr (DivRound_residual ha hp (le_refl _) hpos (le_refl _))
    · exact Or.inl (not_lt.1 hpos)

/-! ### How far a notional buy can go beyond its notional -/

/-- The rounded quantity costs at most half a quantum more than the notional. -/
theorem DivRound_le {a p : Decimal} (places : Int) (ha : 0 < a) (hp : 0 < p) :
    Decimal.DivRound a p places * p ≤ a + p / (2 * (10 : ℚ) ^ places) := by
  have hs := pow_places_pos places
  have hy : 0 ≤ a / p * (10 : ℚ) ^ places := by positivity
  simp only [Decimal.DivRound, hy, if_true]
  have hfl : ((⌊a / p * (10 : ℚ) ^ places + 1 / 2⌋ : ℤ) : ℚ) ≤
      a / p * (10 : ℚ) ^ places + 1 / 2 := Int.floor_le _
  have h1 : ((⌊a / p * (10 : ℚ) ^ places + 1 / 2⌋ : ℤ) : ℚ) / (10 : ℚ) ^ places * p ≤
      (a / p * (10 : ℚ) ^ places + 1 / 2) / (10 : ℚ) ^ places * p := by
    apply mul_le_mul_of_nonneg_right _ (le_of_lt hp)
    exact div_le_div_of_nonneg_right hfl (le_of_lt hs)
  refine le_trans h1 (le_of_eq ?_)
  have hp' : p ≠ 0 := ne_of_gt hp
  have hs' : (10 : ℚ) ^ places ≠ 0 := ne_of_gt hs
  field_simp
  ring

theorem notionalFill_left_bound (values : Nat → Order) (places : Int) :
    ∀ (l : List OrderQueue) (st : LoopState), (∀ q ∈ l, 0 < q.price) → 0 ≤ st.amount →
      0 ≤ (notionalFill values places l st).amount ∨
        ∃ q ∈ l, -(q.price / (2 * (10 : ℚ) ^ places)) ≤
          (notionalFill values places l st).amount := by
  intro l
  induction l with
  | nil =>
    intro st _ ha
    exact Or.inl ha
  | cons q qs ih =>
    intro st hl ha
    have hp : 0 < q.price := hl q (by simp)
    by_cases h0 : 0 < st.amount
    · by_cases hz : Decimal.DivRound st.amount q.price places ≤ 0
      · left
        simpa only [notionalFill, if_pos h0, if_pos hz] using ha
      · have hnn := fillQueue_left_nonneg values (levelElems q) []
          (Decimal.DivRound st.amount q.price places) (le_of_lt (not_le.1 hz))
        have hle := DivRound_le places h0 hp
        have hbound : -(q.price / (2 * (10 : ℚ) ^ places)) ≤
            st.amount - (Decimal.DivRound st.amount q.price places -
              (fillQueue values (levelElems q) []
                (Decimal.DivRound st.amount q.price places)).quantityLeft) * q.price := by
          have := mul_nonneg hnn (le_of_lt hp)
          nlinarith
        have key : ∀ st1 : LoopState,
            st1.amount = st.amount - (Decimal.DivRound st.amount q.price places -
              (fillQueue values (levelElems q) []
                (Decimal.DivRound st.amount q.price places)).quantityLeft) * q.price →
            (0 ≤ (notionalFill values places qs st1).amount ∨
              ∃ q' ∈ q :: qs, -(q'.price / (2 * (10 : ℚ) ^ places)) ≤
                (notionalFill values places qs st1).amount) := by
          intro st1 hst1
          by_cases hnext : 0 ≤ st1.amount
          · rcases ih st1 (fun q' hq' => hl q' (by simp [hq'])) hnext with k | ⟨q', hq', k⟩
            · exact Or.inl k
            · exact Or.inr ⟨q', by simp [hq'], k⟩
          · right
            refine ⟨q, by simp, ?_⟩
            rw [notionalFill_nonpos values places qs (fun hc => hnext (le_of_lt hc)), hst1]
            exact hbound
        by_cases hlft : 0 < (fillQueue values (levelElems q) []
            (Decimal.DivRound st.amount q.price places)).quantityLeft
        · simp only [notionalFill, if_pos h0, if_neg hz, if_pos hlft]
          exact key _ rfl
        · right
          refine ⟨q, by simp, ?_⟩
          simp only [notionalFill, if_pos h0, if_neg hz, if_neg hlft]
          exact hbound
    · left
      simpa only [notionalFill, if_neg h0] using ha

/-! ### The value that a market order executes -/

/-- The fill of a quantity against elements of positive quantity: what is left, and whether the
last element met is filled in part. -/
theorem fillQueue_level (values : Nat → Order) :
    ∀ (es : List (Nat × Nat)) (d : List Order) (a : Decimal), 0 ≤ a →
      (∀ x ∈ es, 0 < (values x.2).quantity) →
      ((es.map (fun x => (values x.2).quantity)).sum ≤ a →
        (fillQueue values es d a).partialOrd = none ∧
        (fillQueue values es d a).quantityLeft =
          a - (es.map (fun x => (values x.2).quantity)).sum) ∧
      (a < (es.map (fun x => (values x.2).quantity)).sum →
        (fillQueue values es d a).quantityLeft = 0) := by
  intro es
  induction es with
  | nil =>
    intro d a ha _
    simp only [fillQueue, List.map_nil, List.sum_nil, sub_zero, and_self, implies_true, true_and]
    intro hc
    exact absurd hc (not_lt.2 ha)
  | cons x t ih =>
    intro d a ha hpos
    obtain ⟨qref, e⟩ := x
    have hqe : 0 < (values e).quantity := hpos (qref, e) (by simp)
    have hpt : ∀ y ∈ t, 0 < (values y.2).quantity := fun y hy => hpos y (by simp [hy])
    have hst : 0 ≤ (t.map (fun x => (values x.2).quantity)).sum :=
      List.sum_nonneg (fun z hz => by
        obtain ⟨y, hy, rfl⟩ := List.mem_map.1 hz
        exact le_of_lt (hpt y hy))
    simp only [List.map_cons, List.sum_cons]
    by_cases h0 : 0 < a
    · by_cases hlt : a < (values e).quantity
      · simp only [fillQueue, if_pos h0, if_pos hlt, implies_true, and_true]
        intro hc
        linarith
      · simp only [fillQueue, if_pos h0, if_neg hlt]
        obtain ⟨i1, i2⟩ := ih (d ++ [values e]) (a - (values e).quantity)
          (by linarith [not_lt.1 hlt]) hpt
        constructor
        · intro hc
          obtain ⟨j1, j2⟩ := i1 (by linarith)
          exact ⟨j1, by rw [j2]; ring⟩
        · intro hc
          exact i2 (by linarith)
    · have ha0 : a = 0 := le_antisymm (not_lt.1 h0) ha
      simp only [fillQueue, if_neg h0]
      constructor
      · intro hc
        linarith
      · intro _
        exact ha0

/-- The part of the value of the results of a fill that the partial order stands for. -/
theorem fill_value_spec (values : Nat → Order) (sd : Side) :
    ∀ (l : List OrderQueue) (d : List Order) (a : Decimal), 0 ≤ a →
      (∀ q ∈ l, LevelOK values sd q) →
      sumValue (fillQueue values (l.flatMap levelElems) d a).done +
          (match (fillQueue values (l.flatMap levelElems) d a).partialOrd with
            | some po => po.price * (fillQueue values (l.flatMap levelElems) d a).partialQuantityProcessed
            | none => 0) =
        sumValue d + specMarketPrice l a := by
  intro l
  induction l with
  | nil =>
    intro d a _ _
    simp only [List.flatMap_nil, fillQueue, specMarketPrice, add_zero]
  | cons q qs ih =>
    intro d a ha hl
    have hq := hl q (by simp)
    have hqs : ∀ q' ∈ qs, LevelOK values sd q' := fun q' hq' => hl q' (by simp [hq'])
    have hprice : ∀ x ∈ levelElems q, (values x.2).price = q.price := by
      intro x hx
      obtain ⟨e, he, rfl⟩ := List.mem_map.1 hx
      exact (hq.elems e he).1
    have hpos : ∀ x ∈ levelElems q, 0 < (values x.2).quantity := by
      intro x hx
      obtain ⟨e, he, rfl⟩ := List.mem_map.1 hx
      exact (hq.elems e he).2.2
    have hvol : ((levelElems q).map (fun x => (values x.2).quantity)).sum = q.volume := by
      rw [hq.volume, levelElems, List.map_map]
      rfl
    obtain ⟨k1, k2, k3, k4⟩ := fillQueue_value values q.price (levelElems q) d a hprice
    obtain ⟨m1, m2⟩ := fillQueue_level values (levelElems q) d a ha hpos
    rw [hvol] at m1 m2
    have hvq : ∀ q' ∈ qs, 0 < q'.volume := by
      intro q' hq'
      have hk := hqs q' hq'
      rw [hk.volume]
      cases ho : q'.orders with
      | nil => exact absurd ho hk.nonempty
      | cons e t =>
        rw [List.map_cons, List.sum_cons]
        have h1 := (hk.elems e (by rw [ho]; simp)).2.2
        have h2 : 0 ≤ (t.map (fun e => (values e).quantity)).sum :=
          List.sum_nonneg (fun z hz => by
            obtain ⟨y, hy, rfl⟩ := List.mem_map.1 hz
            exact le_of_lt (hk.elems y (by rw [ho]; simp [hy])).2.2)
        linarith
    rw [List.flatMap_cons, fillQueue_append]
    by_cases hge : q.volume ≤ a
    · obtain ⟨n1, n2⟩ := m1 hge
      have hmin : min a q.volume = q.volume := min_eq_right hge
      have hpq := k3 n1
      rw [hpq, n2, zero_mul, add_zero] at k1
      have hdone : sumValue (fillQueue values (levelElems q) d a).done =
          sumValue d + q.price * q.volume := by linear_combination k1
      conv_rhs => rw [specMarketPrice, hmin]
      by_cases hl0 : 0 < (fillQueue values (levelElems q) d a).quantityLeft
      · rw [if_pos hl0, ih _ _ (le_of_lt hl0) hqs, hdone, n2]
        ring
      · rw [if_neg hl0, n1, hdone]
        have ha' : a - q.volume = 0 := by
          rw [n2] at hl0
          linarith [not_lt.1 hl0]
        rw [ha', specMarketPrice_zero hvq]
        ring
    · have hlt : a < q.volume := not_le.1 hge
      have hmin : min a q.volume = a := min_eq_left (le_of_lt hlt)
      have hl0 := m2 hlt
      rw [if_neg (by rw [hl0]; exact lt_irrefl _)]
      rw [hl0, zero_mul, add_zero] at k1
      conv_rhs => rw [specMarketPrice, hmin, sub_self, specMarketPrice_zero hvq]
      cases hpo : (fillQueue values (levelElems q) d a).partialOrd with
      | none =>
        rw [k3 hpo, zero_mul, add_zero] at k1
        simp only
        linear_combination k1
      | some po =>
        simp only [k2 po hpo]
        linear_combination k1

/-! ### Decoding the snapshot of a book -/

theorem Order_roundtrip (o : Order) : Order.UnmarshalJSON o.MarshalJSON = some o := by
  cases o with
  | mk id side quantity price time =>
    cases side <;> rfl

theorem decodeOrders_spec :
    ∀ (os : List Order) (v : Nat → Order) (n : Nat),
      ∃ es v1, decodeOrders (os.map Order.MarshalJSON) v n = some (es, v1, n + os.length) ∧
        es.map v1 = os ∧ (∀ x, x < n → v1 x = v x) ∧ ∀ e ∈ es, e < n + os.length := by
  intro os
  induction os with
  | nil =>
    intro v n
    exact ⟨[], v, rfl, rfl, fun _ _ => rfl, fun _ he => absurd he (List.not_mem_nil _)⟩
  | cons o t ih =>
    intro v n
    obtain ⟨es, v1, h1, h2, h3, h4⟩ := ih (Function.update v n o) (n + 1)
    refine ⟨n :: es, v1, ?_, ?_, ?_, ?_⟩
    · simp only [List.map_cons, decodeOrders, Order_roundtrip, h1, List.length_cons]
      have : n + 1 + t.length = n + (t.length + 1) := by omega
      rw [this]
    · rw [List.map_cons, h2, h3 n (Nat.lt_succ_self n), Function.update_same]
    · intro x hx
      rw [h3 x (Nat.lt_succ_of_lt hx), Function.update_noteq (Nat.ne_of_lt hx)]
    · intro e he
      rcases List.mem_cons.1 he with rfl | he
      · simp only [List.length_cons]; omega
      · have := h4 e he
        simp only [List.length_cons]; omega

/-- The content of a level: its price, its volume and its orders in queue order. -/
theorem decodeLevels_spec (vals : Nat → Order) :
    ∀ (l : List OrderQueue) (v : Nat → Order) (n : Nat),
      ∃ qs v2 n2,
        decodeLevels (OrderSide.MarshalJSON { priceTree := l } vals) v n = some (qs, v2, n2) ∧
        qs.map (fun q => (q.price, q.volume, q.orders.map v2)) =
          l.map (fun q => (q.price, q.volume, q.orders.map vals)) ∧
        n ≤ n2 ∧ (∀ x, x < n → v2 x = v x) ∧ ∀ q ∈ qs, ∀ e ∈ q.orders, e < n2 := by
  intro l
  induction l with
  | nil =>
    intro v n
    exact ⟨[], v, n, rfl, rfl, le_refl _, fun _ _ => rfl,
      fun _ hq => absurd hq (List.not_mem_nil _)⟩
  | cons q t ih =>
    intro v n
    obtain ⟨es, v1, h1, h2, h3, h4⟩ := decodeOrders_spec (q.orders.map vals) v (n + 1)
    obtain ⟨qs, v2, n2, i1, i2, i3, i4, i5⟩ := ih v1 (n + 1 + (q.orders.map vals).length)
    have hes : es.map v2 = q.orders.map vals := by
      rw [← h2]
      apply List.map_congr_left
      intro e he
      exact i4 e (h4 e he)
    refine ⟨⟨n, q.volume, q.price, es⟩ :: qs, v2, n2, ?_, ?_, by omega, ?_, ?_⟩
    · have i1' : decodeLevels (t.map (fun q =>
          ({ price := q.price, volume := q.volume,
             orders := q.orders.map (fun e => (vals e).MarshalJSON) } : LevelSnapshot))) v1
          (n + 1 + (q.orders.map vals).length) = some (qs, v2, n2) := i1
      have h1' : decodeOrders (q.orders.map (fun e => (vals e).MarshalJSON)) v (n + 1) =
          some (es, v1, n + 1 + (q.orders.map vals).length) := by
        rw [← h1, List.map_map]
        rfl
      simp only [OrderSide.MarshalJSON, List.map_cons, decodeLevels, h1', i1']
    · rw [List.map_cons, List.map_cons, i2, hes]
    · intro x hx
      rw [i4 x (by omega), h3 x (by omega)]
    · intro q' hq' e he
      rcases List.mem_cons.1 hq' with rfl | hq'
      · have := h4 e he
        omega
      · exact i5 q' hq' e he

theorem indexOrders_spec (values : Nat → Order) (id : String) :
    ∀ (es : List Nat) (m : String → Option Nat),
      indexOrders values es m id =
        match es.reverse.find? (fun e => decide ((values e).id = id)) with
        | some e => some e
        | none => m id := by
  intro es
  induction es with
  | nil => intro m; rfl
  | cons e t ih =>
    intro m
    have hstep : indexOrders values (e :: t) m =
        indexOrders values t (Function.update m (values e).id (some e)) := rfl
    rw [hstep, ih, List.reverse_cons, List.find?_append]
    cases hf : t.reverse.find? (fun e => decide ((values e).id = id)) with
    | some e' => rfl
    | none =>
      simp only [Option.none_or, List.find?_cons, List.find?_nil]
      by_cases hid : (values e).id = id
      · simp only [hid, decide_True]
        rw [← hid, Function.update_same]
      · simp only [hid, decide_False]
        exact Function.update_noteq (fun hc => hid hc.symm) _ _

theorem indexOrders_append (values : Nat → Order) (es1 es2 : List Nat)
    (m : String → Option Nat) :
    indexOrders values es2 (indexOrders values es1 m) = indexOrders values (es1 ++ es2) m := by
  simp [indexOrders, List.foldl_append]

/-- The depth snapshot of a book whose levels are in strictly ascending price order. -/
theorem Depth_of_sorted {ob : OrderBook}
    (hs : ∀ s, (ob.side s).priceTree.Pairwise (fun a b => a.price < b.price)) (max : Int) :
    ob.Depth max = some
      { Bids := depthCap max (ob.bids.priceTree.reverse.map (fun q => (q.price, q.volume))),
        Asks := depthCap max (ob.asks.priceTree.map (fun q => (q.price, q.volume))) } := by
  have ha := depthLoop_cap ob.asks.priceTree (fun a b => decide (a < b)) (by simp)
    (by intro a b hab; simp only [decide_eq_true_eq, decide_eq_false_iff_not] at hab ⊢
        exact not_lt.2 (le_of_lt hab))
    (by simpa using hs SideRef.asks) max ob.asks.priceTree [] []
    (ob.asks.priceTree.length + 1) rfl (le_refl _) (fun k => by simpa using k)
  have hb := depthLoop_cap ob.bids.priceTree.reverse (fun a b => decide (b < a)) (by simp)
    (by intro a b hab; simp only [decide_eq_true_eq, decide_eq_false_iff_not] at hab ⊢
        exact not_lt.2 (le_of_lt hab))
    (by simpa [List.pairwise_reverse] using hs SideRef.bids) max
    ob.bids.priceTree.reverse [] [] (ob.bids.priceTree.length + 1) rfl (by simp)
    (fun k => by simpa using k)
  have hmax : ob.bids.MaxPriceQueue = ob.bids.priceTree.reverse.head? := by
    simp [OrderSide.MaxPriceQueue, List.head?_reverse]
  unfold OrderBook.Depth
  rw [hmax]
  simp only [List.nil_append, List.length_nil, Nat.sub_zero] at ha hb
  have hG : ob.asks.GreaterThan =
      fun p => ob.asks.priceTree.find? (fun x => decide (p < x.price)) := rfl
  have hLt : ob.bids.LessThan =
      fun p => ob.bids.priceTree.reverse.find? (fun x => decide (x.price < p)) := rfl
  have hmin : ob.asks.MinPriceQueue = ob.asks.priceTree.head? := rfl
  rw [hG, hLt, hmin, ha, hb]
  rfl

/-! ### The book decoded from a snapshot -/

theorem UnmarshalJSON_spec (ob ob0 : OrderBook) :
    ∃ ob2, ob0.UnmarshalJSON ob.MarshalJSON = some ob2 ∧
      (∀ s, (ob2.side s).priceTree.map (fun q => (q.price, q.volume, q.orders.map ob2.values)) =
        (ob.side s).priceTree.map (fun q => (q.price, q.volume, q.orders.map ob.values))) ∧
      ob2.orders =
        indexOrders ob2.values (ob2.asks.Orders ++ ob2.bids.Orders) (fun _ => none) := by
  obtain ⟨qa, v1, n1, a1, a2, -, -, a5⟩ :=
    decodeLevels_spec ob.values ob.asks.priceTree ob0.values ob0.next
  obtain ⟨qb, v2, n2, b1, b2, -, b4, -⟩ := decodeLevels_spec ob.values ob.bids.priceTree v1 n1
  have ha : qa.map (fun q => (q.price, q.volume, q.orders.map v2)) =
      ob.asks.priceTree.map (fun q => (q.price, q.volume, q.orders.map ob.values)) := by
    rw [← a2]
    apply List.map_congr_left
    intro q hq
    have : q.orders.map v2 = q.orders.map v1 :=
      List.map_congr_left (fun e he => b4 e (a5 q hq e he))
    rw [this]
  refine ⟨{ orders := indexOrders v2 (OrderSide.Orders { priceTree := qb })
              (indexOrders v2 (OrderSide.Orders { priceTree := qa }) (fun _ => none)),
            asks := { priceTree := qa }, bids := { priceTree := qb }, values := v2,
            next := n2 }, ?_, ?_, ?_⟩
  · have a1' : decodeLevels ob.MarshalJSON.asks ob0.values ob0.next = some (qa, v1, n1) := a1
    have b1' : decodeLevels ob.MarshalJSON.bids v1 n1 = some (qb, v2, n2) := b1
    simp only [OrderBook.UnmarshalJSON, a1', b1']
  · intro s
    cases s
    · exact ha
    · exact b2
  · exact indexOrders_append v2 _ _ _

theorem resting_of_content {ob ob2 : OrderBook} {s : SideRef}
    (h : (ob2.side s).priceTree.map (fun q => (q.price, q.volume, q.orders.map ob2.values)) =
      (ob.side s).priceTree.map (fun q => (q.price, q.volume, q.orders.map ob.values))) :
    ob2.resting s = ob.resting s := by
  have key : ∀ (o : OrderBook),
      o.resting s = ((o.view s).map
        (fun q => (q.price, q.volume, q.orders.map o.values))).flatMap (fun t => t.2.2) := by
    intro o
    simp only [OrderBook.resting, List.flatMap_def, List.map_map]
    rfl
  rw [key ob, key ob2]
  cases s
  · exact congrArg
      (fun l => List.flatMap l (fun t : Decimal × Decimal × List Order => t.2.2)) h
  · simp only [OrderBook.view, List.map_reverse]
    exact congrArg
      (fun l => List.flatMap (List.reverse l)
        (fun t : Decimal × Decimal × List Order => t.2.2)) h

theorem sorted_of_content {ob ob2 : OrderBook} {s : SideRef}
    (h : (ob2.side s).priceTree.map (fun q => (q.price, q.volume, q.orders.map ob2.values)) =
      (ob.side s).priceTree.map (fun q => (q.price, q.volume, q.orders.map ob.values)))
    (hs : (ob.side s).priceTree.Pairwise (fun a b => a.price < b.price)) :
    (ob2.side s).priceTree.Pairwise (fun a b => a.price < b.price) := by
  have h1 := congrArg (List.map (fun t : Decimal × Decimal × List Order => t.1)) h
  simp only [List.map_map] at h1
  have h2 : ((ob.side s).priceTree.map (fun q => q.price)).Pairwise (fun a b => a < b) :=
    List.pairwise_map.2 hs
  have h3 : ((ob2.side s).priceTree.map (fun q => q.price)).Pairwise (fun a b => a < b) := by
    have : (ob2.side s).priceTree.map (fun q => q.price) =
        (ob.side s).priceTree.map (fun q => q.price) := h1
    rw [this]; exact h2
  exact List.pairwise_map.1 h3

theorem pv_of_content {ob ob2 : OrderBook} {s : SideRef}
    (h : (ob2.side s).priceTree.map (fun q => (q.price, q.volume, q.orders.map ob2.values)) =
      (ob.side s).priceTree.map (fun q => (q.price, q.volume, q.orders.map ob.values))) :
    (ob2.side s).priceTree.map (fun q => (q.price, q.volume)) =
      (ob.side s).priceTree.map (fun q => (q.price, q.volume)) := by
  have h1 := congrArg (List.map (fun t : Decimal × Decimal × List Order => (t.1, t.2.1))) h
  simp only [List.map_map] at h1
  exact h1

theorem mem_refs_or {ob : OrderBook} {e : Nat} :
    e ∈ ob.asks.Orders ++ ob.bids.Orders ↔ ∃ s, e ∈ (ob.side s).refs := by
  rw [List.mem_append]
  constructor
  · rintro (k | k)
    · exact ⟨SideRef.asks, k⟩
    · exact ⟨SideRef.bids, k⟩
  · rintro ⟨s, k⟩
    cases s
    · exact Or.inl k
    · exact Or.inr k

/-- A book with the content of a well-formed book and an index rebuilt from its sides resolves
every id as that book does. -/
theorem Order_of_content {ob ob2 : OrderBook} (h : WF ob)
    (hc : ∀ s, ob2.resting s = ob.resting s)
    (hi : ob2.orders =
      indexOrders ob2.values (ob2.asks.Orders ++ ob2.bids.Orders) (fun _ => none))
    (id : String) : ob2.Order id = ob.Order id := by
  have hspec := indexOrders_spec ob2.values id (ob2.asks.Orders ++ ob2.bids.Orders)
    (fun _ => none)
  rw [← hi] at hspec
  cases hf : (ob2.asks.Orders ++ ob2.bids.Orders).reverse.find?
      (fun e => decide ((ob2.values e).id = id)) with
  | some e =>
    rw [hf] at hspec
    have hmem := List.mem_of_find?_eq_some hf
    have hid := List.find?_some hf
    simp only [decide_eq_true_eq] at hid
    obtain ⟨s, hs⟩ := mem_refs_or.1 (List.mem_reverse.1 hmem)
    have hr : ob2.values e ∈ ob.resting s := by
      rw [← hc s]; exact mem_resting.2 ⟨e, hs, rfl⟩
    have := h.Order_resting hr
    rw [hid] at this
    rw [this]
    simp only [OrderBook.Order, hspec]
  | none =>
    rw [hf] at hspec
    have h2 : ob2.Order id = none := Order_none_iff.2 hspec
    rw [h2]
    symm
    by_contra hne
    obtain ⟨o, ho⟩ := Option.ne_none_iff_exists'.1 hne
    obtain ⟨s, hr, hoid⟩ := (Order_some_iff h).1 ho
    rw [← hc s] at hr
    obtain ⟨e, he, hv⟩ := mem_resting.1 hr
    have hmem : e ∈ (ob2.asks.Orders ++ ob2.bids.Orders).reverse :=
      List.mem_reverse.2 (mem_refs_or.2 ⟨s, he⟩)
    have := List.find?_eq_none.1 hf e hmem
    simp only [decide_eq_true_eq] at this
    exact this (by rw [hv]; exact hoid)

/-! ### The queue of a level -/

theorem queueAt_congr (os : OrderSide) {v v2 : Nat → Order} (p : Decimal)
    (h : ∀ q ∈ os.priceTree, ∀ x ∈ q.orders, v2 x = v x) :
    os.queueAt v2 p = os.queueAt v p := by
  unfold OrderSide.queueAt
  cases hf : os.priceTree.find? (fun q => decide (q.price = p)) with
  | none => rfl
  | some q =>
    exact List.map_congr_left (fun x hx => h q (List.mem_of_find?_eq_some hf) x hx)

theorem queueAt_cons_pos (q : OrderQueue) (qs : List OrderQueue) (v : Nat → Order)
    {p : Decimal} (h : q.price = p) :
    (OrderSide.mk (q :: qs)).queueAt v p = q.orders.map v := by
  simp [OrderSide.queueAt, h]

theorem queueAt_cons_neg (q : OrderQueue) (qs : List OrderQueue) (v : Nat → Order)
    {p : Decimal} (h : ¬ q.price = p) :
    (OrderSide.mk (q :: qs)).queueAt v p = (OrderSide.mk qs).queueAt v p := by
  simp [OrderSide.queueAt, h]

theorem queueAt_none (T : List OrderQueue) (v : Nat → Order) {p : Decimal}
    (h : ∀ q ∈ T, ¬ q.price = p) : (OrderSide.mk T).queueAt v p = [] := by
  have hnone : T.find? (fun x => decide (x.price = p)) = none := by
    rw [List.find?_eq_none]
    intro x hx
    simp only [decide_eq_true_eq]
    exact h x hx
  simp only [OrderSide.queueAt, hnone]

theorem queueAt_appendLevel (qref e : Nat) (o : Order) (p : Decimal) (v v2 : Nat → Order)
    (he : v2 e = o) :
    ∀ (T : List OrderQueue), T.Pairwise (fun a b => a.price < b.price) →
      (∀ q ∈ T, ∀ x ∈ q.orders, v2 x = v x) →
      (OrderSide.mk (appendLevel qref e o T)).queueAt v2 p =
        (OrderSide.mk T).queueAt v p ++ (if o.price = p then [o] else []) := by
  intro T
  induction T with
  | nil =>
    intro _ _
    have hA : appendLevel qref e o [] = [(NewOrderQueue qref o.price).Append e o] := rfl
    rw [hA, queueAt_none [] v (fun q hq => absurd hq (List.not_mem_nil _)), List.nil_append]
    by_cases hp : o.price = p
    · rw [queueAt_cons_pos _ _ _ (show ((NewOrderQueue qref o.price).Append e o).price = p
        from hp), if_pos hp]
      simp [NewOrderQueue, OrderQueue.Append, he]
    · rw [queueAt_cons_neg _ _ _ (show ¬ ((NewOrderQueue qref o.price).Append e o).price = p
        from hp), if_neg hp]
      exact queueAt_none [] v2 (fun q hq => absurd hq (List.not_mem_nil _))
  | cons q qs ih =>
    intro hs hv
    obtain ⟨h1, h2⟩ := List.pairwise_cons.1 hs
    have hvq : q.orders.map v2 = q.orders.map v :=
      List.map_congr_left (hv q (by simp))
    have hvqs : ∀ q' ∈ qs, ∀ x ∈ q'.orders, v2 x = v x := fun q' hq' => hv q' (by simp [hq'])
    have hcongr := queueAt_congr (OrderSide.mk qs) p hvqs
    by_cases c1 : q.price = o.price
    · have hA : appendLevel qref e o (q :: qs) = q.Append e o :: qs := by
        simp [appendLevel, c1]
      rw [hA]
      by_cases hp : o.price = p
      · have hqp : q.price = p := c1.trans hp
        rw [queueAt_cons_pos _ _ _ (show (q.Append e o).price = p from hqp),
          queueAt_cons_pos _ _ _ hqp, if_pos hp]
        simp [OrderQueue.Append, he, hvq]
      · have hqp : ¬ q.price = p := fun k => hp (c1.symm.trans k)
        rw [queueAt_cons_neg _ _ _ (show ¬ (q.Append e o).price = p from hqp),
          queueAt_cons_neg _ _ _ hqp, if_neg hp, List.append_nil]
        exact hcongr
    · by_cases c2 : o.price < q.price
      · have hA : appendLevel qref e o (q :: qs) =
            (NewOrderQueue qref o.price).Append e o :: q :: qs := by
          simp [appendLevel, c1, c2]
        rw [hA]
        by_cases hp : o.price = p
        · have hT : ∀ x ∈ q :: qs, ¬ x.price = p := by
            intro x hx hc
            rw [← hp] at hc
            rcases List.mem_cons.1 hx with rfl | hx
            · exact c1 hc
            · exact absurd (lt_trans c2 (h1 x hx)) (by rw [hc]; exact lt_irrefl _)
          rw [queueAt_cons_pos _ _ _ (show ((NewOrderQueue qref o.price).Append e o).price = p
            from hp), queueAt_none _ v hT, if_pos hp]
          simp [NewOrderQueue, OrderQueue.Append, he]
        · rw [queueAt_cons_neg _ _ _
            (show ¬ ((NewOrderQueue qref o.price).Append e o).price = p from hp), if_neg hp,
            List.append_nil]
          exact queueAt_congr (OrderSide.mk (q :: qs)) p hv
      · have hA : appendLevel qref e o (q :: qs) = q :: appendLevel qref e o qs := by
          simp [appendLevel, c1, c2]
        rw [hA]
        by_cases hqp : q.price = p
        · have hop : ¬ o.price = p := by
            intro k
            exact c1 (hqp.trans k.symm)
          rw [queueAt_cons_pos _ _ _ hqp, queueAt_cons_pos _ _ _ hqp, if_neg hop,
            List.append_nil, hvq]
        · rw [queueAt_cons_neg _ _ _ hqp, queueAt_cons_neg _ _ _ hqp]
          exact ih h2 hvqs

theorem Append_queueAt {ob : OrderBook} (h : WF ob) (s : SideRef) (o : Order) (p : Decimal) :
    (ob.Append s o).queueAt s p = ob.queueAt s p ++ (if o.price = p then [o] else []) ∧
      ∀ s', s' ≠ s → (ob.Append s o).queueAt s' p = ob.queueAt s' p := by
  have hval : (ob.Append s o).values = Function.update ob.values ob.next o :=
    Append_values ob s o
  have hold : ∀ s', ∀ q ∈ (ob.side s').priceTree, ∀ x ∈ q.orders,
      (ob.Append s o).values x = ob.values x := by
    intro s' q hq x hx
    have hlt := h.refs_lt s' x (mem_refs.2 ⟨q, hq, hx⟩)
    rw [hval, Function.update_noteq (Nat.ne_of_lt hlt)]
  constructor
  · have e1 : (ob.Append s o).side s =
        OrderSide.mk (appendLevel ob.next ob.next o (ob.side s).priceTree) :=
      side_eq_mk (Append_side_same ob s o)
    unfold OrderBook.queueAt
    rw [e1]
    exact queueAt_appendLevel _ _ _ _ _ _ (by rw [hval, Function.update_same]) _
      (h.sorted s) (hold s)
  · intro s' hs'
    unfold OrderBook.queueAt
    rw [Append_side_ne ob o hs']
    exact queueAt_congr _ p (hold s')

/-! ### The queue of a level as a part of the resting orders -/

theorem filter_levels (v : Nat → Order) (p : Decimal) :
    ∀ (L : List OrderQueue), L.Pairwise (fun a b => a.price ≠ b.price) →
      (∀ q ∈ L, ∀ e ∈ q.orders, (v e).price = q.price) →
      (L.flatMap (fun q => q.orders.map v)).filter (fun o => decide (o.price = p)) =
        (L.filter (fun q => decide (q.price = p))).flatMap (fun q => q.orders.map v) := by
  intro L
  induction L with
  | nil => intro _ _; rfl
  | cons q t ih =>
    intro hs hl
    obtain ⟨h1, h2⟩ := List.pairwise_cons.1 hs
    have hq : ∀ e ∈ q.orders, (v e).price = q.price := hl q (by simp)
    rw [List.flatMap_cons, List.filter_append, ih h2 (fun q' hq' => hl q' (by simp [hq']))]
    by_cases hp : q.price = p
    · have hall : (q.orders.map v).filter (fun o => decide (o.price = p)) = q.orders.map v := by
        rw [List.filter_eq_self]
        intro o ho
        obtain ⟨e, he, rfl⟩ := List.mem_map.1 ho
        simp only [decide_eq_true_eq]
        exact (hq e he).trans hp
      rw [hall, List.filter_cons_of_pos (by simpa using hp), List.flatMap_cons]
    · have hnone : (q.orders.map v).filter (fun o => decide (o.price = p)) = [] := by
        rw [List.filter_eq_nil_iff]
        intro o ho
        obtain ⟨e, he, rfl⟩ := List.mem_map.1 ho
        simp only [decide_eq_true_eq]
        rw [hq e he]
        exact hp
      rw [hnone, List.filter_cons_of_neg (by simpa using hp), List.nil_append]

theorem filter_unique (p : Decimal) :
    ∀ (L : List OrderQueue), L.Pairwise (fun a b => a.price ≠ b.price) →
      L.filter (fun q => decide (q.price = p)) =
        (L.find? (fun q => decide (q.price = p))).toList := by
  intro L
  induction L with
  | nil => intro _; rfl
  | cons q t ih =>
    intro hs
    obtain ⟨h1, h2⟩ := List.pairwise_cons.1 hs
    by_cases hp : q.price = p
    · have hnone : t.filter (fun q => decide (q.price = p)) = [] := by
        rw [List.filter_eq_nil_iff]
        intro x hx
        simp only [decide_eq_true_eq]
        intro hc
        exact h1 x hx (hp.trans hc.symm)
      rw [List.filter_cons_of_pos (by simpa using hp), hnone,
        List.find?_cons_of_pos _ (by simpa using hp)]
      rfl
    · rw [List.filter_cons_of_neg (by simpa using hp),
        List.find?_cons_of_neg _ (by simpa using hp)]
      exact ih h2

theorem WF.queueAt_eq {ob : OrderBook} (h : WF ob) (s : SideRef) (p : Decimal) :
    ob.queueAt s p = (ob.resting s).filter (fun o => decide (o.price = p)) := by
  have hne : (ob.side s).priceTree.Pairwise (fun a b => a.price ≠ b.price) :=
    (h.sorted s).imp (fun hab => ne_of_lt hab)
  have hne' : (ob.view s).Pairwise (fun a b => a.price ≠ b.price) := by
    cases s
    · exact hne
    · exact List.pairwise_reverse.2 (hne.imp (fun hab => fun hc => hab hc.symm))
  have hl : ∀ q ∈ ob.view s, ∀ e ∈ q.orders, (ob.values e).price = q.price :=
    fun q hq e he => (h.mem_level (mem_view.1 hq) he).1
  have hfilter : (ob.view s).filter (fun q => decide (q.price = p)) =
      ((ob.side s).priceTree.find? (fun q => decide (q.price = p))).toList := by
    rw [← filter_unique p _ hne]
    cases s
    · rfl
    · have hb : ob.view SideRef.bids = (ob.side SideRef.bids).priceTree.reverse := rfl
      rw [hb, List.filter_reverse, filter_unique p _ hne]
      cases (ob.side SideRef.bids).priceTree.find? (fun q => decide (q.price = p)) <;> rfl
  unfold OrderBook.resting
  rw [filter_levels ob.values p _ hne' hl, hfilter]
  unfold OrderBook.queueAt OrderSide.queueAt
  cases (ob.side s).priceTree.find? (fun q => decide (q.price = p)) with
  | none => rfl
  | some q => simp

theorem appendAll_queueAt (s : SideRef) (p : Decimal) :
    ∀ (ds : List Order) (cur : OrderBook), WF cur →
      (∀ o ∈ ds, cur.orders o.id = none ∧ o.side = sideOf s ∧ 0 < o.quantity ∧ 0 < o.price) →
      (ds.map (fun o => o.id)).Nodup →
      (cur.appendAll s ds).queueAt s p =
          cur.queueAt s p ++ ds.filter (fun o => decide (o.price = p)) ∧
        ∀ s', s' ≠ s → (cur.appendAll s ds).queueAt s' p = cur.queueAt s' p := by
  intro ds
  induction ds with
  | nil =>
    intro cur _ _ _
    exact ⟨by simp [OrderBook.appendAll], fun _ _ => rfl⟩
  | cons o t ih =>
    intro cur h hpre hnd
    obtain ⟨h1, h2, h3, h4⟩ := hpre o (by simp)
    have hw := WF_append h h1 h2 h3 h4
    rw [List.map_cons, List.nodup_cons] at hnd
    obtain ⟨hnot, hndt⟩ := hnd
    obtain ⟨r1, r2⟩ := Append_queueAt h s o p
    have hpre' : ∀ o' ∈ t, (cur.Append s o).orders o'.id = none ∧ o'.side = sideOf s ∧
        0 < o'.quantity ∧ 0 < o'.price := by
      intro o' ho'
      obtain ⟨k1, k2, k3, k4⟩ := hpre o' (by simp [ho'])
      refine ⟨?_, k2, k3, k4⟩
      rw [Append_orders]
      have hne : o'.id ≠ o.id := fun hc => hnot (List.mem_map.2 ⟨o', ho', hc⟩)
      rw [Function.update_noteq hne]
      exact k1
    obtain ⟨i1, i2⟩ := ih (cur.Append s o) hw hpre' hndt
    constructor
    · show ((cur.Append s o).appendAll s t).queueAt s p = _
      rw [i1, r1, List.append_assoc]
      congr 1
      by_cases hp : o.price = p
      · rw [if_pos hp, List.filter_cons_of_pos (by simpa using hp)]
        rfl
      · rw [if_neg hp, List.filter_cons_of_neg (by simpa using hp)]
        rfl
    · intro s' hs'
      show ((cur.Append s o).appendAll s t).queueAt s' p = _
      rw [i2 s' hs', r2 s' hs']

/-- Running the rollback of a fill puts the consumed orders of each level behind the orders
that the fill left in it. -/
theorem Filled.queue_rollback {ob ob1 : OrderBook} {s : SideRef} {esD esR : List (Nat × Nat)}
    {rp : Option RollbackPartial} {po : Option Order} {pq : Decimal} (h : WF ob)
    (hf : Filled ob s esD esR rp po pq ob1) (p : Decimal) :
    ob.queueAt s p =
        (esD.map (fun x => ob.values x.2)).filter (fun o => decide (o.price = p)) ++
          (esR.map (fun x => ob.values x.2)).filter (fun o => decide (o.price = p)) ∧
      ((runPartial rp ob1).appendAll s (esD.map (fun x => ob.values x.2))).queueAt s p =
        (esR.map (fun x => ob.values x.2)).filter (fun o => decide (o.price = p)) ++
          (esD.map (fun x => ob.values x.2)).filter (fun o => decide (o.price = p)) ∧
      ∀ s', s' ≠ s →
        ((runPartial rp ob1).appendAll s (esD.map (fun x => ob.values x.2))).queueAt s' p =
          ob.queueAt s' p := by
  obtain ⟨w1, e1, o1, i1, v1⟩ := hf.undo_partial h
  have hsub : ∀ x ∈ esD, x ∈ ob.elems s := fun x hx => by rw [hf.split]; simp [hx]
  have hsubR : ∀ x ∈ esR, x ∈ ob.elems s := fun x hx => by rw [hf.split]; simp [hx]
  have hpre : ∀ o ∈ esD.map (fun x => ob.values x.2),
      (runPartial rp ob1).orders o.id = none ∧ o.side = sideOf s ∧ 0 < o.quantity ∧
        0 < o.price := by
    intro o ho
    obtain ⟨x, hx, rfl⟩ := List.mem_map.1 ho
    obtain ⟨k1, k2, k3, -⟩ := h.elem_ok (hsub x hx)
    refine ⟨?_, k1, k2, k3⟩
    rw [i1, hf.orders, if_pos (List.mem_map.2 ⟨x, hx, rfl⟩)]
  have hnd : ((esD.map (fun x => ob.values x.2)).map (fun o => o.id)).Nodup := by
    have := h.ids_nodup s
    rw [hf.split, List.map_append] at this
    have := (List.nodup_append.1 this).1
    simpa [List.map_map, Function.comp_def] using this
  obtain ⟨a1, a2⟩ := appendAll_queueAt s p _ _ w1 hpre hnd
  have hcur : (runPartial rp ob1).queueAt s p =
      (esR.map (fun x => ob.values x.2)).filter (fun o => decide (o.price = p)) := by
    rw [w1.queueAt_eq, resting_eq_elems, e1]
    congr 1
    apply List.map_congr_left
    intro x hx
    exact v1 x.2 (h.elem_ok (hsubR x hx)).2.2.2
  refine ⟨?_, ?_, ?_⟩
  · rw [h.queueAt_eq, resting_eq_elems, hf.split, List.map_append, List.filter_append]
  · rw [a1, hcur]
  · intro s' hs'
    rw [a2 s' hs']
    unfold OrderBook.queueAt
    rw [o1 s' hs']
    apply queueAt_congr
    intro q hq x hx
    exact v1 x (h.refs_lt s' x (mem_refs.2 ⟨q, hq, hx⟩))

/-! ### The queues after a rollback that is run right after its operation -/

theorem sideOf_opposite_ne (side : Side) : sideOf (oppositeOf side) ≠ side := by
  cases side <;> simp [sideOf, oppositeOf]

theorem consumedAt_counter {D : List Order} {side : Side} (p : Decimal)
    (h : ∀ o ∈ D, o.side ≠ side) :
    consumedAt D side p = D.filter (fun o => decide (o.price = p)) := by
  unfold consumedAt
  apply List.filter_congr
  intro o ho
  simp [h o ho]

theorem consumedAt_summary (D : List Order) (o : Order) (p : Decimal) :
    consumedAt (D ++ [o]) o.side p = consumedAt D o.side p := by
  simp [consumedAt]

theorem Filled.queues {ob ob1 : OrderBook} {side : Side} {esD esR : List (Nat × Nat)}
    {rp : Option RollbackPartial} {po : Option Order} {pq : Decimal} {done : List Order}
    (h : WF ob) (hf : Filled ob (oppositeOf side) esD esR rp po pq ob1)
    (hd : done = esD.map (fun x => ob.values x.2)) (p : Decimal) :
    ∃ R, ob.queueAt (oppositeOf side) p = consumedAt done side p ++ R ∧
      ((runPartial rp ob1).appendAll (oppositeOf side) done).queueAt (oppositeOf side) p =
        R ++ consumedAt done side p ∧
      ((runPartial rp ob1).appendAll (oppositeOf side) done).queueAt (halfOf side) p =
        ob.queueAt (halfOf side) p := by
  subst hd
  obtain ⟨q1, q2, q3⟩ := hf.queue_rollback h p
  have hc : consumedAt (esD.map (fun x => ob.values x.2)) side p =
      (esD.map (fun x => ob.values x.2)).filter (fun o => decide (o.price = p)) := by
    apply consumedAt_counter
    intro o ho
    obtain ⟨x, hx, rfl⟩ := List.mem_map.1 ho
    have hmem : x ∈ ob.elems (oppositeOf side) := by rw [hf.split]; simp [hx]
    rw [(h.elem_ok hmem).1]
    exact sideOf_opposite_ne side
  exact ⟨_, by rw [hc]; exact q1, by rw [hc]; exact q2, q3 _ (oppositeOf_ne side)⟩

theorem rollback_queue_market {ob ob1 : OrderBook} (h : WF ob) {side : Side}
    {quantity : Decimal} {r : MarketResult} {rb : Rollback}
    (hr : ob.ProcessMarketQuantityOrder side quantity = some (r, ob1)) (herr : r.err = none)
    (hrb : r.rollback = some rb) (p : Decimal) :
    ∃ R, ob.queueAt (oppositeOf side) p = consumedAt r.done side p ++ R ∧
      (rb.run ob1).queueAt (oppositeOf side) p = R ++ consumedAt r.done side p ∧
      (rb.run ob1).queueAt (halfOf side) p = ob.queueAt (halfOf side) p := by
  have hq := ProcessMarketQuantityOrder_ok hr herr
  have heq := ProcessMarketQuantityOrder_eq h side hq
  rw [hr] at heq
  obtain ⟨rfl, rfl⟩ := Prod.mk.inj (Option.some.inj heq)
  obtain ⟨esD, esR, hF, hd⟩ := fill_Filled h (oppositeOf side) (ob.elems (oppositeOf side)) []
    (List.append_nil _).symm quantity
  simp only at hrb
  split_ifs at hrb
  rw [← Option.some.inj hrb]
  exact hF.queues h hd p

theorem rollback_queue_notional {ob ob1 : OrderBook} (h : WF ob) {price : Decimal}
    {places : Int} {r : MarketResult} {rb : Rollback}
    (hr : ob.ProcessMarketPriceBuy price places = some (r, ob1)) (herr : r.err = none)
    (hrb : r.rollback = some rb) (p : Decimal) :
    ∃ R, ob.queueAt SideRef.asks p = consumedAt r.done Side.Buy p ++ R ∧
      (rb.run ob1).queueAt SideRef.asks p = R ++ consumedAt r.done Side.Buy p ∧
      (rb.run ob1).queueAt SideRef.bids p = ob.queueAt SideRef.bids p := by
  have hq := ProcessMarketPriceBuy_ok hr herr
  have heq := ProcessMarketPriceBuy_eq h places hq
  rw [hr] at heq
  obtain ⟨rfl, rfl⟩ := Prod.mk.inj (Option.some.inj heq)
  obtain ⟨esD, esR, hF, hd⟩ := notional_Filled places (ob.view SideRef.asks) ob
    ⟨[], none, 0, price, none⟩ h rfl rfl rfl rfl
  simp only at hrb
  split_ifs at hrb
  rw [← Option.some.inj hrb]
  have hF' : Filled ob (oppositeOf Side.Buy) esD esR _ _ _ _ := hF
  exact hF'.queues h (by simpa using hd) p

theorem rollback_queue_limit {ob ob1 : OrderBook} (h : WF ob) {side : Side} {orderID : String}
    {quantity price : Decimal} {now : Nat} {r : LimitResult} {rb : Rollback}
    (hne : 0 < orderID.length)
    (hr : ob.ProcessLimitOrder side orderID quantity price now = some (r, ob1))
    (herr : r.err = none) (hrb : r.rollback = some rb) (p : Decimal) :
    ∃ R, ob.queueAt (oppositeOf side) p = consumedAt r.done side p ++ R ∧
      (rb.run ob1).queueAt (oppositeOf side) p = R ++ consumedAt r.done side p ∧
      (rb.run ob1).queueAt (halfOf side) p = ob.queueAt (halfOf side) p := by
  obtain ⟨hid, hq, hp⟩ := ProcessLimitOrder_ok hr herr
  have heq := ProcessLimitOrder_eq h side now hid hq hp
  have hsplit := crossElems_split ob (oppositeOf side) side price
  obtain ⟨esD, esR, hF, hd⟩ := fill_Filled h (oppositeOf side) _ _ hsplit quantity
  have hidfb := fillBook_orders_none h (oppositeOf side) _ _ hsplit quantity hid
  rw [hr] at heq
  by_cases hl : 0 < (fillQueue ob.values (ob.crossElems (oppositeOf side) side price) []
      quantity).quantityLeft
  · rw [if_pos hl] at heq
    obtain ⟨rfl, rfl⟩ := Prod.mk.inj (Option.some.inj heq)
    simp only [limitRollback, hne, true_or, if_true] at hrb
    rw [← Option.some.inj hrb]
    simp only [Rollback.run, hne, if_true]
    have hwa := WF_append hF.wf (s := halfOf side)
      (o := NewOrder orderID side (fillQueue ob.values
        (ob.crossElems (oppositeOf side) side price) [] quantity).quantityLeft price now)
      hidfb (by simp [NewOrder]) hl hp
    obtain ⟨c1, c2, c3, c4⟩ := cancel_Append hF.wf
      (NewOrder orderID side (fillQueue ob.values
        (ob.crossElems (oppositeOf side) side price) [] quantity).quantityLeft price now) hidfb
    have hF' := Filled.transport h hF (cancelOrder_WF hwa orderID) c1 c2
      (le_trans (Nat.le_succ _) (le_of_eq c3.symm)) c4
    exact hF'.queues h hd p
  · rw [if_neg hl] at heq
    obtain ⟨hreq, hob1⟩ := Prod.mk.inj (Option.some.inj heq)
    have hdone : ∃ avg, r.done = (fillQueue ob.values
        (ob.crossElems (oppositeOf side) side price) [] quantity).done ++
          [NewOrder orderID side quantity avg now] := ⟨_, by rw [hreq]⟩
    have hroll : r.rollback = limitRollback ""
        (fillQueue ob.values (ob.crossElems (oppositeOf side) side price) []
          quantity).rollbackPartial
        (fillQueue ob.values (ob.crossElems (oppositeOf side) side price) [] quantity).done
        (oppositeOf side) := by rw [hreq]
    obtain ⟨avg, hdone⟩ := hdone
    rw [hroll] at hrb
    simp only [limitRollback] at hrb
    split_ifs at hrb
    rw [← Option.some.inj hrb, hob1, hdone]
    have h0 : ¬ 0 < "".length := by decide
    simp only [Rollback.run, h0, if_false]
    obtain ⟨R, k1, k2, k3⟩ := hF.queues h hd p
    have hs : consumedAt ((fillQueue ob.values
        (ob.crossElems (oppositeOf side) side price) [] quantity).done ++
          [NewOrder orderID side quantity avg now]) side p =
        consumedAt (fillQueue ob.values
          (ob.crossElems (oppositeOf side) side price) [] quantity).done side p :=
      consumedAt_summary _ (NewOrder orderID side quantity avg now) p
    rw [hs]
    exact ⟨R, k1, k2, k3⟩

/-! ### The queues after the rollback of a cancellation -/

theorem queueAt_split (v : Nat → Order) (p : Decimal) (q : OrderQueue) (l2 : List OrderQueue) :
    ∀ (l1 : List OrderQueue), (l1 ++ q :: l2).Pairwise (fun a b => a.price ≠ b.price) →
      (OrderSide.mk (l1 ++ q :: l2)).queueAt v p =
        if q.price = p then q.orders.map v else (OrderSide.mk (l1 ++ l2)).queueAt v p := by
  intro l1
  induction l1 with
  | nil =>
    intro _
    by_cases hp : q.price = p
    · rw [if_pos hp]; exact queueAt_cons_pos _ _ _ hp
    · rw [if_neg hp]; exact queueAt_cons_neg _ _ _ hp
  | cons a t ih =>
    intro hs
    obtain ⟨h1, h2⟩ := List.pairwise_cons.1 hs
    by_cases ha : a.price = p
    · have hq : ¬ q.price = p := fun k => h1 q (by simp) (ha.trans k.symm)
      rw [if_neg hq]
      exact (queueAt_cons_pos a (t ++ q :: l2) v ha).trans
        (queueAt_cons_pos a (t ++ l2) v ha).symm
    · exact (queueAt_cons_neg a (t ++ q :: l2) v ha).trans
        ((ih h2).trans (by
          by_cases hq : q.price = p
          · rw [if_pos hq, if_pos hq]
          · rw [if_neg hq, if_neg hq]
            exact (queueAt_cons_neg a (t ++ l2) v ha).symm))

theorem queueAt_drop (v : Nat → Order) {p : Decimal} (q : OrderQueue)
    (l1 l2 : List OrderQueue)
    (hs : (l1 ++ q :: l2).Pairwise (fun a b => a.price ≠ b.price)) (hq : q.price = p) :
    (OrderSide.mk (l1 ++ l2)).queueAt v p = [] := by
  apply queueAt_none
  intro x hx hc
  obtain ⟨-, h2, h3⟩ := List.pairwise_append.1 hs
  rcases List.mem_append.1 hx with k | k
  · exact h3 x k q (by simp) (hc.trans hq.symm)
  · exact (List.pairwise_cons.1 h2).1 x k (hq.trans hc.symm)

/-- The rollback of a cancellation, run right away, puts the cancelled order at the tail of
its level and leaves every other queue as it was. -/
theorem rollback_queue_cancel {ob : OrderBook} (h : WF ob) {orderID : String} {rb : Rollback}
    (hrb : (ob.CancelOrder orderID).1.2 = some rb) :
    ∃ o A B, (ob.CancelOrder orderID).1.1 = some o ∧
      ob.queueAt (halfOf o.side) o.price = A ++ o :: B ∧
      (rb.run (ob.CancelOrder orderID).2).queueAt (halfOf o.side) o.price = A ++ B ++ [o] ∧
      ∀ s p, (s ≠ halfOf o.side ∨ p ≠ o.price) →
        (rb.run (ob.CancelOrder orderID).2).queueAt s p = ob.queueAt s p := by
  cases he : ob.orders orderID with
  | none =>
    rw [CancelOrder_absent he] at hrb
    exact Option.noConfusion hrb
  | some e =>
    obtain ⟨l1, q, l2, c1, c2, c3, c4, c5, c6, c7, c8, -⟩ := CancelOrder_present h he
    have hrun : rb.run (ob.CancelOrder orderID).2 =
        (ob.CancelOrder orderID).2.Append (halfOf (ob.values e).side) (ob.values e) := by
      rw [c1] at hrb
      rw [← Option.some.inj hrb]
      cases hsd : (ob.values e).side <;> simp [Rollback.run, hsd, halfOf]
    have hw1 : WF (ob.CancelOrder orderID).2 := CancelOrder_WF h orderID
    have hsorted := h.sorted (halfOf (ob.values e).side)
    rw [c3] at hsorted
    have hne : (l1 ++ q :: l2).Pairwise (fun a b => a.price ≠ b.price) :=
      hsorted.imp (fun hab => ne_of_lt hab)
    have hq : q ∈ (ob.side (halfOf (ob.values e).side)).priceTree := by rw [c3]; simp
    obtain ⟨a, b, hna, hab, her⟩ := List.exists_erase_eq c4
    have hbefore : ∀ p, ob.queueAt (halfOf (ob.values e).side) p =
        if q.price = p then q.orders.map ob.values
        else (OrderSide.mk (l1 ++ l2)).queueAt ob.values p := by
      intro p
      unfold OrderBook.queueAt
      rw [side_eq_mk c3]
      exact queueAt_split ob.values p q l2 l1 hne
    have hafter : ∀ p, (ob.CancelOrder orderID).2.queueAt (halfOf (ob.values e).side) p =
        if q.price = p then (q.orders.erase e).map ob.values
        else (OrderSide.mk (l1 ++ l2)).queueAt ob.values p := by
      intro p
      unfold OrderBook.queueAt
      rw [side_eq_mk c6, c8]
      by_cases hone : q.orders = [e]
      · rw [if_pos hone]
        by_cases hp : q.price = p
        · rw [if_pos hp, hone, queueAt_drop ob.values q l1 l2 hne hp]
          simp
        · rw [if_neg hp]
      · rw [if_neg hone]
        have hne' : (l1 ++ OrderQueue.mk q.ref (q.volume - (ob.values e).quantity) q.price
            (q.orders.erase e) :: l2).Pairwise (fun a b => a.price ≠ b.price) := by
          have := hne
          rw [List.pairwise_append] at this ⊢
          obtain ⟨t1, t2, t3⟩ := this
          refine ⟨t1, ?_, ?_⟩
          · rw [List.pairwise_cons] at t2 ⊢
            exact ⟨t2.1, t2.2⟩
          · intro x hx y hy
            rcases List.mem_cons.1 hy with rfl | hy
            · exact t3 x hx q (by simp)
            · exact t3 x hx y (by simp [hy])
        exact queueAt_split ob.values p _ l2 l1 hne'
    refine ⟨ob.values e, a.map ob.values, b.map ob.values, by rw [c1], ?_, ?_, ?_⟩
    · rw [hbefore, if_pos c5, hab, List.map_append, List.map_cons]
    · rw [hrun, (Append_queueAt hw1 _ _ _).1, hafter, if_pos c5, if_pos rfl, her,
        List.map_append]
    · intro s p hsp
      rw [hrun]
      by_cases hs : s = halfOf (ob.values e).side
      · subst hs
        have hp : ¬ (ob.values e).price = p := by
          rcases hsp with k | k
          · exact absurd rfl k
          · exact fun hc => k hc.symm
        have hqp : ¬ q.price = p := fun hc => hp (c5.symm.trans hc)
        rw [(Append_queueAt hw1 _ _ _).1, if_neg hp, List.append_nil, hafter, hbefore,
          if_neg hqp, if_neg hqp]
      · rw [(Append_queueAt hw1 _ _ _).2 s hs]
        unfold OrderBook.queueAt
        rw [c7 s hs, c8]

/-- C8: whenever `ProcessLimitOrder` returns, its error is `ErrOrderExists` if the id is in
the index of resting orders, otherwise `ErrInvalidQuantity` if the quantity is not positive,
otherwise `ErrInvalidPrice` if the price is not positive, otherwise nil; when one of the three
holds it does return, and leaves the book as it was; and on a book reachable from
`NewOrderBook()` it always returns, and the ids in the index are exactly the ids of the
orders that rest in a level of one of the sides. -/
theorem limit_order_errors (ob : OrderBook) (side : Side) (orderID : String)
    (quantity price : Decimal) (now : Nat) :
    (∀ r ob1, ob.ProcessLimitOrder side orderID quantity price now = some (r, ob1) →
      r.err =
        if (ob.orders orderID).isSome = true then some Error.ErrOrderExists
        else if quantity ≤ 0 then some Error.ErrInvalidQuantity
        else if price ≤ 0 then some Error.ErrInvalidPrice
        else none) ∧
    ((ob.orders orderID).isSome = true ∨ quantity ≤ 0 ∨ price ≤ 0 →
      ∃ r, ob.ProcessLimitOrder side orderID quantity price now = some (r, ob)) ∧
    (Reachable ob →
      (∃ r ob1, ob.ProcessLimitOrder side orderID quantity price now = some (r, ob1)) ∧
      (IsResting ob orderID ↔ (ob.orders orderID).isSome = true)) :=
  ⟨fun _ _ hr => ProcessLimitOrder_error hr, fun h => ProcessLimitOrder_refuses side now h,
    fun h => ⟨ProcessLimitOrder_total h.wf side orderID quantity price now,
      h.wf.isResting_iff orderID⟩⟩

set_option maxRecDepth 100000 in
/-- C8, at a concrete input: on the book holding the sells `s1` and `s2`, the id `s1` rests,
and a limit order with the id `s1` is refused with `ErrOrderExists`. -/
theorem limit_order_errors_witness :
    IsResting bookA "s1" ∧
    ∃ r, bookA.ProcessLimitOrder Side.Buy "s1" 1 100 5 = some (r, bookA) ∧
      r.err = some Error.ErrOrderExists := by
  obtain ⟨h1, h2, h3⟩ := limit_order_errors bookA Side.Buy "s1" 1 100 5
  obtain ⟨r, hr⟩ := h2 (Or.inl (by decide!))
  have hidx : (bookA.orders "s1").isSome = true := by decide!
  exact ⟨(h3 reachable_bookA).2.2 hidx, r, hr, by rw [h1 r bookA hr, if_pos hidx]⟩

/-- C9: whenever `ProcessLimitOrder`, `ProcessMarketQuantityOrder` or `ProcessMarketPriceBuy`
returns an error, the book it leaves is the book it was called on (sides, levels, queues,
volumes and index), `done`, `partial` and `rollback` are nil and every returned decimal is
zero. -/
theorem atomicity_on_error (ob : OrderBook) :
    (∀ (side : Side) (orderID : String) (quantity price : Decimal) (now : Nat)
        (r : LimitResult) (ob1 : OrderBook),
        ob.ProcessLimitOrder side orderID quantity price now = some (r, ob1) → r.err ≠ none →
        ob1 = ob ∧ r.done = [] ∧ r.partialOrd = none ∧ r.rollback = none ∧
          r.partialQuantityProcessed = 0) ∧
    (∀ (side : Side) (quantity : Decimal) (r : MarketResult) (ob1 : OrderBook),
        ob.ProcessMarketQuantityOrder side quantity = some (r, ob1) → r.err ≠ none →
        ob1 = ob ∧ r.done = [] ∧ r.partialOrd = none ∧ r.rollback = none ∧
          r.partialQuantityProcessed = 0 ∧ r.left = 0) ∧
    (∀ (price : Decimal) (places : Int) (r : MarketResult) (ob1 : OrderBook),
        ob.ProcessMarketPriceBuy price places = some (r, ob1) → r.err ≠ none →
        ob1 = ob ∧ r.done = [] ∧ r.partialOrd = none ∧ r.rollback = none ∧
          r.partialQuantityProcessed = 0 ∧ r.left = 0) :=
  ⟨fun _ _ _ _ _ _ _ hr he => ProcessLimitOrder_err hr he,
    fun _ _ _ _ hr he => ProcessMarketQuantityOrder_err hr he,
    fun _ _ _ _ hr he => ProcessMarketPriceBuy_err hr he⟩

set_option maxRecDepth 100000 in
/-- C9, at a concrete input: on the book holding the sells `s1` and `s2`, a limit order of
quantity zero, a market order of quantity zero and a notional buy of zero each return an error
and leave the book as it was. -/
theorem atomicity_on_error_witness :
    ((bookA.limitResult Side.Buy "b1" 0 100 5).err ≠ none ∧
      bookA.afterLimit Side.Buy "b1" 0 100 5 = bookA) ∧
    ((bookA.marketResult Side.Buy 0).err ≠ none ∧ bookA.afterMarket Side.Buy 0 = bookA) ∧
    ((bookA.notionalResult 0 8).err ≠ none ∧ bookA.afterNotional 0 8 = bookA) :=
  ⟨⟨by decide!, ((atomicity_on_error bookA).1 _ _ _ _ _ _ _
      (ProcessLimitOrder_some reachable_bookA Side.Buy "b1" 0 100 5) (by decide!)).1⟩,
    ⟨by decide!, ((atomicity_on_error bookA).2.1 _ _ _ _
      (ProcessMarketQuantityOrder_some reachable_bookA Side.Buy 0) (by decide!)).1⟩,
    ⟨by decide!, ((atomicity_on_error bookA).2.2 _ _ _ _
      (ProcessMarketPriceBuy_some reachable_bookA 0 8) (by decide!)).1⟩⟩

/-- C4: on a book reachable from `NewOrderBook()`, for every side and every positive quantity,
`ProcessMarketQuantityOrder` returns without error and the quantities of the orders in `done`,
`partialQuantityProcessed` and `quantityLeft` add up to the requested quantity. -/
theorem market_quantity_conservation {ob : OrderBook} (h : Reachable ob) (side : Side)
    (quantity : Decimal) (hq : 0 < quantity) :
    ∃ r ob1, ob.ProcessMarketQuantityOrder side quantity = some (r, ob1) ∧ r.err = none ∧
      sumQty r.done + r.partialQuantityProcessed + r.left = quantity := by
  refine ⟨_, _, ProcessMarketQuantityOrder_eq h.wf side hq, rfl, ?_⟩
  rcases fill_partial_cases h.wf (oppositeOf side) (ob.elems (oppositeOf side)) []
    (List.append_nil _).symm quantity with ⟨c1, -, c3⟩ | ⟨-, -, c3, c4⟩
  · show sumQty _ + _ + _ = quantity
    rw [c1, c3]; ring
  · show sumQty _ + _ + _ = quantity
    rw [c3, c4]; ring

set_option maxRecDepth 100000 in
/-- C4, at a concrete input: a market buy of 3 on the book holding the sells `s1` (2 at 100)
and `s2` (3 at 110) consumes `s1`, takes 1 of `s2` and leaves nothing. -/
theorem market_quantity_conservation_witness :
    (∃ r ob1, bookA.ProcessMarketQuantityOrder Side.Buy 3 = some (r, ob1) ∧ r.err = none ∧
      sumQty r.done + r.partialQuantityProcessed + r.left = 3) ∧
    (bookA.marketResult Side.Buy 3).done = [⟨"s1", Side.Sell, 2, 100, 1⟩] ∧
    (bookA.marketResult Side.Buy 3).partialQuantityProcessed = 1 ∧
    (bookA.marketResult Side.Buy 3).left = 0 :=
  ⟨market_quantity_conservation reachable_bookA Side.Buy 3 (by norm_num),
    by decide!, by decide!, by decide!⟩

/-- C1: price-time priority.  On a book reachable from `NewOrderBook()`, for every side and
every positive quantity, `ProcessMarketQuantityOrder` returns and its `done` list is the
longest initial segment of the opposite side's resting orders, in price-time order, whose
cumulative quantity does not exceed the quantity; and `ProcessLimitOrder` (for an id that is
not resting and a positive price) returns a `done` list that is, up to the trailing summary
order, the longest such initial segment of the resting orders of the opposite levels whose
price crosses the limit. -/
theorem price_time_priority {ob : OrderBook} (h : Reachable ob) (side : Side)
    (quantity : Decimal) (hq : 0 < quantity) :
    (∃ r ob1, ob.ProcessMarketQuantityOrder side quantity = some (r, ob1) ∧
      IsLongestFront r.done (ob.resting (oppositeOf side)) quantity) ∧
    (∀ (orderID : String) (price : Decimal) (now : Nat), ¬ IsResting ob orderID → 0 < price →
      ∃ r ob1 D, ob.ProcessLimitOrder side orderID quantity price now = some (r, ob1) ∧
        IsLongestFront D (ob.crossing (oppositeOf side) side price) quantity ∧
        (r.done = D ∨ ∃ p, r.done = D ++ [NewOrder orderID side quantity p now])) := by
  have hw := h.wf
  constructor
  · refine ⟨_, _, ProcessMarketQuantityOrder_eq hw side hq, ?_⟩
    rw [resting_eq_elems]
    exact fill_longest hw (oppositeOf side) _ [] (List.append_nil _).symm (le_of_lt hq)
  · intro orderID price now hid hp
    have heq := ProcessLimitOrder_eq hw side now (hw.not_resting hid) hq hp
    have hlong := fill_longest hw (oppositeOf side) _ _
      (crossElems_split ob (oppositeOf side) side price) (le_of_lt hq)
    rw [← hw.crossing_eq] at hlong
    by_cases hl : 0 < (fillQueue ob.values (ob.crossElems (oppositeOf side) side price) []
        quantity).quantityLeft
    · rw [if_pos hl] at heq
      exact ⟨_, _, _, heq, hlong, Or.inl rfl⟩
    · rw [if_neg hl] at heq
      exact ⟨_, _, _, heq, hlong, Or.inr ⟨_, rfl⟩⟩

set_option maxRecDepth 100000 in
/-- C1, at a concrete input: on the book holding the sells `s1` (2 at 100) and `s2` (3 at 110),
a market buy of 3 and a limit buy of 3 at 105 both consume exactly `s1`. -/
theorem price_time_priority_witness :
    (∃ r ob1, bookA.ProcessMarketQuantityOrder Side.Buy 3 = some (r, ob1) ∧
      IsLongestFront r.done (bookA.resting (oppositeOf Side.Buy)) 3) ∧
    (∃ r ob1 D, bookA.ProcessLimitOrder Side.Buy "b1" 3 105 5 = some (r, ob1) ∧
      IsLongestFront D (bookA.crossing (oppositeOf Side.Buy) Side.Buy 105) 3 ∧
      (r.done = D ∨ ∃ p, r.done = D ++ [NewOrder "b1" Side.Buy 3 p 5])) ∧
    (bookA.marketResult Side.Buy 3).done = [⟨"s1", Side.Sell, 2, 100, 1⟩] ∧
    (bookA.limitResult Side.Buy "b1" 3 105 5).done = [⟨"s1", Side.Sell, 2, 100, 1⟩] :=
  ⟨(price_time_priority reachable_bookA Side.Buy 3 (by norm_num)).1,
    (price_time_priority reachable_bookA Side.Buy 3 (by norm_num)).2 "b1" 105 5
      (fun hr => absurd ((reachable_bookA.wf.isResting_iff _).1 hr) (by decide!))
      (by norm_num),
    by decide!, by decide!⟩

set_option maxRecDepth 100000 in
/-- C5 as stated does not hold: on the book holding the sells `s1` (2 at 100) and `s2` (3 at
110), a limit buy of 3 at 110 is matched completely against `s1` and 1 of `s2`; the summary
order has the price 103.3333333333333333, the quotient 310/3 rounded to 16 decimal places, so
`done` is not a list `D` followed by a summary order whose price is the value of `D` plus the
partial order's price times `partialQuantityProcessed`, divided by the executed total. -/
theorem summary_order_average_rounded :
    Reachable bookA ∧
    bookA.ProcessLimitOrder Side.Buy "b1" 3 110 5 =
      some (bookA.limitResult Side.Buy "b1" 3 110 5, bookA.afterLimit Side.Buy "b1" 3 110 5) ∧
    (bookA.limitResult Side.Buy "b1" 3 110 5).err = none ∧
    bookA.limitRemaining Side.Buy 3 110 = some 0 ∧
    (bookA.limitResult Side.Buy "b1" 3 110 5).done =
      [⟨"s1", Side.Sell, 2, 100, 1⟩,
        ⟨"b1", Side.Buy, 3, 1033333333333333333 / 10000000000000000, 5⟩] ∧
    (bookA.limitResult Side.Buy "b1" 3 110 5).partialOrd = some ⟨"s2", Side.Sell, 2, 110, 2⟩ ∧
    (bookA.limitResult Side.Buy "b1" 3 110 5).partialQuantityProcessed = 1 ∧
    ¬ ∃ D avg, (bookA.limitResult Side.Buy "b1" 3 110 5).done =
        D ++ [NewOrder "b1" Side.Buy 3 avg 5] ∧
      avg = (sumValue D + (match (bookA.limitResult Side.Buy "b1" 3 110 5).partialOrd with
          | some p => p.price * (bookA.limitResult Side.Buy "b1" 3 110 5).partialQuantityProcessed
          | none => 0)) /
        (sumQty D + (bookA.limitResult Side.Buy "b1" 3 110 5).partialQuantityProcessed) := by
  have hd : (bookA.limitResult Side.Buy "b1" 3 110 5).done =
      [⟨"s1", Side.Sell, 2, 100, 1⟩] ++
        [⟨"b1", Side.Buy, 3, 1033333333333333333 / 10000000000000000, 5⟩] := by decide!
  have hp : (bookA.limitResult Side.Buy "b1" 3 110 5).partialOrd =
      some ⟨"s2", Side.Sell, 2, 110, 2⟩ := by decide!
  have hpq : (bookA.limitResult Side.Buy "b1" 3 110 5).partialQuantityProcessed = 1 := by
    decide!
  refine ⟨reachable_bookA, ProcessLimitOrder_some reachable_bookA Side.Buy "b1" 3 110 5,
    by decide!, by decide!, hd, hp, hpq, ?_⟩
  rintro ⟨D, avg, hD, havg⟩
  rw [hd] at hD
  obtain ⟨hD1, hD2⟩ := List.append_inj' hD rfl
  subst hD1
  rw [hp, hpq] at havg
  have hprice := congrArg Order.price (List.head_eq_of_cons_eq hD2)
  simp only [NewOrder] at hprice
  rw [havg] at hprice
  norm_num [sumValue, sumQty] at hprice

/-- C5, amended: the summary order at the volume-weighted average price, rounded to 16
decimal places.  On a book reachable from `NewOrderBook()`, when a successful
`ProcessLimitOrder` leaves no quantity to trade after its matching loop, `done` is a list `D`
of resting counter-orders followed by one summary order with the id, the side and the full
quantity of the incoming order; the executed total `Q`, the quantities of `D` plus
`partialQuantityProcessed`, is the (positive) quantity; and the price of the summary order is
the quotient by `Q` of `V`, the value of `D` plus the partial order's price times
`partialQuantityProcessed`, rounded half away from zero to 16 decimal places: it is a multiple
of 10^-16 within 10^-16/2 of `V / Q`, and it is `V / Q` when that has at most 16 decimal
places. -/
theorem summary_order_average {ob ob1 : OrderBook} {side : Side} {orderID : String}
    {quantity price : Decimal} {now : Nat} {r : LimitResult} (h : Reachable ob)
    (hr : ob.ProcessLimitOrder side orderID quantity price now = some (r, ob1))
    (herr : r.err = none) (hrem : ob.limitRemaining side quantity price = some 0) :
    ∃ D avg V Q, r.done = D ++ [NewOrder orderID side quantity avg now] ∧
      (∀ o ∈ D, o ∈ ob.resting (oppositeOf side)) ∧
      Q = sumQty D + r.partialQuantityProcessed ∧ Q = quantity ∧ 0 < Q ∧
      (r.partialOrd = none → r.partialQuantityProcessed = 0) ∧
      V = sumValue D + (match r.partialOrd with
          | some p => p.price * r.partialQuantityProcessed
          | none => 0) ∧
      avg = Decimal.Div V Q ∧ avg = Decimal.DivRound V Q 16 ∧
      (∃ m : ℤ, avg = (m : ℚ) / 10 ^ 16) ∧
      avg ≤ V / Q + 1 / (2 * 10 ^ 16) ∧ V / Q - 1 / (2 * 10 ^ 16) ≤ avg ∧
      ((∃ n : ℤ, V / Q = (n : ℚ) / 10 ^ 16) → avg = V / Q) := by
  have hw := h.wf
  obtain ⟨hid, hq, hp⟩ := ProcessLimitOrder_ok hr herr
  have heq := ProcessLimitOrder_eq hw side now hid hq hp
  have hcases := fill_partial_cases hw (oppositeOf side) _ _
    (crossElems_split ob (oppositeOf side) side price) quantity
  have hmem := fun o => fill_done_resting hw (oppositeOf side) _ _
    (crossElems_split ob (oppositeOf side) side price) quantity (o := o)
  have hval := fill_value_nonneg hw (oppositeOf side) _ _
    (crossElems_split ob (oppositeOf side) side price) quantity
  rw [limitRemaining_eq hw] at hrem
  have hl0 := Option.some.inj hrem
  rw [hr, if_neg (by rw [hl0]; exact lt_irrefl _)] at heq
  obtain ⟨rfl, -⟩ := Prod.mk.inj (Option.some.inj heq)
  generalize fillQueue ob.values (ob.crossElems (oppositeOf side) side price) [] quantity = fq
    at hcases hmem hl0 hval
  have hsum : sumQty fq.done + fq.partialQuantityProcessed = quantity := by
    rcases hcases with ⟨c1, -, c3⟩ | ⟨-, -, -, c4⟩
    · rw [c1, add_zero]; rw [hl0] at c3; linarith
    · rw [c4]; ring
  have hV : sumValue fq.done + (match fq.partialOrd with
        | some p => p.price
        | none => 0) * fq.partialQuantityProcessed =
      sumValue fq.done + (match fq.partialOrd with
        | some p => p.price * fq.partialQuantityProcessed
        | none => 0) := by
    cases fq.partialOrd with
    | none => simp
    | some p => rfl
  have hx : 0 ≤ (sumValue fq.done + (match fq.partialOrd with
        | some p => p.price
        | none => 0) * fq.partialQuantityProcessed) / quantity :=
    div_nonneg hval (le_of_lt hq)
  obtain ⟨n1, n2, n3⟩ := DivRound_near 16 hx
  rw [zpow_sixteen] at n1 n2 n3
  refine ⟨fq.done, _, _, quantity, rfl, hmem, hsum.symm, rfl, hq, ?_, hV, rfl, rfl, n1, n2, n3,
    ?_⟩
  · intro hnone
    rcases hcases with ⟨c1, -, -⟩ | ⟨-, ⟨p, c2⟩, -, -⟩
    · exact c1
    · simp only at hnone; rw [c2] at hnone; exact Option.noConfusion hnone
  · rintro ⟨n, hn⟩
    exact DivRound_grid_eq 16 n hx (by rw [zpow_sixteen]; exact hn)

set_option maxRecDepth 100000 in
/-- C5, amended, at a concrete input: on the book holding the sells `s1` (2 at 100) and `s2`
(3 at 110), a limit buy of 3 at 110 is matched completely; the summary order has the price
103.3333333333333333. -/
theorem summary_order_average_witness :
    (∃ D avg V Q, (bookA.limitResult Side.Buy "b1" 3 110 5).done =
        D ++ [NewOrder "b1" Side.Buy 3 avg 5] ∧
      (∀ o ∈ D, o ∈ bookA.resting (oppositeOf Side.Buy)) ∧
      Q = sumQty D + (bookA.limitResult Side.Buy "b1" 3 110 5).partialQuantityProcessed ∧
      Q = 3 ∧ 0 < Q ∧
      ((bookA.limitResult Side.Buy "b1" 3 110 5).partialOrd = none →
        (bookA.limitResult Side.Buy "b1" 3 110 5).partialQuantityProcessed = 0) ∧
      V = sumValue D + (match (bookA.limitResult Side.Buy "b1" 3 110 5).partialOrd with
          | some p => p.price * (bookA.limitResult Side.Buy "b1" 3 110 5).partialQuantityProcessed
          | none => 0) ∧
      avg = Decimal.Div V Q ∧ avg = Decimal.DivRound V Q 16 ∧
      (∃ m : ℤ, avg = (m : ℚ) / 10 ^ 16) ∧
      avg ≤ V / Q + 1 / (2 * 10 ^ 16) ∧ V / Q - 1 / (2 * 10 ^ 16) ≤ avg ∧
      ((∃ n : ℤ, V / Q = (n : ℚ) / 10 ^ 16) → avg = V / Q)) ∧
    (bookA.limitResult Side.Buy "b1" 3 110 5).done =
      [⟨"s1", Side.Sell, 2, 100, 1⟩,
        ⟨"b1", Side.Buy, 3, 1033333333333333333 / 10000000000000000, 5⟩] :=
  ⟨summary_order_average reachable_bookA
      (ProcessLimitOrder_some reachable_bookA Side.Buy "b1" 3 110 5) (by decide!) (by decide!),
    by decide!⟩

/-- C7: the resting residue of a limit order.  On a book reachable from `NewOrderBook()`, when
a successful `ProcessLimitOrder` leaves the quantity `rem > 0` to trade after its matching
loop, the order (id, side, rem, price) is the last order of the level of its price on its own
side, `Order(id)` returns it, and if `done` is not empty then `partial` is that order and
`partialQuantityProcessed` is the quantity less `rem`, the sum of the quantities in `done`. -/
theorem resting_residue {ob ob1 : OrderBook} {side : Side} {orderID : String}
    {quantity price rem : Decimal} {now : Nat} {r : LimitResult} (h : Reachable ob)
    (hr : ob.ProcessLimitOrder side orderID quantity price now = some (r, ob1))
    (herr : r.err = none) (hrem : ob.limitRemaining side quantity price = some rem)
    (hpos : 0 < rem) :
    (∃ q ∈ (ob1.side (halfOf side)).priceTree, q.price = price ∧
      q.orders.getLast?.map ob1.values = some (NewOrder orderID side rem price now)) ∧
    ob1.Order orderID = some (NewOrder orderID side rem price now) ∧
    (r.done ≠ [] →
      r.partialOrd = some (NewOrder orderID side rem price now) ∧
      r.partialQuantityProcessed = quantity - rem ∧ quantity - rem = sumQty r.done) := by
  have hw := h.wf
  obtain ⟨hid, hq, hp⟩ := ProcessLimitOrder_ok hr herr
  have heq := ProcessLimitOrder_eq hw side now hid hq hp
  have hcases := fill_partial_cases hw (oppositeOf side) _ _
    (crossElems_split ob (oppositeOf side) side price) quantity
  have hwf := WF_fill_cross hw (oppositeOf side) side price quantity
  rw [limitRemaining_eq hw] at hrem
  have hl0 := Option.some.inj hrem
  rw [hr, if_pos (by rw [hl0]; exact hpos)] at heq
  obtain ⟨rfl, rfl⟩ := Prod.mk.inj (Option.some.inj heq)
  rw [hl0]
  refine ⟨Append_tail hwf (halfOf side) _, Append_Order _ _ _, ?_⟩
  intro hne
  have hlen : 0 < (fillQueue ob.values (ob.crossElems (oppositeOf side) side price) []
      quantity).done.length := List.length_pos.2 hne
  simp only [hlen, if_true, hl0, true_and]
  rcases hcases with ⟨-, -, c3⟩ | ⟨-, -, c3, -⟩
  · rw [hl0] at c3; linarith
  · rw [hl0] at c3; exact absurd c3 (ne_of_gt hpos)

set_option maxRecDepth 100000 in
/-- C7, at a concrete input: on the book holding the sells `s1` (2 at 100) and `s2` (3 at 110),
a limit buy of 3 at 105 consumes `s1` and rests with the quantity 1. -/
theorem resting_residue_witness :
    (∃ q ∈ ((bookA.afterLimit Side.Buy "b1" 3 105 5).side (halfOf Side.Buy)).priceTree,
      q.price = 105 ∧
      q.orders.getLast?.map (bookA.afterLimit Side.Buy "b1" 3 105 5).values =
        some (NewOrder "b1" Side.Buy 1 105 5)) ∧
    (bookA.afterLimit Side.Buy "b1" 3 105 5).Order "b1" =
      some (NewOrder "b1" Side.Buy 1 105 5) ∧
    ((bookA.limitResult Side.Buy "b1" 3 105 5).done ≠ [] →
      (bookA.limitResult Side.Buy "b1" 3 105 5).partialOrd =
        some (NewOrder "b1" Side.Buy 1 105 5) ∧
      (bookA.limitResult Side.Buy "b1" 3 105 5).partialQuantityProcessed = 3 - 1 ∧
      (3 : Decimal) - 1 = sumQty (bookA.limitResult Side.Buy "b1" 3 105 5).done) :=
  resting_residue reachable_bookA
    (ProcessLimitOrder_some reachable_bookA Side.Buy "b1" 3 105 5) (by decide!) (by decide!)
    (by norm_num)

set_option maxRecDepth 100000 in
/-- C10 as stated does not hold: on the book holding the one sell `s1` (1 at
0.00000000000000006), a limit buy of 1 at 0.00000000000000006 consumes `s1` at the limit and
is matched completely; the summary order has the price 0.0000000000000001, the quotient
rounded to 16 decimal places, which is above the limit. -/
theorem limit_price_exceeded :
    Reachable bookE ∧
    bookE.ProcessLimitOrder Side.Buy "b1" 1 (6 / 100000000000000000) 5 =
      some (bookE.limitResult Side.Buy "b1" 1 (6 / 100000000000000000) 5,
        bookE.afterLimit Side.Buy "b1" 1 (6 / 100000000000000000) 5) ∧
    (bookE.limitResult Side.Buy "b1" 1 (6 / 100000000000000000) 5).err = none ∧
    (bookE.limitResult Side.Buy "b1" 1 (6 / 100000000000000000) 5).done =
      [⟨"s1", Side.Sell, 1, 6 / 100000000000000000, 1⟩,
        ⟨"b1", Side.Buy, 1, 1 / 10000000000000000, 5⟩] ∧
    (bookE.limitResult Side.Buy "b1" 1 (6 / 100000000000000000) 5).partialOrd = none ∧
    ¬ ∀ o ∈ (bookE.limitResult Side.Buy "b1" 1 (6 / 100000000000000000) 5).done,
      o.price ≤ 6 / 100000000000000000 := by
  have hd : (bookE.limitResult Side.Buy "b1" 1 (6 / 100000000000000000) 5).done =
      [⟨"s1", Side.Sell, 1, 6 / 100000000000000000, 1⟩,
        ⟨"b1", Side.Buy, 1, 1 / 10000000000000000, 5⟩] := by decide!
  refine ⟨reachable_bookE,
    ProcessLimitOrder_some reachable_bookE Side.Buy "b1" 1 (6 / 100000000000000000) 5,
    by decide!, hd, by decide!, ?_⟩
  intro hall
  have h1 := hall ⟨"b1", Side.Buy, 1, 1 / 10000000000000000, 5⟩ (by rw [hd]; simp)
  norm_num at h1

/-- C10, amended: limit price protection up to the rounding of the average.  On a book
reachable from `NewOrderBook()`, after a successful `ProcessLimitOrder`, `done` is a list `D`
of resting counter-orders, followed by the summary order when there is one.  For a buy every
order of `D` and the partial order (if any) have a price that is at most the limit; every
order in `done`, the summary order with its average price rounded to 16 decimal places
included, has a price that is at most the limit plus 10^-16/2, and at most the limit when the
limit has at most 16 decimal places.  For a sell the same holds with at least the limit, and
at least the limit less 10^-16/2. -/
theorem limit_price_protection {ob ob1 : OrderBook} {side : Side} {orderID : String}
    {quantity price : Decimal} {now : Nat} {r : LimitResult} (h : Reachable ob)
    (hr : ob.ProcessLimitOrder side orderID quantity price now = some (r, ob1))
    (herr : r.err = none) :
    ∃ D : List Order,
      (r.done = D ∨ ∃ avg, r.done = D ++ [NewOrder orderID side quantity avg now]) ∧
      (∀ o ∈ D, o ∈ ob.resting (oppositeOf side)) ∧
      (side = Side.Buy →
        (∀ o ∈ D, o.price ≤ price) ∧ (∀ p, r.partialOrd = some p → p.price ≤ price) ∧
        (∀ o ∈ r.done, o.price ≤ price + 1 / (2 * 10 ^ 16)) ∧
        ((∃ n : ℤ, price = (n : ℚ) / 10 ^ 16) → ∀ o ∈ r.done, o.price ≤ price)) ∧
      (side = Side.Sell →
        (∀ o ∈ D, price ≤ o.price) ∧ (∀ p, r.partialOrd = some p → price ≤ p.price) ∧
        (∀ o ∈ r.done, price - 1 / (2 * 10 ^ 16) ≤ o.price) ∧
        ((∃ n : ℤ, price = (n : ℚ) / 10 ^ 16) → ∀ o ∈ r.done, price ≤ o.price)) := by
  obtain ⟨D, hD, hP, hdone⟩ := limit_prices h.wf hr herr
  have hhalf : (0 : ℚ) ≤ 1 / (2 * 10 ^ 16) := by norm_num
  refine ⟨D, ?_, fun o ho => (hD o ho).1, ?_, ?_⟩
  · rcases hdone with hd | ⟨V, -, -, hd⟩
    · exact Or.inl hd
    · exact Or.inr ⟨_, hd⟩
  · rintro rfl
    have hDp : ∀ o ∈ D, o.price ≤ price := fun o ho => comparator_buy.1 (hD o ho).2
    refine ⟨hDp, fun p hp => comparator_buy.1 (hP p hp), ?_, ?_⟩
    · intro o ho
      rcases hdone with hd | ⟨V, hx, hc, hd⟩
      · rw [hd] at ho
        linarith [hDp o ho]
      · rw [hd] at ho
        rcases List.mem_append.1 ho with ho | ho
        · linarith [hDp o ho]
        · rw [List.mem_singleton.1 ho]
          obtain ⟨-, n2, -⟩ := DivRound_near 16 hx
          rw [zpow_sixteen] at n2
          have := comparator_buy.1 hc
          simp only [NewOrder]
          linarith
    · rintro ⟨n, hn⟩ o ho
      rcases hdone with hd | ⟨V, hx, hc, hd⟩
      · rw [hd] at ho
        exact hDp o ho
      · rw [hd] at ho
        rcases List.mem_append.1 ho with ho | ho
        · exact hDp o ho
        · rw [List.mem_singleton.1 ho]
          have hg := (DivRound_grid 16 n hx).1
          rw [zpow_sixteen, ← hn] at hg
          exact hg (comparator_buy.1 hc)
  · rintro rfl
    have hDp : ∀ o ∈ D, price ≤ o.price := fun o ho => comparator_sell.1 (hD o ho).2
    refine ⟨hDp, fun p hp => comparator_sell.1 (hP p hp), ?_, ?_⟩
    · intro o ho
      rcases hdone with hd | ⟨V, hx, hc, hd⟩
      · rw [hd] at ho
        linarith [hDp o ho]
      · rw [hd] at ho
        rcases List.mem_append.1 ho with ho | ho
        · linarith [hDp o ho]
        · rw [List.mem_singleton.1 ho]
          obtain ⟨-, -, n3⟩ := DivRound_near 16 hx
          rw [zpow_sixteen] at n3
          have := comparator_sell.1 hc
          simp only [NewOrder]
          linarith
    · rintro ⟨n, hn⟩ o ho
      rcases hdone with hd | ⟨V, hx, hc, hd⟩
      · rw [hd] at ho
        exact hDp o ho
      · rw [hd] at ho
        rcases List.mem_append.1 ho with ho | ho
        · exact hDp o ho
        · rw [List.mem_singleton.1 ho]
          have hg := (DivRound_grid 16 n hx).2
          rw [zpow_sixteen, ← hn] at hg
          exact hg (comparator_sell.1 hc)

set_option maxRecDepth 100000 in
/-- C10, amended, at a concrete input: on the book holding the sells `s1` (2 at 100) and `s2`
(3 at 110), a limit buy of 3 at 110 executes at 100 and at 110, on average at
103.3333333333333333. -/
theorem limit_price_protection_witness :
    (∃ D : List Order,
      ((bookA.limitResult Side.Buy "b1" 3 110 5).done = D ∨
        ∃ avg, (bookA.limitResult Side.Buy "b1" 3 110 5).done =
          D ++ [NewOrder "b1" Side.Buy 3 avg 5]) ∧
      (∀ o ∈ D, o ∈ bookA.resting (oppositeOf Side.Buy)) ∧
      (Side.Buy = Side.Buy →
        (∀ o ∈ D, o.price ≤ 110) ∧
        (∀ p, (bookA.limitResult Side.Buy "b1" 3 110 5).partialOrd = some p → p.price ≤ 110) ∧
        (∀ o ∈ (bookA.limitResult Side.Buy "b1" 3 110 5).done,
          o.price ≤ 110 + 1 / (2 * 10 ^ 16)) ∧
        ((∃ n : ℤ, (110 : Decimal) = (n : ℚ) / 10 ^ 16) →
          ∀ o ∈ (bookA.limitResult Side.Buy "b1" 3 110 5).done, o.price ≤ 110)) ∧
      (Side.Buy = Side.Sell →
        (∀ o ∈ D, 110 ≤ o.price) ∧
        (∀ p, (bookA.limitResult Side.Buy "b1" 3 110 5).partialOrd = some p → 110 ≤ p.price) ∧
        (∀ o ∈ (bookA.limitResult Side.Buy "b1" 3 110 5).done,
          110 - 1 / (2 * 10 ^ 16) ≤ o.price) ∧
        ((∃ n : ℤ, (110 : Decimal) = (n : ℚ) / 10 ^ 16) →
          ∀ o ∈ (bookA.limitResult Side.Buy "b1" 3 110 5).done, 110 ≤ o.price))) ∧
    (bookA.limitResult Side.Buy "b1" 3 110 5).done =
      [⟨"s1", Side.Sell, 2, 100, 1⟩,
        ⟨"b1", Side.Buy, 3, 1033333333333333333 / 10000000000000000, 5⟩] ∧
    (bookA.limitResult Side.Buy "b1" 3 110 5).partialOrd =
      some ⟨"s2", Side.Sell, 2, 110, 2⟩ :=
  ⟨limit_price_protection reachable_bookA
      (ProcessLimitOrder_some reachable_bookA Side.Buy "b1" 3 110 5) (by decide!),
    by decide!, by decide!⟩

set_option maxRecDepth 100000 in
/-- C6 as stated does not hold in its last sentence: on the book holding the one sell `s1` (2
at 0.00000000000000006), a crossing limit buy of 1 at 0.00000000000000006 is smaller than the
head order; `partial` is the head order reduced by 1 and `partialQuantityProcessed` is 1, but
the summary order in `done` has the price 0.0000000000000001, the head order's price rounded
to 16 decimal places, not the head order's price. -/
theorem partial_fill_summary_rounded :
    Reachable bookF ∧
    bookF.resting SideRef.asks = [⟨"s1", Side.Sell, 2, 6 / 100000000000000000, 1⟩] ∧
    bookF.ProcessLimitOrder Side.Buy "b1" 1 (6 / 100000000000000000) 5 =
      some (bookF.limitResult Side.Buy "b1" 1 (6 / 100000000000000000) 5,
        bookF.afterLimit Side.Buy "b1" 1 (6 / 100000000000000000) 5) ∧
    (bookF.limitResult Side.Buy "b1" 1 (6 / 100000000000000000) 5).err = none ∧
    (bookF.limitResult Side.Buy "b1" 1 (6 / 100000000000000000) 5).done =
      [⟨"b1", Side.Buy, 1, 1 / 10000000000000000, 5⟩] ∧
    (bookF.limitResult Side.Buy "b1" 1 (6 / 100000000000000000) 5).partialOrd =
      some ⟨"s1", Side.Sell, 1, 6 / 100000000000000000, 1⟩ ∧
    (bookF.limitResult Side.Buy "b1" 1 (6 / 100000000000000000) 5).partialQuantityProcessed =
      1 ∧
    (bookF.limitResult Side.Buy "b1" 1 (6 / 100000000000000000) 5).done ≠
      [NewOrder "b1" Side.Buy 1 (6 / 100000000000000000) 5] := by
  have hd : (bookF.limitResult Side.Buy "b1" 1 (6 / 100000000000000000) 5).done =
      [⟨"b1", Side.Buy, 1, 1 / 10000000000000000, 5⟩] := by decide!
  refine ⟨reachable_bookF, by decide!,
    ProcessLimitOrder_some reachable_bookF Side.Buy "b1" 1 (6 / 100000000000000000) 5,
    by decide!, hd, by decide!, by decide!, ?_⟩
  rw [hd]
  intro heq
  have hprice := congrArg Order.price (List.head_eq_of_cons_eq heq)
  simp only [NewOrder] at hprice
  norm_num at hprice

/-- C6, amended: the partial fill of a head order.  On a book reachable from `NewOrderBook()`:
(1) when the loop of `processQueue` on the best level of a side meets a head order whose
quantity exceeds the positive quantity `a` that is left, it returns as `partial` the head order
with its quantity reduced by `a` (same id, side, price and time) and
`partialQuantityProcessed = a`; the level keeps its price and its elements in their places,
the head element now holding the reduced order and the others their orders; and `Order(id)`
returns the reduced order.  (2)-(4) when `ProcessMarketQuantityOrder`, `ProcessMarketPriceBuy`
or `ProcessLimitOrder` returns a partially filled counter-order `p`, the opposite side held the
consumed orders, then a head order `hd` of greater quantity than `partialQuantityProcessed`,
then the orders `T`; `p` is `hd` reduced by `partialQuantityProcessed`; afterwards the opposite
side holds `p` followed by `T`, and `Order(hd.id)` returns `p`.  (5) a crossing limit order
whose quantity is smaller than that of the best opposite head order returns as `done` the
summary order alone, at the head order's price rounded to 16 decimal places (a multiple of
10^-16 within 10^-16/2 of the head order's price, and that price itself when it has at most 16
decimal places), as `partial` the reduced head order, and its own quantity as
`partialQuantityProcessed`. -/
theorem partial_fill_of_head {ob : OrderBook} (h : Reachable ob) :
    (∀ (s : SideRef) (q : OrderQueue) (rest : List OrderQueue) (e : Nat) (tl : List Nat)
        (d : List Order) (a : Decimal) (fuel : Nat),
        ob.view s = q :: rest → q.orders = e :: tl → 0 < a → a < (ob.values e).quantity →
        q.orders.length + 1 ≤ fuel →
        ∃ ob1 q1,
          processQueueLoop q.ref fuel ob ⟨d, none, 0, a, none⟩ =
            some (⟨d, some (reduced (ob.values e) a), a, 0, some ⟨q.ref, e, ob.values e⟩⟩,
              ob1) ∧
          ob1.view s = q1 :: rest ∧ q1.ref = q.ref ∧ q1.price = q.price ∧
          q1.orders = q.orders ∧
          q1.orders.map ob1.values = reduced (ob.values e) a :: tl.map ob.values ∧
          ob1.Order (ob.values e).id = some (reduced (ob.values e) a)) ∧
    (∀ (side : Side) (quantity : Decimal) (r : MarketResult) (ob1 : OrderBook) (p : Order),
        ob.ProcessMarketQuantityOrder side quantity = some (r, ob1) → r.err = none →
        r.partialOrd = some p →
        ∃ hd T, ob.resting (oppositeOf side) = r.done ++ hd :: T ∧
          p = reduced hd r.partialQuantityProcessed ∧ 0 < r.partialQuantityProcessed ∧
          r.partialQuantityProcessed < hd.quantity ∧
          ob1.resting (oppositeOf side) = p :: T ∧ ob1.Order hd.id = some p) ∧
    (∀ (price : Decimal) (places : Int) (r : MarketResult) (ob1 : OrderBook) (p : Order),
        ob.ProcessMarketPriceBuy price places = some (r, ob1) → r.err = none →
        r.partialOrd = some p →
        ∃ hd T, ob.resting SideRef.asks = r.done ++ hd :: T ∧
          p = reduced hd r.partialQuantityProcessed ∧ 0 < r.partialQuantityProcessed ∧
          r.partialQuantityProcessed < hd.quantity ∧
          ob1.resting SideRef.asks = p :: T ∧ ob1.Order hd.id = some p) ∧
    (∀ (side : Side) (orderID : String) (quantity price : Decimal) (now : Nat)
        (r : LimitResult) (ob1 : OrderBook) (p : Order),
        ob.ProcessLimitOrder side orderID quantity price now = some (r, ob1) → r.err = none →
        r.partialOrd = some p → p.id ≠ orderID →
        ∃ hd T D avg, r.done = D ++ [NewOrder orderID side quantity avg now] ∧
          ob.resting (oppositeOf side) = D ++ hd :: T ∧
          p = reduced hd r.partialQuantityProcessed ∧ 0 < r.partialQuantityProcessed ∧
          r.partialQuantityProcessed < hd.quantity ∧
          ob1.resting (oppositeOf side) = p :: T ∧ ob1.Order hd.id = some p) ∧
    (∀ (side : Side) (orderID : String) (quantity price : Decimal) (now : Nat)
        (q : OrderQueue) (rest : List OrderQueue) (e : Nat) (tl : List Nat),
        ob.view (oppositeOf side) = q :: rest → q.orders = e :: tl →
        comparator side price q.price = true → ¬ IsResting ob orderID → 0 < quantity →
        0 < price → quantity < (ob.values e).quantity →
        ∃ r ob1 avg, ob.ProcessLimitOrder side orderID quantity price now = some (r, ob1) ∧
          r.err = none ∧ r.done = [NewOrder orderID side quantity avg now] ∧
          avg = Decimal.Div ((ob.values e).price * quantity) quantity ∧
          (∃ m : ℤ, avg = (m : ℚ) / 10 ^ 16) ∧
          avg ≤ (ob.values e).price + 1 / (2 * 10 ^ 16) ∧
          (ob.values e).price - 1 / (2 * 10 ^ 16) ≤ avg ∧
          ((∃ n : ℤ, (ob.values e).price = (n : ℚ) / 10 ^ 16) → avg = (ob.values e).price) ∧
          r.partialOrd = some (reduced (ob.values e) quantity) ∧
          r.partialQuantityProcessed = quantity) :=
  ⟨fun _ _ _ _ _ d _ _ hv hq ha hlt hfuel => partial_head_loop h.wf d hv hq ha hlt hfuel,
    fun _ _ _ _ _ hr herr hp => partial_head_market h.wf hr herr hp,
    fun _ _ _ _ _ hr herr hp => partial_head_notional h.wf hr herr hp,
    fun _ _ _ _ _ _ _ _ hr herr hp hpid => partial_head_limit_order h.wf hr herr hp hpid,
    fun _ _ _ _ now _ _ _ _ hv hq hc hid hqty hp hlt => by
      obtain ⟨r, ob1, k1, k2, k3, k4, k5⟩ := partial_head_limit h.wf now hv hq hc hid hqty hp hlt
      obtain ⟨n1, n2, n3, n4⟩ := Div_mul_self hqty (le_of_lt (h.wf.head_price_pos hv hq))
      exact ⟨r, ob1, _, k1, k2, k3, rfl, n1, n2, n3, n4, k4, k5⟩⟩

set_option maxRecDepth 100000 in
/-- C6, amended, at a concrete input: on the book whose best ask level holds `s1` (2 at 100) in front
of `s2` (3 at 100), matching the quantity 1 leaves `s1` with the quantity 1 at the head of the
level; a market buy of 3 consumes `s1` and leaves `s2` with the quantity 2 at the head; and a
limit buy of 1 at 100 returns the summary order at 100. -/
theorem partial_fill_of_head_witness :
    (∃ ob1 q1,
      processQueueLoop 0 3 bookB ⟨[], none, 0, 1, none⟩ =
        some (⟨[], some (reduced (bookB.values 0) 1), 1, 0, some ⟨0, 0, bookB.values 0⟩⟩,
          ob1) ∧
      ob1.view SideRef.asks = q1 :: [] ∧ q1.ref = 0 ∧ q1.price = 100 ∧ q1.orders = [0, 1] ∧
      q1.orders.map ob1.values = reduced (bookB.values 0) 1 :: [1].map bookB.values ∧
      ob1.Order (bookB.values 0).id = some (reduced (bookB.values 0) 1)) ∧
    (∃ hd T, bookB.resting (oppositeOf Side.Buy) = (bookB.marketResult Side.Buy 3).done ++ hd :: T ∧
      (⟨"s2", Side.Sell, 2, 100, 2⟩ : Order) =
        reduced hd (bookB.marketResult Side.Buy 3).partialQuantityProcessed ∧
      0 < (bookB.marketResult Side.Buy 3).partialQuantityProcessed ∧
      (bookB.marketResult Side.Buy 3).partialQuantityProcessed < hd.quantity ∧
      (bookB.afterMarket Side.Buy 3).resting (oppositeOf Side.Buy) =
        ⟨"s2", Side.Sell, 2, 100, 2⟩ :: T ∧
      (bookB.afterMarket Side.Buy 3).Order hd.id = some ⟨"s2", Side.Sell, 2, 100, 2⟩) ∧
    (∃ r ob1 avg, bookB.ProcessLimitOrder Side.Buy "b9" 1 100 9 = some (r, ob1) ∧
      r.err = none ∧ r.done = [NewOrder "b9" Side.Buy 1 avg 9] ∧
      avg = Decimal.Div ((bookB.values 0).price * 1) 1 ∧
      (∃ m : ℤ, avg = (m : ℚ) / 10 ^ 16) ∧
      avg ≤ (bookB.values 0).price + 1 / (2 * 10 ^ 16) ∧
      (bookB.values 0).price - 1 / (2 * 10 ^ 16) ≤ avg ∧
      ((∃ n : ℤ, (bookB.values 0).price = (n : ℚ) / 10 ^ 16) → avg = (bookB.values 0).price) ∧
      r.partialOrd = some (reduced (bookB.values 0) 1) ∧ r.partialQuantityProcessed = 1) ∧
    reduced (bookB.values 0) 1 = ⟨"s1", Side.Sell, 1, 100, 1⟩ ∧
    (bookB.limitResult Side.Buy "b9" 1 100 9).done = [⟨"b9", Side.Buy, 1, 100, 9⟩] :=
  ⟨(partial_fill_of_head reachable_bookB).1 SideRef.asks ⟨0, 5, 100, [0, 1]⟩ [] 0 [1] [] 1 3
      (by decide!) rfl (by norm_num) (by decide!) (by decide),
    (partial_fill_of_head reachable_bookB).2.1 Side.Buy 3 _ _ _
      (ProcessMarketQuantityOrder_some reachable_bookB Side.Buy 3) (by decide!) (by decide!),
    (partial_fill_of_head reachable_bookB).2.2.2.2 Side.Buy "b9" 1 100 9 ⟨0, 5, 100, [0, 1]⟩ []
      0 [1] (by decide!) rfl (by decide!)
      (fun hr => absurd ((reachable_bookB.wf.isResting_iff _).1 hr) (by decide!))
      (by norm_num) (by norm_num) (by decide!),
    by decide!, by decide!⟩

set_option maxRecDepth 100000 in
/-- C3: rollbacks run in reverse order do not restore the book when the first operation
partially fills a head order and the second consumes the reduced order.  From the reachable
book holding the one sell `o-001` (0.2 at 0.01), two successful notional buys of 0.001 return
the rollbacks R1 (undo the partial fill) and R2 (re-append the consumed order); after R2 and
then R1 have run, `o-001` rests with the quantity 0.1 and `Depth(0)` reports the volume 0.1,
where the initial book held the quantity 0.2. -/
theorem lifo_rollback_stale_handle :
    Reachable bookC ∧
    bookC.Order "o-001" = some ⟨"o-001", Side.Sell, 1 / 5, 1 / 100, 0⟩ ∧
    bookC.Depth 0 = some ⟨[], [(1 / 100, 1 / 5)]⟩ ∧
    bookC.ProcessMarketPriceBuy (1 / 1000) 8 =
      some (bookC.notionalResult (1 / 1000) 8, bookC1) ∧
    (bookC.notionalResult (1 / 1000) 8).err = none ∧
    (bookC.notionalResult (1 / 1000) 8).done = [] ∧
    (bookC.notionalResult (1 / 1000) 8).partialOrd =
      some ⟨"o-001", Side.Sell, 1 / 10, 1 / 100, 0⟩ ∧
    (bookC.notionalResult (1 / 1000) 8).rollback =
      some (Rollback.market (some ⟨0, 0, ⟨"o-001", Side.Sell, 1 / 5, 1 / 100, 0⟩⟩) []
        SideRef.asks) ∧
    bookC1.ProcessMarketPriceBuy (1 / 1000) 8 =
      some (bookC1.notionalResult (1 / 1000) 8, bookC2) ∧
    (bookC1.notionalResult (1 / 1000) 8).err = none ∧
    (bookC1.notionalResult (1 / 1000) 8).done = [⟨"o-001", Side.Sell, 1 / 10, 1 / 100, 0⟩] ∧
    (bookC1.notionalResult (1 / 1000) 8).rollback =
      some (Rollback.market none [⟨"o-001", Side.Sell, 1 / 10, 1 / 100, 0⟩] SideRef.asks) ∧
    bookC3.Order "o-001" = some ⟨"o-001", Side.Sell, 1 / 10, 1 / 100, 0⟩ ∧
    bookC3.Depth 0 = some ⟨[], [(1 / 100, 1 / 10)]⟩ :=
  ⟨reachable_bookC, by decide!, by decide!,
    ProcessMarketPriceBuy_some reachable_bookC _ _, by decide!, by decide!, by decide!,
    by decide!,
    ProcessMarketPriceBuy_some (reachable_bookC.afterNotional _ _) _ _, by decide!, by decide!,
    by decide!, by decide!, by decide!⟩

/-- C2: single-operation rollback.  On a book reachable from `NewOrderBook()`, for every
successful call of `ProcessLimitOrder` (with a non-empty id), `ProcessMarketQuantityOrder`,
`ProcessMarketPriceBuy` or `CancelOrder` that returns a rollback, the book after the rollback
has been run right away holds the same book as before the call: on each side the same price
levels with the same volumes and, level by level, the same resting orders (id, side, quantity,
price, time) up to their order in the queue; `Depth(0)` is equal; and `Order` resolves every id
to the same order. -/
theorem single_operation_rollback {ob : OrderBook} (h : Reachable ob) :
    (∀ (side : Side) (orderID : String) (quantity price : Decimal) (now : Nat)
        (r : LimitResult) (ob1 : OrderBook) (rb : Rollback), orderID ≠ "" →
        ob.ProcessLimitOrder side orderID quantity price now = some (r, ob1) →
        r.err = none → r.rollback = some rb → SameBook ob (rb.run ob1)) ∧
    (∀ (side : Side) (quantity : Decimal) (r : MarketResult) (ob1 : OrderBook)
        (rb : Rollback), ob.ProcessMarketQuantityOrder side quantity = some (r, ob1) →
        r.err = none → r.rollback = some rb → SameBook ob (rb.run ob1)) ∧
    (∀ (price : Decimal) (places : Int) (r : MarketResult) (ob1 : OrderBook) (rb : Rollback),
        ob.ProcessMarketPriceBuy price places = some (r, ob1) →
        r.err = none → r.rollback = some rb → SameBook ob (rb.run ob1)) ∧
    (∀ (orderID : String) (rb : Rollback), (ob.CancelOrder orderID).1.2 = some rb →
        SameBook ob (rb.run (ob.CancelOrder orderID).2)) :=
  ⟨fun _ _ _ _ _ _ _ _ hne hr herr hrb => rollback_limit h.wf (length_pos_of_ne hne) hr herr hrb,
    fun _ _ _ _ _ hr herr hrb => rollback_market h.wf hr herr hrb,
    fun _ _ _ _ _ hr herr hrb => rollback_notional h.wf hr herr hrb,
    fun _ _ hrb => rollback_cancel h.wf hrb⟩

set_option maxRecDepth 100000 in
/-- C2, at a concrete input: on the book holding the sells `s1` (2 at 100) and `s2` (3 at 100)
and the buy `b1` (4 at 90), the rollbacks of a limit buy of 6 at 100 (which consumes both
sells and rests with 1), of a market sell of 1, of a notional buy of 250 and of the
cancellation of `s1` each give the book back. -/
theorem single_operation_rollback_witness :
    SameBook bookB
      ((Rollback.limit "b9" none
          [⟨"s1", Side.Sell, 2, 100, 1⟩, ⟨"s2", Side.Sell, 3, 100, 2⟩] SideRef.asks).run
        (bookB.afterLimit Side.Buy "b9" 6 100 9)) ∧
    SameBook bookB
      ((Rollback.market (some ⟨2, 2, ⟨"b1", Side.Buy, 4, 90, 3⟩⟩) [] SideRef.bids).run
        (bookB.afterMarket Side.Sell 1)) ∧
    SameBook bookB
      ((Rollback.market (some ⟨0, 1, ⟨"s2", Side.Sell, 3, 100, 2⟩⟩)
          [⟨"s1", Side.Sell, 2, 100, 1⟩] SideRef.asks).run
        (bookB.afterNotional 250 2)) ∧
    SameBook bookB
      ((Rollback.cancel ⟨"s1", Side.Sell, 2, 100, 1⟩).run (bookB.CancelOrder "s1").2) :=
  ⟨(single_operation_rollback reachable_bookB).1 Side.Buy "b9" 6 100 9 _ _ _ (by decide)
      (ProcessLimitOrder_some reachable_bookB Side.Buy "b9" 6 100 9) (by decide!) (by decide!),
    (single_operation_rollback reachable_bookB).2.1 Side.Sell 1 _ _ _
      (ProcessMarketQuantityOrder_some reachable_bookB Side.Sell 1) (by decide!) (by decide!),
    (single_operation_rollback reachable_bookB).2.2.1 250 2 _ _ _
      (ProcessMarketPriceBuy_some reachable_bookB 250 2) (by decide!) (by decide!),
    (single_operation_rollback reachable_bookB).2.2.2 "s1" _ (by decide!)⟩

/-- C11: no-cross quiescence.  In every book reachable from `NewOrderBook()` by successful
calls of `ProcessLimitOrder`, `ProcessMarketQuantityOrder`, `ProcessMarketPriceBuy` and
`CancelOrder`, if both sides are non-empty the highest bid price is strictly less than the
lowest ask price; indeed every bid level is priced below every ask level. -/
theorem no_cross_quiescence {ob : OrderBook} (h : Reachable ob) :
    (∀ b a, ob.bids.MaxPriceQueue = some b → ob.asks.MinPriceQueue = some a →
      b.price < a.price) ∧
    ∀ b ∈ ob.bids.priceTree, ∀ a ∈ ob.asks.priceTree, b.price < a.price := by
  refine ⟨fun b a hb ha => ?_, h.noCross⟩
  exact h.noCross b (List.mem_of_mem_getLast? hb) a (List.mem_of_mem_head? ha)

set_option maxRecDepth 100000 in
/-- C11, at a concrete input: the book holding sells at 100 and a buy at 90. -/
theorem no_cross_quiescence_witness :
    ((∀ b a, bookB.bids.MaxPriceQueue = some b → bookB.asks.MinPriceQueue = some a →
      b.price < a.price) ∧
    ∀ b ∈ bookB.bids.priceTree, ∀ a ∈ bookB.asks.priceTree, b.price < a.price) ∧
    bookB.bids.MaxPriceQueue = some ⟨2, 4, 90, [2]⟩ ∧
    bookB.asks.MinPriceQueue = some ⟨0, 5, 100, [0, 1]⟩ :=
  ⟨no_cross_quiescence reachable_bookB, by decide!, by decide!⟩

/-- C12: index fidelity and id uniqueness.  In every book reachable from `NewOrderBook()` by
successful calls of the four mutating operations: no two resting orders share an id; every
resting order is resolved by `Order` of its id; the index holds, for the id of every resting
element, that element, and every element in the index is a resting element; and for every id
that `Order` resolves, the order has that id and rests in the queue of the level of its price
on the side of its side (bids for a buy, asks for a sell). -/
theorem index_fidelity {ob : OrderBook} (h : Reachable ob) :
    ((ob.resting SideRef.asks ++ ob.resting SideRef.bids).map (fun o => o.id)).Nodup ∧
    (∀ s, ∀ o ∈ ob.resting s, ob.Order o.id = some o) ∧
    (∀ s, ∀ e ∈ (ob.side s).refs, ob.orders (ob.values e).id = some e) ∧
    (∀ id e, ob.orders id = some e →
      (ob.values e).id = id ∧ e ∈ (ob.side (halfOf (ob.values e).side)).refs) ∧
    (∀ id, (ob.orders id).isSome = true → ∃ o, ob.Order id = some o) ∧
    (∀ id o, ob.Order id = some o →
      o.id = id ∧ ∃ q ∈ (ob.side (halfOf o.side)).priceTree,
        q.price = o.price ∧ o ∈ q.orders.map ob.values) := by
  have hw := h.wf
  refine ⟨hw.resting_ids_nodup, fun s o ho => hw.Order_resting ho, hw.index_complete,
    hw.index_sound, ?_, fun id o ho => hw.Order_level ho⟩
  intro id hid
  rw [← Order_isSome] at hid
  exact Option.isSome_iff_exists.1 hid

set_option maxRecDepth 100000 in
/-- C12, at a concrete input: the book holding the sells `s1`, `s2` and the buy `b1`. -/
theorem index_fidelity_witness :
    (((bookB.resting SideRef.asks ++ bookB.resting SideRef.bids).map (fun o => o.id)).Nodup ∧
    (∀ s, ∀ o ∈ bookB.resting s, bookB.Order o.id = some o) ∧
    (∀ s, ∀ e ∈ (bookB.side s).refs, bookB.orders (bookB.values e).id = some e) ∧
    (∀ id e, bookB.orders id = some e →
      (bookB.values e).id = id ∧ e ∈ (bookB.side (halfOf (bookB.values e).side)).refs) ∧
    (∀ id, (bookB.orders id).isSome = true → ∃ o, bookB.Order id = some o) ∧
    (∀ id o, bookB.Order id = some o →
      o.id = id ∧ ∃ q ∈ (bookB.side (halfOf o.side)).priceTree,
        q.price = o.price ∧ o ∈ q.orders.map bookB.values)) ∧
    (bookB.resting SideRef.asks ++ bookB.resting SideRef.bids).map (fun o => o.id) =
      ["s1", "s2", "b1"] :=
  ⟨index_fidelity reachable_bookB, by decide!⟩

/-- C13: level volume consistency.  In every book reachable from `NewOrderBook()` by
successful calls of the four mutating operations, every price level on either side is
non-empty, holds only orders of strictly positive quantity, and has as its volume the sum of
the quantities of the orders resting in it; and `Depth(0)` reports for every level its price
with that sum. -/
theorem level_volume_consistency {ob : OrderBook} (h : Reachable ob) :
    (∀ s, ∀ q ∈ (ob.side s).priceTree,
      q.orders ≠ [] ∧ (∀ o ∈ q.orders.map ob.values, 0 < o.quantity) ∧
      q.volume = sumQty (q.orders.map ob.values)) ∧
    ob.Depth 0 = some
      { Bids := ob.bids.priceTree.reverse.map
          (fun q => (q.price, sumQty (q.orders.map ob.values))),
        Asks := ob.asks.priceTree.map
          (fun q => (q.price, sumQty (q.orders.map ob.values))) } := by
  have hw := h.wf
  refine ⟨fun s q hq => hw.level_facts hq, ?_⟩
  rw [Depth_zero hw]
  have ha : ob.asks.priceTree.map (fun q => (q.price, q.volume)) =
      ob.asks.priceTree.map (fun q => (q.price, sumQty (q.orders.map ob.values))) :=
    List.map_congr_left (fun q hq => by rw [(hw.level_facts (s := SideRef.asks) hq).2.2])
  have hb : ob.bids.priceTree.reverse.map (fun q => (q.price, q.volume)) =
      ob.bids.priceTree.reverse.map (fun q => (q.price, sumQty (q.orders.map ob.values))) :=
    List.map_congr_left (fun q hq => by
      rw [(hw.level_facts (s := SideRef.bids) (List.mem_reverse.1 hq)).2.2])
  rw [ha, hb]

set_option maxRecDepth 100000 in
/-- C13, at a concrete input: the book holding the sells `s1` (2 at 100), `s2` (3 at 100) and
the buy `b1` (4 at 90) reports the volume 5 at 100 and the volume 4 at 90. -/
theorem level_volume_consistency_witness :
    ((∀ s, ∀ q ∈ (bookB.side s).priceTree,
      q.orders ≠ [] ∧ (∀ o ∈ q.orders.map bookB.values, 0 < o.quantity) ∧
      q.volume = sumQty (q.orders.map bookB.values)) ∧
    bookB.Depth 0 = some
      { Bids := bookB.bids.priceTree.reverse.map
          (fun q => (q.price, sumQty (q.orders.map bookB.values))),
        Asks := bookB.asks.priceTree.map
          (fun q => (q.price, sumQty (q.orders.map bookB.values))) }) ∧
    bookB.Depth 0 = some ⟨[(90, 4)], [(100, 5)]⟩ :=
  ⟨level_volume_consistency reachable_bookB, by decide!⟩

/-- C14: `CancelOrder(id)` on a book reachable from `NewOrderBook()`.  If no order with the id
is resting it returns (nil, nil) and the book is the book it was called on.  Otherwise it
returns the resting order `o` with that id (held by the element `e` of the level `q` of its
price on its side); afterwards `Order(id)` is nil and `Order` resolves every other id as
before; the other levels of the side, the other side and the values of all elements are as
before, and the level `q` holds its other elements in their order, its volume less the
quantity of `o`, unless `o` was its only order, in which case the level is gone; `Depth(0)`
does not list the price of `q` exactly when `o` was its only order, and otherwise lists it with
the reduced volume. -/
theorem cancel_order_effect {ob : OrderBook} (h : Reachable ob) (orderID : String) :
    (¬ IsResting ob orderID → ob.CancelOrder orderID = ((none, none), ob)) ∧
    (IsResting ob orderID → ∃ o e l1 q l2 d,
      (ob.CancelOrder orderID).1 = (some o, some (Rollback.cancel o)) ∧ o.id = orderID ∧
      o ∈ ob.resting (halfOf o.side) ∧ ob.values e = o ∧
      (ob.side (halfOf o.side)).priceTree = l1 ++ q :: l2 ∧ e ∈ q.orders ∧
      q.price = o.price ∧
      ((ob.CancelOrder orderID).2.side (halfOf o.side)).priceTree =
        l1 ++ (if q.orders = [e] then l2
          else { q with volume := q.volume - o.quantity, orders := q.orders.erase e } :: l2) ∧
      (∀ s', s' ≠ halfOf o.side → (ob.CancelOrder orderID).2.side s' = ob.side s') ∧
      (ob.CancelOrder orderID).2.values = ob.values ∧
      (ob.CancelOrder orderID).2.Order orderID = none ∧
      (∀ id', id' ≠ orderID → (ob.CancelOrder orderID).2.Order id' = ob.Order id') ∧
      (ob.CancelOrder orderID).2.Depth 0 = some d ∧
      (q.price ∉ (d.Asks ++ d.Bids).map Prod.fst ↔ q.orders = [e]) ∧
      (q.orders ≠ [e] →
        (q.price, q.volume - o.quantity) ∈ (if o.side = Side.Buy then d.Bids else d.Asks))) := by
  have hw := h.wf
  constructor
  · intro hno
    exact CancelOrder_absent (hw.not_resting hno)
  · intro hres
    obtain ⟨e, hid⟩ := Option.isSome_iff_exists.1 ((hw.isResting_iff orderID).1 hres)
    obtain ⟨l1, q, l2, c1, c2, c3, c4, c5, c6, c7, c8, c9⟩ := CancelOrder_present hw hid
    obtain ⟨d, hd, hdq⟩ := CancelOrder_depth hw h.noCross hid
    have hq : q ∈ (ob.side (halfOf (ob.values e).side)).priceTree := by rw [c3]; simp
    obtain ⟨o1, o2⟩ := Order_update_none c8 c9
    obtain ⟨d1, d2⟩ := hdq q hq c4
    exact ⟨ob.values e, e, l1, q, l2, d, c1, c2, mem_resting.2 ⟨e, mem_refs.2 ⟨q, hq, c4⟩, rfl⟩,
      rfl, c3, c4, c5, c6, c7, c8, o1, o2, hd, d1, d2⟩

set_option maxRecDepth 100000 in
/-- C14, at a concrete input: on the book holding the sells `s1` (2 at 100), `s2` (3 at 100)
and the buy `b1` (4 at 90), cancelling `s1` returns it and leaves the volume 3 at 100, and
cancelling `x` changes nothing. -/
theorem cancel_order_effect_witness :
    (bookB.CancelOrder "x" = ((none, none), bookB)) ∧
    (∃ o e l1 q l2 d,
      (bookB.CancelOrder "s1").1 = (some o, some (Rollback.cancel o)) ∧ o.id = "s1" ∧
      o ∈ bookB.resting (halfOf o.side) ∧ bookB.values e = o ∧
      (bookB.side (halfOf o.side)).priceTree = l1 ++ q :: l2 ∧ e ∈ q.orders ∧
      q.price = o.price ∧
      ((bookB.CancelOrder "s1").2.side (halfOf o.side)).priceTree =
        l1 ++ (if q.orders = [e] then l2
          else { q with volume := q.volume - o.quantity, orders := q.orders.erase e } :: l2) ∧
      (∀ s', s' ≠ halfOf o.side → (bookB.CancelOrder "s1").2.side s' = bookB.side s') ∧
      (bookB.CancelOrder "s1").2.values = bookB.values ∧
      (bookB.CancelOrder "s1").2.Order "s1" = none ∧
      (∀ id', id' ≠ "s1" → (bookB.CancelOrder "s1").2.Order id' = bookB.Order id') ∧
      (bookB.CancelOrder "s1").2.Depth 0 = some d ∧
      (q.price ∉ (d.Asks ++ d.Bids).map Prod.fst ↔ q.orders = [e]) ∧
      (q.orders ≠ [e] →
        (q.price, q.volume - o.quantity) ∈
          (if o.side = Side.Buy then d.Bids else d.Asks))) ∧
    (bookB.CancelOrder "s1").1.1 = some ⟨"s1", Side.Sell, 2, 100, 1⟩ ∧
    (bookB.CancelOrder "s1").2.Depth 0 = some ⟨[(90, 4)], [(100, 3)]⟩ :=
  ⟨(cancel_order_effect reachable_bookB "x").1
      (fun hr => absurd ((reachable_bookB.wf.isResting_iff _).1 hr) (by decide!)),
    (cancel_order_effect reachable_bookB "s1").2
      ((reachable_bookB.wf.isResting_iff _).2 (by decide!)),
    by decide!, by decide!⟩

/-- C17: the leftover of a market order.  On a book reachable from `NewOrderBook()`, for every
side and every positive quantity, `ProcessMarketQuantityOrder` returns without error with
`quantityLeft` the larger of zero and the quantity less the total volume of the opposite side
(the sum of its level volumes, which is the sum of the quantities of its resting orders); and
when `quantityLeft` is positive the opposite side has no level afterwards, `partial` is nil
and `partialQuantityProcessed` is zero. -/
theorem market_order_leftover {ob : OrderBook} (h : Reachable ob) (side : Side)
    (quantity : Decimal) (hq : 0 < quantity) :
    ∃ r ob1, ob.ProcessMarketQuantityOrder side quantity = some (r, ob1) ∧ r.err = none ∧
      r.left = max 0 (quantity - (ob.side (oppositeOf side)).totalVolume) ∧
      (ob.side (oppositeOf side)).totalVolume = sumQty (ob.resting (oppositeOf side)) ∧
      (0 < r.left →
        (ob1.side (oppositeOf side)).priceTree = [] ∧ r.partialOrd = none ∧
        r.partialQuantityProcessed = 0) := by
  obtain ⟨h1, h2⟩ := fill_leftover h.wf (oppositeOf side) hq
  exact ⟨_, _, ProcessMarketQuantityOrder_eq h.wf side hq, rfl, h1,
    h.wf.totalVolume_eq _, h2⟩

set_option maxRecDepth 100000 in
/-- C17, at a concrete input: on the book holding the sells `s1` (2 at 100) and `s2` (3 at
110), a market buy of 7 leaves 2 and empties the asks. -/
theorem market_order_leftover_witness :
    (∃ r ob1, bookA.ProcessMarketQuantityOrder Side.Buy 7 = some (r, ob1) ∧ r.err = none ∧
      r.left = max 0 (7 - (bookA.side (oppositeOf Side.Buy)).totalVolume) ∧
      (bookA.side (oppositeOf Side.Buy)).totalVolume =
        sumQty (bookA.resting (oppositeOf Side.Buy)) ∧
      (0 < r.left →
        (ob1.side (oppositeOf Side.Buy)).priceTree = [] ∧ r.partialOrd = none ∧
        r.partialQuantityProcessed = 0)) ∧
    (bookA.marketResult Side.Buy 7).left = 2 ∧
    (bookA.side (oppositeOf Side.Buy)).totalVolume = 5 ∧
    (bookA.afterMarket Side.Buy 7).asks.priceTree = [] :=
  ⟨market_order_leftover reachable_bookA Side.Buy 7 (by norm_num),
    by decide!, by decide!, by decide!⟩

/-- C20: a limit order that crosses nothing rests untouched.  On a book reachable from
`NewOrderBook()`, for an id that is not resting, a positive quantity and a positive price such
that the opposite side is empty or its best price does not cross the price (best ask above
the price of a buy, best bid below the price of a sell), `ProcessLimitOrder` returns no error,
an empty `done`, a nil `partial` and zero `partialQuantityProcessed`; the opposite side is as
it was; `Order(id)` returns the order (id, side, quantity, price); the order is the last one
of the level of its price on its own side; and on that side the volume at the price has grown
by exactly the quantity (from zero if there was no such level) while the volume at every
other price is as it was. -/
theorem non_crossing_limit_rests {ob : OrderBook} (h : Reachable ob) (side : Side)
    (orderID : String) (quantity price : Decimal) (now : Nat)
    (hid : ¬ IsResting ob orderID) (hq : 0 < quantity) (hp : 0 < price)
    (hbuy : side = Side.Buy → ∀ q, ob.asks.MinPriceQueue = some q → price < q.price)
    (hsell : side = Side.Sell → ∀ q, ob.bids.MaxPriceQueue = some q → q.price < price) :
    ∃ r ob1, ob.ProcessLimitOrder side orderID quantity price now = some (r, ob1) ∧
      r.err = none ∧ r.done = [] ∧ r.partialOrd = none ∧ r.partialQuantityProcessed = 0 ∧
      ob1.side (oppositeOf side) = ob.side (oppositeOf side) ∧
      ob1.Order orderID = some (NewOrder orderID side quantity price now) ∧
      (∃ q ∈ (ob1.side (halfOf side)).priceTree, q.price = price ∧
        q.orders.getLast?.map ob1.values = some (NewOrder orderID side quantity price now)) ∧
      (ob1.side (halfOf side)).volumeAt price =
        (ob.side (halfOf side)).volumeAt price + quantity ∧
      (∀ p, p ≠ price →
        (ob1.side (halfOf side)).volumeAt p = (ob.side (halfOf side)).volumeAt p) := by
  have hw := h.wf
  have hce : ob.crossElems (oppositeOf side) side price = [] := by
    apply crossElems_nil_of_best
    intro q hb
    cases side with
    | Buy =>
      rw [comparator_buy]
      exact not_le.2 (hbuy rfl q hb)
    | Sell =>
      rw [comparator_sell]
      exact not_le.2 (hsell rfl q hb)
  refine ⟨_, _, limit_non_crossing hw side now (hw.not_resting hid) hq hp hce, rfl, rfl, rfl,
    rfl, Append_side_ne ob _ (oppositeOf_ne side).symm, Append_Order _ _ _,
    Append_tail hw (halfOf side) _, ?_, ?_⟩
  · rw [Append_volumeAt hw]
    simp [NewOrder]
  · intro p hpne
    rw [Append_volumeAt hw]
    simp [NewOrder, hpne]

set_option maxRecDepth 100000 in
/-- C20, at a concrete input: on the book holding the sells `s1` (2 at 100), `s2` (3 at 100)
and the buy `b1` (4 at 90), a limit buy of 5 at 90 rests behind `b1`; the volume at 90 grows
from 4 to 9. -/
theorem non_crossing_limit_rests_witness :
    (∃ r ob1, bookB.ProcessLimitOrder Side.Buy "b2" 5 90 7 = some (r, ob1) ∧
      r.err = none ∧ r.done = [] ∧ r.partialOrd = none ∧ r.partialQuantityProcessed = 0 ∧
      ob1.side (oppositeOf Side.Buy) = bookB.side (oppositeOf Side.Buy) ∧
      ob1.Order "b2" = some (NewOrder "b2" Side.Buy 5 90 7) ∧
      (∃ q ∈ (ob1.side (halfOf Side.Buy)).priceTree, q.price = 90 ∧
        q.orders.getLast?.map ob1.values = some (NewOrder "b2" Side.Buy 5 90 7)) ∧
      (ob1.side (halfOf Side.Buy)).volumeAt 90 =
        (bookB.side (halfOf Side.Buy)).volumeAt 90 + 5 ∧
      (∀ p, p ≠ 90 →
        (ob1.side (halfOf Side.Buy)).volumeAt p = (bookB.side (halfOf Side.Buy)).volumeAt p)) ∧
    (bookB.side (halfOf Side.Buy)).volumeAt 90 = 4 ∧
    ((bookB.afterLimit Side.Buy "b2" 5 90 7).side (halfOf Side.Buy)).volumeAt 90 = 9 :=
  ⟨non_crossing_limit_rests reachable_bookB Side.Buy "b2" 5 90 7
      (fun hr => absurd ((reachable_bookB.wf.isResting_iff _).1 hr) (by decide!))
      (by norm_num) (by norm_num)
      (fun _ q hq => by
        have h1 : bookB.asks.MinPriceQueue = some ⟨0, 5, 100, [0, 1]⟩ := by decide!
        rw [h1] at hq
        rw [← Option.some.inj hq]
        norm_num)
      (fun hs => absurd hs (by decide)),
    by decide!, by decide!⟩

/-- C19: `Depth(max)` on a book reachable from `NewOrderBook()` returns; `Asks` lists the
(price, volume) pairs of the ask levels from the lowest price upwards and `Bids` those of the
bid levels from the highest price downwards, all levels of the side when `max` is not positive
and the first `min(max, number of levels)` of them when `max` is positive; the prices in
`Asks` are strictly ascending and those in `Bids` strictly descending, so no level appears
twice. -/
theorem depth_snapshot {ob : OrderBook} (h : Reachable ob) (max : Int) :
    ∃ d, ob.Depth max = some d ∧
      (max ≤ 0 →
        d.Asks = ob.asks.priceTree.map (fun q => (q.price, q.volume)) ∧
        d.Bids = ob.bids.priceTree.reverse.map (fun q => (q.price, q.volume))) ∧
      (0 < max →
        d.Asks = (ob.asks.priceTree.map (fun q => (q.price, q.volume))).take max.toNat ∧
        d.Bids =
          (ob.bids.priceTree.reverse.map (fun q => (q.price, q.volume))).take max.toNat ∧
        d.Asks.length = min max.toNat ob.asks.priceTree.length ∧
        d.Bids.length = min max.toNat ob.bids.priceTree.length) ∧
      ob.asks.priceTree.Pairwise (fun a b => a.price < b.price) ∧
      ob.bids.priceTree.reverse.Pairwise (fun a b => b.price < a.price) ∧
      (d.Asks.map Prod.fst).Pairwise (fun a b => a < b) ∧
      (d.Bids.map Prod.fst).Pairwise (fun a b => b < a) := by
  have hw := h.wf
  have hsa : ob.asks.priceTree.Pairwise (fun a b => a.price < b.price) := hw.sorted SideRef.asks
  have hsb : ob.bids.priceTree.reverse.Pairwise (fun a b => b.price < a.price) := by
    rw [List.pairwise_reverse]; exact hw.sorted SideRef.bids
  have hpa : ((ob.asks.priceTree.map (fun q => (q.price, q.volume))).map Prod.fst).Pairwise
      (fun a b => a < b) := by
    rw [List.map_map, List.pairwise_map]; exact hsa
  have hpb : ((ob.bids.priceTree.reverse.map (fun q => (q.price, q.volume))).map
      Prod.fst).Pairwise (fun a b => b < a) := by
    rw [List.map_map, List.pairwise_map]; exact hsb
  refine ⟨_, Depth_cap hw max, ?_, ?_, hsa, hsb, depthCap_sorted max hpa,
    depthCap_sorted max hpb⟩
  · intro hm
    simp only [depthCap, not_lt.2 hm, if_false, and_self]
  · intro hm
    simp only [depthCap, hm, if_true, List.length_take, List.length_map, List.length_reverse,
      and_self]

set_option maxRecDepth 100000 in
/-- C19, at a concrete input: on the book holding the sells `s1` (2 at 100) and `s2` (3 at
110), `Depth(1)` lists the level at 100 only and `Depth(0)` both levels. -/
theorem depth_snapshot_witness :
    (∃ d, bookA.Depth 1 = some d ∧
      ((1 : Int) ≤ 0 →
        d.Asks = bookA.asks.priceTree.map (fun q => (q.price, q.volume)) ∧
        d.Bids = bookA.bids.priceTree.reverse.map (fun q => (q.price, q.volume))) ∧
      ((0 : Int) < 1 →
        d.Asks = (bookA.asks.priceTree.map (fun q => (q.price, q.volume))).take (1 : Int).toNat ∧
        d.Bids =
          (bookA.bids.priceTree.reverse.map (fun q => (q.price, q.volume))).take
            (1 : Int).toNat ∧
        d.Asks.length = min (1 : Int).toNat bookA.asks.priceTree.length ∧
        d.Bids.length = min (1 : Int).toNat bookA.bids.priceTree.length) ∧
      bookA.asks.priceTree.Pairwise (fun a b => a.price < b.price) ∧
      bookA.bids.priceTree.reverse.Pairwise (fun a b => b.price < a.price) ∧
      (d.Asks.map Prod.fst).Pairwise (fun a b => a < b) ∧
      (d.Bids.map Prod.fst).Pairwise (fun a b => b < a)) ∧
    bookA.Depth 1 = some ⟨[], [(100, 2)]⟩ ∧
    bookA.Depth 0 = some ⟨[], [(100, 2), (110, 3)]⟩ :=
  ⟨depth_snapshot reachable_bookA 1, by decide!, by decide!⟩

/-- C18, as worded, fails on a negative quantity: on the book holding the sells `s1` (2 at
100) and `s2` (3 at 110), `CalculateMarketPrice(Buy, -1)` walks no level and returns price 0
without an error, while the sum of `level.price · min(quantity still unfilled, level.volume)`
over the ask levels is -100. -/
theorem calculate_market_price_negative_quantity :
    Reachable bookA ∧
    bookA.CalculateMarketPrice Side.Buy (-1) = some (0, none) ∧
    specMarketPrice (bookA.view (oppositeOf Side.Buy)) (-1) = -100 :=
  ⟨reachable_bookA, by decide!, by decide!⟩

/-- C18, amended: `CalculateMarketPrice(side, quantity)` on a book reachable from
`NewOrderBook()` returns; for a quantity that is not negative the price is the sum, over the
levels of the opposite side from the best price outwards, of
`level.price · min(quantity still unfilled, level.volume)`; for a quantity that is not
positive the price is 0; the error is `ErrInsufficientQuantity` exactly when the quantity
exceeds the total volume of the opposite side and nil otherwise, and in the first case the
price is the sum of `level.price · level.volume` over all levels of that side. -/
theorem calculate_market_price {ob : OrderBook} (h : Reachable ob) (side : Side)
    (quantity : Decimal) :
    ∃ price, ob.CalculateMarketPrice side quantity =
        some (price, if (ob.side (oppositeOf side)).totalVolume < quantity
          then some Error.ErrInsufficientQuantity else none) ∧
      (0 ≤ quantity → price = specMarketPrice (ob.view (oppositeOf side)) quantity) ∧
      (quantity ≤ 0 → price = 0) ∧
      ((ob.side (oppositeOf side)).totalVolume < quantity →
        price = ((ob.view (oppositeOf side)).map (fun q => q.price * q.volume)).sum) := by
  have hw := h.wf
  have hv := hw.view_volume_pos (oppositeOf side)
  have htot := sumVol_nonneg hv
  rw [view_totalVolume] at htot
  by_cases hq : 0 ≤ quantity
  · refine ⟨_, CalculateMarketPrice_eq hw side quantity hq, fun _ => rfl, ?_, ?_⟩
    · intro h0
      rw [le_antisymm h0 hq]
      exact specMarketPrice_zero hv
    · intro hlt
      exact specMarketPrice_all hv quantity (by rw [view_totalVolume]; exact le_of_lt hlt)
  · have hneg : quantity < 0 := not_le.1 hq
    refine ⟨0, ?_, fun k => absurd k hq, fun _ => rfl, fun k => ?_⟩
    · rw [CalculateMarketPrice_nonpos ob side quantity (le_of_lt hneg),
        if_neg (not_lt.2 (le_trans (le_of_lt hneg) htot))]
    · exact absurd (lt_of_le_of_lt htot k) (not_lt.2 (le_of_lt hneg))

set_option maxRecDepth 100000 in
/-- C18, at concrete inputs: on the book holding the sells `s1` (2 at 100) and `s2` (3 at
110), pricing a buy of 4 gives 2·100 + 2·110 = 420 without an error, and pricing a buy of 6
gives 2·100 + 3·110 = 530 with `ErrInsufficientQuantity`. -/
theorem calculate_market_price_witness :
    (∃ price, bookA.CalculateMarketPrice Side.Buy 4 =
        some (price, if (bookA.side (oppositeOf Side.Buy)).totalVolume < 4
          then some Error.ErrInsufficientQuantity else none) ∧
      ((0 : Decimal) ≤ 4 → price = specMarketPrice (bookA.view (oppositeOf Side.Buy)) 4) ∧
      ((4 : Decimal) ≤ 0 → price = 0) ∧
      ((bookA.side (oppositeOf Side.Buy)).totalVolume < 4 →
        price = ((bookA.view (oppositeOf Side.Buy)).map (fun q => q.price * q.volume)).sum)) ∧
    bookA.CalculateMarketPrice Side.Buy 4 = some (420, none) ∧
    bookA.CalculateMarketPrice Side.Buy 6 = some (530, some Error.ErrInsufficientQuantity) ∧
    bookB.CalculateMarketPrice Side.Sell 3 = some (270, none) :=
  ⟨calculate_market_price reachable_bookA Side.Buy 4, by decide!, by decide!, by decide!⟩

/-- C15: on a book reachable from `NewOrderBook()`, for every positive notional and every
`places`, `ProcessMarketPriceBuy` returns without error and the sum of quantity times price
over the orders in `done`, plus `partialQuantityProcessed` times the price of `partial` (0
when `partial` is nil), plus `priceLeft`, is the notional; the orders in `done` are whole
resting sells taken from the front of the asks, and `partial`, if any, is the first sell left,
the only order whose quantity the call changed. -/
theorem notional_buy_conservation {ob : OrderBook} (h : Reachable ob) (notional : Decimal)
    (places : Int) (hn : 0 < notional) :
    ∃ r ob1, ob.ProcessMarketPriceBuy notional places = some (r, ob1) ∧ r.err = none ∧
      sumValue r.done +
          (match r.partialOrd with
            | some po => r.partialQuantityProcessed * po.price
            | none => 0) + r.left = notional ∧
      ∃ esD esR, ob.elems SideRef.asks = esD ++ esR ∧ ob1.elems SideRef.asks = esR ∧
        r.done = esD.map (fun x => ob.values x.2) ∧
        ((r.partialOrd = none ∧ r.partialQuantityProcessed = 0 ∧
            ∀ x, x < ob.next → ob1.values x = ob.values x) ∨
          (∃ qref e tl, esR = (qref, e) :: tl ∧
            r.partialOrd = some (reduced (ob.values e) r.partialQuantityProcessed) ∧
            0 < r.partialQuantityProcessed ∧
            r.partialQuantityProcessed < (ob.values e).quantity ∧
            ob1.values e = reduced (ob.values e) r.partialQuantityProcessed ∧
            ∀ x, x < ob.next → x ≠ e → ob1.values x = ob.values x)) := by
  have hw := h.wf
  refine ⟨_, _, ProcessMarketPriceBuy_eq hw places hn, rfl, ?_, ?_⟩
  · have hv := notionalFill_value ob.values places (ob.view SideRef.asks)
      ⟨[], none, 0, notional, none⟩
      (fun q hq e he => (hw.mem_level (s := SideRef.asks) hq he).1) rfl
    simp only [LoopState.value, sumValue, List.map_nil, List.sum_nil, zero_add] at hv
    exact hv
  · obtain ⟨esD, esR, hF, hd⟩ := notional_Filled places (ob.view SideRef.asks) ob
      ⟨[], none, 0, notional, none⟩ hw rfl rfl rfl rfl
    refine ⟨esD, esR, hF.split, hF.elems, by simpa using hd, ?_⟩
    rcases hF.values with ⟨-, c2, c3, c4⟩ | ⟨qref, e, tl, c1, -, c3, c4, c5, c6, c7⟩
    · exact Or.inl ⟨c2, c3, c4⟩
    · exact Or.inr ⟨qref, e, tl, c1, c3, c4, c5, c6, c7⟩

set_option maxRecDepth 100000 in
/-- C15, at a concrete input: a notional buy of 310 (8 places) on the book holding the sells
`s1` (2 at 100) and `s2` (3 at 110) consumes `s1`, takes 1 of `s2` and leaves nothing:
2·100 + 1·110 + 0 = 310. -/
theorem notional_buy_conservation_witness :
    (∃ r ob1, bookA.ProcessMarketPriceBuy 310 8 = some (r, ob1) ∧ r.err = none ∧
      sumValue r.done +
          (match r.partialOrd with
            | some po => r.partialQuantityProcessed * po.price
            | none => 0) + r.left = 310 ∧
      ∃ esD esR, bookA.elems SideRef.asks = esD ++ esR ∧ ob1.elems SideRef.asks = esR ∧
        r.done = esD.map (fun x => bookA.values x.2) ∧
        ((r.partialOrd = none ∧ r.partialQuantityProcessed = 0 ∧
            ∀ x, x < bookA.next → ob1.values x = bookA.values x) ∨
          (∃ qref e tl, esR = (qref, e) :: tl ∧
            r.partialOrd = some (reduced (bookA.values e) r.partialQuantityProcessed) ∧
            0 < r.partialQuantityProcessed ∧
            r.partialQuantityProcessed < (bookA.values e).quantity ∧
            ob1.values e = reduced (bookA.values e) r.partialQuantityProcessed ∧
            ∀ x, x < bookA.next → x ≠ e → ob1.values x = bookA.values x))) ∧
    (bookA.notionalResult 310 8).done = [⟨"s1", Side.Sell, 2, 100, 1⟩] ∧
    (bookA.notionalResult 310 8).partialOrd = some ⟨"s2", Side.Sell, 2, 110, 2⟩ ∧
    (bookA.notionalResult 310 8).partialQuantityProcessed = 1 ∧
    (bookA.notionalResult 310 8).left = 0 :=
  ⟨notional_buy_conservation reachable_bookA 310 8 (by norm_num),
    by decide!, by decide!, by decide!, by decide!⟩

/-- C16: on a book reachable from `NewOrderBook()` whose best ask level `q` has price `p` and
volume `V`, for every quantity `x` with `0 < x ≤ V` that has at most `places` decimal places
(`x = n / 10 ^ places`), `ProcessMarketPriceBuy(p · x, places)` returns without error with
`priceLeft = 0`; the orders in `done` and `partial` rest at price `p` and their filled
quantities add up to `x`; the bids, the other ask levels and their orders are as before; with
`x = V` the level is removed and with `x < V` it stays with volume `V - x`; so a book holding
a single sell has empty asks after a notional buy of its price times its quantity. -/
theorem exact_notional_buy {ob : OrderBook} (h : Reachable ob) {q : OrderQueue}
    {rest : List OrderQueue} (hbest : ob.asks.priceTree = q :: rest) (places : Int) (n : ℤ)
    (x : Decimal) (hx : x = (n : ℚ) / (10 : ℚ) ^ places) (h0 : 0 < x) (hV : x ≤ q.volume) :
    ∃ r ob1, ob.ProcessMarketPriceBuy (q.price * x) places = some (r, ob1) ∧ r.err = none ∧
      r.left = 0 ∧
      sumQty r.done + r.partialQuantityProcessed = x ∧
      (∀ o ∈ r.done, o.price = q.price) ∧
      (∀ po, r.partialOrd = some po → po.price = q.price) ∧
      ob1.bids = ob.bids ∧
      (∀ q2 ∈ ob.bids.priceTree, ∀ e ∈ q2.orders, ob1.values e = ob.values e) ∧
      (∀ q2 ∈ rest, ∀ e ∈ q2.orders, ob1.values e = ob.values e) ∧
      (x = q.volume → ob1.asks.priceTree = rest) ∧
      (x < q.volume → ∃ q1, ob1.asks.priceTree = q1 :: rest ∧ q1.price = q.price ∧
        q1.volume = q.volume - x) ∧
      (∀ e, q.orders = [e] → rest = [] → x = (ob.values e).quantity →
        ob1.asks.priceTree = []) := by
  have hw := h.wf
  obtain ⟨rb, hcall⟩ := ProcessMarketPriceBuy_exact hw hbest places n hx h0 hV
  obtain ⟨-, k2, k3, k4, k5, k6, k7, k8⟩ := fill_best_ask hw hbest h0 hV
  have hq : q ∈ (ob.side SideRef.asks).priceTree := by
    show q ∈ ob.asks.priceTree
    rw [hbest]; simp
  refine ⟨_, _, hcall, rfl, rfl, k2, k3, k4, k5, ?_, ?_, k6, k7, ?_⟩
  · intro q2 hq2 e he
    apply k8
    intro hc
    have hb : e ∈ (ob.side SideRef.bids).refs := mem_refs.2 ⟨q2, hq2, he⟩
    have hsu : SideRef.asks = SideRef.bids := hw.side_unique (mem_refs.2 ⟨q, hq, hc⟩) hb
    exact SideRef.noConfusion hsu
  · intro q2 hq2 e he
    apply k8
    intro hc
    have hq2' : q2 ∈ (ob.side SideRef.asks).priceTree := by
      show q2 ∈ ob.asks.priceTree
      rw [hbest]; simp [hq2]
    have heq := hw.level_unique hq hq2' hc he
    have hs := hw.sorted SideRef.asks
    have hs' : (q :: rest).Pairwise (fun a b => a.price < b.price) := by
      rw [← hbest]; exact hs
    have hlt := (List.pairwise_cons.1 hs').1 q2 hq2
    rw [heq] at hlt
    exact lt_irrefl _ hlt
  · intro e he hrest hxe
    have hvol := (hw.level SideRef.asks q hq).volume
    rw [he] at hvol
    simp only [List.map_cons, List.map_nil, List.sum_cons, List.sum_nil, add_zero] at hvol
    rw [← hrest]
    exact k6 (by rw [hxe, hvol])

set_option maxRecDepth 100000 in
/-- C16, at a concrete input: on the book holding the one sell `o1` (0.1 at 0.01), a notional
buy of 0.01 · 0.1 = 0.001 with 8 places consumes `o1`, leaves the asks empty and returns
`priceLeft = 0`. -/
theorem exact_notional_buy_witness :
    (∃ r ob1, bookD.ProcessMarketPriceBuy
        ((⟨0, 1 / 10, 1 / 100, [0]⟩ : OrderQueue).price * (1 / 10)) 8 = some (r, ob1) ∧
      r.err = none ∧ r.left = 0 ∧
      sumQty r.done + r.partialQuantityProcessed = 1 / 10 ∧
      (∀ o ∈ r.done, o.price = (⟨0, 1 / 10, 1 / 100, [0]⟩ : OrderQueue).price) ∧
      (∀ po, r.partialOrd = some po →
        po.price = (⟨0, 1 / 10, 1 / 100, [0]⟩ : OrderQueue).price) ∧
      ob1.bids = bookD.bids ∧
      (∀ q2 ∈ bookD.bids.priceTree, ∀ e ∈ q2.orders, ob1.values e = bookD.values e) ∧
      (∀ q2 ∈ ([] : List OrderQueue), ∀ e ∈ q2.orders, ob1.values e = bookD.values e) ∧
      ((1 / 10 : Decimal) = (⟨0, 1 / 10, 1 / 100, [0]⟩ : OrderQueue).volume →
        ob1.asks.priceTree = []) ∧
      ((1 / 10 : Decimal) < (⟨0, 1 / 10, 1 / 100, [0]⟩ : OrderQueue).volume →
        ∃ q1, ob1.asks.priceTree = q1 :: [] ∧
          q1.price = (⟨0, 1 / 10, 1 / 100, [0]⟩ : OrderQueue).price ∧
          q1.volume = (⟨0, 1 / 10, 1 / 100, [0]⟩ : OrderQueue).volume - 1 / 10) ∧
      (∀ e, (⟨0, 1 / 10, 1 / 100, [0]⟩ : OrderQueue).orders = [e] → ([] : List OrderQueue) = [] →
        (1 / 10 : Decimal) = (bookD.values e).quantity → ob1.asks.priceTree = [])) ∧
    bookD.asks.priceTree = [⟨0, 1 / 10, 1 / 100, [0]⟩] ∧
    (bookD.notionalResult (1 / 1000) 8).done = [⟨"o1", Side.Sell, 1 / 10, 1 / 100, 0⟩] ∧
    (bookD.notionalResult (1 / 1000) 8).left = 0 ∧
    (bookD.afterNotional (1 / 1000) 8).asks.priceTree = [] :=
  ⟨exact_notional_buy reachable_bookD (by decide!) 8 10000000 (1 / 10) (by norm_num)
      (by norm_num) (by norm_num),
    by decide!, by decide!, by decide!, by decide!⟩

/-- C21: filled orders do not rest.  On a book reachable from `NewOrderBook()`: after a
successful `ProcessLimitOrder` that leaves no quantity to trade, the incoming id is not in the
book (`Order(id)` is nil, `CancelOrder(id)` returns a nil order, no resting order has the id);
and after a successful `ProcessLimitOrder`, `ProcessMarketQuantityOrder` or
`ProcessMarketPriceBuy` no order listed in `done` (the consumed counter-orders, and the
summary order of a limit order) is resolved by `Order` or rests in a level of either side. -/
theorem filled_orders_do_not_rest {ob : OrderBook} (h : Reachable ob) :
    (∀ (side : Side) (orderID : String) (quantity price : Decimal) (now : Nat)
        (r : LimitResult) (ob1 : OrderBook),
        ob.ProcessLimitOrder side orderID quantity price now = some (r, ob1) → r.err = none →
        (ob.limitRemaining side quantity price = some 0 →
          ob1.Order orderID = none ∧ (ob1.CancelOrder orderID).1.1 = none ∧
            ¬ IsResting ob1 orderID) ∧
        (∀ o ∈ r.done, ob1.Order o.id = none ∧ ¬ IsResting ob1 o.id)) ∧
    (∀ (side : Side) (quantity : Decimal) (r : MarketResult) (ob1 : OrderBook),
        ob.ProcessMarketQuantityOrder side quantity = some (r, ob1) → r.err = none →
        ∀ o ∈ r.done, ob1.Order o.id = none ∧ ¬ IsResting ob1 o.id) ∧
    (∀ (price : Decimal) (places : Int) (r : MarketResult) (ob1 : OrderBook),
        ob.ProcessMarketPriceBuy price places = some (r, ob1) → r.err = none →
        ∀ o ∈ r.done, ob1.Order o.id = none ∧ ¬ IsResting ob1 o.id) := by
  have hw := h.wf
  refine ⟨?_, ?_, ?_⟩
  · intro side orderID quantity price now r ob1 hr herr
    have hw1 := ProcessLimitOrder_WF hw hr
    obtain ⟨k1, k2⟩ := done_gone_limit hw hr herr
    exact ⟨fun h0 => hw1.gone (k2 h0),
      fun o ho => ⟨(hw1.gone (k1 o ho)).1, (hw1.gone (k1 o ho)).2.2⟩⟩
  · intro side quantity r ob1 hr herr o ho
    have hw1 := ProcessMarketQuantityOrder_WF hw hr
    have k := done_gone_market hw hr herr o ho
    exact ⟨(hw1.gone k).1, (hw1.gone k).2.2⟩
  · intro price places r ob1 hr herr o ho
    have hw1 := ProcessMarketPriceBuy_WF hw hr
    have k := done_gone_notional hw hr herr o ho
    exact ⟨(hw1.gone k).1, (hw1.gone k).2.2⟩

set_option maxRecDepth 100000 in
/-- C21, at a concrete input: on the book holding the sells `s1` (2 at 100), `s2` (3 at 100)
and the buy `b1` (4 at 90), a limit buy `b9` of 5 at 100 consumes both sells; afterwards
neither `b9` nor `s1` nor `s2` is in the book. -/
theorem filled_orders_do_not_rest_witness :
    ((bookB.afterLimit Side.Buy "b9" 5 100 9).Order "b9" = none ∧
      ((bookB.afterLimit Side.Buy "b9" 5 100 9).CancelOrder "b9").1.1 = none ∧
      ¬ IsResting (bookB.afterLimit Side.Buy "b9" 5 100 9) "b9") ∧
    (∀ o ∈ (bookB.limitResult Side.Buy "b9" 5 100 9).done,
      (bookB.afterLimit Side.Buy "b9" 5 100 9).Order o.id = none ∧
      ¬ IsResting (bookB.afterLimit Side.Buy "b9" 5 100 9) o.id) ∧
    (bookB.limitResult Side.Buy "b9" 5 100 9).done =
      [⟨"s1", Side.Sell, 2, 100, 1⟩, ⟨"s2", Side.Sell, 3, 100, 2⟩,
        ⟨"b9", Side.Buy, 5, 100, 9⟩] ∧
    (bookB.afterLimit Side.Buy "b9" 5 100 9).Depth 0 = some ⟨[(90, 4)], []⟩ :=
  ⟨((filled_orders_do_not_rest reachable_bookB).1 Side.Buy "b9" 5 100 9 _ _
      (ProcessLimitOrder_some reachable_bookB Side.Buy "b9" 5 100 9) (by decide!)).1
      (by decide!),
    ((filled_orders_do_not_rest reachable_bookB).1 Side.Buy "b9" 5 100 9 _ _
      (ProcessLimitOrder_some reachable_bookB Side.Buy "b9" 5 100 9) (by decide!)).2,
    by decide!, by decide!⟩

/-- C22: the market operations reject amounts that are not positive and nothing else.  On a
book reachable from `NewOrderBook()`, `ProcessMarketQuantityOrder` returns, with the error
`ErrInvalidQuantity` when `quantity ≤ 0` and without error otherwise, and
`ProcessMarketPriceBuy` returns, with the error `ErrInvalidPrice` when `price ≤ 0` and without
error otherwise; with a positive amount and an empty opposite side the whole amount comes back
as `quantityLeft` / `priceLeft`, `done` is empty, `partial` and `rollback` are nil and the
book is as it was. -/
theorem market_operations_errors {ob : OrderBook} (h : Reachable ob) :
    (∀ (side : Side) (quantity : Decimal),
      ∃ r ob1, ob.ProcessMarketQuantityOrder side quantity = some (r, ob1) ∧
        r.err = (if quantity ≤ 0 then some Error.ErrInvalidQuantity else none) ∧
        (0 < quantity → (ob.side (oppositeOf side)).priceTree = [] →
          r.left = quantity ∧ r.done = [] ∧ r.partialOrd = none ∧ r.rollback = none ∧
            ob1 = ob)) ∧
    (∀ (price : Decimal) (places : Int),
      ∃ r ob1, ob.ProcessMarketPriceBuy price places = some (r, ob1) ∧
        r.err = (if price ≤ 0 then some Error.ErrInvalidPrice else none) ∧
        (0 < price → ob.asks.priceTree = [] →
          r.left = price ∧ r.done = [] ∧ r.partialOrd = none ∧ r.rollback = none ∧
            ob1 = ob)) := by
  have hw := h.wf
  constructor
  · intro side quantity
    by_cases hq : quantity ≤ 0
    · refine ⟨_, ob, by rw [OrderBook.ProcessMarketQuantityOrder, if_pos hq], ?_, ?_⟩
      · rw [if_pos hq]
      · intro h0; exact absurd h0 (not_lt.2 hq)
    · refine ⟨_, _, ProcessMarketQuantityOrder_eq hw side (not_le.1 hq), ?_, ?_⟩
      · rw [if_neg hq]
      · intro _ hempty
        have he : ob.elems (oppositeOf side) = [] := by
          cases side <;> simp only [oppositeOf, reduceCtorEq, if_false, if_true] at hempty ⊢ <;>
            simp [OrderBook.elems, OrderBook.view, OrderBook.side] at hempty ⊢ <;>
            simp [hempty]
        simp only [he, fillQueue, fillBook, List.length_nil, lt_self_iff_false, or_false,
          ne_eq, not_true_eq_false, if_false, and_self]
  · intro price places
    by_cases hq : price ≤ 0
    · refine ⟨_, ob, by rw [OrderBook.ProcessMarketPriceBuy, if_pos hq], ?_, ?_⟩
      · rw [if_pos hq]
      · intro h0; exact absurd h0 (not_lt.2 hq)
    · refine ⟨_, _, ProcessMarketPriceBuy_eq hw places (not_le.1 hq), ?_, ?_⟩
      · rw [if_neg hq]
      · intro _ hempty
        have hv : ob.view SideRef.asks = [] := hempty
        simp only [hv, notionalFill, notionalBook, List.length_nil, lt_self_iff_false,
          or_false, ne_eq, not_true_eq_false, if_false, and_self]

set_option maxRecDepth 100000 in
/-- C22, at concrete inputs: on the book holding two sells and no buy, a market sell of 3
returns no error, `quantityLeft = 3` and a nil rollback, a market buy of 0 returns
`ErrInvalidQuantity`, and a notional buy of -1 returns `ErrInvalidPrice`. -/
theorem market_operations_errors_witness :
    (∃ r ob1, bookA.ProcessMarketQuantityOrder Side.Sell 3 = some (r, ob1) ∧
        r.err = (if (3 : Decimal) ≤ 0 then some Error.ErrInvalidQuantity else none) ∧
        ((0 : Decimal) < 3 → (bookA.side (oppositeOf Side.Sell)).priceTree = [] →
          r.left = 3 ∧ r.done = [] ∧ r.partialOrd = none ∧ r.rollback = none ∧
            ob1 = bookA)) ∧
    (bookA.side (oppositeOf Side.Sell)).priceTree = [] ∧
    (bookA.marketResult Side.Sell 3).err = none ∧
    (bookA.marketResult Side.Sell 3).left = 3 ∧
    (bookA.marketResult Side.Sell 3).rollback = none ∧
    (bookA.marketResult Side.Buy 0).err = some Error.ErrInvalidQuantity ∧
    (bookA.notionalResult (-1) 8).err = some Error.ErrInvalidPrice ∧
    (NewOrderBook.notionalResult 5 8).err = none ∧
    (NewOrderBook.notionalResult 5 8).left = 5 :=
  ⟨(market_operations_errors reachable_bookA).1 Side.Sell 3,
    by decide!, by decide!, by decide!, by decide!, by decide!, by decide!, by decide!,
    by decide!⟩

/-- C25: the notional buy terminates.  On a book reachable from `NewOrderBook()`, for every
positive notional and every `places`, the loop of `ProcessMarketPriceBuy` ends within the
number of ask levels plus two tests of its condition (more fuel gives the same results), so
the call returns, without error.  In an iteration on a well-formed book with notional `a`
left and best ask level `q`, either the rounded quantity is not positive and the loop stops,
or `processQueue` returns a well-formed book and has removed at least one resting order or
filled the head order in part; and after a partial fill nothing of the quantity is left, the
level is still the best one, and the notional left is not positive or rounds to a quantity
that is not positive at that level, so that the loop stops. -/
theorem notional_buy_terminates {ob : OrderBook} (h : Reachable ob) (notional : Decimal)
    (places : Int) (hn : 0 < notional) :
    (∃ st ob1, ∀ fuel, ob.asks.priceTree.length + 2 ≤ fuel →
      marketPriceLoop places fuel ob ⟨[], none, 0, notional, none⟩ = some (st, ob1)) ∧
    (∃ r ob1, ob.ProcessMarketPriceBuy notional places = some (r, ob1) ∧ r.err = none) ∧
    (∀ (ob2 : OrderBook) (a : Decimal) (q : OrderQueue), WF ob2 → 0 < a →
      ob2.asks.MinPriceQueue = some q →
      Decimal.DivRound a q.price places ≤ 0 ∨
      ∃ r ob3, ob2.processQueue q (Decimal.DivRound a q.price places) = some (r, ob3) ∧
        WF ob3 ∧ (r.done ≠ [] ∨ r.partialOrd ≠ none) ∧
        (r.done ≠ [] →
          (ob3.resting SideRef.asks).length < (ob2.resting SideRef.asks).length) ∧
        (r.partialOrd ≠ none →
          r.quantityLeft = 0 ∧
          (∃ q1, ob3.asks.MinPriceQueue = some q1 ∧ q1.price = q.price) ∧
          (a - (Decimal.DivRound a q.price places - r.quantityLeft) * q.price ≤ 0 ∨
            Decimal.DivRound
              (a - (Decimal.DivRound a q.price places - r.quantityLeft) * q.price)
              q.price places ≤ 0))) := by
  have hw := h.wf
  refine ⟨⟨notionalFill ob.values places (ob.view SideRef.asks) ⟨[], none, 0, notional, none⟩,
      notionalBook places (ob.view SideRef.asks) ob notional, fun fuel hf => ?_⟩,
    ⟨_, _, ProcessMarketPriceBuy_eq hw places hn, rfl⟩, ?_⟩
  · exact (marketPriceLoop_spec places _ ob ⟨[], none, 0, notional, none⟩ fuel
      (view_length ob SideRef.asks) hw hf).1
  · intro ob2 a q hw2 ha hbest
    by_cases hx : Decimal.DivRound a q.price places ≤ 0
    · exact Or.inl hx
    · right
      obtain ⟨rest, hv⟩ : ∃ rest, ob2.view SideRef.asks = q :: rest := by
        have hb : ob2.asks.priceTree.head? = some q := hbest
        cases ht : ob2.asks.priceTree with
        | nil => rw [ht] at hb; exact Option.noConfusion hb
        | cons q' rest =>
          rw [ht] at hb
          simp only [List.head?_cons, Option.some.injEq] at hb
          exact ⟨rest, by rw [← hb]; exact ht⟩
      obtain ⟨hpq, hw3, -, -, -⟩ := processQueue_spec hw2 hv (Decimal.DivRound a q.price places)
      obtain ⟨p1, p2⟩ := fill_progress hw2 hv (not_le.1 hx)
      refine ⟨_, _, hpq, hw3, p1, p2, fun hpo => ?_⟩
      obtain ⟨t1, t2, t3⟩ := partial_then_stop hw2 hv places ha hpo
      refine ⟨t1, t2, ?_⟩
      rw [t1, sub_zero]
      exact t3

set_option maxRecDepth 100000 in
/-- C25, at a concrete input: on the book holding the one sell `o1` (0.1 at 0.01) a notional
buy of 10^(-12) with 8 places rounds to no quantity; the call returns with nothing done and
the notional left. -/
theorem notional_buy_terminates_witness :
    ((∃ st ob1, ∀ fuel, bookD.asks.priceTree.length + 2 ≤ fuel →
      marketPriceLoop 8 fuel bookD ⟨[], none, 0, 1 / 1000000000000, none⟩ = some (st, ob1)) ∧
    (∃ r ob1, bookD.ProcessMarketPriceBuy (1 / 1000000000000) 8 = some (r, ob1) ∧
      r.err = none) ∧
    (∀ (ob2 : OrderBook) (a : Decimal) (q : OrderQueue), WF ob2 → 0 < a →
      ob2.asks.MinPriceQueue = some q →
      Decimal.DivRound a q.price 8 ≤ 0 ∨
      ∃ r ob3, ob2.processQueue q (Decimal.DivRound a q.price 8) = some (r, ob3) ∧
        WF ob3 ∧ (r.done ≠ [] ∨ r.partialOrd ≠ none) ∧
        (r.done ≠ [] →
          (ob3.resting SideRef.asks).length < (ob2.resting SideRef.asks).length) ∧
        (r.partialOrd ≠ none →
          r.quantityLeft = 0 ∧
          (∃ q1, ob3.asks.MinPriceQueue = some q1 ∧ q1.price = q.price) ∧
          (a - (Decimal.DivRound a q.price 8 - r.quantityLeft) * q.price ≤ 0 ∨
            Decimal.DivRound
              (a - (Decimal.DivRound a q.price 8 - r.quantityLeft) * q.price)
              q.price 8 ≤ 0)))) ∧
    (bookD.notionalResult (1 / 1000000000000) 8).done = [] ∧
    (bookD.notionalResult (1 / 1000000000000) 8).left = 1 / 1000000000000 ∧
    (bookD.afterNotional (1 / 1000000000000) 8).Depth 0 = some ⟨[], [(1 / 100, 1 / 10)]⟩ :=
  ⟨notional_buy_terminates reachable_bookD (1 / 1000000000000) 8 (by norm_num),
    by decide!, by decide!, by decide!⟩

set_option maxRecDepth 100000 in
/-- C26, as worded, fails: on the book holding the sells `s1` (2 at 100) and `s2` (3 at 110),
`ProcessMarketPriceBuy(60, 0)` rounds 60 / 100 to the quantity 1, takes 1 of `s1` for 100 and
returns `priceLeft = -40`. -/
theorem notional_buy_overspends :
    Reachable bookA ∧
    bookA.ProcessMarketPriceBuy 60 0 =
      some (bookA.notionalResult 60 0, bookA.afterNotional 60 0) ∧
    (bookA.notionalResult 60 0).err = none ∧
    (bookA.notionalResult 60 0).done = [] ∧
    (bookA.notionalResult 60 0).partialOrd = some ⟨"s1", Side.Sell, 1, 100, 1⟩ ∧
    (bookA.notionalResult 60 0).partialQuantityProcessed = 1 ∧
    (bookA.notionalResult 60 0).left = -40 ∧
    ¬ 0 ≤ (bookA.notionalResult 60 0).left :=
  ⟨reachable_bookA, ProcessMarketPriceBuy_some reachable_bookA 60 0, by decide!, by decide!,
    by decide!, by decide!, by decide!, by decide!⟩

/-- C26, amended: on a book reachable from `NewOrderBook()`, for every positive notional and
every `places`, `ProcessMarketPriceBuy` returns without error, and `priceLeft` is not negative
or is at least `-p · 10^(-places) / 2` for the price `p` of an ask level of the book: the
executed value (quantity times price over `done` plus `partialQuantityProcessed` times the
price of `partial`) exceeds the notional by at most half a quantity quantum at an ask
price. -/
theorem notional_buy_overspend_bound {ob : OrderBook} (h : Reachable ob) (notional : Decimal)
    (places : Int) (hn : 0 < notional) :
    ∃ r ob1, ob.ProcessMarketPriceBuy notional places = some (r, ob1) ∧ r.err = none ∧
      (0 ≤ r.left ∨
        ∃ q ∈ ob.asks.priceTree, -(q.price / (2 * (10 : ℚ) ^ places)) ≤ r.left) ∧
      (sumValue r.done +
          (match r.partialOrd with
            | some po => r.partialQuantityProcessed * po.price
            | none => 0) ≤ notional ∨
        ∃ q ∈ ob.asks.priceTree,
          sumValue r.done +
            (match r.partialOrd with
              | some po => r.partialQuantityProcessed * po.price
              | none => 0) ≤ notional + q.price / (2 * (10 : ℚ) ^ places)) := by
  have hw := h.wf
  have hb := notionalFill_left_bound ob.values places (ob.view SideRef.asks)
    ⟨[], none, 0, notional, none⟩
    (fun q hq => (hw.level SideRef.asks q (mem_view.1 hq)).price_pos) (le_of_lt hn)
  have hv := notionalFill_value ob.values places (ob.view SideRef.asks)
    ⟨[], none, 0, notional, none⟩
    (fun q hq e he => (hw.mem_level (s := SideRef.asks) hq he).1) rfl
  simp only [LoopState.value, sumValue, List.map_nil, List.sum_nil, zero_add] at hv
  refine ⟨_, _, ProcessMarketPriceBuy_eq hw places hn, rfl, hb, ?_⟩
  have key : ∀ E amt : ℚ, E + amt = notional →
      (0 ≤ amt → E ≤ notional) ∧ (∀ c, -c ≤ amt → E ≤ notional + c) := by
    intro E amt hE
    constructor
    · intro h1; linarith
    · intro c h1; linarith
  rcases hb with k | ⟨q, hq, k⟩
  · exact Or.inl ((key _ _ hv).1 k)
  · exact Or.inr ⟨q, hq, (key _ _ hv).2 _ k⟩

set_option maxRecDepth 100000 in
/-- C26 amended, at a concrete input: on the book holding the sells `s1` (2 at 100) and `s2`
(3 at 110), a notional buy of 60 with 0 places returns `priceLeft = -40`, within the bound
`-100 / 2` of the level at 100. -/
theorem notional_buy_overspend_bound_witness :
    (∃ r ob1, bookA.ProcessMarketPriceBuy 60 0 = some (r, ob1) ∧ r.err = none ∧
      (0 ≤ r.left ∨
        ∃ q ∈ bookA.asks.priceTree, -(q.price / (2 * (10 : ℚ) ^ (0 : Int))) ≤ r.left) ∧
      (sumValue r.done +
          (match r.partialOrd with
            | some po => r.partialQuantityProcessed * po.price
            | none => 0) ≤ 60 ∨
        ∃ q ∈ bookA.asks.priceTree,
          sumValue r.done +
            (match r.partialOrd with
              | some po => r.partialQuantityProcessed * po.price
              | none => 0) ≤ 60 + q.price / (2 * (10 : ℚ) ^ (0 : Int)))) ∧
    (bookA.notionalResult 60 0).left = -40 ∧
    (bookA.notionalResult 300 0).left = -10 ∧
    (bookA.notionalResult 40 0).left = 40 :=
  ⟨notional_buy_overspend_bound reachable_bookA 60 0 (by norm_num),
    by decide!, by decide!, by decide!⟩

/-- C27: the price estimate agrees with the execution.  On a book reachable from
`NewOrderBook()`, for every side and every positive quantity, `CalculateMarketPrice` and
`ProcessMarketQuantityOrder` both return, the market order without error; the estimated price
is the value the market order executes on the same book, price times quantity over `done`
plus the price of `partial` times `partialQuantityProcessed` (0 when `partial` is nil); and
the estimate returns `ErrInsufficientQuantity` exactly when the market order returns a
positive `quantityLeft`, and no error otherwise. -/
theorem estimate_agrees_with_execution {ob : OrderBook} (h : Reachable ob) (side : Side)
    (quantity : Decimal) (hq : 0 < quantity) :
    ∃ price err r ob1, ob.CalculateMarketPrice side quantity = some (price, err) ∧
      ob.ProcessMarketQuantityOrder side quantity = some (r, ob1) ∧ r.err = none ∧
      price = sumValue r.done +
        (match r.partialOrd with
          | some po => po.price * r.partialQuantityProcessed
          | none => 0) ∧
      (err = some Error.ErrInsufficientQuantity ↔ 0 < r.left) ∧
      (err = none ↔ ¬ 0 < r.left) := by
  have hw := h.wf
  have hval := fill_value_spec ob.values (sideOf (oppositeOf side)) (ob.view (oppositeOf side))
    [] quantity (le_of_lt hq) (fun q hq' => hw.level _ q (mem_view.1 hq'))
  have hleft := (fill_leftover hw (oppositeOf side) hq).1
  have hpos : 0 < (fillQueue ob.values (ob.elems (oppositeOf side)) [] quantity).quantityLeft ↔
      (ob.side (oppositeOf side)).totalVolume < quantity := by
    rw [hleft, lt_max_iff]
    constructor
    · rintro (k | k)
      · exact absurd k (lt_irrefl _)
      · linarith
    · intro k
      exact Or.inr (by linarith)
  refine ⟨_, _, _, _, CalculateMarketPrice_eq hw side quantity (le_of_lt hq),
    ProcessMarketQuantityOrder_eq hw side hq, rfl, ?_, ?_, ?_⟩
  · simp only [sumValue, List.map_nil, List.sum_nil, zero_add] at hval
    exact hval.symm
  · show _ ↔ 0 < (fillQueue ob.values (ob.elems (oppositeOf side)) [] quantity).quantityLeft
    rw [hpos]
    by_cases hc : (ob.side (oppositeOf side)).totalVolume < quantity
    · simp [hc]
    · simp [hc]
  · show _ ↔ ¬ 0 < (fillQueue ob.values (ob.elems (oppositeOf side)) [] quantity).quantityLeft
    rw [hpos]
    by_cases hc : (ob.side (oppositeOf side)).totalVolume < quantity
    · simp [hc]
    · simp [hc]

set_option maxRecDepth 100000 in
/-- C27, at concrete inputs: on the book holding the sells `s1` (2 at 100) and `s2` (3 at
110), a buy of 3 is estimated at and executes 2·100 + 1·110 = 310, and a buy of 7 is estimated
at 530 with `ErrInsufficientQuantity` while the market order executes 530 and leaves 2. -/
theorem estimate_agrees_with_execution_witness :
    (∃ price err r ob1, bookA.CalculateMarketPrice Side.Buy 3 = some (price, err) ∧
      bookA.ProcessMarketQuantityOrder Side.Buy 3 = some (r, ob1) ∧ r.err = none ∧
      price = sumValue r.done +
        (match r.partialOrd with
          | some po => po.price * r.partialQuantityProcessed
          | none => 0) ∧
      (err = some Error.ErrInsufficientQuantity ↔ 0 < r.left) ∧
      (err = none ↔ ¬ 0 < r.left)) ∧
    bookA.CalculateMarketPrice Side.Buy 3 = some (310, none) ∧
    sumValue (bookA.marketResult Side.Buy 3).done = 200 ∧
    (bookA.marketResult Side.Buy 3).partialOrd = some ⟨"s2", Side.Sell, 2, 110, 2⟩ ∧
    (bookA.marketResult Side.Buy 3).partialQuantityProcessed = 1 ∧
    bookA.CalculateMarketPrice Side.Buy 7 = some (530, some Error.ErrInsufficientQuantity) ∧
    sumValue (bookA.marketResult Side.Buy 7).done = 530 ∧
    (bookA.marketResult Side.Buy 7).left = 2 :=
  ⟨estimate_agrees_with_execution reachable_bookA Side.Buy 3 (by norm_num),
    by decide!, by decide!, by decide!, by decide!, by decide!, by decide!, by decide!⟩

/-- C23: the snapshot round trip.  For a book `ob` reachable from `NewOrderBook()` and any
receiver, `UnmarshalJSON` of the output of `ob.MarshalJSON` succeeds, and the decoded book has
on each side the same levels in the same order, with the same prices, the same volumes and
the same orders in the same queue order, hence the same snapshot and an equal `Depth(0)`; its
rebuilt index makes `Order(id)` return what it returns on `ob` for every id: the equal order
for the id of every resting order and nil for every id that is not resting. -/
theorem snapshot_round_trip {ob : OrderBook} (h : Reachable ob) (ob0 : OrderBook) :
    ∃ ob2, ob0.UnmarshalJSON ob.MarshalJSON = some ob2 ∧
      (∀ s, (ob2.side s).priceTree.map (fun q => (q.price, q.volume, q.orders.map ob2.values)) =
        (ob.side s).priceTree.map (fun q => (q.price, q.volume, q.orders.map ob.values))) ∧
      (∀ s, ob2.resting s = ob.resting s) ∧
      ob2.MarshalJSON = ob.MarshalJSON ∧
      ob2.Depth 0 = ob.Depth 0 ∧ (ob.Depth 0).isSome = true ∧
      (∀ id, ob2.Order id = ob.Order id) ∧
      (∀ s, ∀ o ∈ ob.resting s, ob2.Order o.id = some o) ∧
      (∀ id, ¬ IsResting ob id → ob2.Order id = none) := by
  have hw := h.wf
  obtain ⟨ob2, h1, h2, h3⟩ := UnmarshalJSON_spec ob ob0
  have hrest : ∀ s, ob2.resting s = ob.resting s := fun s => resting_of_content (h2 s)
  have hord := Order_of_content hw hrest h3
  have hsorted : ∀ s, (ob2.side s).priceTree.Pairwise (fun a b => a.price < b.price) :=
    fun s => sorted_of_content (h2 s) (hw.sorted s)
  have hd2 := Depth_of_sorted hsorted 0
  have hd := Depth_cap hw 0
  have hpa := pv_of_content (h2 SideRef.asks)
  have hpb := pv_of_content (h2 SideRef.bids)
  have hpa' : ob2.asks.priceTree.map (fun q => (q.price, q.volume)) =
      ob.asks.priceTree.map (fun q => (q.price, q.volume)) := hpa
  have hpb' : ob2.bids.priceTree.map (fun q => (q.price, q.volume)) =
      ob.bids.priceTree.map (fun q => (q.price, q.volume)) := hpb
  have hms : ∀ s, (ob2.side s).MarshalJSON ob2.values = (ob.side s).MarshalJSON ob.values := by
    intro s
    have k := congrArg (List.map (fun t : Decimal × Decimal × List Order =>
      ({ price := t.1, volume := t.2.1, orders := t.2.2.map Order.MarshalJSON } :
        LevelSnapshot))) (h2 s)
    simp only [List.map_map] at k
    simpa only [OrderSide.MarshalJSON, Function.comp_def, List.map_map] using k
  refine ⟨ob2, h1, h2, hrest, ?_, ?_, ?_, hord, ?_, ?_⟩
  · have ka := hms SideRef.asks
    have kb := hms SideRef.bids
    simp only [OrderBook.side] at ka kb
    simp only [OrderBook.MarshalJSON, ka, kb]
  · rw [hd2, hd, List.map_reverse, List.map_reverse, hpa', hpb']
  · rw [hd]; rfl
  · intro s o ho
    rw [hord]
    exact hw.Order_resting ho
  · intro id hid
    rw [hord]
    exact (hw.gone (hw.not_resting hid)).1

set_option maxRecDepth 100000 in
/-- C23, at a concrete input: the book holding the sells `s1` (2 at 100), `s2` (3 at 100) and
the buy `b1` (4 at 90), encoded and decoded into a new book. -/
theorem snapshot_round_trip_witness :
    (∃ ob2, NewOrderBook.UnmarshalJSON bookB.MarshalJSON = some ob2 ∧
      (∀ s, (ob2.side s).priceTree.map (fun q => (q.price, q.volume, q.orders.map ob2.values)) =
        (bookB.side s).priceTree.map
          (fun q => (q.price, q.volume, q.orders.map bookB.values))) ∧
      (∀ s, ob2.resting s = bookB.resting s) ∧
      ob2.MarshalJSON = bookB.MarshalJSON ∧
      ob2.Depth 0 = bookB.Depth 0 ∧ (bookB.Depth 0).isSome = true ∧
      (∀ id, ob2.Order id = bookB.Order id) ∧
      (∀ s, ∀ o ∈ bookB.resting s, ob2.Order o.id = some o) ∧
      (∀ id, ¬ IsResting bookB id → ob2.Order id = none)) ∧
    bookB.MarshalJSON =
      ⟨[⟨100, 5, [⟨"s1", "sell", 2, 100, 1⟩, ⟨"s2", "sell", 3, 100, 2⟩]⟩],
        [⟨90, 4, [⟨"b1", "buy", 4, 90, 3⟩]⟩]⟩ ∧
    bookB.reloaded.Depth 0 = some ⟨[(90, 4)], [(100, 5)]⟩ ∧
    bookB.reloaded.Order "s2" = some ⟨"s2", Side.Sell, 3, 100, 2⟩ ∧
    bookB.reloaded.Order "x" = none ∧
    bookB.reloaded.resting SideRef.asks =
      [⟨"s1", Side.Sell, 2, 100, 1⟩, ⟨"s2", Side.Sell, 3, 100, 2⟩] :=
  ⟨snapshot_round_trip reachable_bookB NewOrderBook, by decide!, by decide!, by decide!,
    by decide!, by decide!⟩

set_option maxRecDepth 100000 in
/-- C24, as worded, fails: on the book holding the sells `s1` (2 at 100), `s2` (3 at 100) and
the buy `b1` (4 at 90), a market buy of 3 consumes `s1` and takes 1 of `s2`; its rollback
restores `s2` in place and re-appends `s1` behind it, so the queue at 100 is `s2`, `s1` after
the rollback and was `s1`, `s2` before the operation. -/
theorem rollback_reorders_queue :
    Reachable bookB ∧
    bookB.ProcessMarketQuantityOrder Side.Buy 3 =
      some (bookB.marketResult Side.Buy 3, bookB.afterMarket Side.Buy 3) ∧
    (bookB.marketResult Side.Buy 3).err = none ∧
    (bookB.marketResult Side.Buy 3).rollback =
      some (Rollback.market (some ⟨0, 1, ⟨"s2", Side.Sell, 3, 100, 2⟩⟩)
        [⟨"s1", Side.Sell, 2, 100, 1⟩] SideRef.asks) ∧
    bookB.queueAt SideRef.asks 100 =
      [⟨"s1", Side.Sell, 2, 100, 1⟩, ⟨"s2", Side.Sell, 3, 100, 2⟩] ∧
    ((bookB.afterMarket Side.Buy 3).undo (bookB.marketResult Side.Buy 3).rollback).queueAt
        SideRef.asks 100 =
      [⟨"s2", Side.Sell, 3, 100, 2⟩, ⟨"s1", Side.Sell, 2, 100, 1⟩] :=
  ⟨reachable_bookB, ProcessMarketQuantityOrder_some reachable_bookB Side.Buy 3, by decide!,
    by decide!, by decide!, by decide!⟩

/-- C24, amended: on a book reachable from `NewOrderBook()`, for every successful
`ProcessLimitOrder` (with a non-empty id), `ProcessMarketQuantityOrder` or
`ProcessMarketPriceBuy` that returns a rollback, after the rollback has been run right away
the queue of every level of the side matched against is the queue before the operation with
the fully consumed orders of that level moved, in their order, from the head to the tail
(behind the orders that were not fully consumed, a partially consumed head order first), and
every queue of the other side is as before; after the rollback of `CancelOrder` has been run
right away the cancelled order is at the tail of its level, the other orders of the level
keep their order, and every other queue is as before. -/
theorem rollback_queue_order {ob : OrderBook} (h : Reachable ob) :
    (∀ (side : Side) (orderID : String) (quantity price : Decimal) (now : Nat)
        (r : LimitResult) (ob1 : OrderBook) (rb : Rollback), orderID ≠ "" →
        ob.ProcessLimitOrder side orderID quantity price now = some (r, ob1) →
        r.err = none → r.rollback = some rb →
        ∀ p, ∃ R, ob.queueAt (oppositeOf side) p = consumedAt r.done side p ++ R ∧
          (rb.run ob1).queueAt (oppositeOf side) p = R ++ consumedAt r.done side p ∧
          (rb.run ob1).queueAt (halfOf side) p = ob.queueAt (halfOf side) p) ∧
    (∀ (side : Side) (quantity : Decimal) (r : MarketResult) (ob1 : OrderBook)
        (rb : Rollback), ob.ProcessMarketQuantityOrder side quantity = some (r, ob1) →
        r.err = none → r.rollback = some rb →
        ∀ p, ∃ R, ob.queueAt (oppositeOf side) p = consumedAt r.done side p ++ R ∧
          (rb.run ob1).queueAt (oppositeOf side) p = R ++ consumedAt r.done side p ∧
          (rb.run ob1).queueAt (halfOf side) p = ob.queueAt (halfOf side) p) ∧
    (∀ (price : Decimal) (places : Int) (r : MarketResult) (ob1 : OrderBook) (rb : Rollback),
        ob.ProcessMarketPriceBuy price places = some (r, ob1) →
        r.err = none → r.rollback = some rb →
        ∀ p, ∃ R, ob.queueAt SideRef.asks p = consumedAt r.done Side.Buy p ++ R ∧
          (rb.run ob1).queueAt SideRef.asks p = R ++ consumedAt r.done Side.Buy p ∧
          (rb.run ob1).queueAt SideRef.bids p = ob.queueAt SideRef.bids p) ∧
    (∀ (orderID : String) (rb : Rollback), (ob.CancelOrder orderID).1.2 = some rb →
        ∃ o A B, (ob.CancelOrder orderID).1.1 = some o ∧
          ob.queueAt (halfOf o.side) o.price = A ++ o :: B ∧
          (rb.run (ob.CancelOrder orderID).2).queueAt (halfOf o.side) o.price =
            A ++ B ++ [o] ∧
          ∀ s p, (s ≠ halfOf o.side ∨ p ≠ o.price) →
            (rb.run (ob.CancelOrder orderID).2).queueAt s p = ob.queueAt s p) :=
  ⟨fun _ _ _ _ _ _ _ _ hne hr herr hrb =>
      rollback_queue_limit h.wf (length_pos_of_ne hne) hr herr hrb,
    fun _ _ _ _ _ hr herr hrb => rollback_queue_market h.wf hr herr hrb,
    fun _ _ _ _ _ hr herr hrb => rollback_queue_notional h.wf hr herr hrb,
    fun _ _ hrb => rollback_queue_cancel h.wf hrb⟩

set_option maxRecDepth 100000 in
/-- C24 amended, at concrete inputs: on the book holding the sells `s1` (2 at 100), `s2` (3
at 100) and the buy `b1` (4 at 90), the rollback of a market buy of 3 leaves the queue
`s2`, `s1` at 100, and the rollback of the cancellation of `s1` leaves the same queue. -/
theorem rollback_queue_order_witness :
    (∀ p, ∃ R,
      bookB.queueAt (oppositeOf Side.Buy) p =
        consumedAt (bookB.marketResult Side.Buy 3).done Side.Buy p ++ R ∧
      ((Rollback.market (some ⟨0, 1, ⟨"s2", Side.Sell, 3, 100, 2⟩⟩)
          [⟨"s1", Side.Sell, 2, 100, 1⟩] SideRef.asks).run
        (bookB.afterMarket Side.Buy 3)).queueAt (oppositeOf Side.Buy) p =
        R ++ consumedAt (bookB.marketResult Side.Buy 3).done Side.Buy p ∧
      ((Rollback.market (some ⟨0, 1, ⟨"s2", Side.Sell, 3, 100, 2⟩⟩)
          [⟨"s1", Side.Sell, 2, 100, 1⟩] SideRef.asks).run
        (bookB.afterMarket Side.Buy 3)).queueAt (halfOf Side.Buy) p =
        bookB.queueAt (halfOf Side.Buy) p) ∧
    consumedAt (bookB.marketResult Side.Buy 3).done Side.Buy 100 =
      [⟨"s1", Side.Sell, 2, 100, 1⟩] ∧
    ((Rollback.market (some ⟨0, 1, ⟨"s2", Side.Sell, 3, 100, 2⟩⟩)
        [⟨"s1", Side.Sell, 2, 100, 1⟩] SideRef.asks).run
      (bookB.afterMarket Side.Buy 3)).queueAt SideRef.asks 100 =
      [⟨"s2", Side.Sell, 3, 100, 2⟩, ⟨"s1", Side.Sell, 2, 100, 1⟩] ∧
    ((Rollback.cancel ⟨"s1", Side.Sell, 2, 100, 1⟩).run
      (bookB.CancelOrder "s1").2).queueAt SideRef.asks 100 =
      [⟨"s2", Side.Sell, 3, 100, 2⟩, ⟨"s1", Side.Sell, 2, 100, 1⟩] ∧
    ((Rollback.market (some ⟨2, 2, ⟨"b1", Side.Buy, 4, 90, 3⟩⟩) [] SideRef.bids).run
      (bookB.afterMarket Side.Sell 1)).queueAt SideRef.bids 90 =
      bookB.queueAt SideRef.bids 90 :=
  ⟨(rollback_queue_order reachable_bookB).2.1 Side.Buy 3 _ _ _
      (ProcessMarketQuantityOrder_some reachable_bookB Side.Buy 3) (by decide!) (by decide!),
    by decide!, by decide!, by decide!, by decide!⟩

end Orderbook
